import Mathlib

/-!
NTT3: verification development.

Shallow embedding of the arithmetic kernel of the repository and proofs of its
specified properties.  Machine words are natural numbers with explicit
reduction modulo `2^32` / `2^64`; limb arrays are little-endian lists.
-/

namespace ntt

/-- Table of permitted transform lengths (`SMOOTH_TABLE` in `ntt/common.hpp`). -/
def SMOOTH_TABLE : List Nat := [
    4,
    8,
    16,
    32,
    64, 96,
    128, 160, 192,
    256, 320, 384,
    512, 640, 768,
    1024, 1280, 1536,
    2048, 2560, 3072,
    4096, 5120, 6144,
    8192, 10240, 12288,
    16384, 20480, 24576,
    32768, 40960, 49152,
    65536, 81920, 98304,
    131072, 163840, 196608,
    262144, 327680, 393216,
    524288, 655360, 786432,
    1048576, 1310720, 1572864,
    2097152, 2621440, 3145728,
    4194304, 5242880, 6291456,
    8388608, 10485760, 12582912,
    16777216, 20971520, 25165824]

/-- Number of table entries: `sizeof(SMOOTH_TABLE) / sizeof(SMOOTH_TABLE[0])`. -/
def SMOOTH_TABLE_SIZE : Nat := SMOOTH_TABLE.length

/-- The `while (lo < hi)` loop of `ceil_smooth`.  Each iteration consumes one
unit of `fuel`; a table read outside the array or exhausted fuel gives `none`.
The result is the final value of `lo`. -/
def ceil_smooth_loop (x : Nat) : Nat → Nat → Nat → Option Nat
  | fuel, lo, hi =>
    if lo < hi then
      match fuel with
      | 0 => none
      | f + 1 =>
        let mid := (lo + hi) >>> 1
        match SMOOTH_TABLE[mid]? with
        | none => none
        | some t =>
          if t < x then ceil_smooth_loop x f (mid + 1) hi
          else ceil_smooth_loop x f lo mid
    else some lo

/-- Final index `lo` of the binary search of `ceil_smooth`, started with
`lo = 0`, `hi = SMOOTH_TABLE_SIZE`. -/
def ceil_smooth_lo (x : Nat) : Option Nat :=
  ceil_smooth_loop x SMOOTH_TABLE_SIZE 0 SMOOTH_TABLE_SIZE

/-- Embedding of `ceil_smooth`: `return SMOOTH_TABLE[lo]`, with `none` when
the read falls outside the table. -/
def ceil_smooth (x : Nat) : Option Nat :=
  match ceil_smooth_lo x with
  | none => none
  | some lo => SMOOTH_TABLE[lo]?

end ntt

namespace bi

/-- Limb base of the primary implementation: `limb_t` is a 64-bit word. -/
def BASE64 : Nat := 2 ^ 64

/-- Little-endian value of a limb array in base `B`: index 0 is the least
significant limb. -/
def limbs_value (B : Nat) : List Nat → Nat
  | [] => 0
  | x :: xs => x + B * limbs_value B xs

/-- Every limb of the array is a valid base-`B` digit. -/
def limbs_ok (B : Nat) (l : List Nat) : Prop := ∀ x ∈ l, x < B

instance (B : Nat) (l : List Nat) : Decidable (limbs_ok B l) := by
  unfold limbs_ok
  infer_instance

/-- Modelled from the spec: carry chain of `add_n` (the body of `bi::mpn_add_n`
is not among the sources).  `out[i] = a[i] + b[i] + carry_in` reduced to one
limb, the overflow being the next carry; the final carry is returned. -/
def mpn_add_n_loop (c : Nat) : Nat → List Nat → List Nat → List Nat × Nat
  | n + 1, a :: as, b :: bs =>
    let s := a + b + c
    let r := mpn_add_n_loop (s / BASE64) n as bs
    ((s % BASE64) :: r.1, r.2)
  | _, _, _ => ([], c)

/-- Modelled from the spec: `mpn_add_n(out, a, b, n) → carry_out`; the result is
the pair `(out, carry_out)`. -/
def mpn_add_n (a b : List Nat) (n : Nat) : List Nat × Nat :=
  mpn_add_n_loop 0 n a b

/-- Modelled from the spec: borrow chain of `sub_n`, symmetric to `add_n`:
`out[i] = a[i] - b[i] - borrow_in` in wrapping limb arithmetic, with a borrow
out when either subtraction wrapped. -/
def mpn_sub_n_loop (bw : Nat) : Nat → List Nat → List Nat → List Nat × Nat
  | n + 1, a :: as, b :: bs =>
    let t := (a + BASE64 - b) % BASE64
    let d := (t + BASE64 - bw) % BASE64
    let r := mpn_sub_n_loop (if a < b ∨ t < bw then 1 else 0) n as bs
    (d :: r.1, r.2)
  | _, _, _ => ([], bw)

/-- Modelled from the spec: `mpn_sub_n(out, a, b, n) → borrow_out`; the result
is the pair `(out, borrow_out)`. -/
def mpn_sub_n (a b : List Nat) (n : Nat) : List Nat × Nat :=
  mpn_sub_n_loop 0 n a b

end bi

namespace bi

/-- Modelled from the spec: `mul_1(out, a, n, scalar) → high_limb` (the body of
`bi::mpn_mul_1` is not among the sources): `out` holds the low `n` limbs of
`a * scalar`, the high overflow limb is returned. -/
def mpn_mul_1_loop (s c : Nat) : Nat → List Nat → List Nat × Nat
  | n + 1, a :: as =>
    let p := a * s + c
    let r := mpn_mul_1_loop s (p / BASE64) n as
    ((p % BASE64) :: r.1, r.2)
  | _, _ => ([], c)

/-- Modelled from the spec: `mpn_mul_1(out, a, n, scalar)`, returning
`(out, high_limb)`. -/
def mpn_mul_1 (a : List Nat) (n : Nat) (s : Nat) : List Nat × Nat :=
  mpn_mul_1_loop s 0 n a

/-- Modelled from the spec: limb loop of `addmul_1` (the body of
`bi::mpn_addmul_1` is not among the sources): `out[i] += a[i] * scalar` with the
high part of each step carried into the next limb.  Limbs of `out` beyond the
first `n` are left as they are. -/
def mpn_addmul_1_loop (s c : Nat) : Nat → List Nat → List Nat → List Nat × Nat
  | n + 1, o :: os, a :: as =>
    let p := a * s + o + c
    let r := mpn_addmul_1_loop s (p / BASE64) n os as
    ((p % BASE64) :: r.1, r.2)
  | _, os, _ => (os, c)

/-- Modelled from the spec: `mpn_addmul_1(out, a, n, scalar) → high_limb`,
`out += a * scalar` on the first `n` limbs; the result is `(out, high_limb)`. -/
def mpn_addmul_1 (out a : List Nat) (n : Nat) (s : Nat) : List Nat × Nat :=
  mpn_addmul_1_loop s 0 n out a

/-- Modelled from the spec: the loop of `mul_basecase` over the limbs of `b`.
The argument `r` is the part of the output array starting at the current limb
index `j`: `r[j .. j+na) += a * b[j]` by `addmul_1`, the returned high limb is
stored at `r[j+na]`, and the loop moves on to `j + 1`. -/
def mpn_mul_basecase_loop (a : List Nat) (na : Nat) : List Nat → List Nat → List Nat
  | [], r => r
  | bj :: bs, r =>
    let s := mpn_addmul_1 r a na bj
    match s.1.set na s.2 with
    | [] => []
    | h :: t => h :: mpn_mul_basecase_loop a na bs t

/-- Modelled from the spec: `mul_basecase(r, a, na, b, nb)`:
`r[0..na+nb) = a * b` by a loop of `addmul_1` over `b` on a zeroed output. -/
def mpn_mul_basecase (a : List Nat) (na : Nat) (b : List Nat) (nb : Nat) : List Nat :=
  mpn_mul_basecase_loop (a.take na) na (b.take nb) (List.replicate (na + nb) 0)

/-- Modelled from the spec: limb loop of `lshift` for a bit count `0 < k < 64`:
`out[i] = (a[i] << k) | (a[i-1] >> (64 - k))`; `cin` carries the bits coming
from the limb below and the bits leaving the top limb are returned. -/
def mpn_lshift_loop (k cin : Nat) : Nat → List Nat → List Nat × Nat
  | n + 1, a :: as =>
    let r := mpn_lshift_loop k (a >>> (64 - k)) n as
    (((a <<< k) % BASE64 ||| cin) :: r.1, r.2)
  | _, _ => ([], cin)

/-- Modelled from the spec: `mpn_lshift(out, a, n, k) → bits_shifted_out`. -/
def mpn_lshift (a : List Nat) (n k : Nat) : List Nat × Nat :=
  mpn_lshift_loop k 0 n a

/-- Modelled from the spec: first phase of `sqr_basecase`, the off-diagonal
products `a[i] * a[j]` (`i < j`) computed once.  The argument `r` is the part of
the output starting at limb `2 i`; row `i` adds `a[i+1 ..] * a[i]` at limb
`2 i + 1` by `addmul_1` and stores the high limb above it. -/
def mpn_sqr_offdiag_loop : List Nat → List Nat → List Nat
  | ai :: as, r0 :: r =>
    let s := mpn_addmul_1 r as as.length ai
    match s.1.set as.length s.2 with
    | [] => [r0]
    | h :: t => r0 :: h :: mpn_sqr_offdiag_loop as t
  | _, r => r

/-- Modelled from the spec: last phase of `sqr_basecase`, adding the diagonal
terms `a[i]^2` (two limbs each) at limb `2 i` with a running carry. -/
def mpn_sqr_diag_loop (c : Nat) : List Nat → List Nat → List Nat
  | ai :: as, r0 :: r1 :: r =>
    let p := ai * ai
    let s0 := r0 + p % BASE64 + c
    let s1 := r1 + p / BASE64 + s0 / BASE64
    (s0 % BASE64) :: (s1 % BASE64) :: mpn_sqr_diag_loop (s1 / BASE64) as r
  | _, r => r

/-- Modelled from the spec: `sqr_basecase(r, a, n)`: compute the off-diagonal
products once, double them (a one-bit left shift of the `2 n` limbs), then add
the diagonal terms. -/
def mpn_sqr_basecase (a : List Nat) (n : Nat) : List Nat :=
  let off := mpn_sqr_offdiag_loop (a.take n) (List.replicate (2 * n) 0)
  let dbl := (mpn_lshift off (2 * n) 1).1
  mpn_sqr_diag_loop 0 (a.take n) dbl

end bi

namespace bi

/-- Sum of the off-diagonal products `a[i] * a[j] * B^(i+j)` over `i < j`. -/
def offdiag_value (B : Nat) : List Nat → Nat
  | [] => 0
  | x :: xs => B * x * limbs_value B xs + B ^ 2 * offdiag_value B xs

/-- Sum of the diagonal products `a[i]^2 * B^(2 i)`. -/
def diag_value (B : Nat) : List Nat → Nat
  | [] => 0
  | x :: xs => x * x + B ^ 2 * diag_value B xs

end bi

namespace ntt

/-- Limb base of the 32-bit view (`u32` limbs). -/
def BASE32 : Nat := 2 ^ 32

/-- Inner `for (j ...)` loop of `schoolbook_multiply` (test_correctness.cpp),
iterating over the limbs `b[j], b[j+1], ...`; `prod` is a `u64`. -/
def schoolbook_multiply_row (ai i : Nat) : List Nat → Nat → List Nat → Nat → List Nat × Nat
  | [], _, result, carry => (result, carry)
  | bj :: bs, j, result, carry =>
    let prod := (ai * bj + result.getD (i + j) 0 + carry) % 2 ^ 64
    schoolbook_multiply_row ai i bs (j + 1) (result.set (i + j) (prod % 2 ^ 32)) (prod >>> 32)

/-- The `while (carry && k < n)` loop of `schoolbook_multiply`; the first
argument is `n - k`, so that it is `0` exactly when `k < n` fails. -/
def schoolbook_multiply_carry : Nat → Nat → List Nat → Nat → List Nat
  | 0, _, result, _ => result
  | rem + 1, k, result, carry =>
    if carry ≠ 0 then
      let s := (result.getD k 0 + carry) % 2 ^ 64
      schoolbook_multiply_carry rem (k + 1) (result.set k (s % 2 ^ 32)) (s >>> 32)
    else result

/-- Outer `for (i ...)` loop of `schoolbook_multiply`, iterating over the limbs
`a[i], a[i+1], ...`. -/
def schoolbook_multiply_rows (b : List Nat) (n : Nat) : List Nat → Nat → List Nat → List Nat
  | [], _, result => result
  | ai :: as, i, result =>
    let r := schoolbook_multiply_row ai i b 0 result 0
    let k := i + b.length
    schoolbook_multiply_rows b n as (i + 1) (schoolbook_multiply_carry (n - k) k r.1 r.2)

/-- The loop `while (result.size() > 1 && result.back() == 0) result.pop_back()`;
each iteration removes one limb, so `result.size()` iterations are enough. -/
def trim_loop : Nat → List Nat → List Nat
  | 0, result => result
  | fuel + 1, result =>
    if result.length > 1 ∧ result.getLast? = some 0 then trim_loop fuel result.dropLast
    else result

/-- Trimming of the most significant zero limbs, keeping at least one limb. -/
def trim (result : List Nat) : List Nat := trim_loop result.length result

/-- Product before trimming: the array `result` of `schoolbook_multiply` when
the two `for` loops have finished. -/
def schoolbook_multiply_raw (a b : List Nat) : List Nat :=
  schoolbook_multiply_rows b (a.length + b.length) a 0 (List.replicate (a.length + b.length) 0)

/-- Embedding of `schoolbook_multiply` (test_correctness.cpp). -/
def schoolbook_multiply (a b : List Nat) : List Nat :=
  if a.isEmpty ∨ b.isEmpty then []
  else trim (schoolbook_multiply_raw a b)

/-- Inner loop `for (j = 0; j < nb && i + j < out_len; ++j)` of `schoolbook_mul`
(test_sd_ntt_integrated.cpp); `prod` is an `unsigned __int128`. -/
def schoolbook_mul_row (ai i out_len : Nat) : List Nat → Nat → List Nat → Nat → List Nat × Nat
  | [], _, out, carry => (out, carry)
  | bj :: bs, j, out, carry =>
    if i + j < out_len then
      let prod := (ai * bj + out.getD (i + j) 0 + carry) % 2 ^ 128
      schoolbook_mul_row ai i out_len bs (j + 1) (out.set (i + j) (prod % 2 ^ 64)) (prod >>> 64)
    else (out, carry)

/-- Outer loop of `schoolbook_mul`, with the final `out[i + nb] += carry` of
each row in 64-bit wrapping arithmetic. -/
def schoolbook_mul_rows (b : List Nat) (nb out_len : Nat) : List Nat → Nat → List Nat → List Nat
  | [], _, out => out
  | ai :: as, i, out =>
    let r := schoolbook_mul_row ai i out_len b 0 out 0
    let out1 :=
      if i + nb < out_len then r.1.set (i + nb) ((r.1.getD (i + nb) 0 + r.2) % 2 ^ 64)
      else r.1
    schoolbook_mul_rows b nb out_len as (i + 1) out1

/-- Embedding of `schoolbook_mul` (test_sd_ntt_integrated.cpp): the output
array after the call; its previous content is erased by the `memset`. -/
def schoolbook_mul (out_len : Nat) (a : List Nat) (na : Nat) (b : List Nat) (nb : Nat) :
    List Nat :=
  schoolbook_mul_rows (b.take nb) nb out_len (a.take na) 0 (List.replicate out_len 0)

/-- Modelled from the spec: the coefficient vector produced by the transform
steps of §4.4 (forward transforms, pointwise product, inverse transforms and
CRT reconstruction), which are not among the sources: the length-`N` cyclic
convolution of the zero-padded inputs, `c[k] = Σ a[i] * b[j]` over
`i + j ≡ k (mod N)`, each coefficient recovered exactly. -/
def cyclic_convolution (N : Nat) (a b : List Nat) : List Nat :=
  (List.range N).map fun k =>
    ((List.range N).map fun i =>
      ((List.range N).map fun j =>
        if (i + j) % N = k then a.getD i 0 * b.getD j 0 else 0).sum).sum

/-- Modelled from the spec: carry propagation of §4.4 step 7, turning the
coefficient sequence into base-`B` limbs. -/
def carry_propagate (B : Nat) (c : Nat) : List Nat → List Nat
  | [] => []
  | x :: xs => ((x + c) % B) :: carry_propagate B ((x + c) / B) xs

/-- Modelled from the spec: the NTT convolution engine of §4.4 on limbs of base
`B`.  The transform length is `ceil_smooth (na + nb)`; when no permitted length
exists the engine has no result.  Otherwise the first `out_len` limbs of the
carry-propagated coefficient vector are written. -/
def ntt_multiply (B out_len : Nat) (a : List Nat) (na : Nat) (b : List Nat) (nb : Nat) :
    Option (List Nat) :=
  match ceil_smooth (na + nb) with
  | none => none
  | some N =>
    some ((carry_propagate B 0 (cyclic_convolution N (a.take na) (b.take nb))).take out_len)

/-- Modelled from the spec: `ntt::big_multiply(out, out_len, a, na, b, nb)` on
32-bit limbs (declared in `ntt/api.hpp`, which is not among the sources): the
engine of §4.4.  For a size with no permitted transform length the spec leaves
the outcome to the caller, which refuses or falls back; the engine itself has no
result there. -/
def big_multiply (out_len : Nat) (a : List Nat) (na : Nat) (b : List Nat) (nb : Nat) :
    Option (List Nat) :=
  ntt_multiply BASE32 out_len a na b nb

end ntt

namespace bi

/-- Modelled from the spec: `add_1(out, a, n, scalar) → carry`: the scalar is
added to the lowest limb and the carry runs through the `n` limbs. -/
def mpn_add_1_loop (c : Nat) : Nat → List Nat → List Nat × Nat
  | n + 1, a :: as =>
    let s := a + c
    let r := mpn_add_1_loop (s / BASE64) n as
    ((s % BASE64) :: r.1, r.2)
  | _, _ => ([], c)

/-- Modelled from the spec: `mpn_add_1(out, a, n, scalar)`, returning
`(out, carry)`. -/
def mpn_add_1 (a : List Nat) (n : Nat) (s : Nat) : List Nat × Nat :=
  mpn_add_1_loop s n a

/-- Modelled from the spec: `sub_1(out, a, n, scalar) → borrow`, symmetric to
`add_1`. -/
def mpn_sub_1_loop (bw : Nat) : Nat → List Nat → List Nat × Nat
  | n + 1, a :: as =>
    let r := mpn_sub_1_loop (if a < bw then 1 else 0) n as
    (((a + BASE64 - bw) % BASE64) :: r.1, r.2)
  | _, _ => ([], bw)

/-- Modelled from the spec: `mpn_sub_1(out, a, n, scalar)`, returning
`(out, borrow)`. -/
def mpn_sub_1 (a : List Nat) (n : Nat) (s : Nat) : List Nat × Nat :=
  mpn_sub_1_loop s n a

/-- Modelled from the spec: `cmp(a, b, n) → {−1, 0, +1}`, deciding on the most
significant limb in which the operands differ. -/
def mpn_cmp : List Nat → List Nat → Int
  | a :: as, b :: bs =>
    let c := mpn_cmp as bs
    if c ≠ 0 then c else if a < b then -1 else if b < a then 1 else 0
  | _, _ => 0

/-- Modelled from the spec: limb loop of `rshift` for a bit count `0 < k < 64`:
`out[i] = (a[i] >> k) | (a[i+1] << (64 - k))`, the limb above the top one
being zero. -/
def mpn_rshift_loop (k : Nat) : List Nat → List Nat
  | [] => []
  | a :: as => ((a >>> k) ||| ((as.headD 0 <<< (64 - k)) % BASE64)) :: mpn_rshift_loop k as

/-- Modelled from the spec: `mpn_rshift(out, a, n, k) → bits_shifted_out`; the
bits leaving the lowest limb are returned in the high bits of a limb. -/
def mpn_rshift (a : List Nat) (n k : Nat) : List Nat × Nat :=
  (mpn_rshift_loop k (a.take n), ((a.headD 0) <<< (64 - k)) % BASE64)

/-- Removal of the most significant zero limbs (normalisation of a magnitude). -/
def normalize : List Nat → List Nat
  | [] => []
  | x :: xs =>
    match normalize xs with
    | [] => if x = 0 then [] else [x]
    | y :: ys => x :: y :: ys

/-- A limb array is normalized when it is empty or its most significant limb
is nonzero. -/
def normalized (l : List Nat) : Prop := l.getLast? ≠ some 0

instance (l : List Nat) : Decidable (normalized l) := by
  unfold normalized
  infer_instance

/-- Modelled from the spec: the signed value type `bi::bigint` (sign-magnitude;
`bigint/bigint.hpp` is not among the sources).  `sign` is `-1`, `0` or `1` and
`limbs` is the little-endian magnitude. -/
structure bigint where
  sign : Int
  limbs : List Nat
deriving DecidableEq, Repr

/-- The data-model invariant of a BigInt: 64-bit limbs, normalized magnitude,
and zero sign exactly for the empty magnitude. -/
def bigint.wf (a : bigint) : Prop :=
  limbs_ok BASE64 a.limbs ∧ normalized a.limbs ∧
    (a.sign = -1 ∨ a.sign = 0 ∨ a.sign = 1) ∧ (a.sign = 0 ↔ a.limbs = [])

instance (a : bigint) : Decidable a.wf := by
  unfold bigint.wf
  infer_instance

/-- The integer denoted by a BigInt. -/
def bigint.toInt (a : bigint) : Int := a.sign * (limbs_value BASE64 a.limbs : Int)

/-- The default-constructed BigInt, zero. -/
def bigint.zero : bigint := ⟨0, []⟩

/-- Modelled from the spec: magnitude addition for `a` at least as long as `b`:
`add_n` on the common limbs, `add_1` of the carry through the remaining limbs
of `a`, and a new top limb when a carry is left. -/
def mag_add_ordered (a b : List Nat) : List Nat :=
  let lo := mpn_add_n a b b.length
  let hi := mpn_add_1 (a.drop b.length) (a.length - b.length) lo.2
  lo.1 ++ hi.1 ++ (if hi.2 ≠ 0 then [hi.2] else [])

/-- Modelled from the spec: magnitude addition, longer operand first. -/
def mag_add (a b : List Nat) : List Nat :=
  if a.length < b.length then mag_add_ordered b a else mag_add_ordered a b

/-- Modelled from the spec: magnitude subtraction `a - b` for `a ≥ b`:
`sub_n` on the common limbs, `sub_1` of the borrow through the remaining limbs
of `a`, then normalisation. -/
def mag_sub (a b : List Nat) : List Nat :=
  let lo := mpn_sub_n a b b.length
  let hi := mpn_sub_1 (a.drop b.length) (a.length - b.length) lo.2
  normalize (lo.1 ++ hi.1)

/-- Modelled from the spec: comparison of magnitudes (`compare_abs`): the
longer normalized magnitude is larger, equal lengths are decided by `cmp`. -/
def mag_cmp (a b : List Nat) : Int :=
  if a.length < b.length then -1
  else if b.length < a.length then 1
  else mpn_cmp a b

/-- Modelled from the spec: unary minus. -/
def bigint.neg (a : bigint) : bigint := ⟨-a.sign, a.limbs⟩

/-- Modelled from the spec: signed addition (§4.8).  Same sign: magnitudes add
and the common sign is kept.  Otherwise the magnitudes are compared, the
smaller is subtracted from the larger and the sign of the larger is taken;
equal magnitudes give zero. -/
def bigint.add (a b : bigint) : bigint :=
  if a.sign = b.sign then ⟨a.sign, mag_add a.limbs b.limbs⟩
  else
    let c := mag_cmp a.limbs b.limbs
    if c = 0 then bigint.zero
    else if c = 1 then ⟨a.sign, mag_sub a.limbs b.limbs⟩
    else ⟨b.sign, mag_sub b.limbs a.limbs⟩

/-- Modelled from the spec: signed subtraction, `a - b = a + (-b)`. -/
def bigint.sub (a b : bigint) : bigint := bigint.add a (bigint.neg b)

/-- Modelled from the spec: left shift by `k` bits.  The whole-limb part
`k / 64` is a copy above zero limbs, the bit part `k % 64` (when nonzero) goes
through `lshift`, whose shifted-out bits become a new top limb.  The sign is
kept. -/
def bigint.shl (a : bigint) (k : Nat) : bigint :=
  if a.limbs = [] then a
  else
    let r := mpn_lshift a.limbs a.limbs.length (k % 64)
    let hi := if k % 64 = 0 then a.limbs else r.1 ++ (if r.2 ≠ 0 then [r.2] else [])
    ⟨a.sign, List.replicate (k / 64) 0 ++ hi⟩

/-- Modelled from the spec: right shift by `k` bits of the magnitude (toward
zero).  The low `k / 64` limbs are dropped, the bit part goes through `rshift`,
and a zero result takes the zero sign. -/
def bigint.shr (a : bigint) (k : Nat) : bigint :=
  let rest := a.limbs.drop (k / 64)
  let m := normalize (if k % 64 = 0 then rest else (mpn_rshift rest rest.length (k % 64)).1)
  if m = [] then bigint.zero else ⟨a.sign, m⟩

/-- Modelled from the spec: construction from a signed machine integer
(`long long`). -/
def bigint.ofInt (v : Int) : bigint :=
  if v = 0 then bigint.zero
  else ⟨if v < 0 then -1 else 1, [v.natAbs % BASE64]⟩

end bi

namespace bi

/-- Modelled from the spec: `K_THRESHOLD` of §4.3/§4.5 (`bi::KARATSUBA_THRESHOLD`;
test_bigint.cpp: "Karatsuba range: 32-1024 limbs"). -/
def KARATSUBA_THRESHOLD : Nat := 32

/-- Modelled from the spec: `N_THRESHOLD` of §4.4/§4.5 (`bi::NTT_THRESHOLD`;
test_bigint.cpp: "large enough to trigger NTT (>= 1024 limbs)"). -/
def NTT_THRESHOLD : Nat := 1024

/-- Modelled from the spec: in-place addition `a += b` with carry chain, for an
operand `b` not longer than `a` (`add_n` on the common limbs followed by the
carry run of `add_1`); limbs of `b` above the length of `a` are not read. -/
def mpn_add_loop (c : Nat) : List Nat → List Nat → List Nat × Nat
  | [], _ => ([], c)
  | x :: xs, [] =>
    let s := x + c
    let r := mpn_add_loop (s / BASE64) xs []
    ((s % BASE64) :: r.1, r.2)
  | x :: xs, y :: ys =>
    let s := x + y + c
    let r := mpn_add_loop (s / BASE64) xs ys
    ((s % BASE64) :: r.1, r.2)

/-- Modelled from the spec: `mpn_add`, returning `(a + b, carry)`. -/
def mpn_add (a b : List Nat) : List Nat × Nat := mpn_add_loop 0 a b

/-- Modelled from the spec: in-place subtraction `a -= b` with borrow chain,
for an operand `b` not longer than `a`. -/
def mpn_sub_loop (bw : Nat) : List Nat → List Nat → List Nat × Nat
  | [], _ => ([], bw)
  | x :: xs, [] =>
    let r := mpn_sub_loop (if x < bw then 1 else 0) xs []
    (((x + BASE64 - bw) % BASE64) :: r.1, r.2)
  | x :: xs, y :: ys =>
    let t := (x + BASE64 - y) % BASE64
    let r := mpn_sub_loop (if x < y ∨ t < bw then 1 else 0) xs ys
    (((t + BASE64 - bw) % BASE64) :: r.1, r.2)

/-- Modelled from the spec: `mpn_sub`, returning `(a - b, borrow)`. -/
def mpn_sub (a b : List Nat) : List Nat × Nat := mpn_sub_loop 0 a b

/-- Modelled from the spec: the 32-bit limb view of a 64-bit limb array
("splitting 64-bit limbs as needed"), low half first. -/
def split32 : List Nat → List Nat
  | [] => []
  | x :: xs => (x % 2 ^ 32) :: (x >>> 32) :: split32 xs

/-- Modelled from the spec: packing of a 32-bit limb result back into 64-bit
limbs. -/
def pack64 : List Nat → List Nat
  | lo :: hi :: rest => (lo ||| (hi <<< 32)) :: pack64 rest
  | [lo] => [lo]
  | [] => []

/-- Modelled from the spec: the NTT rule of the dispatcher: the operands are
passed to the convolution engine in the 32-bit view and the result is packed
back; no result when the engine has no transform length for the size. -/
def mpn_mul_ntt (a b : List Nat) : Option (List Nat) :=
  match ntt.big_multiply (2 * a.length + 2 * b.length) (split32 a) (2 * a.length)
      (split32 b) (2 * b.length) with
  | none => none
  | some r => some (pack64 r)

/-- Modelled from the spec: the combination step of Karatsuba (§4.3) for the
split point `h`: from `z0 = a_lo * b_lo`, `z2 = a_hi * b_hi` and
`zs = (a_lo + a_hi) * (b_lo + b_hi)`, form `z1 = zs - z0 - z2` and
`r = z0 + z1 * β^h + z2 * β^(2h)` with in-place subtraction and addition. -/
def karatsuba_combine (z0 z2 zs : List Nat) (h : Nat) : List Nat :=
  let z1 := (mpn_sub (mpn_sub zs z0).1 z2).1
  let r0 := z0 ++ z2
  r0.take h ++ (mpn_add (r0.drop h) z1).1

/-- Modelled from the spec: balanced multiplication of two `n`-limb operands.
Below `KARATSUBA_THRESHOLD` the base case; from `NTT_THRESHOLD` on the NTT
engine, when it supports the size; otherwise the Karatsuba recursion with
split point `h = ⌈n/2⌉`. -/
def mpn_mul_n (a b : List Nat) (n : Nat) : List Nat :=
  if _hK : n < KARATSUBA_THRESHOLD then mpn_mul_basecase a n b n
  else
    match (if n < NTT_THRESHOLD then none else mpn_mul_ntt (a.take n) (b.take n)) with
    | some r => r
    | none =>
      let h := (n + 1) / 2
      let sa := mpn_add (a.take h) ((a.take n).drop h)
      let sb := mpn_add (b.take h) ((b.take n).drop h)
      karatsuba_combine
        (mpn_mul_n (a.take h) (b.take h) h)
        (mpn_mul_n ((a.take n).drop h) ((b.take n).drop h) (n - h))
        (mpn_mul_n (sa.1 ++ [sa.2]) (sb.1 ++ [sb.2]) (h + 1))
        h
termination_by n
decreasing_by
  all_goals simp only [KARATSUBA_THRESHOLD] at *
  all_goals omega

/-- Modelled from the spec: the multiplication dispatcher of §4.5 for an
operand `a` at least as long as `b`.  Shorter operand below
`KARATSUBA_THRESHOLD`: base case.  Shorter operand from `NTT_THRESHOLD` on:
the NTT engine, when it supports the size.  Otherwise equal lengths go to the
balanced rule, and a longer `a` is cut into blocks of `b.length` limbs: the
low block is multiplied by the balanced rule, the remaining limbs by the
dispatcher again (longer operand first), and the two products are summed with
offset. -/
def mpn_mul_ordered (a b : List Nat) : List Nat :=
  if _hK : b.length < KARATSUBA_THRESHOLD then mpn_mul_basecase a a.length b b.length
  else
    match (if b.length < NTT_THRESHOLD then none else mpn_mul_ntt a b) with
    | some r => r
    | none =>
      if a.length ≤ b.length then mpn_mul_n a b b.length
      else
        let p0 := mpn_mul_n (a.take b.length) b b.length
        let p1 :=
          if (a.drop b.length).length < b.length then mpn_mul_ordered b (a.drop b.length)
          else mpn_mul_ordered (a.drop b.length) b
        p0.take b.length ++ (mpn_add p1 (p0.drop b.length)).1
termination_by a.length + b.length
decreasing_by
  all_goals simp only [KARATSUBA_THRESHOLD] at *
  all_goals simp only [List.length_drop]
  all_goals omega

/-- Modelled from the spec: `mpn_mul(r, a, na, b, nb)`, the dispatcher with the
longer operand put first. -/
def mpn_mul (a b : List Nat) : List Nat :=
  if a.length < b.length then mpn_mul_ordered b a else mpn_mul_ordered a b

/-- Modelled from the spec: signed multiplication (§4.8): the sign is the
product of the operand signs, the magnitude is the normalized result of the
dispatcher, and a zero operand gives zero. -/
def bigint.mul (a b : bigint) : bigint :=
  if a.limbs = [] ∨ b.limbs = [] then bigint.zero
  else ⟨a.sign * b.sign, normalize (mpn_mul a.limbs b.limbs)⟩

end bi

namespace bi

/-- Modelled from the spec: limb loop of `submul_1`, `out[i] -= a[i] * scalar`:
the low limb of `a[i] * scalar + carry` is subtracted from `out[i]` and the
high limb, plus one when that subtraction wrapped, is carried on. -/
def mpn_submul_1_loop (s c : Nat) : Nat → List Nat → List Nat → List Nat × Nat
  | n + 1, o :: os, a :: as =>
    let p := a * s + c
    let lo := p % BASE64
    let r := mpn_submul_1_loop s (p / BASE64 + (if o < lo then 1 else 0)) n os as
    (((o + BASE64 - lo) % BASE64) :: r.1, r.2)
  | _, os, _ => (os, c)

/-- Modelled from the spec: `mpn_submul_1(out, a, n, scalar) → high_limb`,
`out -= a * scalar` on the first `n` limbs; the result is `(out, high_limb)`. -/
def mpn_submul_1 (out a : List Nat) (n : Nat) (s : Nat) : List Nat × Nat :=
  mpn_submul_1_loop s 0 n out a

/-- Modelled from the spec: `divrem_1(quot, a, n, scalar) → remainder`, one
two-by-one division per limb from the most significant limb down; the result is
`(quot, remainder)`. -/
def mpn_divrem_1_loop (d : Nat) : List Nat → List Nat × Nat
  | [] => ([], 0)
  | a :: as =>
    let r := mpn_divrem_1_loop d as
    let t := r.2 * BASE64 + a
    ((t / d) :: r.1, t % d)

/-- Modelled from the spec: `mpn_divrem_1(quot, a, n, scalar)`. -/
def mpn_divrem_1 (a : List Nat) (n : Nat) (d : Nat) : List Nat × Nat :=
  mpn_divrem_1_loop d (a.take n)

/-- Number of leading zero bits of a nonzero 64-bit limb. -/
def clz64 (x : Nat) : Nat := 63 - Nat.log2 x

/-- Modelled from the spec: one refinement test of the quotient estimate
(§4.6 step 2b) with the next divisor limb `v2` and the next dividend limb `u2`:
while the remainder estimate `rhat` is below the base and
`qhat * v2 > rhat * β + u2`, the estimate is too large and is decremented. -/
def div_refine (v1 v2 u2 : Nat) (q : Nat × Nat) : Nat × Nat :=
  if q.2 < BASE64 ∧ q.2 * BASE64 + u2 < q.1 * v2 then (q.1 - 1, q.2 + v1) else q

/-- Modelled from the spec: one position of the schoolbook division (§4.6
step 2) on the window `w` of `dn + 1` dividend limbs and the normalized
divisor `v` of `dn ≥ 2` limbs: two-by-one estimate capped at `β - 1`, at most
two refinement decrements, `submul_1`, and on a net borrow a decrement with one
add-back of the divisor.  Returns the quotient limb and the `dn` remainder
limbs. -/
def div_step (v w : List Nat) : Nat × List Nat :=
  let dn := v.length
  let v1 := v.getD (dn - 1) 0
  let v2 := v.getD (dn - 2) 0
  let u0 := w.getD dn 0
  let u1 := w.getD (dn - 1) 0
  let u2 := w.getD (dn - 2) 0
  let q0 := min ((u0 * BASE64 + u1) / v1) (BASE64 - 1)
  let q2 := div_refine v1 v2 u2 (div_refine v1 v2 u2 (q0, u0 * BASE64 + u1 - q0 * v1))
  let s := mpn_submul_1 (w.take dn) v dn q2.1
  if u0 < s.2 then (q2.1 - 1, (mpn_add_n s.1 v dn).1) else (q2.1, s.1)

/-- Modelled from the spec: the loop of §4.6 step 2 over the positions
`j = nn - dn, ..., 0`.  The argument list holds the dividend limbs below the
current remainder, least significant first, so the positions are visited from
the most significant one down; the result is the quotient limbs and the final
remainder limbs. -/
def div_loop (v : List Nat) : List Nat → List Nat → List Nat × List Nat
  | [], r => ([], r)
  | u :: us, r =>
    let hi := div_loop v us r
    let st := div_step v (u :: hi.2)
    (st.1 :: hi.1, st.2)

/-- Modelled from the spec: `div_qr(quot, dividend, nn, divisor, dn)` for
`nn ≥ dn ≥ 1` and a nonzero top divisor limb; the result is the `nn - dn + 1`
quotient limbs and the `dn` remainder limbs.  A one-limb divisor goes through
`divrem_1`.  Otherwise both operands are shifted left so that the top divisor
limb has its top bit set, the positions are processed, and the remainder is
shifted back. -/
def mpn_div_qr (a b : List Nat) : List Nat × List Nat :=
  if b.length = 1 then
    let r := mpn_divrem_1 a a.length (b.headD 0)
    (r.1, [r.2])
  else
    let s := clz64 (b.getLastD 0)
    let v := if s = 0 then b else (mpn_lshift b b.length s).1
    let ua := mpn_lshift a a.length s
    let u := if s = 0 then a ++ [0] else ua.1 ++ [ua.2]
    let k := a.length + 1 - b.length
    let qr := div_loop v (u.take k) (u.drop k)
    (qr.1, if s = 0 then qr.2 else (mpn_rshift qr.2 qr.2.length s).1)

/-- Modelled from the spec: quotient and remainder of the signed façade
(§4.8), truncated division: the quotient sign is the product of the operand
signs, the remainder takes the sign of the dividend, zero results take the
zero sign, and a zero divisor is the `DivisionByZero` error (`none`).  A
dividend of smaller magnitude than the divisor gives quotient zero and itself as
remainder. -/
def bigint.divmod (a b : bigint) : Option (bigint × bigint) :=
  if b.limbs = [] then none
  else if mag_cmp a.limbs b.limbs = -1 then some (bigint.zero, a)
  else
    let qr := mpn_div_qr a.limbs b.limbs
    let q := normalize qr.1
    let r := normalize qr.2
    some (if q = [] then bigint.zero else ⟨a.sign * b.sign, q⟩,
          if r = [] then bigint.zero else ⟨a.sign, r⟩)

/-- Modelled from the spec: `a / b`. -/
def bigint.div (a b : bigint) : Option bigint := (bigint.divmod a b).map Prod.fst

/-- Modelled from the spec: `a % b`. -/
def bigint.mod (a b : bigint) : Option bigint := (bigint.divmod a b).map Prod.snd

end bi

namespace bi

/-- Modelled from the spec: `R_THRESHOLD` of §4.7 (test_bigint.cpp:
"RADIX_DC_THRESHOLD = 30 limbs"). -/
def RADIX_DC_THRESHOLD : Nat := 30

/-- Modelled from the spec: the block size `d` of §4.7, the largest number of
decimal digits whose power of ten fits in a limb (`10^19 < 2^64`). -/
def DIGITS_PER_LIMB : Nat := 19

/-- The power of ten of one digit group, `10^19`. -/
def POW10_LIMB : Nat := 10 ^ DIGITS_PER_LIMB

/-- The character of the decimal digit `v % 10`. -/
def digit_char (v : Nat) : Char :=
  match v % 10 with
  | 0 => '0' | 1 => '1' | 2 => '2' | 3 => '3' | 4 => '4'
  | 5 => '5' | 6 => '6' | 7 => '7' | 8 => '8' | _ => '9'

/-- The value of a decimal digit character, `c - '0'`. -/
def char_digit (c : Char) : Nat := c.toNat - 48

/-- Test for a decimal digit character, `'0' ≤ c ≤ '9'`. -/
def is_digit (c : Char) : Bool := decide (48 ≤ c.toNat ∧ c.toNat ≤ 57)

/-- The number denoted by a string of decimal digits, most significant first. -/
def dec_value (s : List Char) : Nat := s.foldl (fun acc c => acc * 10 + char_digit c) 0

/-- The `w` low decimal digits of `v`, most significant first. -/
def digits_fixed : Nat → Nat → List Char
  | 0, _ => []
  | w + 1, v => digits_fixed w (v / 10) ++ [digit_char v]

/-- Modelled from the spec: base case of `to_string` (§4.7), repeated
`divrem_1` by `10^19`: the remainders are the digit groups, least significant
first, until the quotient is zero.  Every division removes more than 63 bits,
so `2 n + 1` rounds are enough for `n` limbs. -/
def to_groups : Nat → List Nat → List Nat
  | 0, _ => []
  | fuel + 1, x =>
    if x = [] then []
    else
      let qr := mpn_divrem_1 x x.length POW10_LIMB
      qr.2 :: to_groups fuel (normalize qr.1)

/-- The digit groups written out, 19 digits each, most significant first. -/
def groups_digits : List Nat → List Char
  | [] => []
  | g :: gs => groups_digits gs ++ digits_fixed DIGITS_PER_LIMB g

/-- Modelled from the spec: all decimal digits of a magnitude by the base case,
in whole groups (so possibly with leading zeros). -/
def to_digits_basecase (x : List Nat) : List Char :=
  groups_digits (to_groups (2 * x.length + 1) x)

/-- Removal of leading zero digits. -/
def strip_zeros (s : List Char) : List Char := s.dropWhile (fun c => c == '0')

/-- Left padding with zero digits to the width `w`. -/
def pad_zeros (w : Nat) (s : List Char) : List Char := List.replicate (w - s.length) '0' ++ s

/-- Modelled from the spec: quotient and remainder of normalized magnitudes
(via `div_qr` when the dividend is not smaller than the divisor). -/
def mag_divmod (x p : List Nat) : List Nat × List Nat :=
  if mag_cmp x p = -1 then ([], x)
  else
    let qr := mpn_div_qr x p
    (normalize qr.1, normalize qr.2)

/-- Modelled from the spec: divide-and-conquer conversion (§4.7).  The first
argument is the power tower below the current level, highest power first
(`10^(19·2^i)` for `i = tower.length - 1, ..., 0`); the number is below
`10^(19·2^tower.length)`.  Below `RADIX_DC_THRESHOLD` limbs the base case is
used.  Otherwise the number is divided by the highest power; the quotient gives
the upper digits, the remainder the lower digits, left-padded to the known
width.  With `pad` the result has the full width of the level, otherwise it has
no leading zeros. -/
def to_digits_dc : List (List Nat) → List Nat → Bool → List Char
  | [], x, pad =>
    if pad then pad_zeros DIGITS_PER_LIMB (to_digits_basecase x)
    else strip_zeros (to_digits_basecase x)
  | P :: lower, x, pad =>
    if x.length < RADIX_DC_THRESHOLD then
      if pad then pad_zeros (DIGITS_PER_LIMB * 2 ^ (lower.length + 1)) (to_digits_basecase x)
      else strip_zeros (to_digits_basecase x)
    else
      let qr := mag_divmod x P
      if pad then to_digits_dc lower qr.1 true ++ to_digits_dc lower qr.2 true
      else if qr.1 = [] then to_digits_dc lower qr.2 false
      else to_digits_dc lower qr.1 false ++ to_digits_dc lower qr.2 true

/-- Modelled from the spec: the power tower of `to_string`: starting from
`10^19`, the top power is squared until it exceeds the input.  The tower is
kept highest power first. -/
def build_tower : Nat → List (List Nat) → List Nat → List (List Nat)
  | 0, t, _ => t
  | fuel + 1, t, x =>
    match t with
    | [] => []
    | P :: rest =>
      if mag_cmp x P = -1 then P :: rest
      else build_tower fuel (normalize (mpn_mul P P) :: P :: rest) x

/-- Modelled from the spec: decimal digits of a nonzero magnitude, without
leading zeros: the base case below `RADIX_DC_THRESHOLD` limbs, otherwise
divide-and-conquer under the power tower, whose top power (the first one above
the input) bounds the number. -/
def mag_to_string (x : List Nat) : List Char :=
  if x.length < RADIX_DC_THRESHOLD then strip_zeros (to_digits_basecase x)
  else to_digits_dc (build_tower (x.length + 1) [[POW10_LIMB]] x).tail x false

/-- Modelled from the spec: `bigint::to_string()`, the canonical decimal form:
`"0"` for zero, a leading `-` for negatives only, no `+`, no leading zeros. -/
def bigint.to_string (a : bigint) : List Char :=
  if a.limbs = [] then ['0']
  else (if a.sign < 0 then ['-'] else []) ++ mag_to_string a.limbs

/-- Modelled from the spec: base case of `from_string`: the digit groups of 19
digits are taken from the least significant end; the value of the digits above
a group is multiplied by `10^19` with `mul_1` and the group is added with
`add_1`. -/
def from_digits_basecase (s : List Char) : List Nat :=
  if _h : s = [] then []
  else
    let hi := from_digits_basecase (s.take (s.length - DIGITS_PER_LIMB))
    let g := dec_value (s.drop (s.length - DIGITS_PER_LIMB))
    let m := mpn_mul_1 hi hi.length POW10_LIMB
    normalize (mpn_add_1 (m.1 ++ [m.2]) (hi.length + 1) g).1
termination_by s.length
decreasing_by
  simp only [List.length_take, DIGITS_PER_LIMB]
  have : 0 < s.length := List.length_pos.mpr _h
  omega

/-- Modelled from the spec: divide-and-conquer parsing (§4.7), the mirror of
`to_digits_dc`: below the threshold of `18 * RADIX_DC_THRESHOLD` characters the
base case; otherwise the string is split at the width `19·2^i` of the highest
power, both parts are parsed and combined as `upper * 10^w + lower` with the
multiplication dispatcher. -/
def from_digits_dc : List (List Nat) → List Char → List Nat
  | [], s => from_digits_basecase s
  | P :: lower, s =>
    if s.length < 18 * RADIX_DC_THRESHOLD then from_digits_basecase s
    else if s.length ≤ DIGITS_PER_LIMB * 2 ^ lower.length then from_digits_dc lower s
    else
      let up := from_digits_dc lower (s.take (s.length - DIGITS_PER_LIMB * 2 ^ lower.length))
      let lo := from_digits_dc lower (s.drop (s.length - DIGITS_PER_LIMB * 2 ^ lower.length))
      mag_add (normalize (mpn_mul up P)) lo

/-- Modelled from the spec: the power tower of `from_string`: powers
`10^(19·2^i)` until twice the width of the top power covers the string. -/
def build_tower_len : Nat → List (List Nat) → Nat → List (List Nat)
  | 0, t, _ => t
  | fuel + 1, t, len =>
    match t with
    | [] => []
    | P :: rest =>
      if len ≤ 2 * (DIGITS_PER_LIMB * 2 ^ rest.length) then P :: rest
      else build_tower_len fuel (normalize (mpn_mul P P) :: P :: rest) len

/-- Modelled from the spec: magnitude of a string of decimal digits. -/
def mag_from_string (s : List Char) : List Nat :=
  from_digits_dc (build_tower_len s.length [[POW10_LIMB]] s.length) s

/-- Modelled from the spec: `bigint::from_string`, the parser of
`[+-]?[0-9]+`; any other input is a `ParseError` (`none`). -/
def bigint.from_string (s : List Char) : Option bigint :=
  let neg := s.head? == some '-'
  let body := if s.head? == some '-' ∨ s.head? == some '+' then s.tail else s
  if body = [] ∨ body.all is_digit = false then none
  else
    let m := mag_from_string body
    some (if m = [] then bigint.zero else ⟨if neg then -1 else 1, m⟩)

/-- Modelled from the spec: the power tower, "a precomputed sequence
`10^{d·2^i}`", highest power first: every entry is a normalized limb array and
the entry with `i` entries below it holds `10^(19·2^i)`. -/
def tower_ok : List (List Nat) → Prop
  | [] => True
  | P :: lower =>
    limbs_ok BASE64 P ∧ normalized P ∧
    limbs_value BASE64 P = 10 ^ (DIGITS_PER_LIMB * 2 ^ lower.length) ∧ tower_ok lower

end bi

namespace ntt

/-- Loop of `bignum_mod` (test_correctness.cpp) over the limbs `a[i], a[i+1], ...`;
`result`, `base_pow` and every intermediate value are `u64`, so each product and
sum is reduced modulo `2^64` before `% p` is applied. -/
def bignum_mod_loop (p base : Nat) : List Nat → Nat → Nat → Nat
  | [], result, _ => result
  | ai :: as, result, base_pow =>
    bignum_mod_loop p base as
      (((result + ((ai % p) * base_pow) % 2 ^ 64) % 2 ^ 64) % p)
      (((base_pow * base) % 2 ^ 64) % p)

/-- Embedding of `bignum_mod(a, len, p)` (test_correctness.cpp).  A modulus
`p = 0` makes `% p` a division by zero, for which there is no result. -/
def bignum_mod (a : List Nat) (len p : Nat) : Option Nat :=
  if p = 0 then none
  else some (bignum_mod_loop p (((1 <<< 32) % 2 ^ 64) % p) (a.take len) 0 1)

/-- Ghost check over the loop of `bignum_mod`, not part of the source: `true`
when in every iteration the product `(a[i] % p) * base_pow`, the sum
`result + (a[i] % p) * base_pow` and the product `base_pow * base` are below
`2^64` as mathematical integers, that is, when no `u64` operation wraps. -/
def bignum_mod_fits (p base : Nat) : List Nat → Nat → Nat → Bool
  | [], _, _ => true
  | ai :: as, result, base_pow =>
    decide ((ai % p) * base_pow < 2 ^ 64 ∧ result + (ai % p) * base_pow < 2 ^ 64 ∧
      base_pow * base < 2 ^ 64) &&
    bignum_mod_fits p base as
      (((result + ((ai % p) * base_pow) % 2 ^ 64) % 2 ^ 64) % p)
      (((base_pow * base) % 2 ^ 64) % p)

/-- Embedding of `mulmod(a, b, p)` (test_correctness.cpp), the branch
`(unsigned __int128)a * b % p` converted to the `u64` return type; `p = 0` is a
division by zero. -/
def mulmod (a b p : Nat) : Option Nat :=
  if p = 0 then none
  else some ((((a * b) % 2 ^ 128) % p) % 2 ^ 64)

/-- The verification moduli `test_primes` of `test_large_cases`
(test_correctness.cpp). -/
def test_primes : List Nat := [1000000007, 998244353, 1000000009, 999999937, 104729]

end ntt

namespace ntt

/-- The loop `while ((x & 1u) == 0) { x >>= 1; ++r; }` of `ctz_constexpr`
(`ntt/common.hpp`).  Each evaluation of the guard consumes one unit of `fuel`;
`none` means that the loop has not ended within `fuel` guard evaluations.  The
result is the final `r`, which is also the number of iterations when the loop
is started with `r = 0`. -/
def ctz_constexpr_loop : Nat → Nat → Nat → Option Nat
  | 0, _, _ => none
  | fuel + 1, x, r =>
    if x &&& 1 = 0 then ctz_constexpr_loop fuel (x >>> 1) (r + 1)
    else some r

/-- Embedding of `ctz_constexpr(unsigned x)`: the loop started with `r = 0`,
with one guard evaluation for each of the 32 bits of `x`. -/
def ctz_constexpr (x : Nat) : Option Nat := ctz_constexpr_loop 32 x 0

/-- The loop `while ((x & 1ull) == 0) { x >>= 1; ++r; }` of `ctzll_constexpr`
(`ntt/common.hpp`), with `fuel` as in `ctz_constexpr_loop`. -/
def ctzll_constexpr_loop : Nat → Nat → Nat → Option Nat
  | 0, _, _ => none
  | fuel + 1, x, r =>
    if x &&& 1 = 0 then ctzll_constexpr_loop fuel (x >>> 1) (r + 1)
    else some r

/-- Embedding of `ctzll_constexpr(unsigned long long x)`: the loop started with
`r = 0`, with one guard evaluation for each of the 64 bits of `x`. -/
def ctzll_constexpr (x : Nat) : Option Nat := ctzll_constexpr_loop 64 x 0

/-- The loop `for (int i = 31; i >= 0; --i) if (x & (1u << i)) return 31 - i;`
of `clz_constexpr`, followed by `return 32`; the argument is `i + 1`, the number
of bit positions still to be tested. -/
def clz_constexpr_loop (x : Nat) : Nat → Nat
  | 0 => 32
  | i + 1 =>
    if x &&& ((1 <<< i) % 2 ^ 32) ≠ 0 then 31 - i
    else clz_constexpr_loop x i

/-- Embedding of `clz_constexpr(unsigned x)` (`ntt/common.hpp`). -/
def clz_constexpr (x : Nat) : Nat := clz_constexpr_loop x 32

/-- The loop `while (x > 1u) { x >>= 1; ++r; }` of `lg_constexpr`; each
evaluation of the guard consumes one unit of `fuel`. -/
def lg_constexpr_loop : Nat → Nat → Nat → Option Nat
  | 0, _, _ => none
  | fuel + 1, x, r =>
    if x > 1 then lg_constexpr_loop fuel (x >>> 1) (r + 1)
    else some r

/-- Embedding of `lg_constexpr(unsigned x)` (`ntt/common.hpp`): the loop started
with `r = 0`, with one guard evaluation for each of the 32 bits of `x`. -/
def lg_constexpr (x : Nat) : Option Nat := lg_constexpr_loop 32 x 0

/-- The compiler builtin `__builtin_ctz` on a 32-bit `unsigned` (not code of the
repository; documented behaviour): the number of trailing zero bits, that is the
index of the lowest set bit.  For `x = 0` the result is undefined, here `none`. -/
def builtin_ctz (x : Nat) : Option Nat := (List.range 32).find? fun i => x.testBit i

/-- The compiler builtin `__builtin_ctzll` on a 64-bit `unsigned long long`:
the index of the lowest set bit, undefined (`none`) for `x = 0`. -/
def builtin_ctzll (x : Nat) : Option Nat := (List.range 64).find? fun i => x.testBit i

/-- The compiler builtin `__builtin_clz` on a 32-bit `unsigned`: the number of
leading zero bits, counted from bit 31 downwards.  For `x = 0` the result is
undefined, here `none`. -/
def builtin_clz (x : Nat) : Option Nat := (List.range 32).find? fun i => x.testBit (31 - i)

/-- Embedding of the runtime `ntt_ctz(unsigned x)`: `return __builtin_ctz(x)`. -/
def ntt_ctz (x : Nat) : Option Nat := builtin_ctz x

/-- Embedding of the runtime `ntt_ctzll(unsigned long long x)`:
`return __builtin_ctzll(x)`. -/
def ntt_ctzll (x : Nat) : Option Nat := builtin_ctzll x

/-- Embedding of the runtime `ntt_clz(unsigned x)`: `return __builtin_clz(x)`. -/
def ntt_clz (x : Nat) : Option Nat := builtin_clz x

/-- Embedding of the runtime `ntt_lg(unsigned x)`: `return 31 - __builtin_clz(x)`. -/
def ntt_lg (x : Nat) : Option Nat :=
  match builtin_clz x with
  | none => none
  | some c => some (31 - c)

/-- Embedding of `ceil_pow2(idt x)` (`ntt/common.hpp`), `idt` being the 64-bit
`std::size_t`: `x - 1` is narrowed to `unsigned` by `% 2^32` and the shift is
taken in 64 bits. -/
def ceil_pow2 (x : Nat) : Option Nat :=
  if x < 2 then some 1
  else
    match ntt_lg ((x - 1) % 2 ^ 32) with
    | none => none
    | some l => some ((1 <<< (l + 1)) % 2 ^ 64)

/-- The sizes `test_sizes` of `test_radix_large_roundtrip` (test_bigint.cpp). -/
def test_sizes : List Nat := [100, 500, 1000]

/-- The value `expected_digits = (uint32_t)(sz * 19.3)` of
`test_radix_large_roundtrip`: the product is truncated towards zero,
`floor(sz * 193 / 10)`, and stored in 32 bits. -/
def expected_digits (sz : Nat) : Nat := (sz * 193 / 10) % 2 ^ 32

/-- The condition `s.size() < expected_digits - sz && s.size() > expected_digits + sz`
of `test_radix_large_roundtrip`, with `L = s.size()`: the difference and the sum
are computed in 32-bit unsigned arithmetic (`sz` converted to `unsigned`) before
the comparison with the 64-bit `L`. -/
def digit_count_error (L expected sz : Nat) : Bool :=
  decide (L < (expected + (2 ^ 32 - sz % 2 ^ 32)) % 2 ^ 32 ∧ L > (expected + sz % 2 ^ 32) % 2 ^ 32)

end ntt

namespace ntt

/-- Ghost counter over the `while (carry && k < n)` loop of `schoolbook_multiply`,
not part of the source: the number of iterations the loop performs, following
the state updates of `schoolbook_multiply_carry`. -/
def schoolbook_multiply_carry_iters : Nat → Nat → List Nat → Nat → Nat
  | 0, _, _, _ => 0
  | rem + 1, k, result, carry =>
    if carry ≠ 0 then
      let s := (result.getD k 0 + carry) % 2 ^ 64
      1 + schoolbook_multiply_carry_iters rem (k + 1) (result.set k (s % 2 ^ 32)) (s >>> 32)
    else 0

/-- Ghost check over the inner loop of `schoolbook_multiply`, not part of the
source: `true` when at every step `carry ≤ 2^32 - 1` and the mathematical value
of `a[i] * b[j] + result[i+j] + carry` is at most `2^64 - 1`, and the carry left
by the loop is at most `2^32 - 1`.  The state follows `schoolbook_multiply_row`. -/
def schoolbook_multiply_row_fits (ai i : Nat) : List Nat → Nat → List Nat → Nat → Bool
  | [], _, _, carry => decide (carry ≤ 2 ^ 32 - 1)
  | bj :: bs, j, result, carry =>
    decide (carry ≤ 2 ^ 32 - 1 ∧ ai * bj + result.getD (i + j) 0 + carry ≤ 2 ^ 64 - 1) &&
    schoolbook_multiply_row_fits ai i bs (j + 1)
      (result.set (i + j) (((ai * bj + result.getD (i + j) 0 + carry) % 2 ^ 64) % 2 ^ 32))
      (((ai * bj + result.getD (i + j) 0 + carry) % 2 ^ 64) >>> 32)

/-- Ghost check over the outer loop of `schoolbook_multiply`, not part of the
source: in every row the inner loop passes `schoolbook_multiply_row_fits`,
`result[i + |b|]` is `0` when the carry loop starts, the carry loop runs at most
once, and what it leaves is the row result with the carry stored at index
`i + |b|` and nothing else changed.  The state follows
`schoolbook_multiply_rows`. -/
def schoolbook_multiply_rows_fits (b : List Nat) (n : Nat) : List Nat → Nat → List Nat → Bool
  | [], _, _ => true
  | ai :: as, i, result =>
    schoolbook_multiply_row_fits ai i b 0 result 0 &&
    decide ((schoolbook_multiply_row ai i b 0 result 0).1.getD (i + b.length) 0 = 0) &&
    decide (schoolbook_multiply_carry_iters (n - (i + b.length)) (i + b.length)
      (schoolbook_multiply_row ai i b 0 result 0).1
      (schoolbook_multiply_row ai i b 0 result 0).2 ≤ 1) &&
    decide (schoolbook_multiply_carry (n - (i + b.length)) (i + b.length)
      (schoolbook_multiply_row ai i b 0 result 0).1
      (schoolbook_multiply_row ai i b 0 result 0).2
        = (schoolbook_multiply_row ai i b 0 result 0).1.set (i + b.length)
          (schoolbook_multiply_row ai i b 0 result 0).2) &&
    schoolbook_multiply_rows_fits b n as (i + 1)
      (schoolbook_multiply_carry (n - (i + b.length)) (i + b.length)
        (schoolbook_multiply_row ai i b 0 result 0).1
        (schoolbook_multiply_row ai i b 0 result 0).2)

/-- Ghost check over a whole call of `schoolbook_multiply(a, b)`; with an empty
operand the function returns before its loops. -/
def schoolbook_multiply_fits (a b : List Nat) : Bool :=
  if a.isEmpty ∨ b.isEmpty then true
  else schoolbook_multiply_rows_fits b (a.length + b.length) a 0
    (List.replicate (a.length + b.length) 0)

/-- Ghost check over the inner loop of `schoolbook_mul`, not part of the source:
`true` when at every step `carry ≤ 2^64 - 1` and the mathematical value of
`a[i] * b[j] + out[i+j] + carry` is at most `2^128 - 1`, and the carry left by
the loop is at most `2^64 - 1`.  The state follows `schoolbook_mul_row`. -/
def schoolbook_mul_row_fits (ai i out_len : Nat) : List Nat → Nat → List Nat → Nat → Bool
  | [], _, _, carry => decide (carry ≤ 2 ^ 64 - 1)
  | bj :: bs, j, out, carry =>
    if i + j < out_len then
      decide (carry ≤ 2 ^ 64 - 1 ∧ ai * bj + out.getD (i + j) 0 + carry ≤ 2 ^ 128 - 1) &&
      schoolbook_mul_row_fits ai i out_len bs (j + 1)
        (out.set (i + j) (((ai * bj + out.getD (i + j) 0 + carry) % 2 ^ 128) % 2 ^ 64))
        (((ai * bj + out.getD (i + j) 0 + carry) % 2 ^ 128) >>> 64)
    else decide (carry ≤ 2 ^ 64 - 1)

/-- Ghost check over the outer loop of `schoolbook_mul`, not part of the source:
in every row the inner loop passes `schoolbook_mul_row_fits` and, when
`i + nb < out_len`, `out[i + nb]` is `0` before `out[i + nb] += carry`.  The state
follows `schoolbook_mul_rows`. -/
def schoolbook_mul_rows_fits (b : List Nat) (nb out_len : Nat) :
    List Nat → Nat → List Nat → Bool
  | [], _, _ => true
  | ai :: as, i, out =>
    schoolbook_mul_row_fits ai i out_len b 0 out 0 &&
    (if i + nb < out_len then
      decide ((schoolbook_mul_row ai i out_len b 0 out 0).1.getD (i + nb) 0 = 0)
     else true) &&
    schoolbook_mul_rows_fits b nb out_len as (i + 1)
      (if i + nb < out_len then
        (schoolbook_mul_row ai i out_len b 0 out 0).1.set (i + nb)
          (((schoolbook_mul_row ai i out_len b 0 out 0).1.getD (i + nb) 0
            + (schoolbook_mul_row ai i out_len b 0 out 0).2) % 2 ^ 64)
       else (schoolbook_mul_row ai i out_len b 0 out 0).1)

/-- Ghost check over a whole call of `schoolbook_mul(out, out_len, a, na, b, nb)`. -/
def schoolbook_mul_fits (out_len : Nat) (a : List Nat) (na : Nat) (b : List Nat) (nb : Nat) :
    Bool :=
  schoolbook_mul_rows_fits (b.take nb) nb out_len (a.take na) 0 (List.replicate out_len 0)

end ntt

namespace ntt

theorem SMOOTH_TABLE_sorted : SMOOTH_TABLE.Sorted (· < ·) := by
  unfold SMOOTH_TABLE
  decide

theorem SMOOTH_TABLE_mono {i j a b : Nat} (hij : i ≤ j)
    (ha : SMOOTH_TABLE[i]? = some a) (hb : SMOOTH_TABLE[j]? = some b) : a ≤ b := by
  rcases Nat.eq_or_lt_of_le hij with h | h
  · subst h
    rw [ha] at hb
    exact le_of_eq (Option.some.inj hb)
  · obtain ⟨hi, rfl⟩ := List.getElem?_eq_some_iff.mp ha
    obtain ⟨hj, rfl⟩ := List.getElem?_eq_some_iff.mp hb
    have := (List.pairwise_iff_getElem.mp SMOOTH_TABLE_sorted) i j hi hj h
    exact le_of_lt this

theorem ceil_smooth_loop_spec (x : Nat) :
    ∀ fuel lo hi : Nat, lo ≤ hi → hi ≤ SMOOTH_TABLE.length → hi - lo ≤ fuel →
      (∀ i t, i < lo → SMOOTH_TABLE[i]? = some t → t < x) →
      (∀ i t, hi ≤ i → SMOOTH_TABLE[i]? = some t → x ≤ t) →
      ∃ r, ceil_smooth_loop x fuel lo hi = some r ∧ r ≤ SMOOTH_TABLE.length ∧
        (∀ i t, i < r → SMOOTH_TABLE[i]? = some t → t < x) ∧
        (∀ i t, r ≤ i → SMOOTH_TABLE[i]? = some t → x ≤ t) := by
  intro fuel
  induction fuel with
  | zero =>
    intro lo hi hle hlen hf hlow hhigh
    have : lo = hi := by omega
    subst this
    refine ⟨lo, ?_, hlen, hlow, hhigh⟩
    unfold ceil_smooth_loop
    simp
  | succ f ih =>
    intro lo hi hle hlen hf hlow hhigh
    by_cases hlt : lo < hi
    · have hmid1 : lo ≤ (lo + hi) / 2 := by omega
      have hmid2 : (lo + hi) / 2 < hi := by omega
      have hin : (lo + hi) / 2 < SMOOTH_TABLE.length := by omega
      have hget : SMOOTH_TABLE[(lo + hi) / 2]? = some (SMOOTH_TABLE[(lo + hi) / 2]) :=
        List.getElem?_eq_getElem hin
      unfold ceil_smooth_loop
      simp only [hlt, if_true, Nat.shiftRight_eq_div_pow, pow_one, hget]
      by_cases hc : SMOOTH_TABLE[(lo + hi) / 2] < x
      · simp only [hc, if_true]
        apply ih
        · omega
        · exact hlen
        · omega
        · intro i t hi' ht
          have := SMOOTH_TABLE_mono (Nat.lt_succ_iff.mp hi') ht hget
          omega
        · exact hhigh
      · simp only [hc, if_false]
        apply ih
        · exact hmid1
        · omega
        · omega
        · exact hlow
        · intro i t hi' ht
          have := SMOOTH_TABLE_mono hi' hget ht
          omega
    · have : lo = hi := by omega
      subst this
      refine ⟨lo, ?_, hlen, hlow, hhigh⟩
      unfold ceil_smooth_loop
      simp

theorem SMOOTH_TABLE_last : SMOOTH_TABLE[59]? = some 25165824 := by decide

/-- The binary search of `ceil_smooth` ends at the first table index whose
entry is at least `x` (index 60 when there is none). -/
theorem ceil_smooth_lo_spec (x : Nat) :
    ∃ r, ceil_smooth_loop x SMOOTH_TABLE_SIZE 0 SMOOTH_TABLE_SIZE = some r ∧
      r ≤ SMOOTH_TABLE_SIZE ∧
      (∀ i t, i < r → SMOOTH_TABLE[i]? = some t → t < x) ∧
      (∀ i t, r ≤ i → SMOOTH_TABLE[i]? = some t → x ≤ t) :=
    ceil_smooth_loop_spec x SMOOTH_TABLE_SIZE 0 SMOOTH_TABLE_SIZE (Nat.zero_le _)
      (le_refl _) (by simp) (by intro i t h; omega)
      (by
        intro i t h ht
        have := (List.getElem?_eq_some_iff.mp ht).1
        simp only [SMOOTH_TABLE_SIZE] at h
        omega)

/-- Up to the largest table entry `ceil_smooth` returns a length that is at
least the request. -/
theorem ceil_smooth_exists (x : Nat) (hx : x ≤ 25165824) :
    ∃ N, ceil_smooth x = some N ∧ x ≤ N := by
  obtain ⟨r, hr, _, hlow, hhigh⟩ := ceil_smooth_lo_spec x
  have hlen : SMOOTH_TABLE.length = 60 := by decide
  have hr60 : r < 60 := by
    by_contra hge
    have := hlow 59 _ (by omega) SMOOTH_TABLE_last
    omega
  have hget : SMOOTH_TABLE[r]? = some (SMOOTH_TABLE[r]) :=
    List.getElem?_eq_getElem (by omega)
  refine ⟨SMOOTH_TABLE[r], ?_, hhigh r _ (le_refl _) hget⟩
  unfold ceil_smooth ceil_smooth_lo
  rw [hr]
  exact hget

/-- C3: for every `x ≤ 25165824`, `ceil_smooth x` returns a table entry that is
at least `x`, and no smaller table entry is at least `x`. -/
theorem ceil_smooth_least (x : Nat) (hx : x ≤ 25165824) :
    ∃ v, ceil_smooth x = some v ∧ v ∈ SMOOTH_TABLE ∧ x ≤ v ∧
      ∀ w ∈ SMOOTH_TABLE, x ≤ w → v ≤ w := by
  obtain ⟨r, hr, hrlen, hlow, hhigh⟩ := ceil_smooth_lo_spec x
  have hlen : SMOOTH_TABLE.length = 60 := by decide
  have hr60 : r < 60 := by
    by_contra hge
    have := hlow 59 _ (by omega) SMOOTH_TABLE_last
    omega
  have hget : SMOOTH_TABLE[r]? = some (SMOOTH_TABLE[r]) :=
    List.getElem?_eq_getElem (by omega)
  refine ⟨SMOOTH_TABLE[r], ?_, List.getElem_mem _, hhigh r _ (le_refl _) hget, ?_⟩
  · unfold ceil_smooth ceil_smooth_lo
    rw [hr]
    exact hget
  · intro w hw hxw
    obtain ⟨j, hj, rfl⟩ := List.getElem_of_mem hw
    have hgj : SMOOTH_TABLE[j]? = some (SMOOTH_TABLE[j]) := List.getElem?_eq_getElem hj
    by_cases hjr : j < r
    · have := hlow j _ hjr hgj
      omega
    · exact SMOOTH_TABLE_mono (Nat.le_of_not_lt hjr) hget hgj

theorem ceil_smooth_least_witness :
    (100 : Nat) ≤ 25165824 ∧ ∃ v, ceil_smooth 100 = some v ∧ v ∈ SMOOTH_TABLE ∧ 100 ≤ v ∧
      ∀ w ∈ SMOOTH_TABLE, 100 ≤ w → v ≤ w :=
  ⟨by decide, ceil_smooth_least 100 (by decide)⟩

/-- A transform length returned by `ceil_smooth` is at least the request. -/
theorem ceil_smooth_some_ge (x N : Nat) (h : ceil_smooth x = some N) : x ≤ N := by
  obtain ⟨r, hr, _, _, hhigh⟩ := ceil_smooth_lo_spec x
  unfold ceil_smooth ceil_smooth_lo at h
  rw [hr] at h
  exact hhigh r N (le_refl _) h

end ntt

namespace bi

theorem BASE64_pos : 0 < BASE64 := by unfold BASE64; positivity

theorem BASE64_eq : BASE64 = 18446744073709551616 := by unfold BASE64; norm_num

theorem limbs_ok_nil (B : Nat) : limbs_ok B [] := by
  intro x hx; cases hx

theorem limbs_ok_cons {B x : Nat} {l : List Nat} :
    limbs_ok B (x :: l) ↔ x < B ∧ limbs_ok B l := by
  unfold limbs_ok
  simp

theorem mpn_add_n_loop_spec : ∀ (n : Nat) (a b : List Nat) (c : Nat),
    a.length = n → b.length = n →
    limbs_value BASE64 (mpn_add_n_loop c n a b).1 + BASE64 ^ n * (mpn_add_n_loop c n a b).2
      = limbs_value BASE64 a + limbs_value BASE64 b + c := by
  intro n
  induction n with
  | zero =>
    intro a b c ha hb
    have ha' : a = [] := List.length_eq_zero.mp ha
    have hb' : b = [] := List.length_eq_zero.mp hb
    subst ha' hb'
    simp [mpn_add_n_loop, limbs_value]
  | succ n ih =>
    intro a b c ha hb
    obtain ⟨x, as, rfl⟩ := List.exists_cons_of_length_eq_add_one ha
    obtain ⟨y, bs, rfl⟩ := List.exists_cons_of_length_eq_add_one hb
    have ha' : as.length = n := by simpa using ha
    have hb' : bs.length = n := by simpa using hb
    have h := ih as bs ((x + y + c) / BASE64) ha' hb'
    have hdm := Nat.div_add_mod (x + y + c) BASE64
    simp only [mpn_add_n_loop, limbs_value]
    linear_combination BASE64 * h + hdm

theorem mpn_add_n_loop_shape : ∀ (n : Nat) (a b : List Nat) (c : Nat),
    a.length = n → b.length = n → limbs_ok BASE64 a → limbs_ok BASE64 b → c ≤ 1 →
    (mpn_add_n_loop c n a b).1.length = n ∧ limbs_ok BASE64 (mpn_add_n_loop c n a b).1 ∧
      (mpn_add_n_loop c n a b).2 ≤ 1 := by
  intro n
  induction n with
  | zero =>
    intro a b c ha hb _ _ hc
    have ha' : a = [] := List.length_eq_zero.mp ha
    have hb' : b = [] := List.length_eq_zero.mp hb
    subst ha' hb'
    simp [mpn_add_n_loop, limbs_ok_nil, hc]
  | succ n ih =>
    intro a b c ha hb hoa hob hc
    obtain ⟨x, as, rfl⟩ := List.exists_cons_of_length_eq_add_one ha
    obtain ⟨y, bs, rfl⟩ := List.exists_cons_of_length_eq_add_one hb
    have ha' : as.length = n := by simpa using ha
    have hb' : bs.length = n := by simpa using hb
    obtain ⟨hx, hoas⟩ := limbs_ok_cons.mp hoa
    obtain ⟨hy, hobs⟩ := limbs_ok_cons.mp hob
    have hc' : (x + y + c) / BASE64 ≤ 1 := by
      rw [BASE64_eq] at *
      omega
    obtain ⟨h1, h2, h3⟩ := ih as bs _ ha' hb' hoas hobs hc'
    simp only [mpn_add_n_loop]
    refine ⟨by simp [h1], limbs_ok_cons.mpr ⟨Nat.mod_lt _ BASE64_pos, h2⟩, h3⟩

theorem sub_step (a b bw : Nat) (ha : a < BASE64) (hb : b < BASE64) (hbw : bw ≤ 1) :
    ((a + BASE64 - b) % BASE64 + BASE64 - bw) % BASE64 + b + bw
        = a + BASE64 * (if a < b ∨ (a + BASE64 - b) % BASE64 < bw then 1 else 0) ∧
      ((a + BASE64 - b) % BASE64 + BASE64 - bw) % BASE64 < BASE64 ∧
      (if a < b ∨ (a + BASE64 - b) % BASE64 < bw then 1 else 0) ≤ 1 := by
  rw [BASE64_eq] at *
  split_ifs with h <;> omega

theorem mpn_sub_n_loop_spec : ∀ (n : Nat) (a b : List Nat) (bw : Nat),
    a.length = n → b.length = n → limbs_ok BASE64 a → limbs_ok BASE64 b → bw ≤ 1 →
    limbs_value BASE64 (mpn_sub_n_loop bw n a b).1 + limbs_value BASE64 b + bw
        = limbs_value BASE64 a + BASE64 ^ n * (mpn_sub_n_loop bw n a b).2 ∧
      (mpn_sub_n_loop bw n a b).1.length = n ∧
      limbs_ok BASE64 (mpn_sub_n_loop bw n a b).1 ∧ (mpn_sub_n_loop bw n a b).2 ≤ 1 := by
  intro n
  induction n with
  | zero =>
    intro a b c ha hb _ _ hc
    have ha' : a = [] := List.length_eq_zero.mp ha
    have hb' : b = [] := List.length_eq_zero.mp hb
    subst ha' hb'
    simp [mpn_sub_n_loop, limbs_ok_nil, hc, limbs_value]
  | succ n ih =>
    intro a b c ha hb hoa hob hc
    obtain ⟨x, as, rfl⟩ := List.exists_cons_of_length_eq_add_one ha
    obtain ⟨y, bs, rfl⟩ := List.exists_cons_of_length_eq_add_one hb
    have ha' : as.length = n := by simpa using ha
    have hb' : bs.length = n := by simpa using hb
    obtain ⟨hx, hoas⟩ := limbs_ok_cons.mp hoa
    obtain ⟨hy, hobs⟩ := limbs_ok_cons.mp hob
    obtain ⟨hs1, hs2, hs3⟩ := sub_step x y c hx hy hc
    obtain ⟨h0, h1, h2, h3⟩ := ih as bs _ ha' hb' hoas hobs hs3
    simp only [mpn_sub_n_loop, limbs_value]
    refine ⟨?_, by simp [h1], limbs_ok_cons.mpr ⟨hs2, h2⟩, h3⟩
    linear_combination BASE64 * h0 + hs1

/-- C10: `mpn_add_n` returns `out` and a carry in `{0, 1}` with
`value(out) + carry * 2^(64 n) = value(a) + value(b)`, and `mpn_sub_n` returns
`out` and a borrow in `{0, 1}` with
`value(out) - borrow * 2^(64 n) = value(a) - value(b)`; in both cases `out`
consists of `n` 64-bit limbs. -/
theorem mpn_add_n_sub_n_value (n : Nat) (a b : List Nat)
    (ha : a.length = n) (hb : b.length = n)
    (hoa : limbs_ok BASE64 a) (hob : limbs_ok BASE64 b) :
    (limbs_value BASE64 (mpn_add_n a b n).1 + (mpn_add_n a b n).2 * 2 ^ (64 * n)
        = limbs_value BASE64 a + limbs_value BASE64 b ∧
      ((mpn_add_n a b n).2 = 0 ∨ (mpn_add_n a b n).2 = 1) ∧
      (mpn_add_n a b n).1.length = n ∧ limbs_ok BASE64 (mpn_add_n a b n).1) ∧
    ((limbs_value BASE64 (mpn_sub_n a b n).1 : Int) - (mpn_sub_n a b n).2 * 2 ^ (64 * n)
        = (limbs_value BASE64 a : Int) - limbs_value BASE64 b ∧
      ((mpn_sub_n a b n).2 = 0 ∨ (mpn_sub_n a b n).2 = 1) ∧
      (mpn_sub_n a b n).1.length = n ∧ limbs_ok BASE64 (mpn_sub_n a b n).1) := by
  have hpow : (2 : Nat) ^ (64 * n) = BASE64 ^ n := by
    unfold BASE64
    rw [pow_mul]
  have hv := mpn_add_n_loop_spec n a b 0 ha hb
  obtain ⟨hl, hok, hc⟩ := mpn_add_n_loop_shape n a b 0 ha hb hoa hob (Nat.zero_le _)
  obtain ⟨sv, sl, sok, sc⟩ := mpn_sub_n_loop_spec n a b 0 ha hb hoa hob (Nat.zero_le _)
  refine ⟨⟨?_, ?_, hl, hok⟩, ⟨?_, ?_, sl, sok⟩⟩
  · unfold mpn_add_n
    rw [hpow]
    linear_combination hv
  · unfold mpn_add_n
    omega
  · unfold mpn_sub_n
    have hpowZ : ((2 : Int) ^ (64 * n)) = ((BASE64 ^ n : Nat) : Int) := by
      rw [← hpow]
      push_cast
      rfl
    rw [hpowZ]
    have svZ : ((limbs_value BASE64 (mpn_sub_n_loop 0 n a b).1 + limbs_value BASE64 b + 0 : Nat) : Int)
        = ((limbs_value BASE64 a + BASE64 ^ n * (mpn_sub_n_loop 0 n a b).2 : Nat) : Int) := by
      rw [sv]
    push_cast at svZ
    push_cast
    linear_combination svZ
  · unfold mpn_sub_n
    omega

theorem mpn_add_n_sub_n_value_witness :
    ([18446744073709551615, 0, 0, 0] : List Nat).length = 4 ∧
    ([1, 0, 0, 0] : List Nat).length = 4 ∧
    mpn_add_n [18446744073709551615, 0, 0, 0] [1, 0, 0, 0] 4 = ([0, 1, 0, 0], 0) ∧
    mpn_sub_n [1, 0, 0, 0] [18446744073709551615, 0, 0, 0] 4
      = ([2, 18446744073709551615, 18446744073709551615, 18446744073709551615], 1) ∧
    (limbs_value BASE64 (mpn_add_n [18446744073709551615, 0, 0, 0] [1, 0, 0, 0] 4).1
        + (mpn_add_n [18446744073709551615, 0, 0, 0] [1, 0, 0, 0] 4).2 * 2 ^ (64 * 4)
        = limbs_value BASE64 [18446744073709551615, 0, 0, 0] + limbs_value BASE64 [1, 0, 0, 0]) :=
  ⟨rfl, rfl, by decide, by decide,
    (mpn_add_n_sub_n_value 4 [18446744073709551615, 0, 0, 0] [1, 0, 0, 0] rfl rfl
      (by decide) (by decide)).1.1⟩

end bi

namespace bi

theorem limbs_value_append (B : Nat) (l1 l2 : List Nat) :
    limbs_value B (l1 ++ l2) = limbs_value B l1 + B ^ l1.length * limbs_value B l2 := by
  induction l1 with
  | nil => simp [limbs_value]
  | cons x xs ih =>
    rw [List.cons_append]
    simp only [limbs_value, List.length_cons, ih, pow_succ]
    ring

theorem limbs_value_replicate_zero (B n : Nat) : limbs_value B (List.replicate n 0) = 0 := by
  induction n with
  | zero => simp [limbs_value]
  | succ n ih => simp [List.replicate_succ, limbs_value, ih]

theorem limbs_ok_append {B : Nat} {l1 l2 : List Nat} :
    limbs_ok B (l1 ++ l2) ↔ limbs_ok B l1 ∧ limbs_ok B l2 := by
  unfold limbs_ok
  simp only [List.mem_append]
  constructor
  · intro h
    exact ⟨fun x hx => h x (Or.inl hx), fun x hx => h x (Or.inr hx)⟩
  · rintro ⟨h1, h2⟩ x (hx | hx)
    · exact h1 x hx
    · exact h2 x hx

theorem limbs_ok_replicate_zero {B : Nat} (hB : 0 < B) (n : Nat) :
    limbs_ok B (List.replicate n 0) := by
  intro x hx
  rw [List.eq_of_mem_replicate hx]
  exact hB

theorem limbs_value_lt {B : Nat} (l : List Nat) (h : limbs_ok B l) :
    limbs_value B l < B ^ l.length := by
  induction l with
  | nil => simp [limbs_value]
  | cons x xs ih =>
    obtain ⟨hx, hxs⟩ := limbs_ok_cons.mp h
    have h1 := ih hxs
    simp only [limbs_value, List.length_cons, pow_succ]
    have h2 : B * (limbs_value B xs + 1) ≤ B * B ^ xs.length := Nat.mul_le_mul_left B h1
    calc x + B * limbs_value B xs < B + B * limbs_value B xs := by omega
      _ = B * (limbs_value B xs + 1) := by ring
      _ ≤ B * B ^ xs.length := h2
      _ = B ^ xs.length * B := by ring

theorem limbs_eq_of_value_eq {B : Nat} : ∀ (l1 l2 : List Nat),
    l1.length = l2.length → limbs_ok B l1 → limbs_ok B l2 →
    limbs_value B l1 = limbs_value B l2 → l1 = l2 := by
  intro l1
  induction l1 with
  | nil =>
    intro l2 hl _ _ _
    exact (List.length_eq_zero.mp hl.symm).symm
  | cons x xs ih =>
    intro l2 hl h1 h2 hv
    cases l2 with
    | nil => simp at hl
    | cons y ys =>
      obtain ⟨hx, hxs⟩ := limbs_ok_cons.mp h1
      obtain ⟨hy, hys⟩ := limbs_ok_cons.mp h2
      simp only [limbs_value] at hv
      have hB : 0 < B := by omega
      have hxy : x = y := by
        have := congrArg (· % B) hv
        simp only [Nat.add_mul_mod_self_left] at this
        rwa [Nat.mod_eq_of_lt hx, Nat.mod_eq_of_lt hy] at this
      subst hxy
      have hvv : limbs_value B xs = limbs_value B ys := by
        have : B * limbs_value B xs = B * limbs_value B ys := by omega
        exact Nat.eq_of_mul_eq_mul_left hB this
      rw [ih ys (by simpa using hl) hxs hys hvv]

theorem mul_add_add_div_lt {B a s o c : Nat} (ha : a < B) (hs : s < B) (ho : o < B)
    (hc : c < B) : (a * s + o + c) / B < B := by
  have hB : 0 < B := by omega
  rw [Nat.div_lt_iff_lt_mul hB]
  have h1 : a * s ≤ (B - 1) * (B - 1) := Nat.mul_le_mul (by omega) (by omega)
  have h2 : (B - 1) * (B - 1) + (B - 1) + (B - 1) < B * B := by
    obtain ⟨k, rfl⟩ : ∃ k, B = k + 1 := ⟨B - 1, by omega⟩
    simp only [Nat.add_sub_cancel]
    ring_nf
    omega
  omega

theorem mpn_addmul_1_loop_spec (s : Nat) (hs : s < BASE64) :
    ∀ (n : Nat) (w a rest : List Nat) (c : Nat),
    w.length = n → a.length = n → limbs_ok BASE64 w → limbs_ok BASE64 a → c < BASE64 →
    ∃ lo, lo.length = n ∧ limbs_ok BASE64 lo ∧
      (mpn_addmul_1_loop s c n (w ++ rest) a).1 = lo ++ rest ∧
      (mpn_addmul_1_loop s c n (w ++ rest) a).2 < BASE64 ∧
      limbs_value BASE64 lo + BASE64 ^ n * (mpn_addmul_1_loop s c n (w ++ rest) a).2
        = limbs_value BASE64 w + limbs_value BASE64 a * s + c := by
  intro n
  induction n with
  | zero =>
    intro w a rest c hw ha _ _ hc
    have hw' : w = [] := List.length_eq_zero.mp hw
    have ha' : a = [] := List.length_eq_zero.mp ha
    subst hw' ha'
    refine ⟨[], rfl, limbs_ok_nil _, ?_, ?_, ?_⟩
    · cases rest <;> simp [mpn_addmul_1_loop]
    · cases rest <;> simpa [mpn_addmul_1_loop] using hc
    · cases rest <;> simp [mpn_addmul_1_loop, limbs_value]
  | succ n ih =>
    intro w a rest c hw ha how hoa hc
    obtain ⟨o, ws, rfl⟩ := List.exists_cons_of_length_eq_add_one hw
    obtain ⟨x, as, rfl⟩ := List.exists_cons_of_length_eq_add_one ha
    have hw' : ws.length = n := by simpa using hw
    have ha' : as.length = n := by simpa using ha
    obtain ⟨ho, hows⟩ := limbs_ok_cons.mp how
    obtain ⟨hx, hoas⟩ := limbs_ok_cons.mp hoa
    have hc' : (x * s + o + c) / BASE64 < BASE64 := mul_add_add_div_lt hx hs ho hc
    obtain ⟨lo, hl, hok, h1, h2, h3⟩ := ih ws as rest _ hw' ha' hows hoas hc'
    have hdm := Nat.div_add_mod (x * s + o + c) BASE64
    refine ⟨((x * s + o + c) % BASE64) :: lo, by simp [hl],
      limbs_ok_cons.mpr ⟨Nat.mod_lt _ BASE64_pos, hok⟩, ?_, ?_, ?_⟩
    · rw [List.cons_append]
      simp only [mpn_addmul_1_loop, h1]
      rfl
    · rw [List.cons_append]
      simpa only [mpn_addmul_1_loop] using h2
    · rw [List.cons_append]
      simp only [mpn_addmul_1_loop, limbs_value]
      linear_combination BASE64 * h3 + hdm

theorem mpn_mul_basecase_loop_spec (a : List Nat) (na : Nat) (hna : a.length = na)
    (hoa : limbs_ok BASE64 a) :
    ∀ (b w : List Nat), w.length = na → limbs_ok BASE64 w → limbs_ok BASE64 b →
    (mpn_mul_basecase_loop a na b (w ++ List.replicate b.length 0)).length = na + b.length ∧
    limbs_ok BASE64 (mpn_mul_basecase_loop a na b (w ++ List.replicate b.length 0)) ∧
    limbs_value BASE64 (mpn_mul_basecase_loop a na b (w ++ List.replicate b.length 0))
      = limbs_value BASE64 w + limbs_value BASE64 a * limbs_value BASE64 b := by
  intro b
  induction b with
  | nil =>
    intro w hw how _
    simp [mpn_mul_basecase_loop, limbs_value, hw, how]
  | cons bj bs ih =>
    intro w hw how hob
    obtain ⟨hbj, hobs⟩ := limbs_ok_cons.mp hob
    obtain ⟨lo, hl, hok, h1, h2, h3⟩ :=
      mpn_addmul_1_loop_spec bj hbj na w a (List.replicate (bj :: bs).length 0) 0
        hw hna how hoa BASE64_pos
    have hset : ((mpn_addmul_1 (w ++ List.replicate (bj :: bs).length 0) a na bj).1.set na
        (mpn_addmul_1 (w ++ List.replicate (bj :: bs).length 0) a na bj).2)
        = lo ++ (mpn_addmul_1 (w ++ List.replicate (bj :: bs).length 0) a na bj).2 ::
            List.replicate bs.length 0 := by
      unfold mpn_addmul_1
      rw [h1]
      simp only [List.length_cons, List.replicate_succ]
      rw [← hl]
      simp
    simp only [mpn_mul_basecase_loop]
    rw [hset]
    unfold mpn_addmul_1
    generalize (mpn_addmul_1_loop bj 0 na (w ++ List.replicate (bj :: bs).length 0) a).2 = c
      at h2 h3 ⊢
    cases lo with
    | nil =>
      have hna0 : na = 0 := by simpa using hl.symm
      subst hna0
      have hw0 : w = [] := List.length_eq_zero.mp hw
      have ha0 : a = [] := List.length_eq_zero.mp hna
      subst hw0 ha0
      have hc0 : c = 0 := by simpa [limbs_value] using h3
      subst hc0
      obtain ⟨i1, i2, i3⟩ := ih [] rfl (limbs_ok_nil _) hobs
      simp only [List.nil_append] at i1 i2 i3 ⊢
      refine ⟨by simp [i1], limbs_ok_cons.mpr ⟨BASE64_pos, i2⟩, ?_⟩
      simp [limbs_value, i3]
    | cons h lt =>
      obtain ⟨hh, hlt⟩ := limbs_ok_cons.mp hok
      have hlen : (lt ++ [c]).length = na := by
        simp only [List.length_append, List.length_cons, List.length_nil]
        simpa using hl
      have hokw : limbs_ok BASE64 (lt ++ [c]) :=
        limbs_ok_append.mpr ⟨hlt, limbs_ok_cons.mpr ⟨h2, limbs_ok_nil _⟩⟩
      obtain ⟨i1, i2, i3⟩ := ih (lt ++ [c]) hlen hokw hobs
      have hre : (h :: lt) ++ c :: List.replicate bs.length 0
          = h :: ((lt ++ [c]) ++ List.replicate bs.length 0) := by simp
      rw [hre]
      simp only
      refine ⟨by simp only [List.length_cons, i1]; omega, limbs_ok_cons.mpr ⟨hh, i2⟩, ?_⟩
      simp only [limbs_value, i3, limbs_value_append, Nat.mul_zero, Nat.add_zero] at h3 ⊢
      have hlt_len : lt.length + 1 = na := by simpa using hl
      rw [← hlt_len] at h3
      rw [pow_succ] at h3
      linear_combination h3

theorem mpn_mul_basecase_spec (a b : List Nat) (hoa : limbs_ok BASE64 a)
    (hob : limbs_ok BASE64 b) :
    (mpn_mul_basecase a a.length b b.length).length = a.length + b.length ∧
    limbs_ok BASE64 (mpn_mul_basecase a a.length b b.length) ∧
    limbs_value BASE64 (mpn_mul_basecase a a.length b b.length)
      = limbs_value BASE64 a * limbs_value BASE64 b := by
  unfold mpn_mul_basecase
  rw [List.take_length, List.take_length]
  have hrep : List.replicate (a.length + b.length) 0
      = List.replicate a.length 0 ++ List.replicate b.length 0 := by
    rw [List.replicate_add]
  rw [hrep]
  have := mpn_mul_basecase_loop_spec a a.length rfl hoa b (List.replicate a.length 0)
    (by simp) (limbs_ok_replicate_zero BASE64_pos _) hob
  simpa [limbs_value_replicate_zero] using this

end bi

namespace bi

theorem sq_value_eq (B : Nat) (a : List Nat) :
    limbs_value B a * limbs_value B a = diag_value B a + 2 * offdiag_value B a := by
  induction a with
  | nil => simp [limbs_value, diag_value, offdiag_value]
  | cons x xs ih =>
    simp only [limbs_value, diag_value, offdiag_value]
    linear_combination B ^ 2 * ih

theorem mpn_sqr_offdiag_loop_spec :
    ∀ (a w : List Nat), w.length = a.length → limbs_ok BASE64 w → limbs_ok BASE64 a →
    (mpn_sqr_offdiag_loop a (w ++ List.replicate a.length 0)).length = 2 * a.length ∧
    limbs_ok BASE64 (mpn_sqr_offdiag_loop a (w ++ List.replicate a.length 0)) ∧
    limbs_value BASE64 (mpn_sqr_offdiag_loop a (w ++ List.replicate a.length 0))
      = limbs_value BASE64 w + offdiag_value BASE64 a := by
  intro a
  induction a with
  | nil =>
    intro w hw how _
    have hw0 : w = [] := List.length_eq_zero.mp hw
    subst hw0
    simp [mpn_sqr_offdiag_loop, limbs_value, offdiag_value, limbs_ok_nil]
  | cons ai as ih =>
    intro w hw how hoa
    obtain ⟨r0, w1, rfl⟩ := List.exists_cons_of_length_eq_add_one hw
    have hw1 : w1.length = as.length := by simpa using hw
    obtain ⟨hr0, how1⟩ := limbs_ok_cons.mp how
    obtain ⟨hai, hoas⟩ := limbs_ok_cons.mp hoa
    obtain ⟨lo, hl, hok, h1, h2, h3⟩ :=
      mpn_addmul_1_loop_spec ai hai as.length w1 as (List.replicate (ai :: as).length 0) 0
        hw1 rfl how1 hoas BASE64_pos
    have hset : ((mpn_addmul_1 (w1 ++ List.replicate (ai :: as).length 0) as as.length ai).1.set
        as.length (mpn_addmul_1 (w1 ++ List.replicate (ai :: as).length 0) as as.length ai).2)
        = lo ++ (mpn_addmul_1 (w1 ++ List.replicate (ai :: as).length 0) as as.length ai).2 ::
            List.replicate as.length 0 := by
      unfold mpn_addmul_1
      rw [h1]
      simp only [List.length_cons, List.replicate_succ]
      rw [← hl]
      simp
    rw [List.cons_append]
    simp only [mpn_sqr_offdiag_loop]
    rw [hset]
    unfold mpn_addmul_1
    generalize (mpn_addmul_1_loop ai 0 as.length (w1 ++ List.replicate (ai :: as).length 0) as).2
      = c at h2 h3 ⊢
    cases lo with
    | nil =>
      have has0 : as = [] := List.length_eq_zero.mp (by simpa using hl.symm)
      subst has0
      have hw0 : w1 = [] := List.length_eq_zero.mp hw1
      subst hw0
      have hc0 : c = 0 := by simpa [limbs_value] using h3
      subst hc0
      simp only [List.nil_append, List.length_nil, List.replicate_zero, mpn_sqr_offdiag_loop]
      refine ⟨by simp, limbs_ok_cons.mpr ⟨hr0, limbs_ok_cons.mpr ⟨BASE64_pos, limbs_ok_nil _⟩⟩, ?_⟩
      simp [limbs_value, offdiag_value]
    | cons h lt =>
      obtain ⟨hh, hlt⟩ := limbs_ok_cons.mp hok
      have hlen : (lt ++ [c]).length = as.length := by
        simp only [List.length_append, List.length_cons, List.length_nil]
        simpa using hl
      have hokw : limbs_ok BASE64 (lt ++ [c]) :=
        limbs_ok_append.mpr ⟨hlt, limbs_ok_cons.mpr ⟨h2, limbs_ok_nil _⟩⟩
      obtain ⟨i1, i2, i3⟩ := ih (lt ++ [c]) hlen hokw hoas
      have hre : (h :: lt) ++ c :: List.replicate as.length 0
          = h :: ((lt ++ [c]) ++ List.replicate as.length 0) := by simp
      rw [hre]
      simp only
      refine ⟨by simp only [List.length_cons, i1]; omega,
        limbs_ok_cons.mpr ⟨hr0, limbs_ok_cons.mpr ⟨hh, i2⟩⟩, ?_⟩
      simp only [limbs_value, i3, limbs_value_append, Nat.add_zero, offdiag_value,
        List.length_cons, List.length_nil, Nat.mul_zero] at h3 ⊢
      have hlt_len : lt.length + 1 = as.length := by simpa using hl
      rw [← hlt_len, pow_succ] at h3
      linear_combination BASE64 * h3

theorem lshift_limb (a cin k : Nat) (ha : a < BASE64) (hk : k ≤ 64) (hc : cin < 2 ^ k) :
    ((a <<< k) % BASE64 ||| cin) + BASE64 * (a >>> (64 - k)) = a * 2 ^ k + cin ∧
      ((a <<< k) % BASE64 ||| cin) < BASE64 ∧ a >>> (64 - k) < 2 ^ k := by
  have hB : BASE64 = 2 ^ k * 2 ^ (64 - k) := by
    unfold BASE64
    rw [← pow_add]
    congr 1
    omega
  have hmod : (a <<< k) % BASE64 = 2 ^ k * (a % 2 ^ (64 - k)) := by
    rw [Nat.shiftLeft_eq, hB, Nat.mul_comm a, Nat.mul_mod_mul_left]
  have hor : (a <<< k) % BASE64 ||| cin = 2 ^ k * (a % 2 ^ (64 - k)) + cin := by
    rw [hmod, ← Nat.mul_add_lt_is_or hc]
  have hdm := Nat.div_add_mod a (2 ^ (64 - k))
  have hpk : 0 < 2 ^ k := by positivity
  have hpm : 0 < 2 ^ (64 - k) := by positivity
  have hmlt : a % 2 ^ (64 - k) < 2 ^ (64 - k) := Nat.mod_lt _ hpm
  rw [hor, Nat.shiftRight_eq_div_pow]
  refine ⟨?_, ?_, ?_⟩
  · rw [hB]
    linear_combination 2 ^ k * hdm
  · rw [hB]
    calc 2 ^ k * (a % 2 ^ (64 - k)) + cin < 2 ^ k * (a % 2 ^ (64 - k)) + 2 ^ k := by omega
      _ = 2 ^ k * (a % 2 ^ (64 - k) + 1) := by ring
      _ ≤ 2 ^ k * 2 ^ (64 - k) := Nat.mul_le_mul_left _ hmlt
  · rw [Nat.div_lt_iff_lt_mul hpm, ← hB]
    exact ha

theorem mpn_lshift_loop_spec (k : Nat) (hk : k ≤ 64) :
    ∀ (n : Nat) (a : List Nat) (cin : Nat), a.length = n → limbs_ok BASE64 a → cin < 2 ^ k →
    (mpn_lshift_loop k cin n a).1.length = n ∧ limbs_ok BASE64 (mpn_lshift_loop k cin n a).1 ∧
      (mpn_lshift_loop k cin n a).2 < 2 ^ k ∧
      limbs_value BASE64 (mpn_lshift_loop k cin n a).1 + BASE64 ^ n * (mpn_lshift_loop k cin n a).2
        = limbs_value BASE64 a * 2 ^ k + cin := by
  intro n
  induction n with
  | zero =>
    intro a cin ha _ hc
    have ha' : a = [] := List.length_eq_zero.mp ha
    subst ha'
    simp [mpn_lshift_loop, limbs_value, limbs_ok_nil, hc]
  | succ n ih =>
    intro a cin ha hoa hc
    obtain ⟨x, as, rfl⟩ := List.exists_cons_of_length_eq_add_one ha
    have ha' : as.length = n := by simpa using ha
    obtain ⟨hx, hoas⟩ := limbs_ok_cons.mp hoa
    obtain ⟨l1, l2, l3⟩ := lshift_limb x cin k hx hk hc
    obtain ⟨i1, i2, i3, i4⟩ := ih as (x >>> (64 - k)) ha' hoas l3
    simp only [mpn_lshift_loop, limbs_value]
    refine ⟨by simp [i1], limbs_ok_cons.mpr ⟨l2, i2⟩, i3, ?_⟩
    linear_combination BASE64 * i4 + l1

theorem mpn_sqr_diag_loop_spec :
    ∀ (a r : List Nat) (c : Nat), r.length = 2 * a.length →
    (mpn_sqr_diag_loop c a r).length = 2 * a.length ∧
    limbs_ok BASE64 (mpn_sqr_diag_loop c a r) ∧
    ∃ cout, limbs_value BASE64 (mpn_sqr_diag_loop c a r) + BASE64 ^ (2 * a.length) * cout
      = limbs_value BASE64 r + diag_value BASE64 a + c := by
  intro a
  induction a with
  | nil =>
    intro r c hr
    have hr0 : r = [] := List.length_eq_zero.mp (by simpa using hr)
    subst hr0
    exact ⟨by simp [mpn_sqr_diag_loop], by simp [mpn_sqr_diag_loop, limbs_ok_nil],
      c, by simp [mpn_sqr_diag_loop, limbs_value, diag_value]⟩
  | cons ai as ih =>
    intro r c hr
    match r, hr with
    | r0 :: r1 :: rs, hr =>
      have hrs : rs.length = 2 * as.length := by
        simp only [List.length_cons] at hr
        omega
      obtain ⟨i1, i2, cout, i3⟩ := ih rs
        ((r1 + ai * ai / BASE64 + (r0 + ai * ai % BASE64 + c) / BASE64) / BASE64) hrs
      simp only [mpn_sqr_diag_loop]
      refine ⟨by simp only [List.length_cons, i1]; omega,
        limbs_ok_cons.mpr ⟨Nat.mod_lt _ BASE64_pos,
          limbs_ok_cons.mpr ⟨Nat.mod_lt _ BASE64_pos, i2⟩⟩, cout, ?_⟩
      have d0 := Nat.div_add_mod (r0 + ai * ai % BASE64 + c) BASE64
      have d1 := Nat.div_add_mod
        (r1 + ai * ai / BASE64 + (r0 + ai * ai % BASE64 + c) / BASE64) BASE64
      have dp := Nat.div_add_mod (ai * ai) BASE64
      simp only [limbs_value, diag_value, List.length_cons]
      have hp : BASE64 ^ (2 * (as.length + 1)) = BASE64 ^ 2 * BASE64 ^ (2 * as.length) := by
        rw [← pow_add]
        congr 1
        omega
      rw [hp]
      linear_combination BASE64 ^ 2 * i3 + d0 + BASE64 * d1 + dp
    | [], hr => simp at hr
    | [_], hr =>
      simp only [List.length_cons, List.length_nil] at hr
      omega

theorem mpn_sqr_basecase_spec (a : List Nat) (hoa : limbs_ok BASE64 a) :
    (mpn_sqr_basecase a a.length).length = 2 * a.length ∧
    limbs_ok BASE64 (mpn_sqr_basecase a a.length) ∧
    limbs_value BASE64 (mpn_sqr_basecase a a.length)
      = limbs_value BASE64 a * limbs_value BASE64 a := by
  unfold mpn_sqr_basecase
  simp only [List.take_length]
  have hrep : List.replicate (2 * a.length) 0
      = List.replicate a.length 0 ++ List.replicate a.length 0 := by
    rw [← List.replicate_add]
    congr 1
    omega
  rw [hrep]
  obtain ⟨o1, o2, o3⟩ := mpn_sqr_offdiag_loop_spec a (List.replicate a.length 0) (by simp)
    (limbs_ok_replicate_zero BASE64_pos _) hoa
  rw [limbs_value_replicate_zero, Nat.zero_add] at o3
  obtain ⟨s1, s2, s3, s4⟩ := mpn_lshift_loop_spec 1 (by omega) (2 * a.length)
    (mpn_sqr_offdiag_loop a (List.replicate a.length 0 ++ List.replicate a.length 0)) 0
    o1 o2 (by norm_num)
  obtain ⟨d1, d2, cout, d3⟩ := mpn_sqr_diag_loop_spec a
    (mpn_lshift (mpn_sqr_offdiag_loop a
      (List.replicate a.length 0 ++ List.replicate a.length 0)) (2 * a.length) 1).1 0 s1
  refine ⟨d1, d2, ?_⟩
  unfold mpn_lshift at d3 ⊢
  have hsq := sq_value_eq BASE64 a
  have hlt := limbs_value_lt a hoa
  have hlt2 : limbs_value BASE64 a * limbs_value BASE64 a < BASE64 ^ (2 * a.length) := by
    have : BASE64 ^ (2 * a.length) = BASE64 ^ a.length * BASE64 ^ a.length := by
      rw [← pow_add]
      congr 1
      omega
    rw [this]
    exact Nat.mul_lt_mul'' hlt hlt
  rw [o3] at s4
  have htot : limbs_value BASE64 (mpn_sqr_diag_loop 0 a (mpn_lshift_loop 1 0 (2 * a.length)
        (mpn_sqr_offdiag_loop a (List.replicate a.length 0 ++ List.replicate a.length 0))).1)
      + BASE64 ^ (2 * a.length) * (cout + (mpn_lshift_loop 1 0 (2 * a.length)
        (mpn_sqr_offdiag_loop a (List.replicate a.length 0 ++ List.replicate a.length 0))).2)
      = limbs_value BASE64 a * limbs_value BASE64 a := by
    linear_combination d3 + s4 - hsq
  generalize (cout + (mpn_lshift_loop 1 0 (2 * a.length)
        (mpn_sqr_offdiag_loop a (List.replicate a.length 0 ++ List.replicate a.length 0))).2)
      = e at htot
  rcases Nat.eq_zero_or_pos e with he | he
  · subst he
    simpa using htot
  · exfalso
    have : BASE64 ^ (2 * a.length) * 1 ≤ BASE64 ^ (2 * a.length) * e :=
      Nat.mul_le_mul_left _ he
    omega

/-- C6: for every array `a` of `n ≥ 1` 64-bit limbs, `mpn_sqr_basecase(r, a, n)`
writes the same `2 n` limbs as `mpn_mul_basecase(r, a, n, a, n)`. -/
theorem mpn_sqr_basecase_eq_mul_basecase (a : List Nat) (n : Nat) (hn : 1 ≤ n)
    (hlen : a.length = n) (hoa : limbs_ok BASE64 a) :
    mpn_sqr_basecase a n = mpn_mul_basecase a n a n ∧ (mpn_sqr_basecase a n).length = 2 * n := by
  subst hlen
  obtain ⟨s1, s2, s3⟩ := mpn_sqr_basecase_spec a hoa
  obtain ⟨m1, m2, m3⟩ := mpn_mul_basecase_spec a a hoa hoa
  exact ⟨limbs_eq_of_value_eq _ _ (by omega) s2 m2 (by rw [s3, m3]), s1⟩

theorem mpn_sqr_basecase_eq_mul_basecase_witness :
    mpn_sqr_basecase [1311768467463790320, 18364757930599072545] 2
      = mpn_mul_basecase [1311768467463790320, 18364757930599072545] 2
          [1311768467463790320, 18364757930599072545] 2 ∧
    (mpn_sqr_basecase [1311768467463790320, 18364757930599072545] 2).length = 2 * 2 :=
  mpn_sqr_basecase_eq_mul_basecase [1311768467463790320, 18364757930599072545] 2
    (by decide) rfl (by decide)

end bi

namespace ntt
open bi

theorem list_sum_map_range (f : Nat → Nat) (n : Nat) :
    ((List.range n).map f).sum = ∑ i in Finset.range n, f i := by
  induction n with
  | zero => simp
  | succ n ih => simp [List.range_succ, Finset.sum_range_succ, ih]

theorem limbs_value_map_range (B : Nat) (f : Nat → Nat) (n : Nat) :
    limbs_value B ((List.range n).map f) = ∑ k in Finset.range n, f k * B ^ k := by
  induction n with
  | zero => simp [limbs_value]
  | succ n ih =>
    rw [List.range_succ, List.map_append, limbs_value_append, ih, Finset.sum_range_succ]
    simp [limbs_value]
    ring

theorem limbs_value_eq_sum (B : Nat) : ∀ (l : List Nat) (n : Nat), l.length ≤ n →
    limbs_value B l = ∑ i in Finset.range n, l.getD i 0 * B ^ i := by
  intro l
  induction l with
  | nil =>
    intro n _
    simp [limbs_value]
  | cons x xs ih =>
    intro n hn
    obtain ⟨m, rfl⟩ : ∃ m, n = m + 1 := ⟨n - 1, by simp at hn; omega⟩
    rw [Finset.sum_range_succ']
    simp only [limbs_value, List.getD_cons_succ, List.getD_cons_zero, pow_zero, mul_one]
    rw [ih m (by simpa using hn), Finset.mul_sum]
    rw [Nat.add_comm]
    congr 1
    apply Finset.sum_congr rfl
    intro i _
    ring

theorem limbs_value_cyclic_convolution (B N : Nat) (a b : List Nat)
    (hN : a.length + b.length ≤ N) :
    limbs_value B (cyclic_convolution N a b) = limbs_value B a * limbs_value B b := by
  unfold cyclic_convolution
  rw [limbs_value_map_range]
  simp only [list_sum_map_range]
  rw [limbs_value_eq_sum B a N (by omega), limbs_value_eq_sum B b N (by omega)]
  rw [Finset.sum_mul_sum]
  simp only [Finset.sum_mul]
  rw [Finset.sum_comm]
  apply Finset.sum_congr rfl
  intro i hi
  rw [Finset.sum_comm]
  apply Finset.sum_congr rfl
  intro j hj
  simp only [Finset.mem_range] at hi hj
  by_cases hz : a.getD i 0 * b.getD j 0 = 0
  · have hk : ∀ k ∈ Finset.range N,
        (if (i + j) % N = k then a.getD i 0 * b.getD j 0 else 0) * B ^ k = 0 := by
      intro k _
      rw [hz, ite_self, zero_mul]
    rw [Finset.sum_eq_zero hk]
    have hr : a.getD i 0 * B ^ i * (b.getD j 0 * B ^ j)
        = (a.getD i 0 * b.getD j 0) * (B ^ i * B ^ j) := by ring
    rw [hr, hz, zero_mul]
  · have hia : i < a.length := by
      by_contra h
      apply hz
      rw [List.getD_eq_default _ _ (Nat.le_of_not_lt h), zero_mul]
    have hjb : j < b.length := by
      by_contra h
      apply hz
      rw [List.getD_eq_default _ _ (Nat.le_of_not_lt h), mul_zero]
    have hmod : (i + j) % N = i + j := Nat.mod_eq_of_lt (by omega)
    rw [hmod]
    simp only [ite_mul, zero_mul]
    rw [Finset.sum_ite_eq]
    simp only [Finset.mem_range]
    rw [if_pos (by omega)]
    ring

theorem carry_propagate_spec {B : Nat} (hB : 0 < B) : ∀ (xs : List Nat) (c : Nat),
    (carry_propagate B c xs).length = xs.length ∧ limbs_ok B (carry_propagate B c xs) ∧
    ∃ cout, limbs_value B (carry_propagate B c xs) + B ^ xs.length * cout
      = limbs_value B xs + c := by
  intro xs
  induction xs with
  | nil =>
    intro c
    exact ⟨rfl, limbs_ok_nil _, c, by simp [carry_propagate, limbs_value]⟩
  | cons x xs ih =>
    intro c
    obtain ⟨i1, i2, cout, i3⟩ := ih ((x + c) / B)
    have hdm := Nat.div_add_mod (x + c) B
    refine ⟨by simp [carry_propagate, i1],
      by simpa [carry_propagate] using limbs_ok_cons.mpr ⟨Nat.mod_lt _ hB, i2⟩, cout, ?_⟩
    simp only [carry_propagate, limbs_value, List.length_cons, pow_succ]
    linear_combination B * i3 + hdm

end ntt

namespace bi

theorem limbs_value_take_of_lt {B : Nat} (l : List Nat) (m : Nat)
    (hlt : limbs_value B l < B ^ m) (hm : m ≤ l.length) :
    limbs_value B (l.take m) = limbs_value B l := by
  have h := limbs_value_append B (l.take m) (l.drop m)
  rw [List.take_append_drop, List.length_take, Nat.min_eq_left hm] at h
  rcases Nat.eq_zero_or_pos (limbs_value B (l.drop m)) with h0 | h0
  · rw [h0] at h
    omega
  · exfalso
    have : B ^ m * 1 ≤ B ^ m * limbs_value B (l.drop m) := Nat.mul_le_mul_left _ h0
    omega

theorem limbs_ok_take {B : Nat} {l : List Nat} (h : limbs_ok B l) (m : Nat) :
    limbs_ok B (l.take m) := fun x hx => h x (List.mem_of_mem_take hx)

theorem limbs_value_mul_lt {B : Nat} (a b : List Nat) (ha : limbs_ok B a)
    (hb : limbs_ok B b) :
    limbs_value B a * limbs_value B b < B ^ (a.length + b.length) := by
  rw [pow_add]
  exact Nat.mul_lt_mul'' (limbs_value_lt a ha) (limbs_value_lt b hb)

end bi

namespace ntt
open bi

/-- Digits written by the convolution engine for a permitted transform
length `N`. -/
theorem carry_propagate_convolution_spec {B : Nat} (hB : 0 < B) (N : Nat) (a b : List Nat)
    (hN : a.length + b.length ≤ N) (ha : limbs_ok B a) (hb : limbs_ok B b) :
    ((carry_propagate B 0 (cyclic_convolution N a b)).take (a.length + b.length)).length
        = a.length + b.length ∧
    limbs_ok B ((carry_propagate B 0 (cyclic_convolution N a b)).take (a.length + b.length)) ∧
    limbs_value B ((carry_propagate B 0 (cyclic_convolution N a b)).take (a.length + b.length))
      = limbs_value B a * limbs_value B b := by
  obtain ⟨c1, c2, cout, c3⟩ := carry_propagate_spec hB (cyclic_convolution N a b) 0
  have hclen : (cyclic_convolution N a b).length = N := by simp [cyclic_convolution]
  rw [hclen] at c1 c3
  rw [limbs_value_cyclic_convolution B N a b hN, Nat.add_zero] at c3
  have hlt := limbs_value_mul_lt a b ha hb
  have hpow : B ^ (a.length + b.length) ≤ B ^ N := Nat.pow_le_pow_right hB hN
  have hcout : cout = 0 := by
    rcases Nat.eq_zero_or_pos cout with h0 | h0
    · exact h0
    · exfalso
      have : B ^ N * 1 ≤ B ^ N * cout := Nat.mul_le_mul_left _ h0
      omega
  subst hcout
  rw [Nat.mul_zero, Nat.add_zero] at c3
  refine ⟨by rw [List.length_take, c1]; omega, limbs_ok_take c2 _, ?_⟩
  rw [limbs_value_take_of_lt _ _ (by rw [c3]; exact hlt) (by omega), c3]

end ntt

namespace ntt
open bi

theorem BASE32_pos : 0 < BASE32 := by unfold BASE32; positivity

theorem BASE32_eq : BASE32 = 4294967296 := by unfold BASE32; norm_num

end ntt

namespace bi

theorem limbs_value_set (B : Nat) : ∀ (l : List Nat) (k v : Nat), k < l.length →
    limbs_value B (l.set k v) + B ^ k * l.getD k 0 = limbs_value B l + B ^ k * v := by
  intro l
  induction l with
  | nil => intro k v hk; simp at hk
  | cons x xs ih =>
    intro k v hk
    cases k with
    | zero => simp [limbs_value]; ring
    | succ k =>
      have h := ih k v (by simpa using hk)
      simp only [List.set_cons_succ, limbs_value, List.getD_cons_succ, pow_succ]
      linear_combination B * h

theorem limbs_ok_set {B : Nat} {l : List Nat} (h : limbs_ok B l) (k : Nat) {v : Nat}
    (hv : v < B) : limbs_ok B (l.set k v) := by
  intro x hx
  rcases List.mem_or_eq_of_mem_set hx with h1 | h1
  · exact h x h1
  · rw [h1]; exact hv

theorem limbs_ok_getD {B : Nat} {l : List Nat} (h : limbs_ok B l) (hB : 0 < B) (k : Nat) :
    l.getD k 0 < B := by
  by_cases hk : k < l.length
  · rw [List.getD_eq_getElem _ _ hk]
    exact h _ (List.getElem_mem _)
  · rw [List.getD_eq_default _ _ (Nat.le_of_not_lt hk)]
    exact hB

theorem mul_add_add_lt {B a s o c : Nat} (ha : a < B) (hs : s < B) (ho : o < B)
    (hc : c < B) : a * s + o + c < B * B := by
  have h := mul_add_add_div_lt ha hs ho hc
  have hB : 0 < B := by omega
  exact (Nat.div_lt_iff_lt_mul hB).mp h

end bi

namespace ntt
open bi

theorem schoolbook_multiply_row_spec (ai i n : Nat) (hai : ai < BASE32) :
    ∀ (bs : List Nat) (j : Nat) (result : List Nat) (carry : Nat),
    result.length = n → i + j + bs.length ≤ n → limbs_ok BASE32 result →
    limbs_ok BASE32 bs → carry < BASE32 →
    (schoolbook_multiply_row ai i bs j result carry).1.length = n ∧
    limbs_ok BASE32 (schoolbook_multiply_row ai i bs j result carry).1 ∧
    (schoolbook_multiply_row ai i bs j result carry).2 < BASE32 ∧
    limbs_value BASE32 (schoolbook_multiply_row ai i bs j result carry).1
        + BASE32 ^ (i + j + bs.length) * (schoolbook_multiply_row ai i bs j result carry).2
      = limbs_value BASE32 result + BASE32 ^ (i + j) * (ai * limbs_value BASE32 bs + carry) := by
  intro bs
  induction bs with
  | nil =>
    intro j result carry hl _ hok _ hc
    simp [schoolbook_multiply_row, limbs_value, hl, hok, hc]
  | cons bj bs ih =>
    intro j result carry hl hb hok hob hc
    obtain ⟨hbj, hobs⟩ := limbs_ok_cons.mp hob
    simp only [List.length_cons] at hb
    have hr := limbs_ok_getD hok BASE32_pos (i + j)
    have hlt : ai * bj + result.getD (i + j) 0 + carry < BASE32 * BASE32 :=
      mul_add_add_lt hai hbj hr hc
    have h64 : (2 : Nat) ^ 64 = BASE32 * BASE32 := by unfold BASE32; norm_num
    have h32 : (2 : Nat) ^ 32 = BASE32 := rfl
    have hprod : (ai * bj + result.getD (i + j) 0 + carry) % 2 ^ 64
        = ai * bj + result.getD (i + j) 0 + carry := by
      rw [h64]
      exact Nat.mod_eq_of_lt hlt
    simp only [schoolbook_multiply_row, hprod, Nat.shiftRight_eq_div_pow, h32]
    have hc' : (ai * bj + result.getD (i + j) 0 + carry) / BASE32 < BASE32 :=
      (Nat.div_lt_iff_lt_mul BASE32_pos).mpr hlt
    obtain ⟨i1, i2, i3, i4⟩ := ih (j + 1)
      (result.set (i + j) ((ai * bj + result.getD (i + j) 0 + carry) % BASE32))
      ((ai * bj + result.getD (i + j) 0 + carry) / BASE32)
      (by simp [hl]) (by omega) (limbs_ok_set hok _ (Nat.mod_lt _ BASE32_pos)) hobs hc'
    refine ⟨i1, i2, i3, ?_⟩
    have hset := limbs_value_set BASE32 result (i + j)
      ((ai * bj + result.getD (i + j) 0 + carry) % BASE32) (by omega)
    have hdm := Nat.div_add_mod (ai * bj + result.getD (i + j) 0 + carry) BASE32
    have e1 : i + (j + 1) + bs.length = i + j + (bs.length + 1) := by omega
    have e2 : BASE32 ^ (i + (j + 1)) = BASE32 ^ (i + j) * BASE32 := by
      rw [← pow_succ]
      congr 1
    rw [e1, e2] at i4
    simp only [limbs_value, List.length_cons]
    linear_combination i4 + hset + BASE32 ^ (i + j) * hdm

theorem schoolbook_multiply_carry_spec (n : Nat) :
    ∀ (rem k : Nat) (result : List Nat) (carry : Nat),
    result.length = n → k + rem = n → limbs_ok BASE32 result → carry < BASE32 →
    (schoolbook_multiply_carry rem k result carry).length = n ∧
    limbs_ok BASE32 (schoolbook_multiply_carry rem k result carry) ∧
    ∃ k1 c1, (c1 = 0 ∨ k1 = n) ∧
      limbs_value BASE32 (schoolbook_multiply_carry rem k result carry) + BASE32 ^ k1 * c1
        = limbs_value BASE32 result + BASE32 ^ k * carry := by
  intro rem
  induction rem with
  | zero =>
    intro k result carry hl hk hok _
    exact ⟨by simp [schoolbook_multiply_carry, hl], by simpa [schoolbook_multiply_carry] using hok,
      k, carry, Or.inr (by omega), by simp [schoolbook_multiply_carry]⟩
  | succ rem ih =>
    intro k result carry hl hk hok hc
    by_cases hz : carry = 0
    · subst hz
      exact ⟨by simp [schoolbook_multiply_carry, hl],
        by simpa [schoolbook_multiply_carry] using hok,
        k, 0, Or.inl rfl, by simp [schoolbook_multiply_carry]⟩
    · have hr := limbs_ok_getD hok BASE32_pos k
      have h32 : (2 : Nat) ^ 32 = BASE32 := rfl
      have hs : (result.getD k 0 + carry) % 2 ^ 64 = result.getD k 0 + carry := by
        apply Nat.mod_eq_of_lt
        rw [BASE32_eq] at hr hc
        omega
      have hc' : (result.getD k 0 + carry) / BASE32 < BASE32 := by
        rw [BASE32_eq] at hr hc ⊢
        omega
      obtain ⟨i1, i2, k1, c1, i3, i4⟩ := ih (k + 1)
        (result.set k ((result.getD k 0 + carry) % BASE32))
        ((result.getD k 0 + carry) / BASE32)
        (by simp [hl]) (by omega) (limbs_ok_set hok _ (Nat.mod_lt _ BASE32_pos)) hc'
      simp only [schoolbook_multiply_carry, hz, ne_eq, not_false_eq_true, if_true, hs,
        Nat.shiftRight_eq_div_pow, h32]
      refine ⟨i1, i2, k1, c1, i3, ?_⟩
      have hset := limbs_value_set BASE32 result k
        ((result.getD k 0 + carry) % BASE32) (by omega)
      have hdm := Nat.div_add_mod (result.getD k 0 + carry) BASE32
      rw [pow_succ] at i4
      linear_combination i4 + hset + BASE32 ^ k * hdm

end ntt

namespace bi

theorem row_total_lt {B R ai V i m : Nat} (hR : R < B ^ (i + m)) (hai : ai < B)
    (hV : V < B ^ m) : R + B ^ i * (ai * V) < B ^ (i + 1 + m) := by
  have hB : 0 < B := by omega
  have h1 : ai * V ≤ (B - 1) * B ^ m := Nat.mul_le_mul (by omega) (le_of_lt hV)
  have h2 : B ^ i * (ai * V) ≤ B ^ i * ((B - 1) * B ^ m) := Nat.mul_le_mul_left _ h1
  have h3 : B ^ (i + 1 + m) = B ^ (i + m) + B ^ i * ((B - 1) * B ^ m) := by
    obtain ⟨k, rfl⟩ : ∃ k, B = k + 1 := ⟨B - 1, by omega⟩
    simp only [Nat.add_sub_cancel]
    ring
  omega

end bi

namespace ntt
open bi

theorem schoolbook_multiply_rows_spec (b : List Nat) (n : Nat) (hob : limbs_ok BASE32 b) :
    ∀ (as : List Nat) (i : Nat) (result : List Nat),
    result.length = n → i + as.length + b.length = n → limbs_ok BASE32 result →
    limbs_ok BASE32 as → limbs_value BASE32 result < BASE32 ^ (i + b.length) →
    (schoolbook_multiply_rows b n as i result).length = n ∧
    limbs_ok BASE32 (schoolbook_multiply_rows b n as i result) ∧
    limbs_value BASE32 (schoolbook_multiply_rows b n as i result)
      = limbs_value BASE32 result
        + BASE32 ^ i * (limbs_value BASE32 as * limbs_value BASE32 b) := by
  intro as
  induction as with
  | nil =>
    intro i result hl _ hok _ _
    simp [schoolbook_multiply_rows, limbs_value, hl, hok]
  | cons ai as ih =>
    intro i result hl hi hok hoa hlt
    obtain ⟨hai, hoas⟩ := limbs_ok_cons.mp hoa
    simp only [List.length_cons] at hi
    obtain ⟨r1, r2, r3, r4⟩ := schoolbook_multiply_row_spec ai i n hai b 0 result 0 hl
      (by omega) hok hob BASE32_pos
    obtain ⟨c1, c2, k1, e1, c3, c4⟩ := schoolbook_multiply_carry_spec n
      (n - (i + b.length)) (i + b.length) (schoolbook_multiply_row ai i b 0 result 0).1
      (schoolbook_multiply_row ai i b 0 result 0).2 r1 (by omega) r2 r3
    simp only [Nat.add_zero] at r4
    have htot := row_total_lt hlt hai (limbs_value_lt b hob)
    have hpow : BASE32 ^ (i + 1 + b.length) ≤ BASE32 ^ n :=
      Nat.pow_le_pow_right BASE32_pos (by omega)
    have he1 : BASE32 ^ k1 * e1 = 0 := by
      rcases c3 with h0 | h0
      · rw [h0, Nat.mul_zero]
      · subst h0
        rcases Nat.eq_zero_or_pos e1 with h1 | h1
        · rw [h1, Nat.mul_zero]
        · exfalso
          have : BASE32 ^ (result.length) * 1 ≤ BASE32 ^ (result.length) * e1 :=
            Nat.mul_le_mul_left _ h1
          rw [← hl] at c4 hpow
          omega
    rw [he1, Nat.add_zero] at c4
    obtain ⟨i1, i2, i3⟩ := ih (i + 1) _ c1 (by omega) c2 hoas (by rw [c4, r4]; exact htot)
    simp only [schoolbook_multiply_rows]
    refine ⟨i1, i2, ?_⟩
    rw [i3, c4, r4]
    simp only [limbs_value, pow_succ]
    ring

theorem schoolbook_multiply_raw_spec (a b : List Nat) (hoa : limbs_ok BASE32 a)
    (hob : limbs_ok BASE32 b) :
    (schoolbook_multiply_raw a b).length = a.length + b.length ∧
    limbs_ok BASE32 (schoolbook_multiply_raw a b) ∧
    limbs_value BASE32 (schoolbook_multiply_raw a b)
      = limbs_value BASE32 a * limbs_value BASE32 b := by
  have h := schoolbook_multiply_rows_spec b (a.length + b.length) hob a 0
    (List.replicate (a.length + b.length) 0) (by simp) (by omega)
    (limbs_ok_replicate_zero BASE32_pos _) hoa
    (by rw [limbs_value_replicate_zero]; exact Nat.pos_pow_of_pos _ BASE32_pos)
  rw [limbs_value_replicate_zero] at h
  simpa [schoolbook_multiply_raw] using h

end ntt

namespace bi

theorem limbs_value_getD_le (B : Nat) (l : List Nat) (k : Nat) :
    B ^ k * l.getD k 0 ≤ limbs_value B l := by
  by_cases hk : k < l.length
  · have h := limbs_value_set B l k 0 hk
    omega
  · rw [List.getD_eq_default _ _ (Nat.le_of_not_lt hk)]
    simp

end bi

namespace ntt
open bi

theorem schoolbook_mul_row_spec (ai i n : Nat) (hai : ai < BASE64) :
    ∀ (bs : List Nat) (j : Nat) (out : List Nat) (carry : Nat),
    out.length = n → i + j + bs.length ≤ n → limbs_ok BASE64 out →
    limbs_ok BASE64 bs → carry < BASE64 →
    (schoolbook_mul_row ai i n bs j out carry).1.length = n ∧
    limbs_ok BASE64 (schoolbook_mul_row ai i n bs j out carry).1 ∧
    (schoolbook_mul_row ai i n bs j out carry).2 < BASE64 ∧
    limbs_value BASE64 (schoolbook_mul_row ai i n bs j out carry).1
        + BASE64 ^ (i + j + bs.length) * (schoolbook_mul_row ai i n bs j out carry).2
      = limbs_value BASE64 out + BASE64 ^ (i + j) * (ai * limbs_value BASE64 bs + carry) := by
  intro bs
  induction bs with
  | nil =>
    intro j out carry hl _ hok _ hc
    simp [schoolbook_mul_row, limbs_value, hl, hok, hc]
  | cons bj bs ih =>
    intro j out carry hl hb hok hob hc
    obtain ⟨hbj, hobs⟩ := limbs_ok_cons.mp hob
    simp only [List.length_cons] at hb
    have hr := limbs_ok_getD hok BASE64_pos (i + j)
    have hlt : ai * bj + out.getD (i + j) 0 + carry < BASE64 * BASE64 :=
      mul_add_add_lt hai hbj hr hc
    have h128 : (2 : Nat) ^ 128 = BASE64 * BASE64 := by unfold BASE64; norm_num
    have h64 : (2 : Nat) ^ 64 = BASE64 := rfl
    have hprod : (ai * bj + out.getD (i + j) 0 + carry) % 2 ^ 128
        = ai * bj + out.getD (i + j) 0 + carry := by
      rw [h128]
      exact Nat.mod_eq_of_lt hlt
    have hg : i + j < n := by omega
    simp only [schoolbook_mul_row, hg, if_true, hprod, Nat.shiftRight_eq_div_pow, h64]
    have hc' : (ai * bj + out.getD (i + j) 0 + carry) / BASE64 < BASE64 :=
      (Nat.div_lt_iff_lt_mul BASE64_pos).mpr hlt
    obtain ⟨i1, i2, i3, i4⟩ := ih (j + 1)
      (out.set (i + j) ((ai * bj + out.getD (i + j) 0 + carry) % BASE64))
      ((ai * bj + out.getD (i + j) 0 + carry) / BASE64)
      (by simp [hl]) (by omega) (limbs_ok_set hok _ (Nat.mod_lt _ BASE64_pos)) hobs hc'
    refine ⟨i1, i2, i3, ?_⟩
    have hset := limbs_value_set BASE64 out (i + j)
      ((ai * bj + out.getD (i + j) 0 + carry) % BASE64) (by omega)
    have hdm := Nat.div_add_mod (ai * bj + out.getD (i + j) 0 + carry) BASE64
    have e1 : i + (j + 1) + bs.length = i + j + (bs.length + 1) := by omega
    have e2 : BASE64 ^ (i + (j + 1)) = BASE64 ^ (i + j) * BASE64 := by
      rw [← pow_succ]
      congr 1
    rw [e1, e2] at i4
    simp only [limbs_value, List.length_cons]
    linear_combination i4 + hset + BASE64 ^ (i + j) * hdm

theorem schoolbook_mul_rows_spec (b : List Nat) (n : Nat) (hob : limbs_ok BASE64 b) :
    ∀ (as : List Nat) (i : Nat) (out : List Nat),
    out.length = n → i + as.length + b.length = n → limbs_ok BASE64 out →
    limbs_ok BASE64 as → limbs_value BASE64 out < BASE64 ^ (i + b.length) →
    (schoolbook_mul_rows b b.length n as i out).length = n ∧
    limbs_ok BASE64 (schoolbook_mul_rows b b.length n as i out) ∧
    limbs_value BASE64 (schoolbook_mul_rows b b.length n as i out)
      = limbs_value BASE64 out
        + BASE64 ^ i * (limbs_value BASE64 as * limbs_value BASE64 b) := by
  intro as
  induction as with
  | nil =>
    intro i out hl _ hok _ _
    simp [schoolbook_mul_rows, limbs_value, hl, hok]
  | cons ai as ih =>
    intro i out hl hi hok hoa hlt
    obtain ⟨hai, hoas⟩ := limbs_ok_cons.mp hoa
    simp only [List.length_cons] at hi
    obtain ⟨r1, r2, r3, r4⟩ := schoolbook_mul_row_spec ai i n hai b 0 out 0 hl
      (by omega) hok hob BASE64_pos
    simp only [Nat.add_zero] at r4
    have htot := row_total_lt hlt hai (limbs_value_lt b hob)
    have hg : i + b.length < n := by omega
    simp only [schoolbook_mul_rows, hg, if_true]
    generalize schoolbook_mul_row ai i n b 0 out 0 = r at r1 r2 r3 r4 ⊢
    have hle := limbs_value_getD_le BASE64 r.1 (i + b.length)
    have hsum : r.1.getD (i + b.length) 0 + r.2 < BASE64 := by
      have h1 : BASE64 ^ (i + b.length) * (r.1.getD (i + b.length) 0 + r.2)
          < BASE64 ^ (i + b.length) * BASE64 := by
        have e : BASE64 ^ (i + 1 + b.length) = BASE64 ^ (i + b.length) * BASE64 := by
          rw [← pow_succ]
          congr 1
          omega
        rw [← e, Nat.mul_add]
        omega
      exact Nat.lt_of_mul_lt_mul_left h1
    have h64 : (2 : Nat) ^ 64 = BASE64 := rfl
    rw [h64, Nat.mod_eq_of_lt hsum]
    have hset := limbs_value_set BASE64 r.1 (i + b.length)
      (r.1.getD (i + b.length) 0 + r.2) (by omega)
    have hv : limbs_value BASE64 (r.1.set (i + b.length) (r.1.getD (i + b.length) 0 + r.2))
        = limbs_value BASE64 out + BASE64 ^ i * (ai * limbs_value BASE64 b) := by
      rw [Nat.mul_add] at hset
      omega
    obtain ⟨i1, i2, i3⟩ := ih (i + 1)
      (r.1.set (i + b.length) (r.1.getD (i + b.length) 0 + r.2))
      (by simp [r1]) (by omega) (limbs_ok_set r2 _ hsum) hoas (by rw [hv]; exact htot)
    refine ⟨i1, i2, ?_⟩
    rw [i3, hv]
    simp only [limbs_value, pow_succ]
    ring

theorem schoolbook_mul_spec (a b : List Nat) (hoa : limbs_ok BASE64 a)
    (hob : limbs_ok BASE64 b) :
    (schoolbook_mul (a.length + b.length) a a.length b b.length).length
        = a.length + b.length ∧
    limbs_ok BASE64 (schoolbook_mul (a.length + b.length) a a.length b b.length) ∧
    limbs_value BASE64 (schoolbook_mul (a.length + b.length) a a.length b b.length)
      = limbs_value BASE64 a * limbs_value BASE64 b := by
  have h := schoolbook_mul_rows_spec b (a.length + b.length) hob a 0
    (List.replicate (a.length + b.length) 0) (by simp) (by omega)
    (limbs_ok_replicate_zero BASE64_pos _) hoa
    (by rw [limbs_value_replicate_zero]; exact Nat.pos_pow_of_pos _ BASE64_pos)
  rw [limbs_value_replicate_zero] at h
  simpa [schoolbook_mul] using h

end ntt

namespace ntt
open bi

theorem ntt_multiply_spec {B : Nat} (hB : 0 < B) (a b : List Nat)
    (hcap : a.length + b.length ≤ 25165824) (hoa : limbs_ok B a) (hob : limbs_ok B b) :
    ∃ result, ntt_multiply B (a.length + b.length) a a.length b b.length = some result ∧
      result.length = a.length + b.length ∧ limbs_ok B result ∧
      limbs_value B result = limbs_value B a * limbs_value B b := by
  obtain ⟨N, hN, hle⟩ := ceil_smooth_exists (a.length + b.length) hcap
  obtain ⟨c1, c2, c3⟩ := carry_propagate_convolution_spec hB N a b hle hoa hob
  refine ⟨_, ?_, c1, c2, c3⟩
  unfold ntt_multiply
  rw [hN]
  simp only [List.take_length]

theorem ntt_multiply_over_cap (B out_len : Nat) (a b : List Nat) (na nb : Nat)
    (h : ceil_smooth (na + nb) = none) : ntt_multiply B out_len a na b nb = none := by
  unfold ntt_multiply
  rw [h]

/-- Within the largest permitted transform length the engine agrees with the
reference: for non-empty arrays `a` (`na` limbs) and `b` (`nb` limbs) of 32-bit
limbs with `na + nb ≤ 25165824`, `big_multiply(result, na+nb, a, na, b, nb)`
leaves in `result[0..na+nb)` the little-endian base-`2^32` digits of
`value(a) * value(b)`, and after trimming the most significant zero limbs the
result equals `schoolbook_multiply(a, b)`. -/
theorem big_multiply_eq_schoolbook (a b : List Nat) (na nb : Nat)
    (ha : a.length = na) (hb : b.length = nb) (hna : 1 ≤ na) (hnb : 1 ≤ nb)
    (hcap : na + nb ≤ 25165824) (hoa : limbs_ok BASE32 a) (hob : limbs_ok BASE32 b) :
    ∃ result, big_multiply (na + nb) a na b nb = some result ∧
      result.length = na + nb ∧ limbs_ok BASE32 result ∧
      limbs_value BASE32 result = limbs_value BASE32 a * limbs_value BASE32 b ∧
      trim result = schoolbook_multiply a b := by
  subst ha hb
  obtain ⟨result, h1, h2, h3, h4⟩ := ntt_multiply_spec BASE32_pos a b hcap hoa hob
  obtain ⟨s1, s2, s3⟩ := schoolbook_multiply_raw_spec a b hoa hob
  refine ⟨result, h1, h2, h3, h4, ?_⟩
  have heq : result = schoolbook_multiply_raw a b :=
    limbs_eq_of_value_eq _ _ (by rw [h2, s1]) h3 s2 (by rw [h4, s3])
  have hae : a.isEmpty = false := by
    cases a with
    | nil => simp at hna
    | cons _ _ => rfl
  have hbe : b.isEmpty = false := by
    cases b with
    | nil => simp at hnb
    | cons _ _ => rfl
  unfold schoolbook_multiply
  simp [hae, hbe, heq]

theorem big_multiply_eq_schoolbook_witness :
    ∃ result, big_multiply (2 + 1) [4294967295, 4294967295] 2 [4294967295] 1 = some result ∧
      result.length = 2 + 1 ∧ limbs_ok BASE32 result ∧
      limbs_value BASE32 result
        = limbs_value BASE32 [4294967295, 4294967295] * limbs_value BASE32 [4294967295] ∧
      trim result = schoolbook_multiply [4294967295, 4294967295] [4294967295] :=
  big_multiply_eq_schoolbook [4294967295, 4294967295] [4294967295] 2 1 rfl rfl
    (by decide) (by decide) (by decide) (by decide) (by decide)

end ntt

namespace bi

theorem normalized_nil : normalized [] := by
  unfold normalized
  simp

theorem normalized_cons_cons {x y : Nat} {l : List Nat} :
    normalized (x :: y :: l) ↔ normalized (y :: l) := by
  unfold normalized
  rw [List.getLast?_cons_cons]

theorem normalized_singleton {x : Nat} : normalized [x] ↔ x ≠ 0 := by
  unfold normalized
  simp

theorem normalize_value (B : Nat) (l : List Nat) :
    limbs_value B (normalize l) = limbs_value B l := by
  induction l with
  | nil => rfl
  | cons x xs ih =>
    simp only [normalize]
    cases h : normalize xs with
    | nil =>
      rw [h] at ih
      simp only [limbs_value] at ih ⊢
      by_cases hx : x = 0
      · simp [hx, limbs_value, ← ih]
      · simp [hx, limbs_value, ← ih]
    | cons y ys =>
      rw [h] at ih
      simp only [limbs_value] at ih ⊢
      rw [ih]

theorem normalize_ok {B : Nat} (l : List Nat) (h : limbs_ok B l) :
    limbs_ok B (normalize l) := by
  induction l with
  | nil => exact h
  | cons x xs ih =>
    obtain ⟨hx, hxs⟩ := limbs_ok_cons.mp h
    have ih' := ih hxs
    simp only [normalize]
    cases h' : normalize xs with
    | nil =>
      by_cases hx0 : x = 0
      · simp [hx0, limbs_ok_nil]
      · simp only [hx0, if_false]
        exact limbs_ok_cons.mpr ⟨hx, limbs_ok_nil _⟩
    | cons y ys =>
      rw [h'] at ih'
      exact limbs_ok_cons.mpr ⟨hx, ih'⟩

theorem normalize_normalized (l : List Nat) : normalized (normalize l) := by
  induction l with
  | nil => exact normalized_nil
  | cons x xs ih =>
    simp only [normalize]
    cases h : normalize xs with
    | nil =>
      by_cases hx0 : x = 0
      · simp [hx0, normalized_nil]
      · simp only [hx0, if_false]
        exact normalized_singleton.mpr hx0
    | cons y ys =>
      rw [h] at ih
      exact normalized_cons_cons.mpr ih

theorem normalize_length_le (l : List Nat) : (normalize l).length ≤ l.length := by
  induction l with
  | nil => simp [normalize]
  | cons x xs ih =>
    simp only [normalize]
    cases h : normalize xs with
    | nil =>
      by_cases hx0 : x = 0
      · simp [hx0]
      · simp [hx0]
    | cons y ys =>
      rw [h] at ih
      simpa using ih

theorem normalize_of_normalized : ∀ (l : List Nat), normalized l → normalize l = l := by
  intro l
  induction l with
  | nil => intro _; rfl
  | cons x xs ih =>
    intro h
    cases xs with
    | nil =>
      have hx := normalized_singleton.mp h
      simp [normalize, hx]
    | cons y ys =>
      have h' := ih (normalized_cons_cons.mp h)
      simp only [normalize] at h' ⊢
      rw [h']

/-- A nonempty normalized magnitude of `n` limbs is at least `B^(n-1)`. -/
theorem normalized_value_ge (B : Nat) : ∀ (l : List Nat), l ≠ [] → normalized l →
    B ^ (l.length - 1) ≤ limbs_value B l := by
  intro l
  induction l with
  | nil => intro h; exact absurd rfl h
  | cons x xs ih =>
    intro _ hn
    cases xs with
    | nil =>
      have hx := normalized_singleton.mp hn
      simp only [List.length_cons, List.length_nil, limbs_value]
      simp
      omega
    | cons y ys =>
      have h' := ih (by simp) (normalized_cons_cons.mp hn)
      simp only [List.length_cons, limbs_value, Nat.add_sub_cancel] at h' ⊢
      have : B * B ^ ys.length ≤ B * (y + B * limbs_value B ys) := Nat.mul_le_mul_left _ h'
      rw [pow_succ]
      calc B ^ ys.length * B = B * B ^ ys.length := by ring
        _ ≤ B * (y + B * limbs_value B ys) := this
        _ ≤ x + B * (y + B * limbs_value B ys) := by omega

/-- A limb array whose value reaches `B^(n-1)` has a nonzero top limb. -/
theorem normalized_of_value_ge {B : Nat} : ∀ (l : List Nat), limbs_ok B l →
    B ^ (l.length - 1) ≤ limbs_value B l → l ≠ [] → normalized l := by
  intro l
  induction l with
  | nil => intro _ _ h; exact absurd rfl h
  | cons x xs ih =>
    intro hok hge _
    obtain ⟨hx, hxs⟩ := limbs_ok_cons.mp hok
    cases xs with
    | nil =>
      simp only [List.length_cons, List.length_nil, limbs_value] at hge
      simp at hge
      exact normalized_singleton.mpr (by omega)
    | cons y ys =>
      apply normalized_cons_cons.mpr
      apply ih hxs _ (by simp)
      simp only [List.length_cons, limbs_value, Nat.add_sub_cancel] at hge ⊢
      rw [pow_succ] at hge
      by_contra hlt
      have hlt' : y + B * limbs_value B ys + 1 ≤ B ^ ys.length := by omega
      have : B * (y + B * limbs_value B ys + 1) ≤ B * B ^ ys.length :=
        Nat.mul_le_mul_left _ hlt'
      have e : B ^ ys.length * B = B * B ^ ys.length := by ring
      rw [e] at hge
      have e2 : B * (y + B * limbs_value B ys + 1) = B * (y + B * limbs_value B ys) + B := by
        ring
      omega

theorem normalized_value_pos {B : Nat} (hB : 0 < B) (l : List Nat) (hne : l ≠ [])
    (hn : normalized l) : 0 < limbs_value B l :=
  lt_of_lt_of_le (Nat.pos_pow_of_pos _ hB) (normalized_value_ge B l hne hn)

theorem normalized_eq_nil_iff {B : Nat} (hB : 0 < B) (l : List Nat) (hn : normalized l) :
    l = [] ↔ limbs_value B l = 0 := by
  constructor
  · intro h
    subst h
    rfl
  · intro h
    by_contra hne
    have := normalized_value_pos hB l hne hn
    omega

/-- Normalized magnitudes with the same value are the same limb array. -/
theorem normalized_eq_of_value_eq {B : Nat} (hB : 0 < B) (l1 l2 : List Nat)
    (h1 : limbs_ok B l1) (h2 : limbs_ok B l2) (n1 : normalized l1) (n2 : normalized l2)
    (hv : limbs_value B l1 = limbs_value B l2) : l1 = l2 := by
  by_cases e1 : l1 = []
  · have : limbs_value B l2 = 0 := by rw [← hv, e1]; rfl
    rw [e1, (normalized_eq_nil_iff hB l2 n2).mpr this]
  · by_cases e2 : l2 = []
    · have : limbs_value B l1 = 0 := by rw [hv, e2]; rfl
      exact absurd ((normalized_eq_nil_iff hB l1 n1).mpr this) e1
    · have g1 := normalized_value_ge B l1 e1 n1
      have g2 := normalized_value_ge B l2 e2 n2
      have u1 := limbs_value_lt l1 h1
      have u2 := limbs_value_lt l2 h2
      have hlen : l1.length = l2.length := by
        by_contra hne
        rcases Nat.lt_or_gt_of_ne hne with h | h
        · have : B ^ l1.length ≤ B ^ (l2.length - 1) := Nat.pow_le_pow_right hB (by omega)
          omega
        · have : B ^ l2.length ≤ B ^ (l1.length - 1) := Nat.pow_le_pow_right hB (by omega)
          omega
      exact limbs_eq_of_value_eq l1 l2 hlen h1 h2 hv

theorem normalized_length_le {B : Nat} (hB : 1 < B) (l1 l2 : List Nat)
    (h2 : limbs_ok B l2) (n1 : normalized l1)
    (hv : limbs_value B l1 ≤ limbs_value B l2) : l1.length ≤ l2.length := by
  by_cases e1 : l1 = []
  · simp [e1]
  · have g1 := normalized_value_ge B l1 e1 n1
    have u2 := limbs_value_lt l2 h2
    by_contra hlt
    have : B ^ l2.length ≤ B ^ (l1.length - 1) := Nat.pow_le_pow_right (by omega) (by omega)
    omega

end bi

namespace bi

theorem BASE64_gt_one : 1 < BASE64 := by rw [BASE64_eq]; omega

theorem limbs_value_take_drop (B : Nat) (l : List Nat) (n : Nat) (hn : n ≤ l.length) :
    limbs_value B l = limbs_value B (l.take n) + B ^ n * limbs_value B (l.drop n) := by
  have h := limbs_value_append B (l.take n) (l.drop n)
  rw [List.take_append_drop, List.length_take, Nat.min_eq_left hn] at h
  exact h

theorem limbs_ok_drop {B : Nat} {l : List Nat} (h : limbs_ok B l) (m : Nat) :
    limbs_ok B (l.drop m) := fun x hx => h x (List.mem_of_mem_drop hx)

theorem mpn_add_n_loop_take : ∀ (n : Nat) (a b : List Nat) (c : Nat), b.length = n →
    mpn_add_n_loop c n a b = mpn_add_n_loop c n (a.take n) b := by
  intro n
  induction n with
  | zero => intro a b c _; cases a <;> simp [mpn_add_n_loop]
  | succ n ih =>
    intro a b c hb
    obtain ⟨y, bs, rfl⟩ := List.exists_cons_of_length_eq_add_one hb
    cases a with
    | nil => simp [mpn_add_n_loop]
    | cons x as =>
      simp only [mpn_add_n_loop, List.take_succ_cons]
      rw [ih as bs _ (by simpa using hb)]

theorem mpn_sub_n_loop_take : ∀ (n : Nat) (a b : List Nat) (c : Nat), b.length = n →
    mpn_sub_n_loop c n a b = mpn_sub_n_loop c n (a.take n) b := by
  intro n
  induction n with
  | zero => intro a b c _; cases a <;> simp [mpn_sub_n_loop]
  | succ n ih =>
    intro a b c hb
    obtain ⟨y, bs, rfl⟩ := List.exists_cons_of_length_eq_add_one hb
    cases a with
    | nil => simp [mpn_sub_n_loop]
    | cons x as =>
      simp only [mpn_sub_n_loop, List.take_succ_cons]
      rw [ih as bs _ (by simpa using hb)]

theorem mpn_add_1_loop_spec : ∀ (n : Nat) (a : List Nat) (c : Nat),
    a.length = n → limbs_ok BASE64 a → c ≤ 1 →
    (mpn_add_1_loop c n a).1.length = n ∧ limbs_ok BASE64 (mpn_add_1_loop c n a).1 ∧
    (mpn_add_1_loop c n a).2 ≤ 1 ∧
    limbs_value BASE64 (mpn_add_1_loop c n a).1 + BASE64 ^ n * (mpn_add_1_loop c n a).2
      = limbs_value BASE64 a + c := by
  intro n
  induction n with
  | zero =>
    intro a c ha _ hc
    have ha' : a = [] := List.length_eq_zero.mp ha
    subst ha'
    simp [mpn_add_1_loop, limbs_value, limbs_ok_nil, hc]
  | succ n ih =>
    intro a c ha hoa hc
    obtain ⟨x, as, rfl⟩ := List.exists_cons_of_length_eq_add_one ha
    obtain ⟨hx, hoas⟩ := limbs_ok_cons.mp hoa
    have hc' : (x + c) / BASE64 ≤ 1 := by
      rw [BASE64_eq] at *
      omega
    obtain ⟨i1, i2, i3, i4⟩ := ih as _ (by simpa using ha) hoas hc'
    have hdm := Nat.div_add_mod (x + c) BASE64
    simp only [mpn_add_1_loop, limbs_value]
    refine ⟨by simp [i1], limbs_ok_cons.mpr ⟨Nat.mod_lt _ BASE64_pos, i2⟩, i3, ?_⟩
    linear_combination BASE64 * i4 + hdm

theorem mpn_sub_1_loop_spec : ∀ (n : Nat) (a : List Nat) (bw : Nat),
    a.length = n → limbs_ok BASE64 a → bw ≤ 1 →
    (mpn_sub_1_loop bw n a).1.length = n ∧ limbs_ok BASE64 (mpn_sub_1_loop bw n a).1 ∧
    (mpn_sub_1_loop bw n a).2 ≤ 1 ∧
    limbs_value BASE64 (mpn_sub_1_loop bw n a).1 + bw
      = limbs_value BASE64 a + BASE64 ^ n * (mpn_sub_1_loop bw n a).2 := by
  intro n
  induction n with
  | zero =>
    intro a c ha _ hc
    have ha' : a = [] := List.length_eq_zero.mp ha
    subst ha'
    simp [mpn_sub_1_loop, limbs_value, limbs_ok_nil, hc]
  | succ n ih =>
    intro a c ha hoa hc
    obtain ⟨x, as, rfl⟩ := List.exists_cons_of_length_eq_add_one ha
    obtain ⟨hx, hoas⟩ := limbs_ok_cons.mp hoa
    have hstep : (x + BASE64 - c) % BASE64 + c = x + BASE64 * (if x < c then 1 else 0) ∧
        (if x < c then 1 else 0) ≤ 1 := by
      rw [BASE64_eq] at *
      split_ifs <;> omega
    obtain ⟨i1, i2, i3, i4⟩ := ih as _ (by simpa using ha) hoas hstep.2
    simp only [mpn_sub_1_loop, limbs_value]
    refine ⟨by simp [i1], limbs_ok_cons.mpr ⟨Nat.mod_lt _ BASE64_pos, i2⟩, i3, ?_⟩
    linear_combination BASE64 * i4 + hstep.1

theorem mag_add_ordered_spec (a b : List Nat) (hlen : b.length ≤ a.length)
    (hoa : limbs_ok BASE64 a) (hob : limbs_ok BASE64 b) (hna : normalized a) :
    limbs_ok BASE64 (mag_add_ordered a b) ∧ normalized (mag_add_ordered a b) ∧
    limbs_value BASE64 (mag_add_ordered a b) = limbs_value BASE64 a + limbs_value BASE64 b := by
  have htl : (a.take b.length).length = b.length := by
    rw [List.length_take, Nat.min_eq_left hlen]
  have hdl : (a.drop b.length).length = a.length - b.length := List.length_drop _ _
  have lv := mpn_add_n_loop_spec b.length (a.take b.length) b 0 htl rfl
  obtain ⟨ll, lok, lc⟩ := mpn_add_n_loop_shape b.length (a.take b.length) b 0 htl rfl
    (limbs_ok_take hoa _) hob (Nat.zero_le _)
  rw [← mpn_add_n_loop_take b.length a b 0 rfl] at lv ll lok lc
  obtain ⟨hl, hok, hc, hv⟩ := mpn_add_1_loop_spec (a.length - b.length) (a.drop b.length)
    (mpn_add_n_loop 0 b.length a b).2 hdl (limbs_ok_drop hoa _) lc
  have hsplit := limbs_value_take_drop BASE64 a b.length hlen
  have hpow : BASE64 ^ a.length = BASE64 ^ b.length * BASE64 ^ (a.length - b.length) := by
    rw [← pow_add]
    congr 1
    omega
  unfold mag_add_ordered mpn_add_n mpn_add_1
  simp only
  generalize mpn_add_n_loop 0 b.length a b = lo at lv ll lok lc hl hok hc hv ⊢
  generalize mpn_add_1_loop lo.2 (a.length - b.length) (List.drop b.length a) = hi
    at hl hok hc hv ⊢
  have hval : limbs_value BASE64 (lo.1 ++ hi.1 ++ if hi.2 ≠ 0 then [hi.2] else [])
      = limbs_value BASE64 a + limbs_value BASE64 b := by
    rw [limbs_value_append, limbs_value_append, List.length_append, ll, hl]
    have e : b.length + (a.length - b.length) = a.length := by omega
    rw [e]
    have htop : limbs_value BASE64 (if hi.2 ≠ 0 then [hi.2] else []) = hi.2 := by
      by_cases h0 : hi.2 = 0
      · simp [h0, limbs_value]
      · simp [h0, limbs_value]
    rw [htop, hpow]
    linear_combination lv + BASE64 ^ b.length * hv - hsplit
  have hokr : limbs_ok BASE64 (lo.1 ++ hi.1 ++ if hi.2 ≠ 0 then [hi.2] else []) := by
    refine limbs_ok_append.mpr ⟨limbs_ok_append.mpr ⟨lok, hok⟩, ?_⟩
    by_cases h0 : hi.2 = 0
    · simp [h0, limbs_ok_nil]
    · simp only [h0, ne_eq, not_false_eq_true, if_true]
      exact limbs_ok_cons.mpr ⟨by have := BASE64_gt_one; omega, limbs_ok_nil _⟩
  refine ⟨hokr, ?_, hval⟩
  by_cases hne : (lo.1 ++ hi.1 ++ if hi.2 ≠ 0 then [hi.2] else []) = []
  · rw [hne]
    exact normalized_nil
  · apply normalized_of_value_ge _ hokr _ hne
    rw [hval]
    by_cases h0 : hi.2 = 0
    · have hlen' : (lo.1 ++ hi.1 ++ if hi.2 ≠ 0 then [hi.2] else []).length = a.length := by
        simp [h0, ll, hl]
        omega
      rw [hlen']
      have hane : a ≠ [] := by
        intro ha
        apply hne
        have : (lo.1 ++ hi.1 ++ if hi.2 ≠ 0 then [hi.2] else []).length = 0 := by
          rw [hlen', ha]
          rfl
        exact List.length_eq_zero.mp this
      have := normalized_value_ge BASE64 a hane hna
      omega
    · have hlen' : (lo.1 ++ hi.1 ++ if hi.2 ≠ 0 then [hi.2] else []).length
          = a.length + 1 := by
        simp [h0, ll, hl]
        omega
      rw [hlen', Nat.add_sub_cancel, ← hval, limbs_value_append, List.length_append, ll, hl]
      have e : b.length + (a.length - b.length) = a.length := by omega
      rw [e]
      simp only [h0, ne_eq, not_false_eq_true, if_true, limbs_value, Nat.mul_zero, Nat.add_zero]
      have h1 : BASE64 ^ a.length * 1 ≤ BASE64 ^ a.length * hi.2 :=
        Nat.mul_le_mul_left _ (by omega)
      omega

theorem mag_add_spec (a b : List Nat) (hoa : limbs_ok BASE64 a) (hob : limbs_ok BASE64 b)
    (hna : normalized a) (hnb : normalized b) :
    limbs_ok BASE64 (mag_add a b) ∧ normalized (mag_add a b) ∧
    limbs_value BASE64 (mag_add a b) = limbs_value BASE64 a + limbs_value BASE64 b := by
  unfold mag_add
  by_cases h : a.length < b.length
  · simp only [h, if_true]
    have := mag_add_ordered_spec b a (by omega) hob hoa hnb
    rw [Nat.add_comm (limbs_value BASE64 a)]
    exact this
  · simp only [h, if_false]
    exact mag_add_ordered_spec a b (by omega) hoa hob hna

theorem mag_sub_spec (a b : List Nat) (hlen : b.length ≤ a.length)
    (hoa : limbs_ok BASE64 a) (hob : limbs_ok BASE64 b)
    (hle : limbs_value BASE64 b ≤ limbs_value BASE64 a) :
    limbs_ok BASE64 (mag_sub a b) ∧ normalized (mag_sub a b) ∧
    limbs_value BASE64 (mag_sub a b) + limbs_value BASE64 b = limbs_value BASE64 a := by
  have htl : (a.take b.length).length = b.length := by
    rw [List.length_take, Nat.min_eq_left hlen]
  have hdl : (a.drop b.length).length = a.length - b.length := List.length_drop _ _
  obtain ⟨lv, ll, lok, lc⟩ := mpn_sub_n_loop_spec b.length (a.take b.length) b 0 htl rfl
    (limbs_ok_take hoa _) hob (Nat.zero_le _)
  rw [← mpn_sub_n_loop_take b.length a b 0 rfl] at lv ll lok lc
  obtain ⟨hl, hok, hc, hv⟩ := mpn_sub_1_loop_spec (a.length - b.length) (a.drop b.length)
    (mpn_sub_n_loop 0 b.length a b).2 hdl (limbs_ok_drop hoa _) lc
  have hsplit := limbs_value_take_drop BASE64 a b.length hlen
  have hpow : BASE64 ^ a.length = BASE64 ^ b.length * BASE64 ^ (a.length - b.length) := by
    rw [← pow_add]
    congr 1
    omega
  unfold mag_sub mpn_sub_n mpn_sub_1
  simp only
  generalize mpn_sub_n_loop 0 b.length a b = lo at lv ll lok lc hl hok hc hv ⊢
  generalize mpn_sub_1_loop lo.2 (a.length - b.length) (List.drop b.length a) = hi
    at hl hok hc hv ⊢
  have hokr : limbs_ok BASE64 (lo.1 ++ hi.1) := limbs_ok_append.mpr ⟨lok, hok⟩
  have hval : limbs_value BASE64 (lo.1 ++ hi.1) + limbs_value BASE64 b
      = limbs_value BASE64 a + BASE64 ^ a.length * hi.2 := by
    rw [limbs_value_append, ll, hpow]
    linear_combination lv + BASE64 ^ b.length * hv - hsplit
  have hlt := limbs_value_lt (lo.1 ++ hi.1) hokr
  have hlenr : (lo.1 ++ hi.1).length = a.length := by
    rw [List.length_append, ll, hl]
    omega
  rw [hlenr] at hlt
  have hz : hi.2 = 0 := by
    rcases Nat.eq_zero_or_pos hi.2 with h0 | h0
    · exact h0
    · exfalso
      have : BASE64 ^ a.length * 1 ≤ BASE64 ^ a.length * hi.2 := Nat.mul_le_mul_left _ h0
      omega
  rw [hz, Nat.mul_zero, Nat.add_zero] at hval
  refine ⟨normalize_ok _ hokr, normalize_normalized _, ?_⟩
  rw [normalize_value]
  exact hval

theorem mpn_cmp_spec : ∀ (a b : List Nat), a.length = b.length →
    limbs_ok BASE64 a → limbs_ok BASE64 b →
    (mpn_cmp a b = 0 ∧ limbs_value BASE64 a = limbs_value BASE64 b) ∨
    (mpn_cmp a b = -1 ∧ limbs_value BASE64 a < limbs_value BASE64 b) ∨
    (mpn_cmp a b = 1 ∧ limbs_value BASE64 b < limbs_value BASE64 a) := by
  intro a
  induction a with
  | nil =>
    intro b hl _ _
    have hb : b = [] := List.length_eq_zero.mp hl.symm
    subst hb
    left
    simp [mpn_cmp]
  | cons x as ih =>
    intro b hl hoa hob
    cases b with
    | nil => simp at hl
    | cons y bs =>
      obtain ⟨hx, hoas⟩ := limbs_ok_cons.mp hoa
      obtain ⟨hy, hobs⟩ := limbs_ok_cons.mp hob
      simp only [mpn_cmp, limbs_value]
      rcases ih bs (by simpa using hl) hoas hobs with ⟨h1, h2⟩ | ⟨h1, h2⟩ | ⟨h1, h2⟩
      · rw [h1, h2]
        simp only [ne_eq, not_true_eq_false, if_false]
        by_cases hxy : x < y
        · right; left
          simp only [hxy, if_true, true_and]
          omega
        · by_cases hyx : y < x
          · right; right
            simp only [hxy, hyx, if_true, if_false, true_and]
            omega
          · left
            simp only [hxy, hyx, if_false, true_and]
            omega
      · rw [h1]
        right; left
        refine ⟨by simp, ?_⟩
        have : BASE64 * (limbs_value BASE64 as + 1) ≤ BASE64 * limbs_value BASE64 bs :=
          Nat.mul_le_mul_left _ h2
        rw [Nat.mul_add] at this
        omega
      · rw [h1]
        right; right
        refine ⟨by simp, ?_⟩
        have : BASE64 * (limbs_value BASE64 bs + 1) ≤ BASE64 * limbs_value BASE64 as :=
          Nat.mul_le_mul_left _ h2
        rw [Nat.mul_add] at this
        omega

theorem length_lt_value_lt (a b : List Nat) (hoa : limbs_ok BASE64 a) (hnb : normalized b)
    (h : a.length < b.length) : limbs_value BASE64 a < limbs_value BASE64 b := by
  have hbne : b ≠ [] := by
    intro hb
    rw [hb] at h
    simp at h
  have g := normalized_value_ge BASE64 b hbne hnb
  have u := limbs_value_lt a hoa
  have : BASE64 ^ a.length ≤ BASE64 ^ (b.length - 1) :=
    Nat.pow_le_pow_right BASE64_pos (by omega)
  omega

theorem mag_cmp_spec (a b : List Nat) (hoa : limbs_ok BASE64 a) (hob : limbs_ok BASE64 b)
    (hna : normalized a) (hnb : normalized b) :
    (mag_cmp a b = 0 ∧ limbs_value BASE64 a = limbs_value BASE64 b) ∨
    (mag_cmp a b = -1 ∧ limbs_value BASE64 a < limbs_value BASE64 b) ∨
    (mag_cmp a b = 1 ∧ limbs_value BASE64 b < limbs_value BASE64 a) := by
  unfold mag_cmp
  by_cases h1 : a.length < b.length
  · right; left
    simp only [h1, if_true, true_and]
    exact length_lt_value_lt a b hoa hnb h1
  · by_cases h2 : b.length < a.length
    · right; right
      simp only [h1, h2, if_true, if_false, true_and]
      exact length_lt_value_lt b a hob hna h2
    · simp only [h1, h2, if_false]
      exact mpn_cmp_spec a b (by omega) hoa hob

end bi

namespace bi

/-- Sign and magnitude of a well-formed BigInt agree. -/
theorem bigint.wf_cases (a : bigint) (h : a.wf) :
    (a.sign = 0 ∧ a.limbs = [] ∧ limbs_value BASE64 a.limbs = 0) ∨
    (a.sign = 1 ∧ 0 < limbs_value BASE64 a.limbs) ∨
    (a.sign = -1 ∧ 0 < limbs_value BASE64 a.limbs) := by
  obtain ⟨_, hn, hs, hz⟩ := h
  by_cases h0 : a.limbs = []
  · left
    exact ⟨hz.mpr h0, h0, by rw [h0]; rfl⟩
  · have hp := normalized_value_pos BASE64_pos a.limbs h0 hn
    have hs0 : a.sign ≠ 0 := fun h => h0 (hz.mp h)
    rcases hs with h | h | h
    · right; right; exact ⟨h, hp⟩
    · exact absurd h hs0
    · right; left; exact ⟨h, hp⟩

/-- Building a well-formed BigInt from a sign and a normalized magnitude. -/
theorem bigint.wf_mk (s : Int) (m : List Nat) (hok : limbs_ok BASE64 m) (hn : normalized m)
    (hs : s = -1 ∨ s = 0 ∨ s = 1) (hz : s = 0 ↔ limbs_value BASE64 m = 0) :
    (bigint.mk s m).wf :=
  ⟨hok, hn, hs, hz.trans (normalized_eq_nil_iff BASE64_pos m hn).symm⟩

theorem bigint.zero_wf : bigint.zero.wf := by decide

theorem bigint.zero_toInt : bigint.zero.toInt = 0 := by
  simp [bigint.zero, bigint.toInt]

/-- A well-formed BigInt is determined by the integer it denotes. -/
theorem bigint.eq_of_toInt_eq (a b : bigint) (ha : a.wf) (hb : b.wf)
    (h : a.toInt = b.toInt) : a = b := by
  have ca := bigint.wf_cases a ha
  have cb := bigint.wf_cases b hb
  obtain ⟨oka, na, _, _⟩ := ha
  obtain ⟨okb, nb, _, _⟩ := hb
  unfold bigint.toInt at h
  have key : a.sign = b.sign ∧ limbs_value BASE64 a.limbs = limbs_value BASE64 b.limbs := by
    rcases ca with ⟨s1, _, v1⟩ | ⟨s1, v1⟩ | ⟨s1, v1⟩ <;>
      rcases cb with ⟨s2, _, v2⟩ | ⟨s2, v2⟩ | ⟨s2, v2⟩ <;>
      rw [s1, s2] at h <;> refine ⟨?_, ?_⟩ <;> omega
  cases a with
  | mk sa la =>
    cases b with
    | mk sb lb =>
      simp only at key oka okb na nb
      rw [key.1, normalized_eq_of_value_eq BASE64_pos la lb oka okb na nb key.2]

theorem bigint.neg_spec (a : bigint) (h : a.wf) :
    (bigint.neg a).wf ∧ (bigint.neg a).toInt = -a.toInt := by
  obtain ⟨ok, n, hs, hz⟩ := h
  refine ⟨⟨ok, n, ?_, ?_⟩, ?_⟩
  · simp only [bigint.neg]
    omega
  · simp only [bigint.neg]
    rw [← hz]
    omega
  · simp [bigint.neg, bigint.toInt]

theorem bigint.add_spec (a b : bigint) (ha : a.wf) (hb : b.wf) :
    (bigint.add a b).wf ∧ (bigint.add a b).toInt = a.toInt + b.toInt := by
  have ca := bigint.wf_cases a ha
  have cb := bigint.wf_cases b hb
  obtain ⟨oka, na, sa, za⟩ := ha
  obtain ⟨okb, nb, sb, zb⟩ := hb
  unfold bigint.add
  by_cases hss : a.sign = b.sign
  · simp only [hss, if_true]
    obtain ⟨m1, m2, m3⟩ := mag_add_spec a.limbs b.limbs oka okb na nb
    refine ⟨bigint.wf_mk _ _ m1 m2 sb ?_, ?_⟩
    · rw [m3]
      rcases ca with ⟨s1, _, v1⟩ | ⟨s1, v1⟩ | ⟨s1, v1⟩ <;>
        rcases cb with ⟨s2, _, v2⟩ | ⟨s2, v2⟩ | ⟨s2, v2⟩ <;>
        rw [s1, s2] at hss <;> first
          | (exfalso; omega)
          | (rw [s2]; omega)
    · simp only [bigint.toInt, m3, hss]
      push_cast
      ring
  · simp only [hss, if_false]
    rcases mag_cmp_spec a.limbs b.limbs oka okb na nb with ⟨c, hv⟩ | ⟨c, hv⟩ | ⟨c, hv⟩
    · simp only [c, if_true]
      refine ⟨bigint.zero_wf, ?_⟩
      rw [bigint.zero_toInt]
      simp only [bigint.toInt]
      rcases ca with ⟨s1, _, v1⟩ | ⟨s1, v1⟩ | ⟨s1, v1⟩ <;>
        rcases cb with ⟨s2, _, v2⟩ | ⟨s2, v2⟩ | ⟨s2, v2⟩ <;>
        rw [s1, s2] at hss ⊢ <;> first
          | (exfalso; omega)
          | (rw [hv]; omega)
    · simp only [c]
      have hle : limbs_value BASE64 a.limbs ≤ limbs_value BASE64 b.limbs := le_of_lt hv
      have hlen : a.limbs.length ≤ b.limbs.length :=
        normalized_length_le BASE64_gt_one _ _ okb na hle
      obtain ⟨m1, m2, m3⟩ := mag_sub_spec b.limbs a.limbs hlen okb oka hle
      simp only [show ((-1 : Int) = 0) = False from by simp, show ((-1 : Int) = 1) = False
        from by simp, if_false]
      refine ⟨bigint.wf_mk _ _ m1 m2 sb ?_, ?_⟩
      · rcases cb with ⟨s2, _, v2⟩ | ⟨s2, v2⟩ | ⟨s2, v2⟩
        · exfalso; omega
        · rw [s2]; omega
        · rw [s2]; omega
      · simp only [bigint.toInt]
        rcases ca with ⟨s1, _, v1⟩ | ⟨s1, v1⟩ | ⟨s1, v1⟩ <;>
          rcases cb with ⟨s2, _, v2⟩ | ⟨s2, v2⟩ | ⟨s2, v2⟩ <;>
          rw [s1, s2] at hss ⊢ <;> first
            | (exfalso; omega)
            | omega
    · simp only [c]
      have hle : limbs_value BASE64 b.limbs ≤ limbs_value BASE64 a.limbs := le_of_lt hv
      have hlen : b.limbs.length ≤ a.limbs.length :=
        normalized_length_le BASE64_gt_one _ _ oka nb hle
      obtain ⟨m1, m2, m3⟩ := mag_sub_spec a.limbs b.limbs hlen oka okb hle
      simp only [show ((1 : Int) = 0) = False from by simp, if_false, if_true]
      refine ⟨bigint.wf_mk _ _ m1 m2 sa ?_, ?_⟩
      · rcases ca with ⟨s1, _, v1⟩ | ⟨s1, v1⟩ | ⟨s1, v1⟩
        · exfalso; omega
        · rw [s1]; omega
        · rw [s1]; omega
      · simp only [bigint.toInt]
        rcases ca with ⟨s1, _, v1⟩ | ⟨s1, v1⟩ | ⟨s1, v1⟩ <;>
          rcases cb with ⟨s2, _, v2⟩ | ⟨s2, v2⟩ | ⟨s2, v2⟩ <;>
          rw [s1, s2] at hss ⊢ <;> first
            | (exfalso; omega)
            | omega

theorem bigint.sub_spec (a b : bigint) (ha : a.wf) (hb : b.wf) :
    (bigint.sub a b).wf ∧ (bigint.sub a b).toInt = a.toInt - b.toInt := by
  obtain ⟨n1, n2⟩ := bigint.neg_spec b hb
  obtain ⟨a1, a2⟩ := bigint.add_spec a (bigint.neg b) ha n1
  refine ⟨a1, ?_⟩
  unfold bigint.sub
  rw [a2, n2]
  ring

/-- C8: for all signed BigInts `a` and `b`, `(a + b) - b == a` and
`(a - b) + b == a`, for every combination of signs. -/
theorem bigint_add_sub_cancel (a b : bigint) (ha : a.wf) (hb : b.wf) :
    bigint.sub (bigint.add a b) b = a ∧ bigint.add (bigint.sub a b) b = a := by
  obtain ⟨a1, a2⟩ := bigint.add_spec a b ha hb
  obtain ⟨s1, s2⟩ := bigint.sub_spec (bigint.add a b) b a1 hb
  obtain ⟨d1, d2⟩ := bigint.sub_spec a b ha hb
  obtain ⟨e1, e2⟩ := bigint.add_spec (bigint.sub a b) b d1 hb
  refine ⟨bigint.eq_of_toInt_eq _ _ s1 ha ?_, bigint.eq_of_toInt_eq _ _ e1 ha ?_⟩
  · rw [s2, a2]
    ring
  · rw [e2, d2]
    ring

theorem bigint_add_sub_cancel_witness :
    bigint.sub (bigint.add ⟨-1, [5, 7]⟩ ⟨1, [18446744073709551615, 7]⟩)
        ⟨1, [18446744073709551615, 7]⟩ = ⟨-1, [5, 7]⟩ ∧
    bigint.add (bigint.sub ⟨-1, [5, 7]⟩ ⟨1, [18446744073709551615, 7]⟩)
        ⟨1, [18446744073709551615, 7]⟩ = ⟨-1, [5, 7]⟩ :=
  bigint_add_sub_cancel ⟨-1, [5, 7]⟩ ⟨1, [18446744073709551615, 7]⟩ (by decide) (by decide)

end bi

namespace bi

theorem BASE64_pow (q : Nat) : BASE64 ^ q = 2 ^ (64 * q) := by
  unfold BASE64
  rw [pow_mul]

theorem rshift_limb (a h k : Nat) (ha : a < BASE64) (hk0 : 0 < k) (hk : k < 64) :
    ((a >>> k) ||| ((h <<< (64 - k)) % BASE64)) = a / 2 ^ k + 2 ^ (64 - k) * (h % 2 ^ k) ∧
      ((a >>> k) ||| ((h <<< (64 - k)) % BASE64)) < BASE64 := by
  have hB : BASE64 = 2 ^ (64 - k) * 2 ^ k := by
    unfold BASE64
    rw [← pow_add]
    congr 1
    omega
  have hmod : (h <<< (64 - k)) % BASE64 = 2 ^ (64 - k) * (h % 2 ^ k) := by
    rw [Nat.shiftLeft_eq, hB, Nat.mul_comm h, Nat.mul_mod_mul_left]
  have hpk : 0 < 2 ^ k := by positivity
  have hdiv : a / 2 ^ k < 2 ^ (64 - k) := by
    rw [Nat.div_lt_iff_lt_mul hpk, ← hB]
    exact ha
  have hor : (a >>> k) ||| ((h <<< (64 - k)) % BASE64)
      = a / 2 ^ k + 2 ^ (64 - k) * (h % 2 ^ k) := by
    rw [hmod, Nat.shiftRight_eq_div_pow, Nat.lor_comm, ← Nat.mul_add_lt_is_or hdiv]
    ring
  refine ⟨hor, ?_⟩
  rw [hor, hB]
  have hmlt : h % 2 ^ k < 2 ^ k := Nat.mod_lt _ hpk
  calc a / 2 ^ k + 2 ^ (64 - k) * (h % 2 ^ k)
      < 2 ^ (64 - k) + 2 ^ (64 - k) * (h % 2 ^ k) := by omega
    _ = 2 ^ (64 - k) * (h % 2 ^ k + 1) := by ring
    _ ≤ 2 ^ (64 - k) * 2 ^ k := Nat.mul_le_mul_left _ hmlt

theorem mpn_rshift_loop_spec (k : Nat) (hk0 : 0 < k) (hk : k < 64) :
    ∀ (l : List Nat), limbs_ok BASE64 l →
    (mpn_rshift_loop k l).length = l.length ∧ limbs_ok BASE64 (mpn_rshift_loop k l) ∧
    2 ^ k * limbs_value BASE64 (mpn_rshift_loop k l) + l.headD 0 % 2 ^ k
      = limbs_value BASE64 l := by
  intro l
  induction l with
  | nil =>
    intro _
    simp [mpn_rshift_loop, limbs_value, limbs_ok_nil]
  | cons a as ih =>
    intro hok
    obtain ⟨ha, hoas⟩ := limbs_ok_cons.mp hok
    obtain ⟨i1, i2, i3⟩ := ih hoas
    obtain ⟨l1, l2⟩ := rshift_limb a (as.headD 0) k ha hk0 hk
    have hB : BASE64 = 2 ^ k * 2 ^ (64 - k) := by
      unfold BASE64
      rw [← pow_add]
      congr 1
      omega
    have hdm := Nat.div_add_mod a (2 ^ k)
    simp only [mpn_rshift_loop, limbs_value, List.headD_cons]
    refine ⟨by simp [i1], limbs_ok_cons.mpr ⟨l2, i2⟩, ?_⟩
    rw [l1, ← i3]
    rw [hB]
    linear_combination hdm

theorem mpn_rshift_loop_value (k : Nat) (hk0 : 0 < k) (hk : k < 64) (l : List Nat)
    (hok : limbs_ok BASE64 l) :
    limbs_value BASE64 (mpn_rshift_loop k l) = limbs_value BASE64 l / 2 ^ k := by
  obtain ⟨_, _, h⟩ := mpn_rshift_loop_spec k hk0 hk l hok
  have hpk : 0 < 2 ^ k := by positivity
  have hlt : l.headD 0 % 2 ^ k < 2 ^ k := Nat.mod_lt _ hpk
  rw [← h, Nat.mul_add_div hpk, Nat.div_eq_of_lt hlt, Nat.add_zero]

theorem limbs_value_drop (B : Nat) (hB : 0 < B) (l : List Nat) (hok : limbs_ok B l) (q : Nat) :
    limbs_value B (l.drop q) = limbs_value B l / B ^ q := by
  have hp : 0 < B ^ q := Nat.pos_pow_of_pos _ hB
  by_cases hq : q ≤ l.length
  · have h := limbs_value_take_drop B l q hq
    have hlt := limbs_value_lt (l.take q) (limbs_ok_take hok q)
    rw [List.length_take, Nat.min_eq_left hq] at hlt
    rw [h, Nat.add_comm, Nat.mul_add_div hp, Nat.div_eq_of_lt hlt, Nat.add_zero]
  · have hlt := limbs_value_lt l hok
    have : B ^ l.length ≤ B ^ q := Nat.pow_le_pow_right hB (by omega)
    rw [List.drop_eq_nil_of_le (by omega), Nat.div_eq_of_lt (by omega)]
    rfl

theorem two_pow_split (k : Nat) : 2 ^ k = BASE64 ^ (k / 64) * 2 ^ (k % 64) := by
  rw [BASE64_pow, ← pow_add]
  congr 1
  omega

theorem bigint.shl_spec (a : bigint) (k : Nat) (ha : a.wf) :
    (bigint.shl a k).wf ∧ (bigint.shl a k).sign = a.sign ∧
    limbs_value BASE64 (bigint.shl a k).limbs = limbs_value BASE64 a.limbs * 2 ^ k := by
  have ha' := ha
  obtain ⟨oka, na, sa, za⟩ := ha
  unfold bigint.shl
  by_cases h0 : a.limbs = []
  · rw [if_pos h0]
    refine ⟨ha', rfl, ?_⟩
    rw [h0]
    simp [limbs_value]
  · rw [if_neg h0]
    dsimp only
    have hvge := normalized_value_ge BASE64 a.limbs h0 na
    have hlenpos : 0 < a.limbs.length := List.length_pos.mpr h0
    have hkm : k % 64 ≤ 64 := by omega
    obtain ⟨s1, s2, s3, s4⟩ := mpn_lshift_loop_spec (k % 64) hkm a.limbs.length a.limbs 0 rfl oka
      (by positivity)
    unfold mpn_lshift
    generalize mpn_lshift_loop (k % 64) 0 a.limbs.length a.limbs = r at s1 s2 s3 s4 ⊢
    have hr2 : r.2 < BASE64 := by
      have : 2 ^ (k % 64) ≤ 2 ^ 64 := Nat.pow_le_pow_right (by omega) hkm
      unfold BASE64
      omega
    -- value, validity and length of the shifted magnitude without the zero limbs
    have hhi : ∀ hi : List Nat,
        hi = (if k % 64 = 0 then a.limbs else r.1 ++ (if r.2 ≠ 0 then [r.2] else [])) →
        limbs_ok BASE64 hi ∧ limbs_value BASE64 hi = limbs_value BASE64 a.limbs * 2 ^ (k % 64) ∧
        hi ≠ [] ∧ BASE64 ^ (hi.length - 1) ≤ limbs_value BASE64 hi := by
      intro hi hdef
      by_cases hb : k % 64 = 0
      · simp only [hb, if_true] at hdef
        subst hdef
        refine ⟨oka, by simp [hb], h0, hvge⟩
      · simp only [hb, if_false] at hdef
        by_cases hc : r.2 = 0
        · simp only [hc, ne_eq, not_true_eq_false, if_false, List.append_nil] at hdef
          subst hdef
          rw [hc, Nat.mul_zero, Nat.add_zero, Nat.add_zero] at s4
          refine ⟨s2, s4, ?_, ?_⟩
          · intro h
            rw [h] at s1
            simp at s1
            omega
          · rw [s1, s4]
            have : 1 ≤ 2 ^ (k % 64) := Nat.one_le_two_pow
            calc BASE64 ^ (a.limbs.length - 1) ≤ limbs_value BASE64 a.limbs := hvge
              _ = limbs_value BASE64 a.limbs * 1 := by ring
              _ ≤ limbs_value BASE64 a.limbs * 2 ^ (k % 64) := Nat.mul_le_mul_left _ this
        · simp only [hc, ne_eq, not_false_eq_true, if_true] at hdef
          subst hdef
          have hv : limbs_value BASE64 (r.1 ++ [r.2])
              = limbs_value BASE64 a.limbs * 2 ^ (k % 64) := by
            rw [limbs_value_append, s1]
            simp only [limbs_value, Nat.mul_zero, Nat.add_zero]
            rw [Nat.add_zero] at s4
            exact s4
          refine ⟨limbs_ok_append.mpr ⟨s2, limbs_ok_cons.mpr ⟨hr2, limbs_ok_nil _⟩⟩, hv,
            by simp, ?_⟩
          rw [List.length_append, s1]
          simp only [List.length_cons, List.length_nil, Nat.zero_add, Nat.add_sub_cancel]
          rw [limbs_value_append, s1]
          simp only [limbs_value, Nat.mul_zero, Nat.add_zero]
          have : BASE64 ^ a.limbs.length * 1 ≤ BASE64 ^ a.limbs.length * r.2 :=
            Nat.mul_le_mul_left _ (by omega)
          omega
    obtain ⟨g1, g2, g3, g4⟩ := hhi _ rfl
    generalize (if k % 64 = 0 then a.limbs else r.1 ++ (if r.2 ≠ 0 then [r.2] else [])) = hi
      at g1 g2 g3 g4 ⊢
    have hval : limbs_value BASE64 (List.replicate (k / 64) 0 ++ hi)
        = limbs_value BASE64 a.limbs * 2 ^ k := by
      rw [limbs_value_append, limbs_value_replicate_zero, List.length_replicate, g2,
        two_pow_split k]
      ring
    have hok : limbs_ok BASE64 (List.replicate (k / 64) 0 ++ hi) :=
      limbs_ok_append.mpr ⟨limbs_ok_replicate_zero BASE64_pos _, g1⟩
    refine ⟨⟨hok, ?_, sa, ?_⟩, rfl, hval⟩
    · apply normalized_of_value_ge _ hok _ (by simp [g3])
      rw [limbs_value_append, limbs_value_replicate_zero, List.length_replicate,
        List.length_append, List.length_replicate, Nat.zero_add]
      have hl : 0 < hi.length := List.length_pos.mpr g3
      have e : k / 64 + hi.length - 1 = k / 64 + (hi.length - 1) := by omega
      rw [e, pow_add]
      exact Nat.mul_le_mul_left _ g4
    · simp only
      constructor
      · intro hs
        exact absurd (za.mp hs) h0
      · intro hnil
        simp [g3] at hnil

theorem bigint.shr_spec (a : bigint) (k : Nat) (ha : a.wf) :
    (bigint.shr a k).wf ∧
    limbs_value BASE64 (bigint.shr a k).limbs = limbs_value BASE64 a.limbs / 2 ^ k ∧
    (bigint.shr a k).sign = if limbs_value BASE64 a.limbs / 2 ^ k = 0 then 0 else a.sign := by
  have ca := bigint.wf_cases a ha
  obtain ⟨oka, na, sa, za⟩ := ha
  have hrest := limbs_value_drop BASE64 BASE64_pos a.limbs oka (k / 64)
  have hokrest : limbs_ok BASE64 (a.limbs.drop (k / 64)) := limbs_ok_drop oka _
  -- the shifted magnitude before normalisation
  have hm : ∀ m : List Nat,
      m = (if k % 64 = 0 then a.limbs.drop (k / 64)
        else (mpn_rshift (a.limbs.drop (k / 64)) (a.limbs.drop (k / 64)).length (k % 64)).1) →
      limbs_ok BASE64 m ∧ limbs_value BASE64 m = limbs_value BASE64 a.limbs / 2 ^ k := by
    intro m hdef
    by_cases hb : k % 64 = 0
    · simp only [hb, if_true] at hdef
      subst hdef
      refine ⟨hokrest, ?_⟩
      rw [hrest, two_pow_split k, hb]
      simp
    · simp only [hb, if_false, mpn_rshift, List.take_length] at hdef
      subst hdef
      obtain ⟨_, r2, _⟩ := mpn_rshift_loop_spec (k % 64) (by omega) (by omega) _ hokrest
      refine ⟨r2, ?_⟩
      rw [mpn_rshift_loop_value (k % 64) (by omega) (by omega) _ hokrest, hrest,
        Nat.div_div_eq_div_mul, ← two_pow_split k]
  obtain ⟨m1, m2⟩ := hm _ rfl
  unfold bigint.shr
  simp only
  generalize (if k % 64 = 0 then a.limbs.drop (k / 64)
        else (mpn_rshift (a.limbs.drop (k / 64)) (a.limbs.drop (k / 64)).length (k % 64)).1) = m
    at m1 m2 ⊢
  have hnv : limbs_value BASE64 (normalize m) = limbs_value BASE64 a.limbs / 2 ^ k := by
    rw [normalize_value, m2]
  have hnil := normalized_eq_nil_iff BASE64_pos (normalize m) (normalize_normalized m)
  by_cases hz : normalize m = []
  · simp only [hz, if_true]
    have h0 : limbs_value BASE64 a.limbs / 2 ^ k = 0 := by
      rw [← hnv, hz]
      rfl
    refine ⟨bigint.zero_wf, ?_, ?_⟩
    · rw [h0]
      rfl
    · rw [h0]
      rfl
  · simp only [hz, if_false]
    have hpos : limbs_value BASE64 a.limbs / 2 ^ k ≠ 0 := by
      intro h
      apply hz
      rw [hnil, hnv, h]
    have hapos : 0 < limbs_value BASE64 a.limbs := by
      rcases Nat.eq_zero_or_pos (limbs_value BASE64 a.limbs) with h | h
      · rw [h, Nat.zero_div] at hpos
        exact absurd rfl hpos
      · exact h
    refine ⟨⟨normalize_ok m m1, normalize_normalized m, sa, ?_⟩, hnv, by simp [hpos]⟩
    simp only
    constructor
    · intro hs
      rcases ca with ⟨_, _, v1⟩ | ⟨s1, _⟩ | ⟨s1, _⟩ <;> omega
    · intro h
      exact absurd h hz

/-- C9: for every BigInt `a` (in particular every non-negative one) and every
shift count `k` (in particular `0 ≤ k ≤ 200`, multiples of 64 and counts above
64 included), `(a << k) >> k == a`. -/
theorem bigint_shl_shr_cancel (a : bigint) (k : Nat) (ha : a.wf) :
    bigint.shr (bigint.shl a k) k = a := by
  obtain ⟨l1, l2, l3⟩ := bigint.shl_spec a k ha
  obtain ⟨r1, r2, r3⟩ := bigint.shr_spec (bigint.shl a k) k l1
  have hpk : 0 < 2 ^ k := by positivity
  rw [l3, Nat.mul_div_cancel _ hpk] at r2 r3
  apply bigint.eq_of_toInt_eq _ _ r1 ha
  unfold bigint.toInt
  rw [r2, r3, l2]
  rcases bigint.wf_cases a ha with ⟨s1, _, v1⟩ | ⟨s1, v1⟩ | ⟨s1, v1⟩
  · simp [s1, v1]
  · have : limbs_value BASE64 a.limbs ≠ 0 := by omega
    simp [this]
  · have : limbs_value BASE64 a.limbs ≠ 0 := by omega
    simp [this]

theorem bigint_shl_shr_cancel_witness :
    bigint.shr (bigint.shl ⟨1, [5, 18446744073709551615, 9]⟩ 100) 100
      = ⟨1, [5, 18446744073709551615, 9]⟩ :=
  bigint_shl_shr_cancel ⟨1, [5, 18446744073709551615, 9]⟩ 100 (by decide)

end bi

namespace bi

theorem mpn_add_loop_spec : ∀ (a b : List Nat) (c : Nat), b.length ≤ a.length →
    limbs_ok BASE64 a → limbs_ok BASE64 b → c ≤ 1 →
    (mpn_add_loop c a b).1.length = a.length ∧ limbs_ok BASE64 (mpn_add_loop c a b).1 ∧
    (mpn_add_loop c a b).2 ≤ 1 ∧
    limbs_value BASE64 (mpn_add_loop c a b).1 + BASE64 ^ a.length * (mpn_add_loop c a b).2
      = limbs_value BASE64 a + limbs_value BASE64 b + c := by
  intro a
  induction a with
  | nil =>
    intro b c hl _ _ hc
    have hb : b = [] := List.length_eq_zero.mp (by simpa using hl)
    subst hb
    simp [mpn_add_loop, limbs_value, limbs_ok_nil, hc]
  | cons x xs ih =>
    intro b c hl hoa hob hc
    obtain ⟨hx, hoxs⟩ := limbs_ok_cons.mp hoa
    cases b with
    | nil =>
      have hc' : (x + c) / BASE64 ≤ 1 := by
        rw [BASE64_eq] at *
        omega
      obtain ⟨i1, i2, i3, i4⟩ := ih [] _ (by simp) hoxs (limbs_ok_nil _) hc'
      have hdm := Nat.div_add_mod (x + c) BASE64
      simp only [mpn_add_loop, limbs_value, List.length_cons, pow_succ] at i4 ⊢
      refine ⟨by simp [i1], limbs_ok_cons.mpr ⟨Nat.mod_lt _ BASE64_pos, i2⟩, i3, ?_⟩
      linear_combination BASE64 * i4 + hdm
    | cons y ys =>
      obtain ⟨hy, hoys⟩ := limbs_ok_cons.mp hob
      have hc' : (x + y + c) / BASE64 ≤ 1 := by
        rw [BASE64_eq] at *
        omega
      obtain ⟨i1, i2, i3, i4⟩ := ih ys _ (by simpa using hl) hoxs hoys hc'
      have hdm := Nat.div_add_mod (x + y + c) BASE64
      simp only [mpn_add_loop, limbs_value, List.length_cons, pow_succ] at i4 ⊢
      refine ⟨by simp [i1], limbs_ok_cons.mpr ⟨Nat.mod_lt _ BASE64_pos, i2⟩, i3, ?_⟩
      linear_combination BASE64 * i4 + hdm

theorem mpn_sub_loop_spec : ∀ (a b : List Nat) (bw : Nat), b.length ≤ a.length →
    limbs_ok BASE64 a → limbs_ok BASE64 b → bw ≤ 1 →
    (mpn_sub_loop bw a b).1.length = a.length ∧ limbs_ok BASE64 (mpn_sub_loop bw a b).1 ∧
    (mpn_sub_loop bw a b).2 ≤ 1 ∧
    limbs_value BASE64 (mpn_sub_loop bw a b).1 + limbs_value BASE64 b + bw
      = limbs_value BASE64 a + BASE64 ^ a.length * (mpn_sub_loop bw a b).2 := by
  intro a
  induction a with
  | nil =>
    intro b c hl _ _ hc
    have hb : b = [] := List.length_eq_zero.mp (by simpa using hl)
    subst hb
    simp [mpn_sub_loop, limbs_value, limbs_ok_nil, hc]
  | cons x xs ih =>
    intro b c hl hoa hob hc
    obtain ⟨hx, hoxs⟩ := limbs_ok_cons.mp hoa
    cases b with
    | nil =>
      have hstep : (x + BASE64 - c) % BASE64 + c = x + BASE64 * (if x < c then 1 else 0) ∧
          (if x < c then 1 else 0) ≤ 1 := by
        rw [BASE64_eq] at *
        split_ifs <;> omega
      obtain ⟨i1, i2, i3, i4⟩ := ih [] _ (by simp) hoxs (limbs_ok_nil _) hstep.2
      simp only [mpn_sub_loop, limbs_value, List.length_cons, pow_succ] at i4 ⊢
      refine ⟨by simp [i1], limbs_ok_cons.mpr ⟨Nat.mod_lt _ BASE64_pos, i2⟩, i3, ?_⟩
      linear_combination BASE64 * i4 + hstep.1
    | cons y ys =>
      obtain ⟨hy, hoys⟩ := limbs_ok_cons.mp hob
      obtain ⟨hs1, hs2, hs3⟩ := sub_step x y c hx hy hc
      obtain ⟨i1, i2, i3, i4⟩ := ih ys _ (by simpa using hl) hoxs hoys hs3
      simp only [mpn_sub_loop, limbs_value, List.length_cons, pow_succ] at i4 ⊢
      refine ⟨by simp [i1], limbs_ok_cons.mpr ⟨hs2, i2⟩, i3, ?_⟩
      linear_combination BASE64 * i4 + hs1

/-- In-place addition whose true sum fits the destination. -/
theorem mpn_add_exact (a b : List Nat) (hl : b.length ≤ a.length) (hoa : limbs_ok BASE64 a)
    (hob : limbs_ok BASE64 b)
    (hfit : limbs_value BASE64 a + limbs_value BASE64 b < BASE64 ^ a.length) :
    (mpn_add a b).1.length = a.length ∧ limbs_ok BASE64 (mpn_add a b).1 ∧
    limbs_value BASE64 (mpn_add a b).1 = limbs_value BASE64 a + limbs_value BASE64 b := by
  obtain ⟨h1, h2, _, h4⟩ := mpn_add_loop_spec a b 0 hl hoa hob (Nat.zero_le _)
  unfold mpn_add
  refine ⟨h1, h2, ?_⟩
  rcases Nat.eq_zero_or_pos (mpn_add_loop 0 a b).2 with h0 | h0
  · rw [h0] at h4
    omega
  · exfalso
    have : BASE64 ^ a.length * 1 ≤ BASE64 ^ a.length * (mpn_add_loop 0 a b).2 :=
      Nat.mul_le_mul_left _ h0
    omega

/-- In-place subtraction of a smaller value. -/
theorem mpn_sub_exact (a b : List Nat) (hl : b.length ≤ a.length) (hoa : limbs_ok BASE64 a)
    (hob : limbs_ok BASE64 b) (hle : limbs_value BASE64 b ≤ limbs_value BASE64 a) :
    (mpn_sub a b).1.length = a.length ∧ limbs_ok BASE64 (mpn_sub a b).1 ∧
    limbs_value BASE64 (mpn_sub a b).1 + limbs_value BASE64 b = limbs_value BASE64 a := by
  obtain ⟨h1, h2, _, h4⟩ := mpn_sub_loop_spec a b 0 hl hoa hob (Nat.zero_le _)
  unfold mpn_sub
  refine ⟨h1, h2, ?_⟩
  have hlt := limbs_value_lt _ h2
  rw [h1] at hlt
  rcases Nat.eq_zero_or_pos (mpn_sub_loop 0 a b).2 with h0 | h0
  · rw [h0] at h4
    omega
  · exfalso
    have : BASE64 ^ a.length * 1 ≤ BASE64 ^ a.length * (mpn_sub_loop 0 a b).2 :=
      Nat.mul_le_mul_left _ h0
    omega

/-- Addition keeping the carry as an extra top limb. -/
theorem mpn_add_carry_limb (a b : List Nat) (hl : b.length ≤ a.length)
    (hoa : limbs_ok BASE64 a) (hob : limbs_ok BASE64 b) :
    ((mpn_add a b).1 ++ [(mpn_add a b).2]).length = a.length + 1 ∧
    limbs_ok BASE64 ((mpn_add a b).1 ++ [(mpn_add a b).2]) ∧
    limbs_value BASE64 ((mpn_add a b).1 ++ [(mpn_add a b).2])
      = limbs_value BASE64 a + limbs_value BASE64 b := by
  obtain ⟨h1, h2, h3, h4⟩ := mpn_add_loop_spec a b 0 hl hoa hob (Nat.zero_le _)
  unfold mpn_add
  refine ⟨by simp [h1], limbs_ok_append.mpr ⟨h2, limbs_ok_cons.mpr
    ⟨by have := BASE64_gt_one; omega, limbs_ok_nil _⟩⟩, ?_⟩
  rw [limbs_value_append, h1]
  simp only [limbs_value, Nat.mul_zero, Nat.add_zero]
  omega

theorem split32_spec : ∀ (a : List Nat), limbs_ok BASE64 a →
    (split32 a).length = 2 * a.length ∧ limbs_ok ntt.BASE32 (split32 a) ∧
    limbs_value ntt.BASE32 (split32 a) = limbs_value BASE64 a := by
  intro a
  induction a with
  | nil => intro _; simp [split32, limbs_value, limbs_ok_nil]
  | cons x xs ih =>
    intro hok
    obtain ⟨hx, hoxs⟩ := limbs_ok_cons.mp hok
    obtain ⟨i1, i2, i3⟩ := ih hoxs
    have h32 : (2 : Nat) ^ 32 = ntt.BASE32 := rfl
    have hBB : BASE64 = ntt.BASE32 * ntt.BASE32 := by
      unfold BASE64 ntt.BASE32
      norm_num
    have hdm := Nat.div_add_mod x ntt.BASE32
    simp only [split32, limbs_value, Nat.shiftRight_eq_div_pow, h32, i3]
    refine ⟨by simp [i1]; omega, limbs_ok_cons.mpr ⟨Nat.mod_lt _ ntt.BASE32_pos,
      limbs_ok_cons.mpr ⟨?_, i2⟩⟩, ?_⟩
    · rw [Nat.div_lt_iff_lt_mul ntt.BASE32_pos, ← hBB]
      exact hx
    · rw [hBB]
      linear_combination hdm

theorem pack64_spec : ∀ (n : Nat) (r : List Nat), r.length = 2 * n → limbs_ok ntt.BASE32 r →
    (pack64 r).length = n ∧ limbs_ok BASE64 (pack64 r) ∧
    limbs_value BASE64 (pack64 r) = limbs_value ntt.BASE32 r := by
  intro n
  induction n with
  | zero =>
    intro r hr _
    have : r = [] := List.length_eq_zero.mp (by simpa using hr)
    subst this
    simp [pack64, limbs_value, limbs_ok_nil]
  | succ n ih =>
    intro r hr hok
    match r, hr, hok with
    | lo :: hi :: rest, hr, hok =>
      obtain ⟨hlo, hok'⟩ := limbs_ok_cons.mp hok
      obtain ⟨hhi, hrest⟩ := limbs_ok_cons.mp hok'
      obtain ⟨i1, i2, i3⟩ := ih rest (by simp only [List.length_cons] at hr; omega) hrest
      have hBB : BASE64 = ntt.BASE32 * ntt.BASE32 := by
        unfold BASE64 ntt.BASE32
        norm_num
      have hor : lo ||| (hi <<< 32) = lo + ntt.BASE32 * hi := by
        rw [Nat.shiftLeft_eq, Nat.lor_comm, Nat.mul_comm hi, Nat.add_comm]
        exact (Nat.mul_add_lt_is_or hlo hi).symm
      simp only [pack64, limbs_value, hor, i3]
      refine ⟨by simp [i1], limbs_ok_cons.mpr ⟨?_, i2⟩, ?_⟩
      · rw [hBB]
        have : ntt.BASE32 * (hi + 1) ≤ ntt.BASE32 * ntt.BASE32 := Nat.mul_le_mul_left _ hhi
        rw [Nat.mul_add] at this
        omega
      · rw [hBB]
        ring
    | [], hr, _ => simp at hr
    | [_], hr, _ =>
      simp only [List.length_cons, List.length_nil] at hr
      omega

end bi

namespace ntt
open bi

/-- Whenever the engine has a result, it is the digit array of the product. -/
theorem ntt_multiply_some_spec {B : Nat} (hB : 0 < B) (a b result : List Nat)
    (hoa : limbs_ok B a) (hob : limbs_ok B b)
    (h : ntt_multiply B (a.length + b.length) a a.length b b.length = some result) :
    result.length = a.length + b.length ∧ limbs_ok B result ∧
    limbs_value B result = limbs_value B a * limbs_value B b := by
  unfold ntt_multiply at h
  cases hN : ceil_smooth (a.length + b.length) with
  | none => rw [hN] at h; simp at h
  | some N =>
    rw [hN] at h
    simp only [List.take_length, Option.some.injEq] at h
    subst h
    exact carry_propagate_convolution_spec hB N a b (ceil_smooth_some_ge _ _ hN) hoa hob

end ntt

namespace bi

theorem mpn_mul_ntt_spec (a b r : List Nat) (hoa : limbs_ok BASE64 a)
    (hob : limbs_ok BASE64 b) (h : mpn_mul_ntt a b = some r) :
    r.length = a.length + b.length ∧ limbs_ok BASE64 r ∧
    limbs_value BASE64 r = limbs_value BASE64 a * limbs_value BASE64 b := by
  obtain ⟨a1, a2, a3⟩ := split32_spec a hoa
  obtain ⟨b1, b2, b3⟩ := split32_spec b hob
  unfold mpn_mul_ntt ntt.big_multiply at h
  rw [← a1, ← b1] at h
  cases hx : ntt.ntt_multiply ntt.BASE32 ((split32 a).length + (split32 b).length) (split32 a)
      (split32 a).length (split32 b) (split32 b).length with
  | none => rw [hx] at h; simp at h
  | some x =>
    rw [hx] at h
    simp only [Option.some.injEq] at h
    subst h
    obtain ⟨x1, x2, x3⟩ := ntt.ntt_multiply_some_spec ntt.BASE32_pos _ _ x a2 b2 hx
    obtain ⟨p1, p2, p3⟩ := pack64_spec (a.length + b.length) x (by rw [x1, a1, b1]; ring) x2
    exact ⟨p1, p2, by rw [p3, x3, a3, b3]⟩

end bi

namespace bi

theorem add_mul_pow_lt {B x y h m : Nat} (hx : x < B ^ h) (hy : y < B ^ m) :
    x + B ^ h * y < B ^ (h + m) := by
  have h1 : B ^ h * (y + 1) ≤ B ^ h * B ^ m := Nat.mul_le_mul_left _ hy
  rw [pow_add]
  rw [Nat.mul_add] at h1
  omega

theorem karatsuba_combine_spec (z0 z2 zs : List Nat) (h m A0 B0 A1 B1 : Nat)
    (l0 : z0.length = 2 * h) (o0 : limbs_ok BASE64 z0) (v0 : limbs_value BASE64 z0 = A0 * B0)
    (l2 : z2.length = 2 * m) (o2 : limbs_ok BASE64 z2) (v2 : limbs_value BASE64 z2 = A1 * B1)
    (ls : zs.length = 2 * h + 2) (os : limbs_ok BASE64 zs)
    (vs : limbs_value BASE64 zs = (A0 + A1) * (B0 + B1))
    (hA0 : A0 < BASE64 ^ h) (hB0 : B0 < BASE64 ^ h)
    (hA1 : A1 < BASE64 ^ m) (hB1 : B1 < BASE64 ^ m) (hmh : m ≤ h) (hhm : h + 2 ≤ 2 * m) :
    (karatsuba_combine z0 z2 zs h).length = 2 * h + 2 * m ∧
    limbs_ok BASE64 (karatsuba_combine z0 z2 zs h) ∧
    limbs_value BASE64 (karatsuba_combine z0 z2 zs h)
      = (A0 + BASE64 ^ h * A1) * (B0 + BASE64 ^ h * B1) := by
  have hle1 : limbs_value BASE64 z0 ≤ limbs_value BASE64 zs := by
    rw [v0, vs]
    exact Nat.mul_le_mul (Nat.le_add_right _ _) (Nat.le_add_right _ _)
  obtain ⟨t1, t2, t3⟩ := mpn_sub_exact zs z0 (by omega) os o0 hle1
  have hle2 : limbs_value BASE64 z2 ≤ limbs_value BASE64 (mpn_sub zs z0).1 := by
    have e : (A0 + A1) * (B0 + B1) = A0 * B0 + (A0 * B1 + A1 * B0 + A1 * B1) := by ring
    rw [v0, vs, e] at t3
    rw [v2]
    have : A1 * B1 ≤ A0 * B1 + A1 * B0 + A1 * B1 := Nat.le_add_left _ _
    omega
  obtain ⟨u1, u2, u3⟩ := mpn_sub_exact (mpn_sub zs z0).1 z2 (by omega) t2 o2 hle2
  have hz1 : limbs_value BASE64 (mpn_sub (mpn_sub zs z0).1 z2).1 = A0 * B1 + A1 * B0 := by
    have e : (A0 + A1) * (B0 + B1) = A0 * B0 + (A0 * B1 + A1 * B0 + A1 * B1) := by ring
    rw [v0, vs, e] at t3
    rw [v2] at u3
    omega
  unfold karatsuba_combine
  simp only
  generalize (mpn_sub (mpn_sub zs z0).1 z2).1 = z1 at u1 u2 hz1 ⊢
  rw [t1] at u1
  have hr0l : (z0 ++ z2).length = 2 * h + 2 * m := by rw [List.length_append, l0, l2]
  have hr0o : limbs_ok BASE64 (z0 ++ z2) := limbs_ok_append.mpr ⟨o0, o2⟩
  have hr0v : limbs_value BASE64 (z0 ++ z2) = A0 * B0 + BASE64 ^ (2 * h) * (A1 * B1) := by
    rw [limbs_value_append, l0, v0, v2]
  have hsplit := limbs_value_take_drop BASE64 (z0 ++ z2) h (by omega)
  have hdl : ((z0 ++ z2).drop h).length = h + 2 * m := by
    rw [List.length_drop, hr0l]
    omega
  have htl : ((z0 ++ z2).take h).length = h := by
    rw [List.length_take, hr0l]
    omega
  have hT : limbs_value BASE64 ((z0 ++ z2).take h)
      + BASE64 ^ h * (limbs_value BASE64 ((z0 ++ z2).drop h) + limbs_value BASE64 z1)
      = (A0 + BASE64 ^ h * A1) * (B0 + BASE64 ^ h * B1) := by
    rw [hz1]
    have e : BASE64 ^ (2 * h) = BASE64 ^ h * BASE64 ^ h := by
      rw [← pow_add]
      congr 1
      omega
    rw [e] at hr0v
    linear_combination hr0v - hsplit
  have hTlt : (A0 + BASE64 ^ h * A1) * (B0 + BASE64 ^ h * B1)
      < BASE64 ^ h * BASE64 ^ (h + 2 * m) := by
    have e : BASE64 ^ h * BASE64 ^ (h + 2 * m) = BASE64 ^ (h + m) * BASE64 ^ (h + m) := by
      rw [← pow_add, ← pow_add]
      congr 1
      omega
    rw [e]
    exact Nat.mul_lt_mul'' (add_mul_pow_lt hA0 hA1) (add_mul_pow_lt hB0 hB1)
  have hfit : limbs_value BASE64 ((z0 ++ z2).drop h) + limbs_value BASE64 z1
      < BASE64 ^ ((z0 ++ z2).drop h).length := by
    rw [hdl]
    have : BASE64 ^ h * (limbs_value BASE64 ((z0 ++ z2).drop h) + limbs_value BASE64 z1)
        < BASE64 ^ h * BASE64 ^ (h + 2 * m) := by omega
    exact Nat.lt_of_mul_lt_mul_left this
  obtain ⟨a1, a2, a3⟩ := mpn_add_exact ((z0 ++ z2).drop h) z1 (by omega)
    (limbs_ok_drop hr0o _) u2 hfit
  refine ⟨?_, limbs_ok_append.mpr ⟨limbs_ok_take hr0o _, a2⟩, ?_⟩
  · rw [List.length_append, htl, a1, hdl]
    omega
  · rw [limbs_value_append, htl, a3]
    exact hT

theorem mpn_mul_n_spec : ∀ (n : Nat) (a b : List Nat), a.length = n → b.length = n →
    limbs_ok BASE64 a → limbs_ok BASE64 b →
    (mpn_mul_n a b n).length = 2 * n ∧ limbs_ok BASE64 (mpn_mul_n a b n) ∧
    limbs_value BASE64 (mpn_mul_n a b n) = limbs_value BASE64 a * limbs_value BASE64 b := by
  intro n
  induction n using Nat.strong_induction_on with
  | _ n ih =>
    intro a b ha hb hoa hob
    rw [mpn_mul_n]
    by_cases hK : n < KARATSUBA_THRESHOLD
    · rw [dif_pos hK]
      have := mpn_mul_basecase_spec a b hoa hob
      rw [ha, hb] at this
      obtain ⟨h1, h2, h3⟩ := this
      exact ⟨by omega, h2, h3⟩
    · rw [dif_neg hK]
      have hn32 : 32 ≤ n := by
        simp only [KARATSUBA_THRESHOLD] at hK
        omega
      have hta : a.take n = a := by rw [← ha, List.take_length]
      have htb : b.take n = b := by rw [← hb, List.take_length]
      rw [hta, htb]
      cases hm : (if n < NTT_THRESHOLD then none else mpn_mul_ntt a b) with
      | some r =>
        simp only
        have hr : mpn_mul_ntt a b = some r := by
          by_cases hN : n < NTT_THRESHOLD
          · rw [if_pos hN] at hm
            simp at hm
          · rw [if_neg hN] at hm
            exact hm
        obtain ⟨r1, r2, r3⟩ := mpn_mul_ntt_spec a b r hoa hob hr
        exact ⟨by omega, r2, r3⟩
      | none =>
        simp only
        have hh : (n + 1) / 2 ≤ n := by omega
        have hlta : (a.take ((n + 1) / 2)).length = (n + 1) / 2 := by
          rw [List.length_take, ha]
          omega
        have hltb : (b.take ((n + 1) / 2)).length = (n + 1) / 2 := by
          rw [List.length_take, hb]
          omega
        have hlda : (a.drop ((n + 1) / 2)).length = n - (n + 1) / 2 := by
          rw [List.length_drop, ha]
        have hldb : (b.drop ((n + 1) / 2)).length = n - (n + 1) / 2 := by
          rw [List.length_drop, hb]
        have hota := limbs_ok_take hoa ((n + 1) / 2)
        have hotb := limbs_ok_take hob ((n + 1) / 2)
        have hoda := limbs_ok_drop hoa ((n + 1) / 2)
        have hodb := limbs_ok_drop hob ((n + 1) / 2)
        obtain ⟨p1, p2, p3⟩ := ih ((n + 1) / 2) (by omega) _ _ hlta hltb hota hotb
        obtain ⟨q1, q2, q3⟩ := ih (n - (n + 1) / 2) (by omega) _ _ hlda hldb hoda hodb
        obtain ⟨sa1, sa2, sa3⟩ := mpn_add_carry_limb (a.take ((n + 1) / 2))
          (a.drop ((n + 1) / 2)) (by omega) hota hoda
        obtain ⟨sb1, sb2, sb3⟩ := mpn_add_carry_limb (b.take ((n + 1) / 2))
          (b.drop ((n + 1) / 2)) (by omega) hotb hodb
        rw [hlta] at sa1
        rw [hltb] at sb1
        obtain ⟨s1, s2, s3⟩ := ih ((n + 1) / 2 + 1) (by omega) _ _ sa1 sb1 sa2 sb2
        rw [sa3, sb3] at s3
        have hA0 := limbs_value_lt _ hota
        have hB0 := limbs_value_lt _ hotb
        have hA1 := limbs_value_lt _ hoda
        have hB1 := limbs_value_lt _ hodb
        rw [hlta] at hA0
        rw [hltb] at hB0
        rw [hlda] at hA1
        rw [hldb] at hB1
        obtain ⟨c1, c2, c3⟩ := karatsuba_combine_spec _ _ _ ((n + 1) / 2) (n - (n + 1) / 2)
          _ _ _ _ p1 p2 p3 q1 q2 q3 (by rw [s1]; ring) s2 s3 hA0 hB0 hA1 hB1
          (by omega) (by omega)
        refine ⟨by rw [c1]; omega, c2, ?_⟩
        rw [c3, limbs_value_take_drop BASE64 a ((n + 1) / 2) (by omega),
          limbs_value_take_drop BASE64 b ((n + 1) / 2) (by omega)]

end bi

namespace bi

theorem mpn_mul_ordered_spec : ∀ (s : Nat) (a b : List Nat), a.length + b.length = s →
    b.length ≤ a.length → limbs_ok BASE64 a → limbs_ok BASE64 b →
    (mpn_mul_ordered a b).length = a.length + b.length ∧
    limbs_ok BASE64 (mpn_mul_ordered a b) ∧
    limbs_value BASE64 (mpn_mul_ordered a b)
      = limbs_value BASE64 a * limbs_value BASE64 b := by
  intro s
  induction s using Nat.strong_induction_on with
  | _ s ih =>
    intro a b hs hlen hoa hob
    rw [mpn_mul_ordered]
    by_cases hK : b.length < KARATSUBA_THRESHOLD
    · rw [dif_pos hK]
      exact mpn_mul_basecase_spec a b hoa hob
    · rw [dif_neg hK]
      have hn32 : 32 ≤ b.length := by
        simp only [KARATSUBA_THRESHOLD] at hK
        omega
      cases hm : (if b.length < NTT_THRESHOLD then none else mpn_mul_ntt a b) with
      | some r =>
        simp only
        have hr : mpn_mul_ntt a b = some r := by
          by_cases hN : b.length < NTT_THRESHOLD
          · rw [if_pos hN] at hm
            simp at hm
          · rw [if_neg hN] at hm
            exact hm
        exact mpn_mul_ntt_spec a b r hoa hob hr
      | none =>
        simp only
        by_cases heq : a.length ≤ b.length
        · rw [if_pos heq]
          have hab : a.length = b.length := by omega
          obtain ⟨h1, h2, h3⟩ := mpn_mul_n_spec b.length a b hab rfl hoa hob
          exact ⟨by omega, h2, h3⟩
        · rw [if_neg heq]
          have hlt : (a.take b.length).length = b.length := by
            rw [List.length_take]
            omega
          have hld : (a.drop b.length).length = a.length - b.length := List.length_drop _ _
          have hota := limbs_ok_take hoa b.length
          have hoda := limbs_ok_drop hoa b.length
          obtain ⟨p1, p2, p3⟩ := mpn_mul_n_spec b.length (a.take b.length) b hlt rfl hota hob
          -- the product of the remaining limbs, longer operand first
          have hq : ∀ q : List Nat,
              q = (if (a.drop b.length).length < b.length
                    then mpn_mul_ordered b (a.drop b.length)
                    else mpn_mul_ordered (a.drop b.length) b) →
              q.length = a.length ∧ limbs_ok BASE64 q ∧
              limbs_value BASE64 q
                = limbs_value BASE64 (a.drop b.length) * limbs_value BASE64 b := by
            intro q hdef
            by_cases hsw : (a.drop b.length).length < b.length
            · rw [if_pos hsw] at hdef
              subst hdef
              obtain ⟨i1, i2, i3⟩ := ih (b.length + (a.drop b.length).length)
                (by rw [hld]; omega) b (a.drop b.length) rfl (by omega) hob hoda
              exact ⟨by rw [i1, hld]; omega, i2, by rw [i3]; ring⟩
            · rw [if_neg hsw] at hdef
              subst hdef
              obtain ⟨i1, i2, i3⟩ := ih ((a.drop b.length).length + b.length)
                (by rw [hld]; omega) (a.drop b.length) b rfl (by omega) hoda hob
              exact ⟨by rw [i1, hld]; omega, i2, i3⟩
          obtain ⟨q1, q2, q3⟩ := hq _ rfl
          generalize (if (a.drop b.length).length < b.length
                    then mpn_mul_ordered b (a.drop b.length)
                    else mpn_mul_ordered (a.drop b.length) b) = q at q1 q2 q3 ⊢
          generalize mpn_mul_n (a.take b.length) b b.length = p0 at p1 p2 p3 ⊢
          have hsa := limbs_value_take_drop BASE64 a b.length hlen
          have hsp := limbs_value_take_drop BASE64 p0 b.length (by omega)
          have hpt : (p0.take b.length).length = b.length := by
            rw [List.length_take]
            omega
          have hpd : (p0.drop b.length).length = b.length := by
            rw [List.length_drop]
            omega
          have hT : limbs_value BASE64 (p0.take b.length)
              + BASE64 ^ b.length * (limbs_value BASE64 q + limbs_value BASE64 (p0.drop b.length))
              = limbs_value BASE64 a * limbs_value BASE64 b := by
            rw [q3, hsa]
            linear_combination p3 - hsp
          have hTlt := limbs_value_mul_lt a b hoa hob
          have hfit : limbs_value BASE64 q + limbs_value BASE64 (p0.drop b.length)
              < BASE64 ^ q.length := by
            rw [q1]
            have e : BASE64 ^ (a.length + b.length) = BASE64 ^ b.length * BASE64 ^ a.length := by
              rw [← pow_add]
              congr 1
              omega
            rw [e] at hTlt
            have : BASE64 ^ b.length
                * (limbs_value BASE64 q + limbs_value BASE64 (p0.drop b.length))
                < BASE64 ^ b.length * BASE64 ^ a.length := by omega
            exact Nat.lt_of_mul_lt_mul_left this
          obtain ⟨a1, a2, a3⟩ := mpn_add_exact q (p0.drop b.length) (by omega) q2
            (limbs_ok_drop p2 _) hfit
          refine ⟨?_, limbs_ok_append.mpr ⟨limbs_ok_take p2 _, a2⟩, ?_⟩
          · rw [List.length_append, hpt, a1, q1]
            omega
          · rw [limbs_value_append, hpt, a3]
            exact hT

theorem mpn_mul_spec (a b : List Nat) (hoa : limbs_ok BASE64 a) (hob : limbs_ok BASE64 b) :
    (mpn_mul a b).length = a.length + b.length ∧ limbs_ok BASE64 (mpn_mul a b) ∧
    limbs_value BASE64 (mpn_mul a b) = limbs_value BASE64 a * limbs_value BASE64 b := by
  unfold mpn_mul
  by_cases h : a.length < b.length
  · rw [if_pos h]
    obtain ⟨h1, h2, h3⟩ := mpn_mul_ordered_spec _ b a rfl (by omega) hob hoa
    exact ⟨by omega, h2, by rw [h3]; ring⟩
  · rw [if_neg h]
    exact mpn_mul_ordered_spec _ a b rfl (by omega) hoa hob

theorem bigint.mul_spec (a b : bigint) (ha : a.wf) (hb : b.wf) :
    (bigint.mul a b).wf ∧ (bigint.mul a b).toInt = a.toInt * b.toInt := by
  have ca := bigint.wf_cases a ha
  have cb := bigint.wf_cases b hb
  obtain ⟨oka, na, sa, za⟩ := ha
  obtain ⟨okb, nb, sb, zb⟩ := hb
  unfold bigint.mul
  by_cases hz : a.limbs = [] ∨ b.limbs = []
  · rw [if_pos hz]
    refine ⟨bigint.zero_wf, ?_⟩
    rw [bigint.zero_toInt]
    unfold bigint.toInt
    rcases hz with h | h
    · rw [h]
      simp [limbs_value]
    · rw [h]
      simp [limbs_value]
  · rw [if_neg hz]
    obtain ⟨m1, m2, m3⟩ := mpn_mul_spec a.limbs b.limbs oka okb
    have hva : 0 < limbs_value BASE64 a.limbs := by
      rcases ca with ⟨_, h, _⟩ | ⟨_, h⟩ | ⟨_, h⟩
      · exact absurd (Or.inl h) hz
      · exact h
      · exact h
    have hvb : 0 < limbs_value BASE64 b.limbs := by
      rcases cb with ⟨_, h, _⟩ | ⟨_, h⟩ | ⟨_, h⟩
      · exact absurd (Or.inr h) hz
      · exact h
      · exact h
    have hpos : 0 < limbs_value BASE64 a.limbs * limbs_value BASE64 b.limbs :=
      Nat.mul_pos hva hvb
    have hsa : a.sign = 1 ∨ a.sign = -1 := by
      rcases ca with ⟨_, h, _⟩ | ⟨h, _⟩ | ⟨h, _⟩
      · exact absurd (Or.inl h) hz
      · exact Or.inl h
      · exact Or.inr h
    have hsb : b.sign = 1 ∨ b.sign = -1 := by
      rcases cb with ⟨_, h, _⟩ | ⟨h, _⟩ | ⟨h, _⟩
      · exact absurd (Or.inr h) hz
      · exact Or.inl h
      · exact Or.inr h
    refine ⟨bigint.wf_mk _ _ (normalize_ok _ m2) (normalize_normalized _) ?_ ?_, ?_⟩
    · rcases hsa with h1 | h1 <;> rcases hsb with h2 | h2 <;> rw [h1, h2] <;> simp
    · rw [normalize_value, m3]
      rcases hsa with h1 | h1 <;> rcases hsb with h2 | h2 <;> rw [h1, h2] <;>
        constructor <;> intro h <;> exfalso <;> omega
    · simp only [bigint.toInt, normalize_value, m3]
      push_cast
      ring

/-- C7: for all BigInts `a` and `b`, `a * (b + 1) == a * b + a`, whichever
multiplication rule (base case, Karatsuba, NTT) the operand sizes select. -/
theorem bigint_mul_succ (a b : bigint) (ha : a.wf) (hb : b.wf) :
    bigint.mul a (bigint.add b (bigint.ofInt 1)) = bigint.add (bigint.mul a b) a := by
  have h1 : (bigint.ofInt 1).wf := by decide
  have v1 : (bigint.ofInt 1).toInt = 1 := by decide
  obtain ⟨s1, s2⟩ := bigint.add_spec b (bigint.ofInt 1) hb h1
  obtain ⟨l1, l2⟩ := bigint.mul_spec a (bigint.add b (bigint.ofInt 1)) ha s1
  obtain ⟨m1, m2⟩ := bigint.mul_spec a b ha hb
  obtain ⟨r1, r2⟩ := bigint.add_spec (bigint.mul a b) a m1 ha
  apply bigint.eq_of_toInt_eq _ _ l1 r1
  rw [l2, s2, r2, m2, v1]
  ring

theorem bigint_mul_succ_witness :
    bigint.mul ⟨-1, [5, 7]⟩ (bigint.add ⟨1, [18446744073709551615]⟩ (bigint.ofInt 1))
      = bigint.add (bigint.mul ⟨-1, [5, 7]⟩ ⟨1, [18446744073709551615]⟩) ⟨-1, [5, 7]⟩ :=
  bigint_mul_succ ⟨-1, [5, 7]⟩ ⟨1, [18446744073709551615]⟩ (by decide) (by decide)

end bi

namespace bi

theorem submul_limb {a s o c : Nat} (ha : a < BASE64) (hs : s < BASE64) (ho : o < BASE64)
    (hc : c < BASE64) :
    (o + BASE64 - (a * s + c) % BASE64) % BASE64 + (a * s + c)
        = o + BASE64 * ((a * s + c) / BASE64 + (if o < (a * s + c) % BASE64 then 1 else 0)) ∧
      (o + BASE64 - (a * s + c) % BASE64) % BASE64 < BASE64 ∧
      (a * s + c) / BASE64 + (if o < (a * s + c) % BASE64 then 1 else 0) < BASE64 := by
  have hp : a * s + c < BASE64 * BASE64 := by
    have := mul_add_add_lt ha hs (show 0 < BASE64 from BASE64_pos) hc
    omega
  have hple : a * s + c ≤ BASE64 * (BASE64 - 1) := by
    have h1 : a * s ≤ (BASE64 - 1) * (BASE64 - 1) := Nat.mul_le_mul (by omega) (by omega)
    have h2 : (BASE64 - 1) * (BASE64 - 1) + (BASE64 - 1) = BASE64 * (BASE64 - 1) := by
      have := BASE64_pos
      obtain ⟨k, hk⟩ : ∃ k, BASE64 = k + 1 := ⟨BASE64 - 1, by omega⟩
      rw [hk]
      simp only [Nat.add_sub_cancel]
      ring
    omega
  have hdm := Nat.div_add_mod (a * s + c) BASE64
  have hml := Nat.mod_lt (a * s + c) BASE64_pos
  generalize (a * s + c) / BASE64 = hi at hdm hple ⊢
  generalize (a * s + c) % BASE64 = lo at hdm hml hple ⊢
  generalize a * s + c = p at hdm hp hple ⊢
  have hhi : hi < BASE64 := by
    by_contra h
    have : BASE64 * BASE64 ≤ BASE64 * hi := Nat.mul_le_mul_left _ (by omega)
    omega
  have hhi' : 0 < lo → hi + 1 < BASE64 := by
    intro hlo
    by_contra h
    have : BASE64 * (BASE64 - 1) ≤ BASE64 * hi := Nat.mul_le_mul_left _ (by omega)
    omega
  refine ⟨?_, Nat.mod_lt _ BASE64_pos, ?_⟩
  · by_cases hol : o < lo
    · rw [if_pos hol, Nat.mod_eq_of_lt (by omega)]
      rw [Nat.mul_add]
      omega
    · rw [if_neg hol, Nat.add_zero]
      have e : o + BASE64 - lo = (o - lo) + BASE64 := by omega
      rw [e, Nat.add_mod_right, Nat.mod_eq_of_lt (by omega)]
      omega
  · by_cases hol : o < lo
    · rw [if_pos hol]
      exact hhi' (by omega)
    · rw [if_neg hol]
      omega

theorem mpn_submul_1_loop_spec (s : Nat) (hs : s < BASE64) :
    ∀ (n : Nat) (w a : List Nat) (c : Nat),
    w.length = n → a.length = n → limbs_ok BASE64 w → limbs_ok BASE64 a → c < BASE64 →
    (mpn_submul_1_loop s c n w a).1.length = n ∧
    limbs_ok BASE64 (mpn_submul_1_loop s c n w a).1 ∧
    (mpn_submul_1_loop s c n w a).2 < BASE64 ∧
    limbs_value BASE64 (mpn_submul_1_loop s c n w a).1 + limbs_value BASE64 a * s + c
      = limbs_value BASE64 w + BASE64 ^ n * (mpn_submul_1_loop s c n w a).2 := by
  intro n
  induction n with
  | zero =>
    intro w a c hw ha _ _ hc
    have hw' : w = [] := List.length_eq_zero.mp hw
    have ha' : a = [] := List.length_eq_zero.mp ha
    subst hw' ha'
    simp [mpn_submul_1_loop, limbs_value, limbs_ok_nil, hc]
  | succ n ih =>
    intro w a c hw ha how hoa hc
    obtain ⟨o, ws, rfl⟩ := List.exists_cons_of_length_eq_add_one hw
    obtain ⟨x, as, rfl⟩ := List.exists_cons_of_length_eq_add_one ha
    obtain ⟨ho, hows⟩ := limbs_ok_cons.mp how
    obtain ⟨hx, hoas⟩ := limbs_ok_cons.mp hoa
    obtain ⟨l1, l2, l3⟩ := submul_limb hx hs ho hc
    obtain ⟨i1, i2, i3, i4⟩ := ih ws as _ (by simpa using hw) (by simpa using ha) hows hoas l3
    simp only [mpn_submul_1_loop, limbs_value]
    refine ⟨by simp [i1], limbs_ok_cons.mpr ⟨l2, i2⟩, i3, ?_⟩
    linear_combination BASE64 * i4 + l1

end bi

namespace bi

/-- One refinement test keeps the estimate invariant: `q * v1 + r = U2`, and the
estimate is not below the true quotient (`U < (q + 1) * V`). -/
theorem div_refine_inv (v1 v2 u2 U2 H Vl Ul : Nat) (s : Nat × Nat)
    (hUl : Ul < H) (h1 : s.1 * v1 + s.2 = U2)
    (h2 : (U2 * BASE64 + u2) * H + Ul < (s.1 + 1) * ((v1 * BASE64 + v2) * H + Vl)) :
    (div_refine v1 v2 u2 s).1 * v1 + (div_refine v1 v2 u2 s).2 = U2 ∧
    (U2 * BASE64 + u2) * H + Ul
      < ((div_refine v1 v2 u2 s).1 + 1) * ((v1 * BASE64 + v2) * H + Vl) ∧
    (div_refine v1 v2 u2 s).1 ≤ s.1 := by
  unfold div_refine
  by_cases hT : s.2 < BASE64 ∧ s.2 * BASE64 + u2 < s.1 * v2
  · rw [if_pos hT]
    obtain ⟨_, hT2⟩ := hT
    have hq : 1 ≤ s.1 := by
      rcases Nat.eq_zero_or_pos s.1 with h | h
      · rw [h] at hT2
        simp at hT2
      · exact h
    obtain ⟨q, hq'⟩ : ∃ q, s.1 = q + 1 := ⟨s.1 - 1, by omega⟩
    rw [hq'] at h1 hT2 ⊢
    simp only [Nat.add_sub_cancel]
    refine ⟨by rw [← h1]; ring, ?_, by omega⟩
    have hint : (s.2 * BASE64 + u2 + 1) * H ≤ (q + 1) * v2 * H :=
      Nat.mul_le_mul_right H hT2
    rw [← h1]
    have hnn : 0 ≤ (q + 1) * Vl := Nat.zero_le _
    linarith only [hint, hUl, hnn, h2,
      show (s.2 * BASE64 + u2 + 1) * H = s.2 * BASE64 * H + u2 * H + H by ring,
      show (((q + 1) * v1 + s.2) * BASE64 + u2) * H + Ul
        = (q + 1) * v1 * BASE64 * H + s.2 * BASE64 * H + u2 * H + Ul by ring,
      show (q + 1) * ((v1 * BASE64 + v2) * H + Vl)
        = (q + 1) * v1 * BASE64 * H + (q + 1) * v2 * H + (q + 1) * Vl by ring]
  · rw [if_neg hT]
    exact ⟨h1, h2, le_refl _⟩

/-- After two refinement tests the test fails: the estimate passes the
comparison with the next divisor limb. -/
theorem div_refine_twice_stable (v1 v2 u2 : Nat) (s : Nat × Nat) (hn : BASE64 ≤ 2 * v1) :
    ¬ ((div_refine v1 v2 u2 (div_refine v1 v2 u2 s)).2 < BASE64 ∧
      (div_refine v1 v2 u2 (div_refine v1 v2 u2 s)).2 * BASE64 + u2
        < (div_refine v1 v2 u2 (div_refine v1 v2 u2 s)).1 * v2) := by
  by_cases hT : s.2 < BASE64 ∧ s.2 * BASE64 + u2 < s.1 * v2
  · have e1 : div_refine v1 v2 u2 s = (s.1 - 1, s.2 + v1) := by
      unfold div_refine
      rw [if_pos hT]
    rw [e1]
    by_cases hT' : s.2 + v1 < BASE64 ∧ (s.2 + v1) * BASE64 + u2 < (s.1 - 1) * v2
    · have e2 : div_refine v1 v2 u2 (s.1 - 1, s.2 + v1) = (s.1 - 1 - 1, s.2 + v1 + v1) := by
        unfold div_refine
        rw [if_pos hT']
      rw [e2]
      intro h
      have := h.1
      simp only at this
      omega
    · have e2 : div_refine v1 v2 u2 (s.1 - 1, s.2 + v1) = (s.1 - 1, s.2 + v1) := by
        unfold div_refine
        rw [if_neg hT']
      rw [e2]
      exact hT'
  · have e1 : div_refine v1 v2 u2 s = s := by
      unfold div_refine
      rw [if_neg hT]
    rw [e1, e1]
    exact hT

/-- An estimate that passes the comparison with the next divisor limb exceeds
the true quotient by at most one (`q * V < U + V`). -/
theorem div_estimate_upper (v1 v2 u2 U2 H Vl Ul q r : Nat)
    (hv1 : 1 ≤ v1) (hv2 : v2 < BASE64) (hq : q < BASE64) (hVl : Vl < H)
    (h1 : q * v1 + r = U2)
    (hT : ¬ (r < BASE64 ∧ r * BASE64 + u2 < q * v2)) :
    q * ((v1 * BASE64 + v2) * H + Vl) < (U2 * BASE64 + u2) * H + Ul
      + ((v1 * BASE64 + v2) * H + Vl) := by
  have hqv : q * v2 ≤ r * BASE64 + u2 := by
    by_cases hr : r < BASE64
    · by_contra h
      exact hT ⟨hr, by omega⟩
    · have h1 : q * v2 ≤ BASE64 * BASE64 := Nat.mul_le_mul (le_of_lt hq) (le_of_lt hv2)
      have h2 : BASE64 * BASE64 ≤ r * BASE64 := Nat.mul_le_mul_right _ (by omega)
      omega
  have hint1 : q * v2 * H ≤ (r * BASE64 + u2) * H := Nat.mul_le_mul_right H hqv
  have hint2 : q * Vl < BASE64 * H := Nat.mul_lt_mul'' hq hVl
  have hint3 : 1 * BASE64 * H ≤ v1 * BASE64 * H :=
    Nat.mul_le_mul_right H (Nat.mul_le_mul_right BASE64 hv1)
  have hH : 0 < H := by omega
  rw [← h1]
  linarith only [hint1, hint2, hint3, hH,
    show q * ((v1 * BASE64 + v2) * H + Vl) = q * v1 * BASE64 * H + q * v2 * H + q * Vl by ring,
    show ((q * v1 + r) * BASE64 + u2) * H + Ul + ((v1 * BASE64 + v2) * H + Vl)
      = q * v1 * BASE64 * H + (r * BASE64 + u2) * H + Ul + v1 * BASE64 * H + v2 * H + Vl
      by ring,
    show 1 * BASE64 * H = BASE64 * H by ring,
    Nat.zero_le Ul, Nat.zero_le (v2 * H), Nat.zero_le Vl]

/-- The two-by-one estimate capped at `β - 1` is not below the true quotient. -/
theorem div_estimate_init (v1 v2 u2 U2 H Vl Ul : Nat) (hv1 : 1 ≤ v1) (hu2 : u2 < BASE64)
    (hUl : Ul < H)
    (hlt : (U2 * BASE64 + u2) * H + Ul < BASE64 * ((v1 * BASE64 + v2) * H + Vl)) :
    min (U2 / v1) (BASE64 - 1) * v1 + (U2 - min (U2 / v1) (BASE64 - 1) * v1) = U2 ∧
    min (U2 / v1) (BASE64 - 1) < BASE64 ∧
    (U2 * BASE64 + u2) * H + Ul
      < (min (U2 / v1) (BASE64 - 1) + 1) * ((v1 * BASE64 + v2) * H + Vl) := by
  have hB := BASE64_pos
  have hdiv : U2 / v1 * v1 ≤ U2 := Nat.div_mul_le_self _ _
  have hmin : min (U2 / v1) (BASE64 - 1) ≤ U2 / v1 := Nat.min_le_left _ _
  have hle : min (U2 / v1) (BASE64 - 1) * v1 ≤ U2 :=
    le_trans (Nat.mul_le_mul_right _ hmin) hdiv
  refine ⟨by omega, by have := Nat.min_le_right (U2 / v1) (BASE64 - 1); omega, ?_⟩
  by_cases hc : U2 / v1 ≤ BASE64 - 1
  · rw [Nat.min_eq_left hc]
    have hlt2 : U2 < (U2 / v1 + 1) * v1 := by
      have := Nat.lt_succ_self (U2 / v1)
      exact (Nat.div_lt_iff_lt_mul hv1).mp this
    have hint : (U2 + 1) * (BASE64 * H) ≤ (U2 / v1 + 1) * v1 * (BASE64 * H) :=
      Nat.mul_le_mul_right _ hlt2
    have hint2 : (u2 + 1) * H ≤ BASE64 * H := Nat.mul_le_mul_right _ hu2
    generalize U2 / v1 = q at hint ⊢
    linarith only [hint, hint2, hUl,
      show (U2 + 1) * (BASE64 * H) = U2 * BASE64 * H + BASE64 * H by ring,
      show (u2 + 1) * H = u2 * H + H by ring,
      show (U2 * BASE64 + u2) * H + Ul = U2 * BASE64 * H + u2 * H + Ul by ring,
      show (q + 1) * ((v1 * BASE64 + v2) * H + Vl)
        = (q + 1) * v1 * (BASE64 * H) + (q + 1) * (v2 * H + Vl) by ring,
      Nat.zero_le ((q + 1) * (v2 * H + Vl))]
  · rw [Nat.min_eq_right (by omega)]
    have e : BASE64 - 1 + 1 = BASE64 := by omega
    rw [e]
    exact hlt

/-- Arithmetic of the quotient estimate of one division position: after the
capped two-by-one estimate and two refinement tests the estimate `q` is a
limb, is not below the true quotient and exceeds it by at most one. -/
theorem div_estimate_spec (v1 v2 u0 u1 u2 H Vl Ul : Nat) (hn : BASE64 ≤ 2 * v1)
    (hv2 : v2 < BASE64) (hu2 : u2 < BASE64) (hVl : Vl < H) (hUl : Ul < H)
    (hlt : ((u0 * BASE64 + u1) * BASE64 + u2) * H + Ul
      < BASE64 * ((v1 * BASE64 + v2) * H + Vl)) :
    (div_refine v1 v2 u2 (div_refine v1 v2 u2
        (min ((u0 * BASE64 + u1) / v1) (BASE64 - 1),
          u0 * BASE64 + u1 - min ((u0 * BASE64 + u1) / v1) (BASE64 - 1) * v1))).1 < BASE64 ∧
    ((u0 * BASE64 + u1) * BASE64 + u2) * H + Ul
      < ((div_refine v1 v2 u2 (div_refine v1 v2 u2
        (min ((u0 * BASE64 + u1) / v1) (BASE64 - 1),
          u0 * BASE64 + u1 - min ((u0 * BASE64 + u1) / v1) (BASE64 - 1) * v1))).1 + 1)
        * ((v1 * BASE64 + v2) * H + Vl) ∧
    (div_refine v1 v2 u2 (div_refine v1 v2 u2
        (min ((u0 * BASE64 + u1) / v1) (BASE64 - 1),
          u0 * BASE64 + u1 - min ((u0 * BASE64 + u1) / v1) (BASE64 - 1) * v1))).1
        * ((v1 * BASE64 + v2) * H + Vl)
      < ((u0 * BASE64 + u1) * BASE64 + u2) * H + Ul + ((v1 * BASE64 + v2) * H + Vl) := by
  have hv1 : 1 ≤ v1 := by
    have := BASE64_pos
    omega
  obtain ⟨a1, a2, a3⟩ := div_estimate_init v1 v2 u2 (u0 * BASE64 + u1) H Vl Ul hv1 hu2 hUl hlt
  generalize hs0 : (min ((u0 * BASE64 + u1) / v1) (BASE64 - 1),
    u0 * BASE64 + u1 - min ((u0 * BASE64 + u1) / v1) (BASE64 - 1) * v1) = s0
  have a1' : s0.1 * v1 + s0.2 = u0 * BASE64 + u1 := by rw [← hs0]; exact a1
  have a2' : s0.1 < BASE64 := by rw [← hs0]; exact a2
  have a3' : ((u0 * BASE64 + u1) * BASE64 + u2) * H + Ul
      < (s0.1 + 1) * ((v1 * BASE64 + v2) * H + Vl) := by rw [← hs0]; exact a3
  obtain ⟨b1, b2, b3⟩ := div_refine_inv v1 v2 u2 _ H Vl Ul s0 hUl a1' a3'
  obtain ⟨c1, c2, c3⟩ := div_refine_inv v1 v2 u2 _ H Vl Ul (div_refine v1 v2 u2 s0) hUl b1 b2
  have hst := div_refine_twice_stable v1 v2 u2 s0 hn
  have hq : (div_refine v1 v2 u2 (div_refine v1 v2 u2 s0)).1 < BASE64 := by omega
  exact ⟨hq, c2, div_estimate_upper v1 v2 u2 _ H Vl Ul _ _ hv1 hv2 hq hVl c1 hst⟩

end bi

namespace bi

theorem getD_append_at (l r : List Nat) (i : Nat) :
    (l ++ r).getD (l.length + i) 0 = r.getD i 0 := by
  induction l with
  | nil => simp
  | cons x xs ih =>
    simp only [List.cons_append, List.length_cons]
    rw [show xs.length + 1 + i = (xs.length + i) + 1 by omega, List.getD_cons_succ]
    exact ih

theorem take_append_at (l r : List Nat) (i : Nat) :
    (l ++ r).take (l.length + i) = l ++ r.take i := by
  rw [List.take_append]

theorem div_step_spec (vl wl : List Nat) (v1 v2 u0 u1 u2 : Nat)
    (hlen : wl.length = vl.length) (hovl : limbs_ok BASE64 vl) (howl : limbs_ok BASE64 wl)
    (hv1 : v1 < BASE64) (hv2 : v2 < BASE64) (_hu0 : u0 < BASE64) (hu1 : u1 < BASE64)
    (hu2 : u2 < BASE64) (hn : BASE64 ≤ 2 * v1)
    (hlt : limbs_value BASE64 (wl ++ [u2, u1, u0])
      < BASE64 * limbs_value BASE64 (vl ++ [v2, v1])) :
    (div_step (vl ++ [v2, v1]) (wl ++ [u2, u1, u0])).1 < BASE64 ∧
    (div_step (vl ++ [v2, v1]) (wl ++ [u2, u1, u0])).2.length = vl.length + 2 ∧
    limbs_ok BASE64 (div_step (vl ++ [v2, v1]) (wl ++ [u2, u1, u0])).2 ∧
    limbs_value BASE64 (wl ++ [u2, u1, u0])
      = (div_step (vl ++ [v2, v1]) (wl ++ [u2, u1, u0])).1
          * limbs_value BASE64 (vl ++ [v2, v1])
        + limbs_value BASE64 (div_step (vl ++ [v2, v1]) (wl ++ [u2, u1, u0])).2 ∧
    limbs_value BASE64 (div_step (vl ++ [v2, v1]) (wl ++ [u2, u1, u0])).2
      < limbs_value BASE64 (vl ++ [v2, v1]) := by
  have hvlen : (vl ++ [v2, v1]).length = vl.length + 2 := by simp
  have hov : limbs_ok BASE64 (vl ++ [v2, v1]) :=
    limbs_ok_append.mpr ⟨hovl, limbs_ok_cons.mpr ⟨hv2, limbs_ok_cons.mpr ⟨hv1, limbs_ok_nil _⟩⟩⟩
  have hV : limbs_value BASE64 (vl ++ [v2, v1])
      = (v1 * BASE64 + v2) * BASE64 ^ vl.length + limbs_value BASE64 vl := by
    rw [limbs_value_append]
    simp only [limbs_value]
    ring
  have hU : limbs_value BASE64 (wl ++ [u2, u1, u0])
      = ((u0 * BASE64 + u1) * BASE64 + u2) * BASE64 ^ vl.length + limbs_value BASE64 wl := by
    rw [limbs_value_append, hlen]
    simp only [limbs_value]
    ring
  have hVl := limbs_value_lt vl hovl
  have hUl := limbs_value_lt wl howl
  rw [hlen] at hUl
  have hVP := limbs_value_lt _ hov
  rw [hvlen] at hVP
  rw [hU, hV] at hlt
  obtain ⟨e1, e2, e3⟩ := div_estimate_spec v1 v2 u0 u1 u2 (BASE64 ^ vl.length)
    (limbs_value BASE64 vl) (limbs_value BASE64 wl) hn hv2 hu2 hVl hUl hlt
  rw [← hU, ← hV] at e2 e3
  -- the limbs read by the step
  have g1 : (vl ++ [v2, v1]).getD (vl.length + 2 - 1) 0 = v1 := by
    rw [show vl.length + 2 - 1 = vl.length + 1 by omega, getD_append_at]
    rfl
  have g2 : (vl ++ [v2, v1]).getD (vl.length + 2 - 2) 0 = v2 := by
    rw [show vl.length + 2 - 2 = vl.length + 0 by omega, getD_append_at]
    rfl
  have g3 : (wl ++ [u2, u1, u0]).getD (vl.length + 2) 0 = u0 := by
    rw [← hlen, getD_append_at]
    rfl
  have g4 : (wl ++ [u2, u1, u0]).getD (vl.length + 2 - 1) 0 = u1 := by
    rw [show vl.length + 2 - 1 = wl.length + 1 by omega, getD_append_at]
    rfl
  have g5 : (wl ++ [u2, u1, u0]).getD (vl.length + 2 - 2) 0 = u2 := by
    rw [show vl.length + 2 - 2 = wl.length + 0 by omega, getD_append_at]
    rfl
  have g6 : (wl ++ [u2, u1, u0]).take (vl.length + 2) = wl ++ [u2, u1] := by
    rw [← hlen, take_append_at]
    rfl
  unfold div_step
  simp only [hvlen, g1, g2, g3, g4, g5, g6]
  generalize (div_refine v1 v2 u2 (div_refine v1 v2 u2
        (min ((u0 * BASE64 + u1) / v1) (BASE64 - 1),
          u0 * BASE64 + u1 - min ((u0 * BASE64 + u1) / v1) (BASE64 - 1) * v1))).1 = q
    at e1 e2 e3 ⊢
  have howt : limbs_ok BASE64 (wl ++ [u2, u1]) :=
    limbs_ok_append.mpr ⟨howl, limbs_ok_cons.mpr ⟨hu2, limbs_ok_cons.mpr ⟨hu1, limbs_ok_nil _⟩⟩⟩
  obtain ⟨s1, s2, s3, s4⟩ := mpn_submul_1_loop_spec q e1 (vl.length + 2) (wl ++ [u2, u1])
    (vl ++ [v2, v1]) 0 (by simp [hlen]) hvlen howt hov BASE64_pos
  have hUsplit : limbs_value BASE64 (wl ++ [u2, u1, u0])
      = limbs_value BASE64 (wl ++ [u2, u1]) + BASE64 ^ (vl.length + 2) * u0 := by
    rw [limbs_value_append, limbs_value_append, hlen]
    simp only [limbs_value]
    ring
  unfold mpn_submul_1
  generalize mpn_submul_1_loop q 0 (vl.length + 2) (wl ++ [u2, u1]) (vl ++ [v2, v1]) = s
    at s1 s2 s3 s4 ⊢
  have hL := limbs_value_lt _ s2
  rw [s1] at hL
  rw [Nat.add_zero] at s4
  have av := mpn_add_n_loop_spec (vl.length + 2) s.1 (vl ++ [v2, v1]) 0 s1 hvlen
  obtain ⟨al, aok, ac⟩ := mpn_add_n_loop_shape (vl.length + 2) s.1 (vl ++ [v2, v1]) 0 s1 hvlen
    s2 hov (Nat.zero_le _)
  have hAlt := limbs_value_lt _ aok
  rw [al] at hAlt
  rw [Nat.add_zero] at av
  unfold mpn_add_n
  generalize mpn_add_n_loop 0 (vl.length + 2) s.1 (vl ++ [v2, v1]) = r
    at av al aok ac hAlt ⊢
  generalize limbs_value BASE64 (wl ++ [u2, u1, u0]) = U at e2 e3 hUsplit ⊢
  generalize limbs_value BASE64 (wl ++ [u2, u1]) = Ut at s4 hUsplit
  generalize limbs_value BASE64 (vl ++ [v2, v1]) = V at e2 e3 s4 hVP av ⊢
  generalize BASE64 ^ (vl.length + 2) = P at hL hVP s4 hUsplit av hAlt
  have e2' : U < q * V + V := by
    have : (q + 1) * V = q * V + V := by ring
    omega
  have hqV : V * q = q * V := Nat.mul_comm _ _
  rw [hqV] at s4
  by_cases hb : u0 < s.2
  · rw [if_pos hb]
    simp only
    obtain ⟨d, hd⟩ : ∃ d, s.2 = u0 + d + 1 := ⟨s.2 - u0 - 1, by omega⟩
    have hPc : P * s.2 = P * u0 + P * d + P := by
      rw [hd]
      ring
    have hd0 : P * d = 0 := by
      rcases Nat.eq_zero_or_pos d with h | h
      · rw [h, Nat.mul_zero]
      · exfalso
        have : P * 1 ≤ P * d := Nat.mul_le_mul_left _ h
        omega
    have hq1 : 1 ≤ q := by
      rcases Nat.eq_zero_or_pos q with h | h
      · exfalso
        rw [h, Nat.zero_mul] at s4 e3
        omega
      · exact h
    have hq1V : (q - 1) * V + V = q * V := by
      obtain ⟨k, hk⟩ : ∃ k, q = k + 1 := ⟨q - 1, by omega⟩
      rw [hk]
      simp only [Nat.add_sub_cancel]
      ring
    have hc1 : P * r.2 = P := by
      rcases Nat.eq_zero_or_pos r.2 with h | h
      · exfalso
        rw [h] at av
        omega
      · have h1 : r.2 = 1 := by omega
        rw [h1, Nat.mul_one]
    refine ⟨by omega, al, aok, ?_, ?_⟩
    · omega
    · omega
  · rw [if_neg hb]
    simp only
    obtain ⟨d, hd⟩ : ∃ d, u0 = s.2 + d := ⟨u0 - s.2, by omega⟩
    have hPc : P * u0 = P * s.2 + P * d := by
      rw [hd]
      ring
    have hd0 : P * d = 0 := by
      rcases Nat.eq_zero_or_pos d with h | h
      · rw [h, Nat.mul_zero]
      · exfalso
        have : P * 1 ≤ P * d := Nat.mul_le_mul_left _ h
        omega
    refine ⟨e1, s1, s2, ?_, ?_⟩ <;> omega

end bi

namespace bi

theorem exists_append_three (n : Nat) (l : List Nat) (h : l.length = n + 3) :
    ∃ wl x y z, l = wl ++ [x, y, z] ∧ wl.length = n := by
  have hd : (l.drop n).length = 3 := by
    rw [List.length_drop]
    omega
  match hl : l.drop n, hd with
  | [x, y, z], _ =>
    refine ⟨l.take n, x, y, z, ?_, ?_⟩
    · rw [← hl, List.take_append_drop]
    · rw [List.length_take]
      omega

theorem exists_append_two (n : Nat) (l : List Nat) (h : l.length = n + 2) :
    ∃ wl x y, l = wl ++ [x, y] ∧ wl.length = n := by
  have hd : (l.drop n).length = 2 := by
    rw [List.length_drop]
    omega
  match hl : l.drop n, hd with
  | [x, y], _ =>
    refine ⟨l.take n, x, y, ?_, ?_⟩
    · rw [← hl, List.take_append_drop]
    · rw [List.length_take]
      omega

theorem div_loop_spec (vl : List Nat) (v1 v2 : Nat) (hovl : limbs_ok BASE64 vl)
    (hv1 : v1 < BASE64) (hv2 : v2 < BASE64) (hn : BASE64 ≤ 2 * v1) :
    ∀ (us r : List Nat), limbs_ok BASE64 us → limbs_ok BASE64 r → r.length = vl.length + 2 →
    limbs_value BASE64 r < limbs_value BASE64 (vl ++ [v2, v1]) →
    (div_loop (vl ++ [v2, v1]) us r).1.length = us.length ∧
    limbs_ok BASE64 (div_loop (vl ++ [v2, v1]) us r).1 ∧
    (div_loop (vl ++ [v2, v1]) us r).2.length = vl.length + 2 ∧
    limbs_ok BASE64 (div_loop (vl ++ [v2, v1]) us r).2 ∧
    limbs_value BASE64 (div_loop (vl ++ [v2, v1]) us r).2
      < limbs_value BASE64 (vl ++ [v2, v1]) ∧
    limbs_value BASE64 us + BASE64 ^ us.length * limbs_value BASE64 r
      = limbs_value BASE64 (div_loop (vl ++ [v2, v1]) us r).1
          * limbs_value BASE64 (vl ++ [v2, v1])
        + limbs_value BASE64 (div_loop (vl ++ [v2, v1]) us r).2 := by
  intro us
  induction us with
  | nil =>
    intro r _ hor hrl hrv
    simp [div_loop, limbs_value, limbs_ok_nil, hor, hrl, hrv]
  | cons u us ih =>
    intro r hous hor hrl hrv
    obtain ⟨hu, hous'⟩ := limbs_ok_cons.mp hous
    obtain ⟨i1, i2, i3, i4, i5, i6⟩ := ih r hous' hor hrl hrv
    simp only [div_loop]
    generalize div_loop (vl ++ [v2, v1]) us r = hi at i1 i2 i3 i4 i5 i6 ⊢
    obtain ⟨wl, x, y, z, hw, hwl⟩ := exists_append_three vl.length (u :: hi.2)
      (by simp [i3])
    have how : limbs_ok BASE64 (u :: hi.2) := limbs_ok_cons.mpr ⟨hu, i4⟩
    rw [hw] at how
    obtain ⟨howl, how3⟩ := limbs_ok_append.mp how
    obtain ⟨hx, how2⟩ := limbs_ok_cons.mp how3
    obtain ⟨hy, how1⟩ := limbs_ok_cons.mp how2
    obtain ⟨hz, _⟩ := limbs_ok_cons.mp how1
    have hlt : limbs_value BASE64 (wl ++ [x, y, z])
        < BASE64 * limbs_value BASE64 (vl ++ [v2, v1]) := by
      rw [← hw]
      simp only [limbs_value]
      have : BASE64 * (limbs_value BASE64 hi.2 + 1)
          ≤ BASE64 * limbs_value BASE64 (vl ++ [v2, v1]) := Nat.mul_le_mul_left _ i5
      rw [Nat.mul_add] at this
      omega
    obtain ⟨d1, d2, d3, d4, d5⟩ := div_step_spec vl wl v1 v2 z y x hwl hovl howl hv1 hv2 hz hy
      hx hn hlt
    rw [← hw] at d1 d2 d3 d4 d5
    simp only [limbs_value] at d4
    refine ⟨by simp [i1], limbs_ok_cons.mpr ⟨d1, i2⟩, d2, d3, d5, ?_⟩
    simp only [limbs_value, List.length_cons, pow_succ]
    linear_combination BASE64 * i6 + d4

theorem mpn_divrem_1_loop_spec (d : Nat) (hd : 0 < d) :
    ∀ (a : List Nat), limbs_ok BASE64 a →
    (mpn_divrem_1_loop d a).1.length = a.length ∧ limbs_ok BASE64 (mpn_divrem_1_loop d a).1 ∧
    (mpn_divrem_1_loop d a).2 < d ∧
    limbs_value BASE64 a
      = limbs_value BASE64 (mpn_divrem_1_loop d a).1 * d + (mpn_divrem_1_loop d a).2 := by
  intro a
  induction a with
  | nil =>
    intro _
    simp [mpn_divrem_1_loop, limbs_value, limbs_ok_nil, hd]
  | cons x xs ih =>
    intro hok
    obtain ⟨hx, hoxs⟩ := limbs_ok_cons.mp hok
    obtain ⟨i1, i2, i3, i4⟩ := ih hoxs
    simp only [mpn_divrem_1_loop, limbs_value]
    generalize mpn_divrem_1_loop d xs = r at i1 i2 i3 i4 ⊢
    have hdm := Nat.div_add_mod (r.2 * BASE64 + x) d
    have hq : (r.2 * BASE64 + x) / d < BASE64 := by
      rw [Nat.div_lt_iff_lt_mul hd]
      have : (r.2 + 1) * BASE64 ≤ d * BASE64 := Nat.mul_le_mul_right _ i3
      rw [Nat.add_mul] at this
      rw [Nat.mul_comm BASE64 d]
      omega
    refine ⟨by simp [i1], limbs_ok_cons.mpr ⟨hq, i2⟩, Nat.mod_lt _ hd, ?_⟩
    rw [i4]
    linear_combination hdm.symm

end bi

namespace bi

theorem clz64_spec (x : Nat) (hx0 : 0 < x) (hx : x < BASE64) :
    clz64 x ≤ 63 ∧ x < 2 ^ (64 - clz64 x) ∧ 2 ^ 63 ≤ x * 2 ^ clz64 x := by
  have hne : x ≠ 0 := by omega
  have h1 : Nat.log2 x < 64 := (Nat.log2_lt hne).mpr hx
  have h2 := Nat.log2_self_le hne
  have h3 := @Nat.lt_log2_self x
  unfold clz64
  refine ⟨by omega, ?_, ?_⟩
  · have e : 64 - (63 - Nat.log2 x) = Nat.log2 x + 1 := by omega
    rw [e]
    exact h3
  · have e : (2 : Nat) ^ 63 = 2 ^ Nat.log2 x * 2 ^ (63 - Nat.log2 x) := by
      rw [← pow_add]
      congr 1
      omega
    rw [e]
    exact Nat.mul_le_mul_right _ h2

theorem normalized_concat (l : List Nat) (x : Nat) : normalized (l ++ [x]) ↔ x ≠ 0 := by
  unfold normalized
  rw [List.getLast?_concat]
  simp

theorem getLastD_concat (l : List Nat) (x : Nat) : (l ++ [x]).getLastD 0 = x := by
  rw [List.getLastD_eq_getLast?, List.getLast?_concat]
  rfl

/-- Normalisation of an operand by the shift count `s` of the divisor: the
shifted array with the shifted-out bits as an extra top limb. -/
theorem lshift_ext_spec (a : List Nat) (s : Nat) (hs : s ≤ 63) (hoa : limbs_ok BASE64 a) :
    (if s = 0 then a ++ [0]
      else (mpn_lshift a a.length s).1 ++ [(mpn_lshift a a.length s).2]).length
        = a.length + 1 ∧
    limbs_ok BASE64 (if s = 0 then a ++ [0]
      else (mpn_lshift a a.length s).1 ++ [(mpn_lshift a a.length s).2]) ∧
    limbs_value BASE64 (if s = 0 then a ++ [0]
      else (mpn_lshift a a.length s).1 ++ [(mpn_lshift a a.length s).2])
      = limbs_value BASE64 a * 2 ^ s := by
  by_cases h0 : s = 0
  · subst h0
    simp only [if_true, pow_zero, Nat.mul_one]
    refine ⟨by simp, limbs_ok_append.mpr ⟨hoa, limbs_ok_cons.mpr ⟨BASE64_pos, limbs_ok_nil _⟩⟩, ?_⟩
    rw [limbs_value_append]
    simp [limbs_value]
  · rw [if_neg h0]
    obtain ⟨s1, s2, s3, s4⟩ := mpn_lshift_loop_spec s (by omega) a.length a 0 rfl hoa
      (by positivity)
    unfold mpn_lshift
    have hc : (mpn_lshift_loop s 0 a.length a).2 < BASE64 := by
      have : 2 ^ s ≤ 2 ^ 64 := Nat.pow_le_pow_right (by omega) (by omega)
      unfold BASE64
      omega
    refine ⟨by simp [s1], limbs_ok_append.mpr ⟨s2, limbs_ok_cons.mpr ⟨hc, limbs_ok_nil _⟩⟩, ?_⟩
    rw [limbs_value_append, s1]
    simp only [limbs_value, Nat.mul_zero, Nat.add_zero]
    rw [Nat.add_zero] at s4
    exact s4

/-- Normalisation of the divisor: the shifted divisor keeps its length, has
the value `b * 2^s` and its top bit set. -/
theorem divisor_normalize_spec (bl : List Nat) (b1 : Nat) (hob : limbs_ok BASE64 (bl ++ [b1]))
    (hb1 : b1 ≠ 0) :
    (if clz64 b1 = 0 then bl ++ [b1]
      else (mpn_lshift (bl ++ [b1]) (bl ++ [b1]).length (clz64 b1)).1).length = bl.length + 1 ∧
    limbs_ok BASE64 (if clz64 b1 = 0 then bl ++ [b1]
      else (mpn_lshift (bl ++ [b1]) (bl ++ [b1]).length (clz64 b1)).1) ∧
    limbs_value BASE64 (if clz64 b1 = 0 then bl ++ [b1]
      else (mpn_lshift (bl ++ [b1]) (bl ++ [b1]).length (clz64 b1)).1)
      = limbs_value BASE64 (bl ++ [b1]) * 2 ^ clz64 b1 ∧
    BASE64 ^ bl.length * 2 ^ 63 ≤ limbs_value BASE64 (if clz64 b1 = 0 then bl ++ [b1]
      else (mpn_lshift (bl ++ [b1]) (bl ++ [b1]).length (clz64 b1)).1) := by
  obtain ⟨hobl, hob1'⟩ := limbs_ok_append.mp hob
  obtain ⟨hb1lt, _⟩ := limbs_ok_cons.mp hob1'
  obtain ⟨c1, c2, c3⟩ := clz64_spec b1 (by omega) hb1lt
  have hlen : (bl ++ [b1]).length = bl.length + 1 := by simp
  have hval : limbs_value BASE64 (bl ++ [b1])
      = limbs_value BASE64 bl + BASE64 ^ bl.length * b1 := by
    rw [limbs_value_append]
    simp [limbs_value]
  have hge : BASE64 ^ bl.length * 2 ^ 63
      ≤ limbs_value BASE64 (bl ++ [b1]) * 2 ^ clz64 b1 := by
    rw [hval, Nat.add_mul, Nat.mul_assoc]
    have := Nat.mul_le_mul_left (BASE64 ^ bl.length) c3
    omega
  by_cases h0 : clz64 b1 = 0
  · rw [if_pos h0]
    rw [h0] at hge ⊢
    simp only [pow_zero, Nat.mul_one] at hge ⊢
    exact ⟨hlen, hob, trivial, hge⟩
  · rw [if_neg h0]
    obtain ⟨s1, s2, s3, s4⟩ := mpn_lshift_loop_spec (clz64 b1) (by omega) (bl ++ [b1]).length
      (bl ++ [b1]) 0 rfl hob (by positivity)
    unfold mpn_lshift
    rw [Nat.add_zero] at s4
    have hlt : limbs_value BASE64 (bl ++ [b1]) * 2 ^ clz64 b1 < BASE64 ^ (bl ++ [b1]).length := by
      rw [hval, hlen, pow_succ]
      have hbl := limbs_value_lt bl hobl
      have hB : BASE64 = 2 ^ (64 - clz64 b1) * 2 ^ clz64 b1 := by
        unfold BASE64
        rw [← pow_add]
        congr 1
        omega
      have h1 : (b1 + 1) * 2 ^ clz64 b1 ≤ BASE64 := by
        rw [hB]
        exact Nat.mul_le_mul_right _ c2
      have h2 : BASE64 ^ bl.length * ((b1 + 1) * 2 ^ clz64 b1)
          ≤ BASE64 ^ bl.length * BASE64 := Nat.mul_le_mul_left _ h1
      have h3 : limbs_value BASE64 bl * 2 ^ clz64 b1 < BASE64 ^ bl.length * 2 ^ clz64 b1 :=
        Nat.mul_lt_mul_of_pos_right hbl (by positivity)
      have e : (limbs_value BASE64 bl + BASE64 ^ bl.length * b1) * 2 ^ clz64 b1
          + BASE64 ^ bl.length * 2 ^ clz64 b1
          = limbs_value BASE64 bl * 2 ^ clz64 b1
            + BASE64 ^ bl.length * ((b1 + 1) * 2 ^ clz64 b1) := by ring
      omega
    have hc0 : (mpn_lshift_loop (clz64 b1) 0 (bl ++ [b1]).length (bl ++ [b1])).2 = 0 := by
      rcases Nat.eq_zero_or_pos (mpn_lshift_loop (clz64 b1) 0 (bl ++ [b1]).length
        (bl ++ [b1])).2 with h | h
      · exact h
      · exfalso
        have := Nat.mul_le_mul_left (BASE64 ^ (bl ++ [b1]).length) h
        omega
    rw [hc0, Nat.mul_zero, Nat.add_zero] at s4
    refine ⟨by rw [s1, hlen], s2, s4, by rw [s4]; exact hge⟩

/-- A divisor whose value reaches `β^(n+1) * 2^63` on `n + 2` limbs has its top
bit set. -/
theorem top_limb_of_value_ge (vl : List Nat) (v2 v1 : Nat) (hovl : limbs_ok BASE64 vl)
    (hv2 : v2 < BASE64)
    (hge : BASE64 ^ (vl.length + 1) * 2 ^ 63 ≤ limbs_value BASE64 (vl ++ [v2, v1])) :
    BASE64 ≤ 2 * v1 := by
  have hval : limbs_value BASE64 (vl ++ [v2, v1])
      = limbs_value BASE64 (vl ++ [v2]) + BASE64 ^ (vl.length + 1) * v1 := by
    rw [limbs_value_append, limbs_value_append]
    simp only [limbs_value, List.length_cons, List.length_nil]
    ring
  have hlo := limbs_value_lt (vl ++ [v2])
    (limbs_ok_append.mpr ⟨hovl, limbs_ok_cons.mpr ⟨hv2, limbs_ok_nil _⟩⟩)
  simp only [List.length_append, List.length_cons, List.length_nil, Nat.zero_add] at hlo
  rw [hval] at hge
  by_contra hlt
  have h1 : v1 + 1 ≤ 2 ^ 63 := by
    rw [BASE64_eq] at hlt
    omega
  have h2 := Nat.mul_le_mul_left (BASE64 ^ (vl.length + 1)) h1
  rw [Nat.mul_add] at h2
  omega

theorem mpn_div_qr_spec (a b : List Nat) (hlen : b.length ≤ a.length) (hbne : b ≠ [])
    (hoa : limbs_ok BASE64 a) (hob : limbs_ok BASE64 b) (hnb : normalized b) :
    (mpn_div_qr a b).1.length = a.length - b.length + 1 ∧
    limbs_ok BASE64 (mpn_div_qr a b).1 ∧
    (mpn_div_qr a b).2.length = b.length ∧ limbs_ok BASE64 (mpn_div_qr a b).2 ∧
    limbs_value BASE64 (mpn_div_qr a b).2 < limbs_value BASE64 b ∧
    limbs_value BASE64 a
      = limbs_value BASE64 (mpn_div_qr a b).1 * limbs_value BASE64 b
        + limbs_value BASE64 (mpn_div_qr a b).2 := by
  obtain ⟨bl, b1, hb, hbl⟩ : ∃ bl b1, b = bl ++ [b1] ∧ bl.length + 1 = b.length := by
    refine ⟨b.dropLast, b.getLast hbne, (List.dropLast_append_getLast hbne).symm, ?_⟩
    rw [List.length_dropLast]
    have := List.length_pos.mpr hbne
    omega
  have hb1 : b1 ≠ 0 := by
    rw [hb] at hnb
    exact (normalized_concat bl b1).mp hnb
  unfold mpn_div_qr
  by_cases h1 : b.length = 1
  · rw [if_pos h1]
    have hbl0 : bl = [] := List.length_eq_zero.mp (by omega)
    subst hbl0
    simp only [List.nil_append] at hb
    subst hb
    simp only [List.headD_cons, mpn_divrem_1, List.take_length, List.length_cons,
      List.length_nil]
    obtain ⟨d1, d2, d3, d4⟩ := mpn_divrem_1_loop_spec b1 (by omega) a hoa
    have hd3' : (mpn_divrem_1_loop b1 a).2 < BASE64 := by
      have := (limbs_ok_cons.mp hob).1
      omega
    refine ⟨by rw [d1]; simp at hlen; omega, d2, trivial,
      limbs_ok_cons.mpr ⟨hd3', limbs_ok_nil _⟩, ?_, ?_⟩
    · simpa [limbs_value] using d3
    · simpa [limbs_value] using d4
  · rw [if_neg h1]
    have hb1lt : b1 < BASE64 := by
      rw [hb] at hob
      exact (limbs_ok_cons.mp (limbs_ok_append.mp hob).2).1
    obtain ⟨c1, c2, c3⟩ := clz64_spec b1 (by omega) hb1lt
    have hlast : b.getLastD 0 = b1 := by rw [hb, getLastD_concat]
    rw [hlast]
    have hd := divisor_normalize_spec bl b1 (by rw [← hb]; exact hob) hb1
    rw [← hb] at hd
    obtain ⟨n1, n2, n3, n4⟩ := hd
    obtain ⟨x1, x2, x3⟩ := lshift_ext_spec a (clz64 b1) c1 hoa
    simp only
    generalize (if clz64 b1 = 0 then b
      else (mpn_lshift b b.length (clz64 b1)).1) = v at n1 n2 n3 n4 ⊢
    generalize (if clz64 b1 = 0 then a ++ [0]
      else (mpn_lshift a a.length (clz64 b1)).1 ++ [(mpn_lshift a a.length (clz64 b1)).2]) = u
      at x1 x2 x3 ⊢
    obtain ⟨vl, v2, v1, hv, hvl⟩ := exists_append_two (bl.length - 1) v (by omega)
    subst hv
    obtain ⟨hovl, hov'⟩ := limbs_ok_append.mp n2
    obtain ⟨hv2, hov''⟩ := limbs_ok_cons.mp hov'
    obtain ⟨hv1, _⟩ := limbs_ok_cons.mp hov''
    have hblv : bl.length = vl.length + 1 := by omega
    rw [hblv] at n4
    have hn := top_limb_of_value_ge vl v2 v1 hovl hv2 n4
    -- the initial remainder is below the divisor
    have hk : a.length + 1 - b.length ≤ u.length := by omega
    have hsplit := limbs_value_take_drop BASE64 u (a.length + 1 - b.length) hk
    have hrl : (u.drop (a.length + 1 - b.length)).length = vl.length + 2 := by
      rw [List.length_drop]
      omega
    have hr0 : limbs_value BASE64 (u.drop (a.length + 1 - b.length))
        < limbs_value BASE64 (vl ++ [v2, v1]) := by
      have hA := limbs_value_lt a hoa
      have hpow : BASE64 ^ a.length
          = BASE64 ^ (a.length + 1 - b.length) * BASE64 ^ (vl.length + 1) := by
        rw [← pow_add]
        congr 1
        omega
      have h2s : 2 ^ clz64 b1 ≤ 2 ^ 63 := Nat.pow_le_pow_right (by omega) c1
      have h3 : limbs_value BASE64 a * 2 ^ clz64 b1 < BASE64 ^ a.length * 2 ^ 63 :=
        lt_of_lt_of_le (Nat.mul_lt_mul_of_pos_right hA (by positivity))
          (Nat.mul_le_mul_left _ h2s)
      rw [← x3, hsplit, hpow, Nat.mul_assoc] at h3
      have h4 : BASE64 ^ (a.length + 1 - b.length)
            * limbs_value BASE64 (u.drop (a.length + 1 - b.length))
          < BASE64 ^ (a.length + 1 - b.length) * (BASE64 ^ (vl.length + 1) * 2 ^ 63) := by
        omega
      exact lt_of_lt_of_le (Nat.lt_of_mul_lt_mul_left h4) n4
    obtain ⟨l1, l2, l3, l4, l5, l6⟩ := div_loop_spec vl v1 v2 hovl hv1 hv2 hn
      (u.take (a.length + 1 - b.length)) (u.drop (a.length + 1 - b.length))
      (limbs_ok_take x2 _) (limbs_ok_drop x2 _) hrl hr0
    rw [List.length_take, Nat.min_eq_left hk] at l1 l6
    rw [← hsplit, x3, n3] at l6
    rw [n3] at l5
    generalize div_loop (vl ++ [v2, v1]) (u.take (a.length + 1 - b.length))
      (u.drop (a.length + 1 - b.length)) = qr at l1 l2 l3 l4 l5 l6 ⊢
    have hp : 0 < 2 ^ clz64 b1 := by positivity
    -- the remainder is a multiple of `2^s`
    have hle : limbs_value BASE64 qr.1 * limbs_value BASE64 b ≤ limbs_value BASE64 a := by
      have : limbs_value BASE64 qr.1 * limbs_value BASE64 b * 2 ^ clz64 b1
          ≤ limbs_value BASE64 a * 2 ^ clz64 b1 := by
        rw [l6]
        have e : limbs_value BASE64 qr.1 * limbs_value BASE64 b * 2 ^ clz64 b1
            = limbs_value BASE64 qr.1 * (limbs_value BASE64 b * 2 ^ clz64 b1) := by ring
        omega
      exact Nat.le_of_mul_le_mul_right this hp
    obtain ⟨R, hR⟩ : ∃ R, limbs_value BASE64 a
        = limbs_value BASE64 qr.1 * limbs_value BASE64 b + R :=
      ⟨limbs_value BASE64 a - limbs_value BASE64 qr.1 * limbs_value BASE64 b, by omega⟩
    have hrf : limbs_value BASE64 qr.2 = R * 2 ^ clz64 b1 := by
      rw [hR] at l6
      have e : (limbs_value BASE64 qr.1 * limbs_value BASE64 b + R) * 2 ^ clz64 b1
          = limbs_value BASE64 qr.1 * (limbs_value BASE64 b * 2 ^ clz64 b1)
            + R * 2 ^ clz64 b1 := by ring
      omega
    have hRlt : R < limbs_value BASE64 b := by
      rw [hrf] at l5
      exact Nat.lt_of_mul_lt_mul_right l5
    refine ⟨by rw [l1]; omega, l2, ?_⟩
    by_cases h0 : clz64 b1 = 0
    · rw [if_pos h0]
      rw [h0] at hrf
      simp only [pow_zero, Nat.mul_one] at hrf
      refine ⟨by omega, l4, by omega, by omega⟩
    · rw [if_neg h0]
      simp only [mpn_rshift, List.take_length]
      obtain ⟨r1, r2, _⟩ := mpn_rshift_loop_spec (clz64 b1) (by omega) (by omega) qr.2 l4
      have rv := mpn_rshift_loop_value (clz64 b1) (by omega) (by omega) qr.2 l4
      rw [hrf, Nat.mul_div_cancel _ hp] at rv
      refine ⟨by omega, r2, by omega, by omega⟩

end bi

namespace bi

theorem bigint.divmod_spec (a b : bigint) (ha : a.wf) (hb : b.wf) (hbne : b.limbs ≠ []) :
    ∃ q r, bigint.divmod a b = some (q, r) ∧ q.wf ∧ r.wf ∧
      a.toInt = q.toInt * b.toInt + r.toInt ∧
      limbs_value BASE64 r.limbs < limbs_value BASE64 b.limbs ∧
      (r.sign = 0 ∨ r.sign = a.sign) := by
  have ca := bigint.wf_cases a ha
  have cb := bigint.wf_cases b hb
  have ha' := ha
  obtain ⟨oka, na, sa, za⟩ := ha
  obtain ⟨okb, nb, sb, zb⟩ := hb
  have hvb : 0 < limbs_value BASE64 b.limbs := normalized_value_pos BASE64_pos _ hbne nb
  unfold bigint.divmod
  rw [if_neg hbne]
  rcases mag_cmp_spec a.limbs b.limbs oka okb na nb with ⟨c, hv⟩ | ⟨c, hv⟩ | ⟨c, hv⟩
  · -- equal magnitudes
    rw [c]
    simp only [show ((0 : Int) = -1) = False from by simp, if_false]
    have hlen : b.limbs.length ≤ a.limbs.length :=
      normalized_length_le BASE64_gt_one _ _ oka nb (le_of_eq hv.symm)
    obtain ⟨d1, d2, d3, d4, d5, d6⟩ := mpn_div_qr_spec a.limbs b.limbs hlen hbne oka okb nb
    generalize mpn_div_qr a.limbs b.limbs = qr at d1 d2 d3 d4 d5 d6 ⊢
    have hnq := normalized_eq_nil_iff BASE64_pos (normalize qr.1) (normalize_normalized _)
    have hnr := normalized_eq_nil_iff BASE64_pos (normalize qr.2) (normalize_normalized _)
    rw [normalize_value] at hnq hnr
    have hQ : limbs_value BASE64 qr.1 = 1 := by
      rw [hv] at d6
      rcases Nat.lt_or_ge (limbs_value BASE64 qr.1) 1 with h | h
      · have h0 : limbs_value BASE64 qr.1 = 0 := by omega
        rw [h0] at d6
        omega
      · rcases Nat.lt_or_ge 1 (limbs_value BASE64 qr.1) with h2 | h2
        · exfalso
          have := Nat.mul_le_mul_right (limbs_value BASE64 b.limbs) h2
          omega
        · omega
    have hR : limbs_value BASE64 qr.2 = 0 := by
      rw [hQ, hv] at d6
      omega
    have hq0 : normalize qr.1 ≠ [] := by
      rw [Ne, hnq, hQ]
      omega
    have hr0 : normalize qr.2 = [] := hnr.mpr hR
    rw [if_neg hq0, if_pos hr0]
    have hsa : a.sign = 1 ∨ a.sign = -1 := by
      rcases ca with ⟨_, _, h⟩ | ⟨h, _⟩ | ⟨h, _⟩
      · omega
      · exact Or.inl h
      · exact Or.inr h
    have hsb : b.sign = 1 ∨ b.sign = -1 := by
      rcases cb with ⟨_, h, _⟩ | ⟨h, _⟩ | ⟨h, _⟩
      · exact absurd h hbne
      · exact Or.inl h
      · exact Or.inr h
    refine ⟨_, _, rfl, bigint.wf_mk _ _ (normalize_ok _ d2) (normalize_normalized _) ?_ ?_,
      bigint.zero_wf, ?_, hvb, Or.inl rfl⟩
    · rcases hsa with h1 | h1 <;> rcases hsb with h2 | h2 <;> rw [h1, h2] <;> simp
    · rw [normalize_value, hQ]
      rcases hsa with h1 | h1 <;> rcases hsb with h2 | h2 <;> rw [h1, h2] <;> simp
    · simp only [bigint.toInt, bigint.zero, normalize_value, hQ, hv]
      rcases hsa with h1 | h1 <;> rcases hsb with h2 | h2 <;> rw [h1, h2] <;>
        simp [limbs_value]
  · -- dividend of smaller magnitude
    rw [c]
    simp only [if_true]
    refine ⟨_, _, rfl, bigint.zero_wf, ha', ?_, hv, Or.inr rfl⟩
    rw [bigint.zero_toInt]
    ring
  · rw [c]
    simp only [show ((1 : Int) = -1) = False from by simp, if_false]
    have hlen : b.limbs.length ≤ a.limbs.length :=
      normalized_length_le BASE64_gt_one _ _ oka nb (le_of_lt hv)
    obtain ⟨d1, d2, d3, d4, d5, d6⟩ := mpn_div_qr_spec a.limbs b.limbs hlen hbne oka okb nb
    generalize mpn_div_qr a.limbs b.limbs = qr at d1 d2 d3 d4 d5 d6 ⊢
    have hnq := normalized_eq_nil_iff BASE64_pos (normalize qr.1) (normalize_normalized _)
    have hnr := normalized_eq_nil_iff BASE64_pos (normalize qr.2) (normalize_normalized _)
    rw [normalize_value] at hnq hnr
    have hsa : a.sign = 1 ∨ a.sign = -1 := by
      rcases ca with ⟨_, _, h⟩ | ⟨h, _⟩ | ⟨h, _⟩
      · omega
      · exact Or.inl h
      · exact Or.inr h
    have hsb : b.sign = 1 ∨ b.sign = -1 := by
      rcases cb with ⟨_, h, _⟩ | ⟨h, _⟩ | ⟨h, _⟩
      · exact absurd h hbne
      · exact Or.inl h
      · exact Or.inr h
    have hQ : 0 < limbs_value BASE64 qr.1 := by
      rcases Nat.eq_zero_or_pos (limbs_value BASE64 qr.1) with h | h
      · rw [h] at d6
        omega
      · exact h
    have hq0 : normalize qr.1 ≠ [] := by
      rw [Ne, hnq]
      omega
    rw [if_neg hq0]
    have hqwf : (bigint.mk (a.sign * b.sign) (normalize qr.1)).wf := by
      refine bigint.wf_mk _ _ (normalize_ok _ d2) (normalize_normalized _) ?_ ?_
      · rcases hsa with h1 | h1 <;> rcases hsb with h2 | h2 <;> rw [h1, h2] <;> simp
      · rw [normalize_value]
        rcases hsa with h1 | h1 <;> rcases hsb with h2 | h2 <;> rw [h1, h2] <;>
          constructor <;> intro h <;> exfalso <;> omega
    have hd6 : (limbs_value BASE64 a.limbs : Int)
        = (limbs_value BASE64 qr.1 : Int) * (limbs_value BASE64 b.limbs : Int)
          + (limbs_value BASE64 qr.2 : Int) := by
      rw [d6]
      push_cast
      ring
    by_cases hr0 : normalize qr.2 = []
    · rw [if_pos hr0]
      have hR : limbs_value BASE64 qr.2 = 0 := hnr.mp hr0
      refine ⟨_, _, rfl, hqwf, bigint.zero_wf, ?_, hvb, Or.inl rfl⟩
      simp only [bigint.toInt, bigint.zero, normalize_value, hd6, hR]
      rcases hsb with h2 | h2 <;> rw [h2] <;> simp [limbs_value] <;> ring
    · rw [if_neg hr0]
      have hR : limbs_value BASE64 qr.2 ≠ 0 := fun h => hr0 (hnr.mpr h)
      refine ⟨_, _, rfl, hqwf, bigint.wf_mk _ _ (normalize_ok _ d4) (normalize_normalized _)
        sa ?_, ?_, by rw [normalize_value]; exact d5, Or.inr rfl⟩
      · rw [normalize_value]
        rcases hsa with h1 | h1 <;> rw [h1] <;> constructor <;> intro h <;> exfalso <;> omega
      · simp only [bigint.toInt, normalize_value, hd6]
        rcases hsb with h2 | h2 <;> rw [h2] <;> ring

/-- C4: for all signed BigInts `a` and `b` with `b ≠ 0`, the quotient
`q = a / b` and remainder `r = a % b` exist and satisfy `q * b + r = a`,
`|r| < |b|`, and `r` is zero or has the sign of `a` (truncated division). -/
theorem bigint_div_mod_spec (a b : bigint) (ha : a.wf) (hb : b.wf) (hbne : b ≠ bigint.zero) :
    ∃ q r, bigint.div a b = some q ∧ bigint.mod a b = some r ∧
      bigint.add (bigint.mul q b) r = a ∧
      limbs_value BASE64 r.limbs < limbs_value BASE64 b.limbs ∧
      (r.sign = 0 ∨ r.sign = a.sign) := by
  have hbl : b.limbs ≠ [] := by
    intro h
    apply hbne
    have hs : b.sign = 0 := hb.2.2.2.mpr h
    cases b with
    | mk s l =>
      simp only at h hs
      rw [h, hs]
      rfl
  obtain ⟨q, r, h1, h2, h3, h4, h5, h6⟩ := bigint.divmod_spec a b ha hb hbl
  refine ⟨q, r, ?_, ?_, ?_, h5, h6⟩
  · unfold bigint.div
    rw [h1]
    rfl
  · unfold bigint.mod
    rw [h1]
    rfl
  · obtain ⟨m1, m2⟩ := bigint.mul_spec q b h2 hb
    obtain ⟨s1, s2⟩ := bigint.add_spec (bigint.mul q b) r m1 h3
    apply bigint.eq_of_toInt_eq _ _ s1 ha
    rw [s2, m2, h4]

theorem bigint_div_mod_spec_witness :
    ∃ q r, bigint.div ⟨-1, [0, 0, 1]⟩ ⟨1, [1, 1]⟩ = some q ∧
      bigint.mod ⟨-1, [0, 0, 1]⟩ ⟨1, [1, 1]⟩ = some r ∧
      bigint.add (bigint.mul q ⟨1, [1, 1]⟩) r = ⟨-1, [0, 0, 1]⟩ ∧
      limbs_value BASE64 r.limbs < limbs_value BASE64 (bigint.mk 1 [1, 1]).limbs ∧
      (r.sign = 0 ∨ r.sign = (bigint.mk (-1) [0, 0, 1]).sign) :=
  bigint_div_mod_spec ⟨-1, [0, 0, 1]⟩ ⟨1, [1, 1]⟩ (by decide) (by decide) (by decide)

end bi

namespace bi

theorem digit_char_spec (v : Nat) :
    char_digit (digit_char v) = v % 10 ∧ is_digit (digit_char v) = true ∧
    (digit_char v ≠ '-' ∧ digit_char v ≠ '+') := by
  have h : v % 10 < 10 := Nat.mod_lt _ (by omega)
  unfold digit_char
  generalize v % 10 = d at h
  interval_cases d <;> decide

theorem dec_value_foldl (s : List Char) (acc : Nat) :
    s.foldl (fun acc c => acc * 10 + char_digit c) acc = acc * 10 ^ s.length + dec_value s := by
  induction s generalizing acc with
  | nil => simp [dec_value]
  | cons c cs ih =>
    unfold dec_value
    simp only [List.foldl_cons, List.length_cons, Nat.zero_mul, Nat.zero_add]
    rw [ih (acc * 10 + char_digit c), ih (char_digit c)]
    unfold dec_value
    ring

theorem dec_value_nil : dec_value [] = 0 := rfl

theorem dec_value_append (s t : List Char) :
    dec_value (s ++ t) = dec_value s * 10 ^ t.length + dec_value t := by
  unfold dec_value
  rw [List.foldl_append, dec_value_foldl]
  rfl

theorem dec_value_singleton (c : Char) : dec_value [c] = char_digit c := by
  simp [dec_value]

theorem dec_value_cons (c : Char) (s : List Char) :
    dec_value (c :: s) = char_digit c * 10 ^ s.length + dec_value s := by
  have := dec_value_append [c] s
  rw [dec_value_singleton] at this
  exact this

/-- All characters of the string are decimal digits. -/
theorem all_digit_append {s t : List Char} :
    (s ++ t).all is_digit = true ↔ s.all is_digit = true ∧ t.all is_digit = true := by
  simp [List.all_append]

theorem dec_value_lt (s : List Char) (h : s.all is_digit = true) :
    dec_value s < 10 ^ s.length := by
  induction s with
  | nil => simp [dec_value]
  | cons c cs ih =>
    simp only [List.all_cons, Bool.and_eq_true] at h
    have hc : char_digit c < 10 := by
      have := h.1
      unfold is_digit at this
      simp only [decide_eq_true_eq] at this
      unfold char_digit
      omega
    have h2 := ih h.2
    rw [dec_value_cons, List.length_cons, pow_succ]
    have : char_digit c * 10 ^ cs.length ≤ 9 * 10 ^ cs.length :=
      Nat.mul_le_mul_right _ (by omega)
    omega

theorem digits_fixed_spec : ∀ (w v : Nat),
    (digits_fixed w v).length = w ∧ (digits_fixed w v).all is_digit = true ∧
    dec_value (digits_fixed w v) = v % 10 ^ w := by
  intro w
  induction w with
  | zero =>
    intro v
    simp [digits_fixed, dec_value, Nat.mod_one]
  | succ w ih =>
    intro v
    obtain ⟨i1, i2, i3⟩ := ih (v / 10)
    obtain ⟨d1, d2, _⟩ := digit_char_spec v
    simp only [digits_fixed]
    refine ⟨by simp [i1], ?_, ?_⟩
    · rw [all_digit_append]
      exact ⟨i2, by simp [d2]⟩
    · rw [dec_value_append, dec_value_singleton, i3, d1]
      simp only [List.length_cons, List.length_nil, Nat.zero_add, pow_one]
      rw [pow_succ, Nat.mul_comm (10 ^ w) 10, Nat.mod_mul, Nat.add_comm, Nat.mul_comm]

theorem POW10_LIMB_pos : 0 < POW10_LIMB := by unfold POW10_LIMB; positivity

theorem POW10_LIMB_lt : POW10_LIMB < BASE64 := by
  unfold POW10_LIMB DIGITS_PER_LIMB BASE64
  norm_num

theorem POW10_LIMB_gt : 2 ^ 63 < POW10_LIMB := by
  unfold POW10_LIMB DIGITS_PER_LIMB
  norm_num

/-- The digit groups of the base case: there are at most `m` of them when the
number is below `10^(19 m)`, and they are the base-`10^19` digits of the number
whenever the rounds suffice. -/
theorem to_groups_spec : ∀ (fuel : Nat) (x : List Nat), limbs_ok BASE64 x → normalized x →
    limbs_value BASE64 x < POW10_LIMB ^ fuel →
    limbs_ok POW10_LIMB (to_groups fuel x) ∧
    limbs_value POW10_LIMB (to_groups fuel x) = limbs_value BASE64 x ∧
    ∀ m, limbs_value BASE64 x < POW10_LIMB ^ m → (to_groups fuel x).length ≤ m := by
  intro fuel
  induction fuel with
  | zero =>
    intro x _ _ hlt
    simp only [pow_zero, Nat.lt_one_iff] at hlt
    simp [to_groups, limbs_value, limbs_ok_nil, hlt]
  | succ fuel ih =>
    intro x hok hn hlt
    by_cases hx : x = []
    · subst hx
      simp [to_groups, limbs_value, limbs_ok_nil]
    · simp only [to_groups, if_neg hx, mpn_divrem_1, List.take_length]
      obtain ⟨d1, d2, d3, d4⟩ := mpn_divrem_1_loop_spec POW10_LIMB POW10_LIMB_pos x hok
      generalize mpn_divrem_1_loop POW10_LIMB x = qr at d1 d2 d3 d4 ⊢
      have hq : limbs_value BASE64 (normalize qr.1) < POW10_LIMB ^ fuel := by
        rw [normalize_value]
        rw [d4, pow_succ] at hlt
        by_contra hge
        have := Nat.mul_le_mul_right POW10_LIMB (Nat.le_of_not_lt hge)
        omega
      obtain ⟨i1, i2, i3⟩ := ih (normalize qr.1) (normalize_ok _ d2) (normalize_normalized _) hq
      rw [normalize_value] at i2
      refine ⟨limbs_ok_cons.mpr ⟨d3, i1⟩, ?_, ?_⟩
      · simp only [limbs_value, i2]
        rw [d4]
        ring
      · intro m hm
        have hpos := normalized_value_pos BASE64_pos x hx hn
        cases m with
        | zero =>
          simp only [pow_zero, Nat.lt_one_iff] at hm
          omega
        | succ m =>
          have hq' : limbs_value BASE64 (normalize qr.1) < POW10_LIMB ^ m := by
            rw [normalize_value]
            rw [d4, pow_succ] at hm
            by_contra hge
            have := Nat.mul_le_mul_right POW10_LIMB (Nat.le_of_not_lt hge)
            omega
          have := i3 m hq'
          simp only [List.length_cons]
          omega

theorem groups_digits_spec : ∀ (gs : List Nat), limbs_ok POW10_LIMB gs →
    (groups_digits gs).length = DIGITS_PER_LIMB * gs.length ∧
    (groups_digits gs).all is_digit = true ∧
    dec_value (groups_digits gs) = limbs_value POW10_LIMB gs := by
  intro gs
  induction gs with
  | nil => intro _; simp [groups_digits, dec_value, limbs_value]
  | cons g gs ih =>
    intro hok
    obtain ⟨hg, hgs⟩ := limbs_ok_cons.mp hok
    obtain ⟨i1, i2, i3⟩ := ih hgs
    obtain ⟨f1, f2, f3⟩ := digits_fixed_spec DIGITS_PER_LIMB g
    simp only [groups_digits]
    refine ⟨by rw [List.length_append, i1, f1, List.length_cons]; ring, ?_, ?_⟩
    · rw [all_digit_append]
      exact ⟨i2, f2⟩
    · rw [dec_value_append, f1, f3, i3]
      have : g % 10 ^ DIGITS_PER_LIMB = g := Nat.mod_eq_of_lt hg
      rw [this]
      simp only [limbs_value]
      unfold POW10_LIMB
      ring

/-- The rounds of the base case are enough for every limb array. -/
theorem basecase_fuel (x : List Nat) (hok : limbs_ok BASE64 x) :
    limbs_value BASE64 x < POW10_LIMB ^ (2 * x.length + 1) := by
  have h1 := limbs_value_lt x hok
  have h2 : BASE64 ^ x.length ≤ (2 ^ 63) ^ (2 * x.length + 1) := by
    rw [BASE64_pow, ← pow_mul]
    exact Nat.pow_le_pow_right (by omega) (by omega)
  have h3 : (2 ^ 63) ^ (2 * x.length + 1) ≤ POW10_LIMB ^ (2 * x.length + 1) :=
    Nat.pow_le_pow_left (le_of_lt POW10_LIMB_gt) _
  omega

theorem to_digits_basecase_spec (x : List Nat) (hok : limbs_ok BASE64 x) (hn : normalized x) :
    (to_digits_basecase x).all is_digit = true ∧
    dec_value (to_digits_basecase x) = limbs_value BASE64 x ∧
    ∀ m, limbs_value BASE64 x < 10 ^ (DIGITS_PER_LIMB * m) →
      (to_digits_basecase x).length ≤ DIGITS_PER_LIMB * m := by
  obtain ⟨g1, g2, g3⟩ := to_groups_spec (2 * x.length + 1) x hok hn (basecase_fuel x hok)
  obtain ⟨d1, d2, d3⟩ := groups_digits_spec _ g1
  unfold to_digits_basecase
  refine ⟨d2, by rw [d3, g2], ?_⟩
  intro m hm
  rw [d1]
  apply Nat.mul_le_mul_left
  apply g3
  unfold POW10_LIMB
  rw [← pow_mul]
  exact hm

theorem strip_zeros_spec (s : List Char) (h : s.all is_digit = true) :
    (strip_zeros s).all is_digit = true ∧ dec_value (strip_zeros s) = dec_value s := by
  induction s with
  | nil => simp [strip_zeros, dec_value]
  | cons c cs ih =>
    simp only [List.all_cons, Bool.and_eq_true] at h
    obtain ⟨i1, i2⟩ := ih h.2
    unfold strip_zeros at i1 i2 ⊢
    by_cases hc : c = '0'
    · subst hc
      simp only [List.dropWhile_cons, beq_self_eq_true, if_true]
      refine ⟨i1, ?_⟩
      rw [i2, dec_value_cons]
      simp [char_digit]
    · have : (c == '0') = false := by simpa using hc
      simp only [List.dropWhile_cons, this]
      simp [h.1, h.2]

theorem pad_zeros_spec (w : Nat) (s : List Char) (h : s.all is_digit = true)
    (hl : s.length ≤ w) :
    (pad_zeros w s).length = w ∧ (pad_zeros w s).all is_digit = true ∧
    dec_value (pad_zeros w s) = dec_value s := by
  unfold pad_zeros
  refine ⟨by simp; omega, ?_, ?_⟩
  · rw [all_digit_append]
    refine ⟨?_, h⟩
    simp only [List.all_eq_true]
    intro c hc
    rw [List.eq_of_mem_replicate hc]
    decide
  · rw [dec_value_append]
    have : ∀ k, dec_value (List.replicate k '0') = 0 := by
      intro k
      induction k with
      | zero => rfl
      | succ k ih =>
        rw [List.replicate_succ, dec_value_cons, ih]
        simp [char_digit]
    rw [this]
    simp

end bi

namespace bi

theorem mag_divmod_spec (x p : List Nat) (hox : limbs_ok BASE64 x) (hop : limbs_ok BASE64 p)
    (hnx : normalized x) (hnp : normalized p) (hp : 0 < limbs_value BASE64 p) :
    limbs_ok BASE64 (mag_divmod x p).1 ∧ normalized (mag_divmod x p).1 ∧
    limbs_ok BASE64 (mag_divmod x p).2 ∧ normalized (mag_divmod x p).2 ∧
    limbs_value BASE64 (mag_divmod x p).2 < limbs_value BASE64 p ∧
    limbs_value BASE64 x
      = limbs_value BASE64 (mag_divmod x p).1 * limbs_value BASE64 p
        + limbs_value BASE64 (mag_divmod x p).2 := by
  unfold mag_divmod
  have hpne : p ≠ [] := by
    intro h
    rw [h] at hp
    simp [limbs_value] at hp
  rcases mag_cmp_spec x p hox hop hnx hnp with ⟨hc, hv⟩ | ⟨hc, hv⟩ | ⟨hc, hv⟩
  · have hlen : p.length ≤ x.length :=
      normalized_length_le BASE64_gt_one p x hox hnp (by omega)
    obtain ⟨_, d2, _, d4, d5, d6⟩ := mpn_div_qr_spec x p hlen hpne hox hop hnp
    rw [if_neg (by rw [hc]; decide)]
    dsimp only
    refine ⟨normalize_ok _ d2, normalize_normalized _, normalize_ok _ d4,
      normalize_normalized _, ?_, ?_⟩
    · rw [normalize_value]; exact d5
    · rw [normalize_value, normalize_value]; exact d6
  · rw [if_pos hc]
    refine ⟨limbs_ok_nil _, normalized_nil, hox, hnx, hv, ?_⟩
    simp [limbs_value]
  · have hlen : p.length ≤ x.length :=
      normalized_length_le BASE64_gt_one p x hox hnp (by omega)
    obtain ⟨_, d2, _, d4, d5, d6⟩ := mpn_div_qr_spec x p hlen hpne hox hop hnp
    rw [if_neg (by rw [hc]; decide)]
    dsimp only
    refine ⟨normalize_ok _ d2, normalize_normalized _, normalize_ok _ d4,
      normalize_normalized _, ?_, ?_⟩
    · rw [normalize_value]; exact d5
    · rw [normalize_value, normalize_value]; exact d6

theorem basecase_strip_spec (x : List Nat) (hok : limbs_ok BASE64 x) (hn : normalized x) :
    (strip_zeros (to_digits_basecase x)).all is_digit = true ∧
    dec_value (strip_zeros (to_digits_basecase x)) = limbs_value BASE64 x := by
  obtain ⟨b1, b2, _⟩ := to_digits_basecase_spec x hok hn
  obtain ⟨s1, s2⟩ := strip_zeros_spec _ b1
  exact ⟨s1, by rw [s2, b2]⟩

theorem basecase_pad_spec (x : List Nat) (hok : limbs_ok BASE64 x) (hn : normalized x)
    (m : Nat) (hlt : limbs_value BASE64 x < 10 ^ (DIGITS_PER_LIMB * m)) :
    (pad_zeros (DIGITS_PER_LIMB * m) (to_digits_basecase x)).length = DIGITS_PER_LIMB * m ∧
    (pad_zeros (DIGITS_PER_LIMB * m) (to_digits_basecase x)).all is_digit = true ∧
    dec_value (pad_zeros (DIGITS_PER_LIMB * m) (to_digits_basecase x))
      = limbs_value BASE64 x := by
  obtain ⟨b1, b2, b3⟩ := to_digits_basecase_spec x hok hn
  obtain ⟨p1, p2, p3⟩ := pad_zeros_spec (DIGITS_PER_LIMB * m) _ b1 (b3 m hlt)
  exact ⟨p1, p2, by rw [p3, b2]⟩

/-- The divide-and-conquer formatter writes the decimal digits of the
magnitude; in padded mode the string has exactly `19·2^i` characters, `i` the
height of the tower. -/
theorem to_digits_dc_spec : ∀ (t : List (List Nat)), tower_ok t →
    ∀ (x : List Nat) (pad : Bool), limbs_ok BASE64 x → normalized x →
    (pad = true → limbs_value BASE64 x < 10 ^ (DIGITS_PER_LIMB * 2 ^ t.length)) →
    (to_digits_dc t x pad).all is_digit = true ∧
    dec_value (to_digits_dc t x pad) = limbs_value BASE64 x ∧
    (pad = true → (to_digits_dc t x pad).length = DIGITS_PER_LIMB * 2 ^ t.length) := by
  intro t
  induction t with
  | nil =>
    intro _ x pad hok hn hlt
    cases pad with
    | true =>
      have hlt' := hlt rfl
      simp only [List.length_nil, pow_zero] at hlt' ⊢
      obtain ⟨p1, p2, p3⟩ := basecase_pad_spec x hok hn 1 hlt'
      simp only [Nat.mul_one] at p1 p2 p3
      simp only [to_digits_dc, if_true]
      exact ⟨p2, p3, fun _ => by rw [p1, Nat.mul_one]⟩
    | false =>
      obtain ⟨s1, s2⟩ := basecase_strip_spec x hok hn
      simp only [to_digits_dc]
      exact ⟨s1, s2, fun h => by cases h⟩
  | cons P lower ih =>
    intro ht x pad hok hn hlt
    obtain ⟨hoP, hnP, hvP, hlow⟩ := ht
    have ih' := ih hlow
    simp only [to_digits_dc, List.length_cons]
    by_cases hsmall : x.length < RADIX_DC_THRESHOLD
    · rw [if_pos hsmall]
      cases pad with
      | true =>
        have hlt' := hlt rfl
        simp only [List.length_cons] at hlt'
        obtain ⟨p1, p2, p3⟩ := basecase_pad_spec x hok hn _ hlt'
        simp only [if_true]
        exact ⟨p2, p3, fun _ => p1⟩
      | false =>
        obtain ⟨s1, s2⟩ := basecase_strip_spec x hok hn
        exact ⟨s1, s2, fun h => by cases h⟩
    · rw [if_neg hsmall]
      have hPpos : 0 < limbs_value BASE64 P := by rw [hvP]; positivity
      obtain ⟨q1, q2, r1, r2, hr, hx⟩ := mag_divmod_spec x P hok hoP hn hnP hPpos
      generalize mag_divmod x P = qr at q1 q2 r1 r2 hr hx ⊢
      rw [hvP] at hr hx
      obtain ⟨a1, a2, a3⟩ := ih' qr.2 true r1 r2 (fun _ => hr)
      have a3' := a3 rfl
      cases pad with
      | true =>
        have hlt' := hlt rfl
        simp only [List.length_cons] at hlt'
        have hq : limbs_value BASE64 qr.1 < 10 ^ (DIGITS_PER_LIMB * 2 ^ lower.length) := by
          by_contra hge
          have h1 := Nat.mul_le_mul_right (10 ^ (DIGITS_PER_LIMB * 2 ^ lower.length))
            (Nat.le_of_not_lt hge)
          have h2 : 10 ^ (DIGITS_PER_LIMB * 2 ^ (lower.length + 1))
              = 10 ^ (DIGITS_PER_LIMB * 2 ^ lower.length)
                * 10 ^ (DIGITS_PER_LIMB * 2 ^ lower.length) := by
            rw [← pow_add]
            congr 1
            ring
          omega
        obtain ⟨b1, b2, b3⟩ := ih' qr.1 true q1 q2 (fun _ => hq)
        have b3' := b3 rfl
        simp only [if_true]
        refine ⟨all_digit_append.mpr ⟨b1, a1⟩, ?_, fun _ => ?_⟩
        · rw [dec_value_append, a3', a2, b2, hx]
        · rw [List.length_append, a3', b3']
          ring
      | false =>
        simp only [Bool.false_eq_true, if_false]
        by_cases hq0 : qr.1 = []
        · rw [if_pos hq0]
          obtain ⟨c1, c2, _⟩ := ih' qr.2 false r1 r2 (fun h => by cases h)
          refine ⟨c1, ?_, fun h => by cases h⟩
          rw [c2, hx, hq0]
          simp [limbs_value]
        · rw [if_neg hq0]
          obtain ⟨b1, b2, _⟩ := ih' qr.1 false q1 q2 (fun h => by cases h)
          refine ⟨all_digit_append.mpr ⟨b1, a1⟩, ?_, fun h => by cases h⟩
          rw [dec_value_append, a3', a2, b2, hx]

theorem tower_ok_init : tower_ok [[POW10_LIMB]] := by
  refine ⟨?_, ?_, ?_, trivial⟩
  · exact limbs_ok_cons.mpr ⟨POW10_LIMB_lt, limbs_ok_nil _⟩
  · exact normalized_singleton.mpr (Nat.pos_iff_ne_zero.mp POW10_LIMB_pos)
  · simp [limbs_value, POW10_LIMB]

theorem tower_ok_square (P : List Nat) (rest : List (List Nat))
    (h : tower_ok (P :: rest)) : tower_ok (normalize (mpn_mul P P) :: P :: rest) := by
  obtain ⟨hoP, hnP, hvP, hlow⟩ := h
  obtain ⟨_, m2, m3⟩ := mpn_mul_spec P P hoP hoP
  refine ⟨normalize_ok _ m2, normalize_normalized _, ?_, hoP, hnP, hvP, hlow⟩
  rw [normalize_value, m3, hvP, ← pow_add, List.length_cons]
  congr 1
  ring

theorem tower_ok_tail (t : List (List Nat)) (h : tower_ok t) : tower_ok t.tail := by
  cases t with
  | nil => trivial
  | cons P rest => exact h.2.2.2

theorem build_tower_ok : ∀ (fuel : Nat) (t : List (List Nat)) (x : List Nat),
    tower_ok t → tower_ok (build_tower fuel t x) := by
  intro fuel
  induction fuel with
  | zero => intro t x h; exact h
  | succ fuel ih =>
    intro t x h
    cases t with
    | nil => trivial
    | cons P rest =>
      simp only [build_tower]
      by_cases hc : mag_cmp x P = -1
      · rw [if_pos hc]; exact h
      · rw [if_neg hc]
        exact ih _ x (tower_ok_square P rest h)

theorem mag_to_string_spec (x : List Nat) (hok : limbs_ok BASE64 x) (hn : normalized x) :
    (mag_to_string x).all is_digit = true ∧
    dec_value (mag_to_string x) = limbs_value BASE64 x := by
  unfold mag_to_string
  by_cases hsmall : x.length < RADIX_DC_THRESHOLD
  · rw [if_pos hsmall]
    exact basecase_strip_spec x hok hn
  · rw [if_neg hsmall]
    have ht := tower_ok_tail _ (build_tower_ok (x.length + 1) [[POW10_LIMB]] x tower_ok_init)
    obtain ⟨c1, c2, _⟩ := to_digits_dc_spec _ ht x false hok hn (fun h => by cases h)
    exact ⟨c1, c2⟩

end bi

namespace bi

theorem mpn_mul_1_loop_spec (s : Nat) (hs : s < BASE64) : ∀ (n : Nat) (a : List Nat) (c : Nat),
    a.length = n → limbs_ok BASE64 a → c < BASE64 →
    (mpn_mul_1_loop s c n a).1.length = n ∧ limbs_ok BASE64 (mpn_mul_1_loop s c n a).1 ∧
    (mpn_mul_1_loop s c n a).2 < BASE64 ∧
    limbs_value BASE64 (mpn_mul_1_loop s c n a).1 + BASE64 ^ n * (mpn_mul_1_loop s c n a).2
      = limbs_value BASE64 a * s + c := by
  intro n
  induction n with
  | zero =>
    intro a c ha _ hc
    have ha' : a = [] := List.length_eq_zero.mp ha
    subst ha'
    simp [mpn_mul_1_loop, limbs_value, limbs_ok_nil, hc]
  | succ n ih =>
    intro a c ha hok hc
    cases a with
    | nil => simp at ha
    | cons x xs =>
      obtain ⟨hx, hxs⟩ := limbs_ok_cons.mp hok
      have hlen : xs.length = n := by simpa using ha
      have hp : (x * s + c) / BASE64 < BASE64 := by
        apply Nat.div_lt_of_lt_mul
        have : x * s ≤ (BASE64 - 1) * (BASE64 - 1) := Nat.mul_le_mul (by omega) (by omega)
        have hB := BASE64_pos
        have e : (BASE64 - 1) * (BASE64 - 1) + (BASE64 - 1) = (BASE64 - 1) * BASE64 := by
          rw [Nat.mul_comm (BASE64 - 1) BASE64, Nat.mul_sub, Nat.mul_one,
            Nat.mul_comm BASE64 (BASE64 - 1)]
          have : BASE64 - 1 ≤ (BASE64 - 1) * BASE64 := Nat.le_mul_of_pos_right _ hB
          omega
        have : (BASE64 - 1) * BASE64 < BASE64 * BASE64 :=
          Nat.mul_lt_mul_of_pos_right (by omega) hB
        omega
      obtain ⟨i1, i2, i3, i4⟩ := ih xs ((x * s + c) / BASE64) hlen hxs hp
      simp only [mpn_mul_1_loop]
      refine ⟨by simp [i1], limbs_ok_cons.mpr ⟨Nat.mod_lt _ BASE64_pos, i2⟩, i3, ?_⟩
      have hdm := Nat.div_add_mod (x * s + c) BASE64
      simp only [limbs_value]
      generalize (mpn_mul_1_loop s ((x * s + c) / BASE64) n xs) = r at i1 i2 i3 i4 ⊢
      rw [pow_succ]
      linear_combination BASE64 * i4 + hdm

/-- Adding a full limb: `add_1` with any scalar below the limb base. -/
theorem mpn_add_1_loop_limb_spec (n : Nat) (a : List Nat) (c : Nat)
    (ha : a.length = n) (hok : limbs_ok BASE64 a) (hc : c < BASE64) :
    (mpn_add_1_loop c n a).1.length = n ∧ limbs_ok BASE64 (mpn_add_1_loop c n a).1 ∧
    limbs_value BASE64 (mpn_add_1_loop c n a).1 + BASE64 ^ n * (mpn_add_1_loop c n a).2
      = limbs_value BASE64 a + c := by
  cases n with
  | zero =>
    have ha' : a = [] := List.length_eq_zero.mp ha
    subst ha'
    simp [mpn_add_1_loop, limbs_value, limbs_ok_nil]
  | succ n =>
    cases a with
    | nil => simp at ha
    | cons x xs =>
      obtain ⟨hx, hxs⟩ := limbs_ok_cons.mp hok
      have hlen : xs.length = n := by simpa using ha
      have hp : (x + c) / BASE64 ≤ 1 := by
        have : (x + c) / BASE64 < 2 := Nat.div_lt_of_lt_mul (by omega)
        omega
      obtain ⟨i1, i2, _, i4⟩ := mpn_add_1_loop_spec n xs ((x + c) / BASE64) hlen hxs hp
      simp only [mpn_add_1_loop]
      refine ⟨by simp [i1], limbs_ok_cons.mpr ⟨Nat.mod_lt _ BASE64_pos, i2⟩, ?_⟩
      have hdm := Nat.div_add_mod (x + c) BASE64
      simp only [limbs_value]
      generalize (mpn_add_1_loop ((x + c) / BASE64) n xs) = r at i1 i2 i4 ⊢
      rw [pow_succ]
      linear_combination BASE64 * i4 + hdm

theorem all_digit_take_drop (s : List Char) (k : Nat) (h : s.all is_digit = true) :
    (s.take k).all is_digit = true ∧ (s.drop k).all is_digit = true := by
  rw [← all_digit_append, List.take_append_drop]
  exact h

theorem dec_value_take_drop (s : List Char) (k : Nat) :
    dec_value s = dec_value (s.take k) * 10 ^ (s.drop k).length + dec_value (s.drop k) := by
  rw [← dec_value_append, List.take_append_drop]

/-- One step of the base-case parser: `hi · 10^19 + g`, normalized. -/
theorem from_step_spec (hi : List Nat) (g : Nat) (hok : limbs_ok BASE64 hi)
    (hg : g < POW10_LIMB) :
    limbs_ok BASE64 (normalize (mpn_add_1 ((mpn_mul_1 hi hi.length POW10_LIMB).1
        ++ [(mpn_mul_1 hi hi.length POW10_LIMB).2]) (hi.length + 1) g).1) ∧
    limbs_value BASE64 (normalize (mpn_add_1 ((mpn_mul_1 hi hi.length POW10_LIMB).1
        ++ [(mpn_mul_1 hi hi.length POW10_LIMB).2]) (hi.length + 1) g).1)
      = limbs_value BASE64 hi * POW10_LIMB + g := by
  unfold mpn_mul_1 mpn_add_1
  obtain ⟨m1, m2, m3, m4⟩ :=
    mpn_mul_1_loop_spec POW10_LIMB POW10_LIMB_lt hi.length hi 0 rfl hok BASE64_pos
  generalize mpn_mul_1_loop POW10_LIMB 0 hi.length hi = m at m1 m2 m3 m4 ⊢
  have hlen : (m.1 ++ [m.2]).length = hi.length + 1 := by simp [m1]
  have hokm : limbs_ok BASE64 (m.1 ++ [m.2]) :=
    limbs_ok_append.mpr ⟨m2, limbs_ok_cons.mpr ⟨m3, limbs_ok_nil _⟩⟩
  have hvm : limbs_value BASE64 (m.1 ++ [m.2]) = limbs_value BASE64 hi * POW10_LIMB := by
    rw [limbs_value_append, m1]
    simp only [limbs_value, Nat.mul_zero, Nat.add_zero]
    rw [Nat.add_zero] at m4
    exact m4
  have hgB : g < BASE64 := lt_trans hg POW10_LIMB_lt
  obtain ⟨a1, a2, a3⟩ := mpn_add_1_loop_limb_spec (hi.length + 1) (m.1 ++ [m.2]) g hlen hokm hgB
  generalize mpn_add_1_loop g (hi.length + 1) (m.1 ++ [m.2]) = r at a1 a2 a3 ⊢
  rw [hvm] at a3
  have hbound : limbs_value BASE64 hi * POW10_LIMB + g < BASE64 ^ (hi.length + 1) := by
    have h1 := limbs_value_lt hi hok
    have h2 : (limbs_value BASE64 hi + 1) * POW10_LIMB ≤ BASE64 ^ hi.length * POW10_LIMB :=
      Nat.mul_le_mul_right _ h1
    have h3 : BASE64 ^ hi.length * POW10_LIMB ≤ BASE64 ^ hi.length * BASE64 :=
      Nat.mul_le_mul_left _ (le_of_lt POW10_LIMB_lt)
    rw [pow_succ]
    have e : (limbs_value BASE64 hi + 1) * POW10_LIMB
        = limbs_value BASE64 hi * POW10_LIMB + POW10_LIMB := by ring
    omega
  have hr0 : r.2 = 0 := by
    by_contra hne
    have : BASE64 ^ (hi.length + 1) * 1 ≤ BASE64 ^ (hi.length + 1) * r.2 :=
      Nat.mul_le_mul_left _ (by omega)
    omega
  rw [hr0] at a3
  refine ⟨normalize_ok _ a2, ?_⟩
  rw [normalize_value]
  omega

theorem from_digits_basecase_spec : ∀ (n : Nat) (s : List Char), s.length = n →
    s.all is_digit = true →
    limbs_ok BASE64 (from_digits_basecase s) ∧ normalized (from_digits_basecase s) ∧
    limbs_value BASE64 (from_digits_basecase s) = dec_value s := by
  intro n
  induction n using Nat.strong_induction_on with
  | _ n ih =>
    intro s hlen hd
    rw [from_digits_basecase]
    by_cases hs : s = []
    · subst hs
      simp [limbs_ok_nil, normalized_nil, limbs_value, dec_value]
    · rw [dif_neg hs]
      dsimp only
      have hpos : 0 < s.length := List.length_pos.mpr hs
      obtain ⟨ht, hdr⟩ := all_digit_take_drop s (s.length - DIGITS_PER_LIMB) hd
      have htl : (s.take (s.length - DIGITS_PER_LIMB)).length < n := by
        rw [List.length_take]
        unfold DIGITS_PER_LIMB
        omega
      obtain ⟨i1, i2, i3⟩ := ih _ htl _ rfl ht
      have hdl : (s.drop (s.length - DIGITS_PER_LIMB)).length ≤ DIGITS_PER_LIMB := by
        rw [List.length_drop]
        omega
      have hg : dec_value (s.drop (s.length - DIGITS_PER_LIMB)) < POW10_LIMB := by
        have := dec_value_lt _ hdr
        have h2 : 10 ^ (s.drop (s.length - DIGITS_PER_LIMB)).length ≤ 10 ^ DIGITS_PER_LIMB :=
          Nat.pow_le_pow_right (by omega) hdl
        unfold POW10_LIMB
        omega
      obtain ⟨f1, f2⟩ := from_step_spec _ _ i1 hg
      refine ⟨f1, normalize_normalized _, ?_⟩
      rw [f2, i3, dec_value_take_drop s (s.length - DIGITS_PER_LIMB)]
      by_cases hlong : DIGITS_PER_LIMB ≤ s.length
      · have : (s.drop (s.length - DIGITS_PER_LIMB)).length = DIGITS_PER_LIMB := by
          rw [List.length_drop]
          omega
        rw [this]
        rfl
      · have h0 : s.length - DIGITS_PER_LIMB = 0 := by omega
        rw [h0]
        simp [dec_value]

theorem from_digits_dc_spec : ∀ (t : List (List Nat)), tower_ok t →
    ∀ (s : List Char), s.all is_digit = true →
    limbs_ok BASE64 (from_digits_dc t s) ∧ normalized (from_digits_dc t s) ∧
    limbs_value BASE64 (from_digits_dc t s) = dec_value s := by
  intro t
  induction t with
  | nil =>
    intro _ s hd
    simp only [from_digits_dc]
    exact from_digits_basecase_spec _ s rfl hd
  | cons P lower ih =>
    intro ht s hd
    obtain ⟨hoP, hnP, hvP, hlow⟩ := ht
    have ih' := ih hlow
    simp only [from_digits_dc]
    by_cases h1 : s.length < 18 * RADIX_DC_THRESHOLD
    · rw [if_pos h1]
      exact from_digits_basecase_spec _ s rfl hd
    · rw [if_neg h1]
      by_cases h2 : s.length ≤ DIGITS_PER_LIMB * 2 ^ lower.length
      · rw [if_pos h2]
        exact ih' s hd
      · rw [if_neg h2]
        obtain ⟨ht, hdr⟩ :=
          all_digit_take_drop s (s.length - DIGITS_PER_LIMB * 2 ^ lower.length) hd
        obtain ⟨u1, u2, u3⟩ := ih' _ ht
        obtain ⟨l1, l2, l3⟩ := ih' _ hdr
        have hsplit := dec_value_take_drop s (s.length - DIGITS_PER_LIMB * 2 ^ lower.length)
        have hdl : (s.drop (s.length - DIGITS_PER_LIMB * 2 ^ lower.length)).length
            = DIGITS_PER_LIMB * 2 ^ lower.length := by
          rw [List.length_drop]
          omega
        rw [hdl] at hsplit
        generalize from_digits_dc lower
          (s.take (s.length - DIGITS_PER_LIMB * 2 ^ lower.length)) = up at u1 u2 u3 ⊢
        generalize from_digits_dc lower
          (s.drop (s.length - DIGITS_PER_LIMB * 2 ^ lower.length)) = lo at l1 l2 l3 ⊢
        obtain ⟨_, m2, m3⟩ := mpn_mul_spec up P u1 hoP
        obtain ⟨a1, a2, a3⟩ := mag_add_spec (normalize (mpn_mul up P)) lo
          (normalize_ok _ m2) l1 (normalize_normalized _) l2
        refine ⟨a1, a2, ?_⟩
        rw [a3, normalize_value, m3, hvP, u3, l3, hsplit]

theorem build_tower_len_ok : ∀ (fuel : Nat) (t : List (List Nat)) (len : Nat),
    tower_ok t → tower_ok (build_tower_len fuel t len) := by
  intro fuel
  induction fuel with
  | zero => intro t len h; exact h
  | succ fuel ih =>
    intro t len h
    cases t with
    | nil => trivial
    | cons P rest =>
      simp only [build_tower_len]
      by_cases hc : len ≤ 2 * (DIGITS_PER_LIMB * 2 ^ rest.length)
      · rw [if_pos hc]; exact h
      · rw [if_neg hc]
        exact ih _ len (tower_ok_square P rest h)

theorem mag_from_string_spec (s : List Char) (hd : s.all is_digit = true) :
    limbs_ok BASE64 (mag_from_string s) ∧ normalized (mag_from_string s) ∧
    limbs_value BASE64 (mag_from_string s) = dec_value s :=
  from_digits_dc_spec _ (build_tower_len_ok s.length [[POW10_LIMB]] s.length tower_ok_init) s hd

end bi

namespace bi

theorem is_digit_ne_sign (c : Char) (h : is_digit c = true) :
    (c == '-') = false ∧ (c == '+') = false := by
  constructor
  · rw [beq_eq_false_iff_ne]
    intro hc
    subst hc
    exact absurd h (by decide)
  · rw [beq_eq_false_iff_ne]
    intro hc
    subst hc
    exact absurd h (by decide)

/-- Parsing an unsigned, non-empty digit string. -/
theorem from_string_digits (D : List Char) (hne : D ≠ []) (hd : D.all is_digit = true) :
    bigint.from_string D
      = some (if mag_from_string D = [] then bigint.zero else ⟨1, mag_from_string D⟩) := by
  cases D with
  | nil => exact absurd rfl hne
  | cons c cs =>
    have hc : is_digit c = true := by
      simp only [List.all_cons, Bool.and_eq_true] at hd
      exact hd.1
    obtain ⟨n1, n2⟩ := is_digit_ne_sign c hc
    have e1 : ((c :: cs).head? == some '-') = false := by
      simpa using beq_eq_false_iff_ne.mp n1
    have e2 : ((c :: cs).head? == some '+') = false := by
      simpa using beq_eq_false_iff_ne.mp n2
    unfold bigint.from_string
    simp only [e1, e2, Bool.false_eq_true, or_self, if_false, hd, reduceCtorEq]

/-- Parsing a digit string with a leading minus sign. -/
theorem from_string_minus (D : List Char) (hne : D ≠ []) (hd : D.all is_digit = true) :
    bigint.from_string ('-' :: D)
      = some (if mag_from_string D = [] then bigint.zero else ⟨-1, mag_from_string D⟩) := by
  have e1 : (('-' :: D).head? == some '-') = true := by simp
  unfold bigint.from_string
  simp only [e1, true_or, if_true, List.tail_cons, hne, hd, Bool.true_eq_false, or_self,
    if_false]

theorem bigint.to_string_zero (a : bigint) (h : a.limbs = []) : bigint.to_string a = ['0'] := by
  unfold bigint.to_string
  rw [if_pos h]

theorem from_string_mag_to_string (x : List Nat) (hok : limbs_ok BASE64 x)
    (hn : normalized x) (hx : x ≠ []) :
    mag_to_string x ≠ [] ∧ (mag_to_string x).all is_digit = true ∧
    mag_from_string (mag_to_string x) = x := by
  obtain ⟨t1, t2⟩ := mag_to_string_spec x hok hn
  obtain ⟨f1, f2, f3⟩ := mag_from_string_spec _ t1
  have hpos := normalized_value_pos BASE64_pos x hx hn
  refine ⟨?_, t1, ?_⟩
  · intro he
    rw [he] at t2
    simp [dec_value] at t2
    omega
  · exact normalized_eq_of_value_eq BASE64_pos _ _ f1 hok f2 hn (by rw [f3, t2])

/-- C5: for every well-formed BigInt `a` (zero, positive or negative, of any limb
count, so on the base-case path and on the divide-and-conquer path alike),
`from_string(to_string(a))` succeeds and returns `a`. -/
theorem from_string_to_string (a : bigint) (ha : a.wf) :
    bigint.from_string (bigint.to_string a) = some a := by
  have hc := bigint.wf_cases a ha
  obtain ⟨hok, hn, _, _⟩ := ha
  cases a with
  | mk s l =>
    simp only at hc hok hn
    rcases hc with ⟨hs, hl, _⟩ | ⟨hs, hv⟩ | ⟨hs, hv⟩
    · subst hs hl
      rw [bigint.to_string_zero _ rfl, from_string_digits _ (by simp) (by decide)]
      obtain ⟨_, f2, f3⟩ := mag_from_string_spec ['0'] (by decide)
      have : mag_from_string ['0'] = [] :=
        (normalized_eq_nil_iff BASE64_pos _ f2).mpr (by rw [f3]; decide)
      rw [if_pos this]
      rfl
    · subst hs
      have hl : l ≠ [] := by
        intro h
        rw [h] at hv
        simp [limbs_value] at hv
      obtain ⟨m1, m2, m3⟩ := from_string_mag_to_string l hok hn hl
      unfold bigint.to_string
      simp only [if_neg hl]
      rw [if_neg (by decide), List.nil_append, from_string_digits _ m1 m2, m3, if_neg hl]
    · subst hs
      have hl : l ≠ [] := by
        intro h
        rw [h] at hv
        simp [limbs_value] at hv
      obtain ⟨m1, m2, m3⟩ := from_string_mag_to_string l hok hn hl
      unfold bigint.to_string
      simp only [if_neg hl]
      rw [if_pos (by decide), List.singleton_append, from_string_minus _ m1 m2, m3, if_neg hl]

theorem from_string_to_string_witness :
    bigint.wf ⟨-1, [0, 1]⟩ ∧
    bigint.from_string (bigint.to_string ⟨-1, [0, 1]⟩) = some ⟨-1, [0, 1]⟩ :=
  ⟨by decide, from_string_to_string ⟨-1, [0, 1]⟩ (by decide)⟩

end bi

namespace bi

/-- C11: for `n`-limb arrays `out` and `a` and a scalar `s < 2^64`,
`high = mpn_addmul_1(out, a, n, s)` leaves `n` limbs in `out` with
`value(out_after) + high * 2^(64 n) = value(out_before) + value(a) * s`, and
`high < 2^64`. -/
theorem mpn_addmul_1_value (n : Nat) (out a : List Nat) (s : Nat)
    (hout : out.length = n) (ha : a.length = n)
    (hoo : limbs_ok BASE64 out) (hoa : limbs_ok BASE64 a) (hs : s < 2 ^ 64) :
    (mpn_addmul_1 out a n s).1.length = n ∧ limbs_ok BASE64 (mpn_addmul_1 out a n s).1 ∧
    limbs_value BASE64 (mpn_addmul_1 out a n s).1 + (mpn_addmul_1 out a n s).2 * 2 ^ (64 * n)
      = limbs_value BASE64 out + limbs_value BASE64 a * s ∧
    (mpn_addmul_1 out a n s).2 < 2 ^ 64 := by
  have hs' : s < BASE64 := by rw [BASE64_eq]; exact hs
  obtain ⟨lo, l1, l2, l3, l4, l5⟩ :=
    mpn_addmul_1_loop_spec s hs' n out a [] 0 hout ha hoo hoa BASE64_pos
  simp only [List.append_nil] at l3 l4 l5
  unfold mpn_addmul_1
  rw [l3]
  refine ⟨l1, l2, ?_, ?_⟩
  · rw [BASE64_pow] at l5
    rw [Nat.mul_comm _ (2 ^ (64 * n)), l5, Nat.add_zero]
  · unfold BASE64 at l4
    exact l4

theorem mpn_addmul_1_value_witness :
    (mpn_addmul_1 [18446744073709551615, 7] [18446744073709551615, 18446744073709551615] 2
        18446744073709551615).1.length = 2 ∧
    limbs_ok BASE64 (mpn_addmul_1 [18446744073709551615, 7]
        [18446744073709551615, 18446744073709551615] 2 18446744073709551615).1 ∧
    limbs_value BASE64 (mpn_addmul_1 [18446744073709551615, 7]
        [18446744073709551615, 18446744073709551615] 2 18446744073709551615).1
      + (mpn_addmul_1 [18446744073709551615, 7]
        [18446744073709551615, 18446744073709551615] 2 18446744073709551615).2 * 2 ^ (64 * 2)
      = limbs_value BASE64 [18446744073709551615, 7]
        + limbs_value BASE64 [18446744073709551615, 18446744073709551615]
          * 18446744073709551615 ∧
    (mpn_addmul_1 [18446744073709551615, 7] [18446744073709551615, 18446744073709551615] 2
        18446744073709551615).2 < 2 ^ 64 :=
  mpn_addmul_1_value 2 [18446744073709551615, 7] [18446744073709551615, 18446744073709551615]
    18446744073709551615 rfl rfl (by decide) (by decide) (by decide)

end bi

namespace bi

/-- Parsing a digit string with a leading plus sign. -/
theorem from_string_plus (D : List Char) (hne : D ≠ []) (hd : D.all is_digit = true) :
    bigint.from_string ('+' :: D)
      = some (if mag_from_string D = [] then bigint.zero else ⟨1, mag_from_string D⟩) := by
  have e1 : (('+' :: D).head? == some '-') = false := by
    rw [beq_eq_false_iff_ne]
    simp
  have e2 : (('+' :: D).head? == some '+') = true := by simp
  unfold bigint.from_string
  simp only [e1, e2, Bool.false_eq_true, false_or, if_true, List.tail_cons, hne, hd,
    Bool.true_eq_false, or_self, if_false]

theorem zeros_spec (k : Nat) (hk : 1 ≤ k) :
    List.replicate k '0' ≠ [] ∧ (List.replicate k '0').all is_digit = true ∧
    mag_from_string (List.replicate k '0') = [] := by
  have hd : (List.replicate k '0').all is_digit = true := by
    simp only [List.all_eq_true]
    intro c hc
    rw [List.eq_of_mem_replicate hc]
    decide
  have hv : dec_value (List.replicate k '0') = 0 := by
    have h := (pad_zeros_spec k [] (by decide) (by simp)).2.2
    simpa [pad_zeros, dec_value] using h
  obtain ⟨_, f2, f3⟩ := mag_from_string_spec _ hd
  refine ⟨?_, hd, (normalized_eq_nil_iff BASE64_pos _ f2).mpr (by rw [f3, hv])⟩
  intro h
  have := congrArg List.length h
  simp at this
  omega

/-- C12: every string made of an optional single sign followed by one or more
`'0'` digits (so `"-0"` in particular) is parsed by `from_string` to the zero
BigInt, whose `to_string` is `"0"`. -/
theorem from_string_signed_zeros (sgn : List Char) (k : Nat)
    (hs : sgn = [] ∨ sgn = ['-'] ∨ sgn = ['+']) (hk : 1 ≤ k) :
    ∃ z, bigint.from_string (sgn ++ List.replicate k '0') = some z ∧ z = bigint.zero ∧
      bigint.to_string z = ['0'] := by
  obtain ⟨z1, z2, z3⟩ := zeros_spec k hk
  refine ⟨bigint.zero, ?_, rfl, bigint.to_string_zero _ rfl⟩
  rcases hs with h | h | h
  · rw [h, List.nil_append, from_string_digits _ z1 z2, if_pos z3]
  · rw [h, List.singleton_append, from_string_minus _ z1 z2, if_pos z3]
  · rw [h, List.singleton_append, from_string_plus _ z1 z2, if_pos z3]

theorem from_string_signed_zeros_witness :
    ∃ z, bigint.from_string (['-'] ++ List.replicate 1 '0') = some z ∧ z = bigint.zero ∧
      bigint.to_string z = ['0'] :=
  from_string_signed_zeros ['-'] 1 (Or.inr (Or.inl rfl)) (by decide)

end bi

namespace ntt

theorem SMOOTH_TABLE_length : SMOOTH_TABLE.length = 60 := by decide

theorem SMOOTH_TABLE_size : SMOOTH_TABLE_SIZE = 60 := by decide

set_option maxRecDepth 100000 in
theorem SMOOTH_TABLE_form_bounded :
    ∀ t ∈ SMOOTH_TABLE,
      (∃ k ∈ List.range 25, 2 ≤ k ∧ t = 2 ^ k) ∨
      (∃ k ∈ List.range 24, 5 ≤ k ∧ t = 3 * 2 ^ k) ∨
      (∃ k ∈ List.range 23, 5 ≤ k ∧ t = 5 * 2 ^ k) := by
  decide

set_option maxRecDepth 100000 in
theorem SMOOTH_TABLE_complete_bounded :
    ∀ k ∈ List.range 25,
      (2 ≤ k → 2 ^ k ∈ SMOOTH_TABLE) ∧
      (5 ≤ k → k ≤ 23 → 3 * 2 ^ k ∈ SMOOTH_TABLE) ∧
      (5 ≤ k → k ≤ 22 → 5 * 2 ^ k ∈ SMOOTH_TABLE) := by
  decide

set_option maxRecDepth 100000 in
theorem SMOOTH_TABLE_le_max : ∀ t ∈ SMOOTH_TABLE, t ≤ 25165824 := by
  decide

set_option maxRecDepth 100000 in
theorem SMOOTH_TABLE_nodup : SMOOTH_TABLE.Nodup := by
  decide

theorem ceil_smooth_mem (x v : Nat) (h : ceil_smooth x = some v) : v ∈ SMOOTH_TABLE := by
  unfold ceil_smooth at h
  cases hlo : ceil_smooth_lo x with
  | none => rw [hlo] at h; cases h
  | some lo =>
    rw [hlo] at h
    obtain ⟨_, he⟩ := List.getElem?_eq_some_iff.mp h
    rw [← he]
    exact List.getElem_mem _

/-- C13: every entry of `SMOOTH_TABLE` is `m * 2^n` with `m ∈ {4, 5, 6}`, and
every length `ceil_smooth` returns is of the form `2^k`, `3 * 2^k` or `5 * 2^k`. -/
theorem SMOOTH_TABLE_form :
    (∀ t, t ∈ SMOOTH_TABLE → ∃ n m, (m = 4 ∨ m = 5 ∨ m = 6) ∧ t = m * 2 ^ n) ∧
    (∀ x v, ceil_smooth x = some v → ∃ k, v = 2 ^ k ∨ v = 3 * 2 ^ k ∨ v = 5 * 2 ^ k) := by
  constructor
  · intro t ht
    rcases SMOOTH_TABLE_form_bounded t ht with ⟨k, _, hk, e⟩ | ⟨k, _, hk, e⟩ | ⟨k, _, _, e⟩
    · refine ⟨k - 2, 4, Or.inl rfl, ?_⟩
      have : k = (k - 2) + 2 := by omega
      rw [e]
      conv_lhs => rw [this]
      rw [pow_add]
      ring
    · refine ⟨k - 1, 6, Or.inr (Or.inr rfl), ?_⟩
      have : k = (k - 1) + 1 := by omega
      rw [e]
      conv_lhs => rw [this]
      rw [pow_add]
      ring
    · exact ⟨k, 5, Or.inr (Or.inl rfl), e⟩
  · intro x v h
    rcases SMOOTH_TABLE_form_bounded v (ceil_smooth_mem x v h) with
      ⟨k, _, _, e⟩ | ⟨k, _, _, e⟩ | ⟨k, _, _, e⟩
    · exact ⟨k, Or.inl e⟩
    · exact ⟨k, Or.inr (Or.inl e)⟩
    · exact ⟨k, Or.inr (Or.inr e)⟩

theorem SMOOTH_TABLE_form_witness :
    (∃ n m, (m = 4 ∨ m = 5 ∨ m = 6) ∧ 96 = m * 2 ^ n) ∧
    ceil_smooth 130 = some 160 ∧ ∃ k, 160 = 2 ^ k ∨ 160 = 3 * 2 ^ k ∨ 160 = 5 * 2 ^ k :=
  ⟨SMOOTH_TABLE_form.1 96 (by decide), by decide, SMOOTH_TABLE_form.2 130 160 (by decide)⟩

/-- C14: the largest permitted transform length is `3 * 2^23 = 25165824`: it is
the last entry of `SMOOTH_TABLE`, every entry is at most it, and for every
`x ≤ 25165824` the value `ceil_smooth x` exists and is at most `25165824`. -/
theorem SMOOTH_TABLE_max :
    SMOOTH_TABLE.getLast? = some 25165824 ∧ 25165824 = 3 * 2 ^ 23 ∧
    (∀ t, t ∈ SMOOTH_TABLE → t ≤ 25165824) ∧
    (∀ x, x ≤ 25165824 → ∃ v, ceil_smooth x = some v ∧ v ≤ 25165824) := by
  refine ⟨by decide, by norm_num, SMOOTH_TABLE_le_max, ?_⟩
  intro x hx
  obtain ⟨v, hv, _⟩ := ceil_smooth_exists x hx
  exact ⟨v, hv, SMOOTH_TABLE_le_max v (ceil_smooth_mem x v hv)⟩

theorem SMOOTH_TABLE_max_witness :
    (12582912 ≤ 25165824) ∧ ∃ v, ceil_smooth 25165824 = some v ∧ v ≤ 25165824 :=
  ⟨SMOOTH_TABLE_max.2.2.1 12582912 (by decide), SMOOTH_TABLE_max.2.2.2 25165824 (by decide)⟩

/-- C15: in `ceil_smooth` the binary search ends with `lo < SMOOTH_TABLE_SIZE`
for every `x ≤ 25165824`, so the read `SMOOTH_TABLE[lo]` is inside the table;
for every `x > 25165824` it ends with `lo = SMOOTH_TABLE_SIZE = 60`, where the
table has no entry: the search itself completes and only the read falls
outside the table. -/
theorem ceil_smooth_lo_bounds :
    SMOOTH_TABLE_SIZE = 60 ∧
    (∀ x, x ≤ 25165824 → ∃ lo, ceil_smooth_lo x = some lo ∧ lo < SMOOTH_TABLE_SIZE ∧
      ∃ v, SMOOTH_TABLE[lo]? = some v ∧ ceil_smooth x = some v) ∧
    (∀ x, 25165824 < x → ceil_smooth_lo x = some SMOOTH_TABLE_SIZE ∧
      SMOOTH_TABLE[SMOOTH_TABLE_SIZE]? = none ∧ ceil_smooth x = none) := by
  refine ⟨SMOOTH_TABLE_size, ?_, ?_⟩
  · intro x hx
    obtain ⟨r, hr, _, hlow, _⟩ := ceil_smooth_lo_spec x
    have hr60 : r < 60 := by
      by_contra hge
      have := hlow 59 _ (by omega) SMOOTH_TABLE_last
      omega
    have hget : SMOOTH_TABLE[r]? = some (SMOOTH_TABLE[r]) :=
      List.getElem?_eq_getElem (by rw [SMOOTH_TABLE_length]; exact hr60)
    refine ⟨r, hr, by rw [SMOOTH_TABLE_size]; exact hr60, _, hget, ?_⟩
    unfold ceil_smooth ceil_smooth_lo
    rw [hr]
    exact hget
  · intro x hx
    obtain ⟨r, hr, hle, _, hhigh⟩ := ceil_smooth_lo_spec x
    have hr60 : r = SMOOTH_TABLE_SIZE := by
      rw [SMOOTH_TABLE_size] at hle ⊢
      by_contra hne
      have hlt : r < SMOOTH_TABLE.length := by rw [SMOOTH_TABLE_length]; omega
      have h1 := hhigh r _ (le_refl _) (List.getElem?_eq_getElem hlt)
      have h2 := SMOOTH_TABLE_le_max _ (List.getElem_mem hlt)
      omega
    subst hr60
    have hnone : SMOOTH_TABLE[SMOOTH_TABLE_SIZE]? = none := by decide
    refine ⟨hr, hnone, ?_⟩
    unfold ceil_smooth ceil_smooth_lo
    rw [hr]
    exact hnone

theorem ceil_smooth_lo_bounds_witness :
    (∃ lo, ceil_smooth_lo 25165824 = some lo ∧ lo < SMOOTH_TABLE_SIZE ∧
      ∃ v, SMOOTH_TABLE[lo]? = some v ∧ ceil_smooth 25165824 = some v) ∧
    (ceil_smooth_lo 25165825 = some SMOOTH_TABLE_SIZE ∧
      SMOOTH_TABLE[SMOOTH_TABLE_SIZE]? = none ∧ ceil_smooth 25165825 = none) :=
  ⟨ceil_smooth_lo_bounds.2.1 25165824 (by decide),
    ceil_smooth_lo_bounds.2.2 25165825 (by decide)⟩

theorem pow_two_le_max (k : Nat) (h : 2 ^ k ≤ 25165824) : k ≤ 24 := by
  by_contra hk
  have : 2 ^ 25 ≤ 2 ^ k := Nat.pow_le_pow_right (by omega) (by omega)
  omega

theorem pow_two_exp_ge (k j : Nat) (h : 2 ^ j ≤ 2 ^ k) : j ≤ k := by
  by_contra hk
  have : 2 ^ k < 2 ^ j := Nat.pow_lt_pow_right (by omega) (by omega)
  omega

/-- C16: `SMOOTH_TABLE` has 60 distinct entries and its set of entries is
`{2^k : 2 ≤ k ≤ 24} ∪ {3 * 2^k : 5 ≤ k ≤ 23} ∪ {5 * 2^k : 5 ≤ k ≤ 22}`: the
lengths `3 * 2^k < 96` and `5 * 2^k < 160` are not entries, and every length
`2^k ≥ 4`, `3 * 2^k ≥ 96`, `5 * 2^k ≥ 160` up to `3 * 2^23` is an entry. -/
theorem SMOOTH_TABLE_set :
    SMOOTH_TABLE.length = 60 ∧ SMOOTH_TABLE.Nodup ∧
    (∀ t, t ∈ SMOOTH_TABLE ↔
      (∃ k, 2 ≤ k ∧ k ≤ 24 ∧ t = 2 ^ k) ∨ (∃ k, 5 ≤ k ∧ k ≤ 23 ∧ t = 3 * 2 ^ k) ∨
      (∃ k, 5 ≤ k ∧ k ≤ 22 ∧ t = 5 * 2 ^ k)) ∧
    (∀ k, 3 * 2 ^ k < 96 → 3 * 2 ^ k ∉ SMOOTH_TABLE) ∧
    (∀ k, 5 * 2 ^ k < 160 → 5 * 2 ^ k ∉ SMOOTH_TABLE) ∧
    (∀ k, 4 ≤ 2 ^ k → 2 ^ k ≤ 25165824 → 2 ^ k ∈ SMOOTH_TABLE) ∧
    (∀ k, 96 ≤ 3 * 2 ^ k → 3 * 2 ^ k ≤ 25165824 → 3 * 2 ^ k ∈ SMOOTH_TABLE) ∧
    (∀ k, 160 ≤ 5 * 2 ^ k → 5 * 2 ^ k ≤ 25165824 → 5 * 2 ^ k ∈ SMOOTH_TABLE) := by
  have hmem : ∀ t, t ∈ SMOOTH_TABLE →
      (∃ k, 2 ≤ k ∧ k ≤ 24 ∧ t = 2 ^ k) ∨ (∃ k, 5 ≤ k ∧ k ≤ 23 ∧ t = 3 * 2 ^ k) ∨
      (∃ k, 5 ≤ k ∧ k ≤ 22 ∧ t = 5 * 2 ^ k) := by
    intro t ht
    rcases SMOOTH_TABLE_form_bounded t ht with ⟨k, hr, hk, e⟩ | ⟨k, hr, hk, e⟩ | ⟨k, hr, hk, e⟩
    · have := List.mem_range.mp hr
      exact Or.inl ⟨k, hk, by omega, e⟩
    · have := List.mem_range.mp hr
      exact Or.inr (Or.inl ⟨k, hk, by omega, e⟩)
    · have := List.mem_range.mp hr
      exact Or.inr (Or.inr ⟨k, hk, by omega, e⟩)
  have h2 : ∀ k, 2 ≤ k → k ≤ 24 → 2 ^ k ∈ SMOOTH_TABLE := fun k h1 h2 =>
    (SMOOTH_TABLE_complete_bounded k (List.mem_range.mpr (by omega))).1 h1
  have h3 : ∀ k, 5 ≤ k → k ≤ 23 → 3 * 2 ^ k ∈ SMOOTH_TABLE := fun k h1 h2 =>
    (SMOOTH_TABLE_complete_bounded k (List.mem_range.mpr (by omega))).2.1 h1 h2
  have h5 : ∀ k, 5 ≤ k → k ≤ 22 → 5 * 2 ^ k ∈ SMOOTH_TABLE := fun k h1 h2 =>
    (SMOOTH_TABLE_complete_bounded k (List.mem_range.mpr (by omega))).2.2 h1 h2
  refine ⟨SMOOTH_TABLE_length, SMOOTH_TABLE_nodup, ?_, ?_, ?_, ?_, ?_, ?_⟩
  · intro t
    constructor
    · exact hmem t
    · rintro (⟨k, a, b, rfl⟩ | ⟨k, a, b, rfl⟩ | ⟨k, a, b, rfl⟩)
      · exact h2 k a b
      · exact h3 k a b
      · exact h5 k a b
  · intro k hlt hin
    rcases hmem _ hin with ⟨j, hj, _, e⟩ | ⟨j, hj, _, e⟩ | ⟨j, hj, _, e⟩
    · have : 2 ^ 2 ≤ 2 ^ j := Nat.pow_le_pow_right (by omega) hj
      have hk : k ≤ 4 := by
        by_contra hk
        have : 2 ^ 5 ≤ 2 ^ k := Nat.pow_le_pow_right (by omega) (by omega)
        omega
      interval_cases k <;> interval_cases j <;> omega
    · have : 2 ^ 5 ≤ 2 ^ j := Nat.pow_le_pow_right (by omega) hj
      omega
    · have : 2 ^ 5 ≤ 2 ^ j := Nat.pow_le_pow_right (by omega) hj
      omega
  · intro k hlt hin
    rcases hmem _ hin with ⟨j, hj, _, e⟩ | ⟨j, hj, _, e⟩ | ⟨j, hj, _, e⟩
    · have hk : k ≤ 4 := by
        by_contra hk
        have : 2 ^ 5 ≤ 2 ^ k := Nat.pow_le_pow_right (by omega) (by omega)
        omega
      interval_cases k <;> interval_cases j <;> omega
    · have : 2 ^ 5 ≤ 2 ^ j := Nat.pow_le_pow_right (by omega) hj
      have hk : k ≤ 4 := by
        by_contra hk
        have : 2 ^ 5 ≤ 2 ^ k := Nat.pow_le_pow_right (by omega) (by omega)
        omega
      interval_cases k <;> omega
    · have : 2 ^ 5 ≤ 2 ^ j := Nat.pow_le_pow_right (by omega) hj
      omega
  · intro k hlo hhi
    exact h2 k (pow_two_exp_ge k 2 (by omega)) (pow_two_le_max k hhi)
  · intro k hlo hhi
    have hk : 5 ≤ k := pow_two_exp_ge k 5 (by omega)
    have hk2 : k ≤ 23 := by
      by_contra hk
      have : 2 ^ 24 ≤ 2 ^ k := Nat.pow_le_pow_right (by omega) (by omega)
      omega
    exact h3 k hk hk2
  · intro k hlo hhi
    have hk : 5 ≤ k := pow_two_exp_ge k 5 (by omega)
    have hk2 : k ≤ 22 := by
      by_contra hk
      have : 2 ^ 23 ≤ 2 ^ k := Nat.pow_le_pow_right (by omega) (by omega)
      omega
    exact h5 k hk hk2

theorem SMOOTH_TABLE_set_witness :
    (96 ∈ SMOOTH_TABLE ↔
      (∃ k, 2 ≤ k ∧ k ≤ 24 ∧ 96 = 2 ^ k) ∨ (∃ k, 5 ≤ k ∧ k ≤ 23 ∧ 96 = 3 * 2 ^ k) ∨
      (∃ k, 5 ≤ k ∧ k ≤ 22 ∧ 96 = 5 * 2 ^ k)) ∧
    3 * 2 ^ 4 ∉ SMOOTH_TABLE ∧ 5 * 2 ^ 4 ∉ SMOOTH_TABLE ∧ 2 ^ 24 ∈ SMOOTH_TABLE ∧
    3 * 2 ^ 23 ∈ SMOOTH_TABLE ∧ 5 * 2 ^ 22 ∈ SMOOTH_TABLE :=
  ⟨SMOOTH_TABLE_set.2.2.1 96, SMOOTH_TABLE_set.2.2.2.1 4 (by decide),
    SMOOTH_TABLE_set.2.2.2.2.1 4 (by decide),
    SMOOTH_TABLE_set.2.2.2.2.2.1 24 (by decide) (by decide),
    SMOOTH_TABLE_set.2.2.2.2.2.2.1 23 (by decide) (by decide),
    SMOOTH_TABLE_set.2.2.2.2.2.2.2 22 (by decide) (by decide)⟩

end ntt

namespace ntt
open bi

theorem trim_loop_spec : ∀ (fuel : Nat) (r : List Nat), r.length ≤ fuel → 1 ≤ r.length →
    limbs_ok BASE32 r →
    limbs_ok BASE32 (trim_loop fuel r) ∧
    limbs_value BASE32 (trim_loop fuel r) = limbs_value BASE32 r ∧
    1 ≤ (trim_loop fuel r).length ∧ (trim_loop fuel r).length ≤ r.length ∧
    ((trim_loop fuel r).length = 1 ∨
      ∃ x, (trim_loop fuel r).getLast? = some x ∧ x ≠ 0) := by
  intro fuel
  induction fuel with
  | zero => intro r h1 h2 _; omega
  | succ fuel ih =>
    intro r hf h1 hok
    simp only [trim_loop]
    by_cases hc : r.length > 1 ∧ r.getLast? = some 0
    · rw [if_pos hc]
      have hr : r.dropLast ++ [0] = r := List.dropLast_append_getLast? 0 hc.2
      have hlen : r.dropLast.length = r.length - 1 := List.length_dropLast r
      have hokd : limbs_ok BASE32 r.dropLast := by
        rw [← hr] at hok
        exact (limbs_ok_append.mp hok).1
      have hv : limbs_value BASE32 r.dropLast = limbs_value BASE32 r := by
        conv_rhs => rw [← hr]
        rw [limbs_value_append]
        simp [limbs_value]
      obtain ⟨i1, i2, i3, i4, i5⟩ := ih r.dropLast (by omega) (by omega) hokd
      exact ⟨i1, by rw [i2, hv], i3, by omega, i5⟩
    · rw [if_neg hc]
      refine ⟨hok, rfl, h1, le_refl _, ?_⟩
      by_cases h1' : r.length > 1
      · right
        cases hl : r.getLast? with
        | none =>
          rw [List.getLast?_eq_none_iff] at hl
          rw [hl] at h1
          simp at h1
        | some x =>
          refine ⟨x, rfl, ?_⟩
          intro hx
          exact hc ⟨h1', by rw [hl, hx]⟩
      · left
        omega

/-- C17: for non-empty vectors `a`, `b` of 32-bit limbs, `schoolbook_multiply(a, b)`
is a vector of 32-bit limbs whose little-endian base-`2^32` value is
`value(a) * value(b)`, of length between `1` and `|a| + |b|`, whose last limb is
non-zero unless the length is `1`; when `a` or `b` is empty the result is empty. -/
theorem schoolbook_multiply_spec (a b : List Nat) (hoa : limbs_ok BASE32 a)
    (hob : limbs_ok BASE32 b) :
    (a ≠ [] → b ≠ [] →
      limbs_ok BASE32 (schoolbook_multiply a b) ∧
      limbs_value BASE32 (schoolbook_multiply a b) = limbs_value BASE32 a * limbs_value BASE32 b ∧
      1 ≤ (schoolbook_multiply a b).length ∧
      (schoolbook_multiply a b).length ≤ a.length + b.length ∧
      ((schoolbook_multiply a b).length = 1 ∨
        ∃ x, (schoolbook_multiply a b).getLast? = some x ∧ x ≠ 0)) ∧
    ((a = [] ∨ b = []) → schoolbook_multiply a b = []) := by
  constructor
  · intro ha hb
    obtain ⟨s1, s2, s3⟩ := schoolbook_multiply_raw_spec a b hoa hob
    have hae : a.isEmpty = false := by
      cases a with
      | nil => exact absurd rfl ha
      | cons _ _ => rfl
    have hbe : b.isEmpty = false := by
      cases b with
      | nil => exact absurd rfl hb
      | cons _ _ => rfl
    have hpos : 0 < a.length := List.length_pos.mpr ha
    have e : schoolbook_multiply a b
        = trim_loop (schoolbook_multiply_raw a b).length (schoolbook_multiply_raw a b) := by
      unfold schoolbook_multiply trim
      simp [hae, hbe]
    obtain ⟨t1, t2, t3, t4, t5⟩ := trim_loop_spec _ (schoolbook_multiply_raw a b) (le_refl _)
      (by omega) s2
    rw [e]
    exact ⟨t1, by rw [t2, s3], t3, by omega, t5⟩
  · intro h
    unfold schoolbook_multiply
    rcases h with h | h
    · simp [h]
    · simp [h]

theorem schoolbook_multiply_spec_witness :
    (([4294967295, 0] : List Nat) ≠ [] → ([4294967295] : List Nat) ≠ [] →
      limbs_ok BASE32 (schoolbook_multiply [4294967295, 0] [4294967295]) ∧
      limbs_value BASE32 (schoolbook_multiply [4294967295, 0] [4294967295])
        = limbs_value BASE32 [4294967295, 0] * limbs_value BASE32 [4294967295] ∧
      1 ≤ (schoolbook_multiply [4294967295, 0] [4294967295]).length ∧
      (schoolbook_multiply [4294967295, 0] [4294967295]).length
        ≤ [4294967295, 0].length + [4294967295].length ∧
      ((schoolbook_multiply [4294967295, 0] [4294967295]).length = 1 ∨
        ∃ x, (schoolbook_multiply [4294967295, 0] [4294967295]).getLast? = some x ∧ x ≠ 0)) ∧
    ((([4294967295, 0] : List Nat) = [] ∨ ([4294967295] : List Nat) = []) →
      schoolbook_multiply [4294967295, 0] [4294967295] = []) :=
  schoolbook_multiply_spec [4294967295, 0] [4294967295] (by decide) (by decide)

end ntt

namespace ntt
open bi

/-- The inner loop of `schoolbook_mul` only reads the limbs `b[j]` with
`i + j < out_len`. -/
theorem schoolbook_mul_row_take (ai i n : Nat) : ∀ (bs : List Nat) (j : Nat) (out : List Nat)
    (carry : Nat),
    schoolbook_mul_row ai i n bs j out carry
      = schoolbook_mul_row ai i n (bs.take (n - (i + j))) j out carry := by
  intro bs
  induction bs with
  | nil => intro j out carry; simp
  | cons bj bs ih =>
    intro j out carry
    by_cases hg : i + j < n
    · obtain ⟨k, hk⟩ : ∃ k, n - (i + j) = k + 1 := ⟨n - (i + j) - 1, by omega⟩
      have hk' : n - (i + (j + 1)) = k := by omega
      rw [hk, List.take_succ_cons]
      simp only [schoolbook_mul_row, if_pos hg]
      rw [ih (j + 1), hk']
    · have h0 : n - (i + j) = 0 := by omega
      rw [h0, List.take_zero]
      simp only [schoolbook_mul_row, if_neg hg]

/-- One row of `schoolbook_mul`, for any output length: the limbs stay below
`2^64`, no carry is lost below `out_len`, and the output is the previous output
plus `2^(64 i) * a[i] * b` modulo `2^(64 out_len)`. -/
theorem schoolbook_mul_step_spec (b : List Nat) (n i ai : Nat) (out : List Nat)
    (hob : limbs_ok BASE64 b) (hai : ai < BASE64) (hl : out.length = n)
    (hok : limbs_ok BASE64 out) (hlt : limbs_value BASE64 out < BASE64 ^ (i + b.length)) :
    ∃ out1,
      (if i + b.length < n then
          (schoolbook_mul_row ai i n b 0 out 0).1.set (i + b.length)
            (((schoolbook_mul_row ai i n b 0 out 0).1.getD (i + b.length) 0
              + (schoolbook_mul_row ai i n b 0 out 0).2) % 2 ^ 64)
        else (schoolbook_mul_row ai i n b 0 out 0).1) = out1 ∧
      out1.length = n ∧ limbs_ok BASE64 out1 ∧
      limbs_value BASE64 out1 < BASE64 ^ (i + 1 + b.length) ∧
      limbs_value BASE64 out1 % BASE64 ^ n
        = (limbs_value BASE64 out + BASE64 ^ i * (ai * limbs_value BASE64 b)) % BASE64 ^ n := by
  have htot := row_total_lt hlt hai (limbs_value_lt b hob)
  by_cases hg : i + b.length < n
  · rw [if_pos hg]
    obtain ⟨r1, r2, r3, r4⟩ := schoolbook_mul_row_spec ai i n hai b 0 out 0 hl
      (by omega) hok hob BASE64_pos
    simp only [Nat.add_zero] at r4
    generalize schoolbook_mul_row ai i n b 0 out 0 = r at r1 r2 r3 r4 ⊢
    have hle := limbs_value_getD_le BASE64 r.1 (i + b.length)
    have hsum : r.1.getD (i + b.length) 0 + r.2 < BASE64 := by
      have h1 : BASE64 ^ (i + b.length) * (r.1.getD (i + b.length) 0 + r.2)
          < BASE64 ^ (i + b.length) * BASE64 := by
        have e : BASE64 ^ (i + 1 + b.length) = BASE64 ^ (i + b.length) * BASE64 := by
          rw [← pow_succ]
          congr 1
          omega
        rw [← e, Nat.mul_add]
        omega
      exact Nat.lt_of_mul_lt_mul_left h1
    have h64 : (2 : Nat) ^ 64 = BASE64 := rfl
    rw [h64, Nat.mod_eq_of_lt hsum]
    have hset := limbs_value_set BASE64 r.1 (i + b.length)
      (r.1.getD (i + b.length) 0 + r.2) (by omega)
    have hv : limbs_value BASE64 (r.1.set (i + b.length) (r.1.getD (i + b.length) 0 + r.2))
        = limbs_value BASE64 out + BASE64 ^ i * (ai * limbs_value BASE64 b) := by
      rw [Nat.mul_add] at hset
      omega
    refine ⟨_, rfl, by simp [r1], limbs_ok_set r2 _ hsum, by rw [hv]; exact htot, by rw [hv]⟩
  · rw [if_neg hg]
    have hpown : BASE64 ^ n ≤ BASE64 ^ (i + 1 + b.length) :=
      Nat.pow_le_pow_right BASE64_pos (by omega)
    rw [schoolbook_mul_row_take, Nat.add_zero]
    by_cases hi : i < n
    · have hm : (b.take (n - i)).length = n - i := by
        rw [List.length_take]
        omega
      obtain ⟨r1, r2, r3, r4⟩ := schoolbook_mul_row_spec ai i n hai (b.take (n - i)) 0 out 0 hl
        (by omega) hok (limbs_ok_take hob _) BASE64_pos
      simp only [Nat.add_zero] at r4
      generalize schoolbook_mul_row ai i n (b.take (n - i)) 0 out 0 = r at r1 r2 r3 r4 ⊢
      have hr := limbs_value_lt r.1 r2
      rw [r1] at hr
      refine ⟨_, rfl, r1, r2, by omega, ?_⟩
      have hsplit := limbs_value_take_drop BASE64 b (n - i) (by omega)
      have hp : BASE64 ^ n = BASE64 ^ i * BASE64 ^ (n - i) := by
        rw [← pow_add]
        congr 1
        omega
      rw [hm] at r4
      have hin : i + (n - i) = n := by omega
      rw [hin] at r4
      have e : limbs_value BASE64 out + BASE64 ^ i * (ai * limbs_value BASE64 b)
          = limbs_value BASE64 r.1
            + BASE64 ^ n * (r.2 + ai * limbs_value BASE64 (b.drop (n - i))) := by
        rw [hsplit, hp]
        rw [hp] at r4
        linear_combination r4.symm
      rw [e, Nat.add_mul_mod_self_left]
    · rw [Nat.sub_eq_zero_of_le (Nat.le_of_not_lt hi), List.take_zero]
      simp only [schoolbook_mul_row]
      have ho := limbs_value_lt out hok
      rw [hl] at ho
      refine ⟨_, rfl, hl, hok, by omega, ?_⟩
      have hp : BASE64 ^ i = BASE64 ^ n * BASE64 ^ (i - n) := by
        rw [← pow_add]
        congr 1
        omega
      rw [hp, Nat.mul_assoc, Nat.add_mul_mod_self_left]

theorem schoolbook_mul_rows_mod_spec (b : List Nat) (n : Nat) (hob : limbs_ok BASE64 b) :
    ∀ (as : List Nat) (i : Nat) (out : List Nat),
    out.length = n → limbs_ok BASE64 out → limbs_ok BASE64 as →
    limbs_value BASE64 out < BASE64 ^ (i + b.length) →
    (schoolbook_mul_rows b b.length n as i out).length = n ∧
    limbs_ok BASE64 (schoolbook_mul_rows b b.length n as i out) ∧
    limbs_value BASE64 (schoolbook_mul_rows b b.length n as i out) % BASE64 ^ n
      = (limbs_value BASE64 out
        + BASE64 ^ i * (limbs_value BASE64 as * limbs_value BASE64 b)) % BASE64 ^ n := by
  intro as
  induction as with
  | nil =>
    intro i out hl hok _ _
    simp [schoolbook_mul_rows, limbs_value, hl, hok]
  | cons ai as ih =>
    intro i out hl hok hoa hlt
    obtain ⟨hai, hoas⟩ := limbs_ok_cons.mp hoa
    obtain ⟨out1, e, s1, s2, s3, s4⟩ := schoolbook_mul_step_spec b n i ai out hob hai hl hok hlt
    simp only [schoolbook_mul_rows]
    rw [e]
    obtain ⟨i1, i2, i3⟩ := ih (i + 1) out1 s1 s2 hoas s3
    refine ⟨i1, i2, ?_⟩
    rw [i3, Nat.add_mod, s4, ← Nat.add_mod]
    simp only [limbs_value, pow_succ]
    congr 1
    ring

/-- C18: for arrays `a` (`na` limbs) and `b` (`nb` limbs) of 64-bit limbs and any
`out_len`, `schoolbook_mul(out, out_len, a, na, b, nb)` leaves `out_len` limbs
with `value(out) = (value(a) * value(b)) mod 2^(64 out_len)`; when
`out_len ≥ na + nb` this is the exact product and every limb from index
`na + nb` on is zero. -/
theorem schoolbook_mul_mod (out_len na nb : Nat) (a b : List Nat)
    (ha : a.length = na) (hb : b.length = nb)
    (hoa : limbs_ok BASE64 a) (hob : limbs_ok BASE64 b) :
    (schoolbook_mul out_len a na b nb).length = out_len ∧
    limbs_ok BASE64 (schoolbook_mul out_len a na b nb) ∧
    limbs_value BASE64 (schoolbook_mul out_len a na b nb)
      = (limbs_value BASE64 a * limbs_value BASE64 b) % 2 ^ (64 * out_len) ∧
    (na + nb ≤ out_len →
      limbs_value BASE64 (schoolbook_mul out_len a na b nb)
        = limbs_value BASE64 a * limbs_value BASE64 b ∧
      ∀ k, na + nb ≤ k → (schoolbook_mul out_len a na b nb).getD k 0 = 0) := by
  subst ha hb
  obtain ⟨h1, h2, h3⟩ := schoolbook_mul_rows_mod_spec b out_len hob a 0
    (List.replicate out_len 0) (by simp) (limbs_ok_replicate_zero BASE64_pos _) hoa
    (by rw [limbs_value_replicate_zero]; exact Nat.pos_pow_of_pos _ BASE64_pos)
  rw [limbs_value_replicate_zero] at h3
  simp only [Nat.zero_add, pow_zero, Nat.one_mul] at h3
  have e : schoolbook_mul out_len a a.length b b.length
      = schoolbook_mul_rows b b.length out_len a 0 (List.replicate out_len 0) := by
    simp [schoolbook_mul]
  rw [e]
  have hlt := limbs_value_lt _ h2
  rw [h1] at hlt
  rw [Nat.mod_eq_of_lt hlt] at h3
  have hv : limbs_value BASE64 (schoolbook_mul_rows b b.length out_len a 0
      (List.replicate out_len 0))
      = (limbs_value BASE64 a * limbs_value BASE64 b) % 2 ^ (64 * out_len) := by
    rw [h3, BASE64_pow]
  refine ⟨h1, h2, hv, ?_⟩
  intro hle
  have hprod := limbs_value_mul_lt a b hoa hob
  have hpow : BASE64 ^ (a.length + b.length) ≤ BASE64 ^ out_len :=
    Nat.pow_le_pow_right BASE64_pos hle
  have hexact : limbs_value BASE64 (schoolbook_mul_rows b b.length out_len a 0
      (List.replicate out_len 0)) = limbs_value BASE64 a * limbs_value BASE64 b := by
    rw [h3]
    exact Nat.mod_eq_of_lt (by omega)
  refine ⟨hexact, ?_⟩
  intro k hk
  have hle2 := limbs_value_getD_le BASE64 (schoolbook_mul_rows b b.length out_len a 0
    (List.replicate out_len 0)) k
  rw [hexact] at hle2
  have hpk : BASE64 ^ (a.length + b.length) ≤ BASE64 ^ k := Nat.pow_le_pow_right BASE64_pos hk
  by_contra hne
  have : BASE64 ^ k * 1 ≤ BASE64 ^ k * (schoolbook_mul_rows b b.length out_len a 0
      (List.replicate out_len 0)).getD k 0 := Nat.mul_le_mul_left _ (by omega)
  omega

theorem schoolbook_mul_mod_witness :
    (schoolbook_mul 2 [18446744073709551615, 18446744073709551615] 2
        [18446744073709551615, 3] 2).length = 2 ∧
    limbs_ok BASE64 (schoolbook_mul 2 [18446744073709551615, 18446744073709551615] 2
        [18446744073709551615, 3] 2) ∧
    limbs_value BASE64 (schoolbook_mul 2 [18446744073709551615, 18446744073709551615] 2
        [18446744073709551615, 3] 2)
      = (limbs_value BASE64 [18446744073709551615, 18446744073709551615]
          * limbs_value BASE64 [18446744073709551615, 3]) % 2 ^ (64 * 2) ∧
    (2 + 2 ≤ 2 →
      limbs_value BASE64 (schoolbook_mul 2 [18446744073709551615, 18446744073709551615] 2
          [18446744073709551615, 3] 2)
        = limbs_value BASE64 [18446744073709551615, 18446744073709551615]
          * limbs_value BASE64 [18446744073709551615, 3] ∧
      ∀ k, 2 + 2 ≤ k → (schoolbook_mul 2 [18446744073709551615, 18446744073709551615] 2
          [18446744073709551615, 3] 2).getD k 0 = 0) :=
  schoolbook_mul_mod 2 2 2 [18446744073709551615, 18446744073709551615]
    [18446744073709551615, 3] rfl rfl (by decide) (by decide)

end ntt

namespace ntt
open bi

theorem test_primes_bound : ∀ q ∈ test_primes, 0 < q ∧ q ≤ 2 ^ 32 := by decide

theorem bignum_mod_loop_spec (p : Nat) (hp0 : 0 < p) (hp : p ≤ 2 ^ 32) :
    ∀ (as : List Nat) (result base_pow : Nat), limbs_ok BASE32 as → result < p →
    base_pow ≤ 2 ^ 32 →
    bignum_mod_loop p (2 ^ 32 % p) as result base_pow
      = (result + base_pow * limbs_value BASE32 as) % p ∧
    bignum_mod_fits p (2 ^ 32 % p) as result base_pow = true := by
  intro as
  induction as with
  | nil =>
    intro result base_pow _ hr _
    simp [bignum_mod_loop, bignum_mod_fits, limbs_value, Nat.mod_eq_of_lt hr]
  | cons ai as ih =>
    intro result base_pow hok hr hb
    obtain ⟨_, hoas⟩ := limbs_ok_cons.mp hok
    have hai : ai % p < p := Nat.mod_lt _ hp0
    have hbase : 2 ^ 32 % p < p := Nat.mod_lt _ hp0
    have h1 : (ai % p) * base_pow ≤ (2 ^ 32 - 1) * 2 ^ 32 :=
      Nat.mul_le_mul (by omega) hb
    have h2 : base_pow * (2 ^ 32 % p) ≤ 2 ^ 32 * (2 ^ 32 - 1) :=
      Nat.mul_le_mul hb (by omega)
    have f1 : (ai % p) * base_pow < 2 ^ 64 := by omega
    have f2 : result + (ai % p) * base_pow < 2 ^ 64 := by omega
    have f3 : base_pow * (2 ^ 32 % p) < 2 ^ 64 := by omega
    have hr' : (result + (ai % p) * base_pow) % p < p := Nat.mod_lt _ hp0
    have hb' : (base_pow * (2 ^ 32 % p)) % p ≤ 2 ^ 32 :=
      le_trans (le_of_lt (Nat.mod_lt _ hp0)) hp
    obtain ⟨i1, i2⟩ := ih ((result + (ai % p) * base_pow) % p)
      ((base_pow * (2 ^ 32 % p)) % p) hoas hr' hb'
    simp only [bignum_mod_loop, bignum_mod_fits]
    rw [Nat.mod_eq_of_lt f1, Nat.mod_eq_of_lt f2, Nat.mod_eq_of_lt f3, i1, i2]
    refine ⟨?_, by simp only [Bool.and_true, decide_eq_true_eq]; exact ⟨f1, f2, f3⟩⟩
    have m1 : (result + (ai % p) * base_pow) % p ≡ result + ai * base_pow [MOD p] :=
      (Nat.mod_modEq _ _).trans
        (Nat.ModEq.add_left _ (Nat.ModEq.mul_right _ (Nat.mod_modEq _ _)))
    have m2 : (base_pow * (2 ^ 32 % p)) % p ≡ base_pow * 2 ^ 32 [MOD p] :=
      (Nat.mod_modEq _ _).trans (Nat.ModEq.mul_left _ (Nat.mod_modEq _ _))
    have m3 := Nat.ModEq.add m1 (Nat.ModEq.mul_right (limbs_value BASE32 as) m2)
    unfold Nat.ModEq at m3
    rw [m3]
    simp only [limbs_value, BASE32]
    congr 1
    ring

/-- With `0 < p ≤ 2^32`, `bignum_mod` returns the value of the first `len` limbs
modulo `p` and no `u64` operation of its loop wraps. -/
theorem bignum_mod_eq (a : List Nat) (len p : Nat) (hoa : limbs_ok BASE32 a)
    (hp0 : 0 < p) (hp : p ≤ 2 ^ 32) :
    bignum_mod a len p = some (limbs_value BASE32 (a.take len) % p) ∧
    bignum_mod_fits p (2 ^ 32 % p) (a.take len) 0 1 = true := by
  obtain ⟨h1, h2⟩ := bignum_mod_loop_spec p hp0 hp (a.take len) 0 1
    (limbs_ok_take hoa len) hp0 (by norm_num)
  have hb : ((1 <<< 32) % 2 ^ 64) = 2 ^ 32 := by decide
  unfold bignum_mod
  rw [if_neg (by omega), hb, h1]
  simp only [Nat.zero_add, Nat.one_mul]
  exact ⟨trivial, h2⟩

/-- C19: for `0 < p ≤ 2^32` and an array `a` of `len` 32-bit limbs,
`bignum_mod(a, len, p) = (Σ_{i < len} a[i] * 2^(32 i)) mod p` and no 64-bit
intermediate of the loop wraps around; each of the five verification moduli
satisfies `0 < p ≤ 2^32`. -/
theorem bignum_mod_value (a : List Nat) (len p : Nat) (hlen : a.length = len)
    (hoa : limbs_ok BASE32 a) (hp0 : 0 < p) (hp : p ≤ 2 ^ 32) :
    bignum_mod a len p = some (limbs_value BASE32 a % p) ∧
    bignum_mod_fits p (2 ^ 32 % p) a 0 1 = true ∧
    test_primes = [1000000007, 998244353, 1000000009, 999999937, 104729] ∧
    ∀ q, q ∈ test_primes → 0 < q ∧ q ≤ 2 ^ 32 := by
  obtain ⟨h1, h2⟩ := bignum_mod_eq a len p hoa hp0 hp
  have ht : a.take len = a := by rw [← hlen]; exact List.take_length a
  rw [ht] at h1 h2
  exact ⟨h1, h2, rfl, test_primes_bound⟩

theorem bignum_mod_value_witness :
    bignum_mod [4294967295, 4294967295, 4294967295] 3 4294967296
      = some (limbs_value BASE32 [4294967295, 4294967295, 4294967295] % 4294967296) ∧
    bignum_mod_fits 4294967296 (2 ^ 32 % 4294967296) [4294967295, 4294967295, 4294967295] 0 1
      = true ∧
    test_primes = [1000000007, 998244353, 1000000009, 999999937, 104729] ∧
    ∀ q, q ∈ test_primes → 0 < q ∧ q ≤ 2 ^ 32 :=
  bignum_mod_value [4294967295, 4294967295, 4294967295] 3 4294967296 rfl (by decide)
    (by decide) (by decide)

/-- C20: for arrays `a`, `b` of 32-bit limbs, a modulus `p` among the five of
`test_large_cases`, and any array `r` of 32-bit limbs whose first `rlen` limbs
have the value `value(a) * value(b)` (the product with any number of its
leading zero limbs cut off), `bignum_mod(r, rlen, p)` equals
`mulmod(bignum_mod(a, na, p), bignum_mod(b, nb, p), p)`. -/
theorem modular_check_accepts (a b r : List Nat) (na nb rlen p : Nat)
    (hna : a.length = na) (hnb : b.length = nb) (_hrlen : rlen ≤ r.length)
    (hoa : limbs_ok BASE32 a) (hob : limbs_ok BASE32 b) (hor : limbs_ok BASE32 r)
    (hp : p ∈ test_primes)
    (hv : limbs_value BASE32 (r.take rlen) = limbs_value BASE32 a * limbs_value BASE32 b) :
    ∃ a_mod b_mod result_mod, bignum_mod a na p = some a_mod ∧
      bignum_mod b nb p = some b_mod ∧ bignum_mod r rlen p = some result_mod ∧
      mulmod a_mod b_mod p = some result_mod := by
  obtain ⟨hp0, hp32⟩ := test_primes_bound p hp
  obtain ⟨ea, _⟩ := bignum_mod_eq a na p hoa hp0 hp32
  obtain ⟨eb, _⟩ := bignum_mod_eq b nb p hob hp0 hp32
  obtain ⟨er, _⟩ := bignum_mod_eq r rlen p hor hp0 hp32
  have hta : a.take na = a := by rw [← hna]; exact List.take_length a
  have htb : b.take nb = b := by rw [← hnb]; exact List.take_length b
  rw [hta] at ea
  rw [htb] at eb
  refine ⟨_, _, _, ea, eb, er, ?_⟩
  have ha : limbs_value BASE32 a % p < p := Nat.mod_lt _ hp0
  have hb : limbs_value BASE32 b % p < p := Nat.mod_lt _ hp0
  have hprod : (limbs_value BASE32 a % p) * (limbs_value BASE32 b % p)
      ≤ (2 ^ 32 - 1) * (2 ^ 32 - 1) := Nat.mul_le_mul (by omega) (by omega)
  have h128 : (limbs_value BASE32 a % p) * (limbs_value BASE32 b % p) < 2 ^ 128 := by omega
  have hres : ((limbs_value BASE32 a % p) * (limbs_value BASE32 b % p)) % p < 2 ^ 64 := by
    have := Nat.mod_lt ((limbs_value BASE32 a % p) * (limbs_value BASE32 b % p)) hp0
    omega
  unfold mulmod
  rw [if_neg (by omega), Nat.mod_eq_of_lt h128, Nat.mod_eq_of_lt hres, hv, ← Nat.mul_mod]

theorem modular_check_accepts_witness :
    ∃ a_mod b_mod result_mod, bignum_mod [4294967295, 4294967295] 2 998244353 = some a_mod ∧
      bignum_mod [4294967295] 1 998244353 = some b_mod ∧
      bignum_mod [1, 4294967295, 4294967294, 0, 0] 3 998244353 = some result_mod ∧
      mulmod a_mod b_mod 998244353 = some result_mod :=
  modular_check_accepts [4294967295, 4294967295] [4294967295]
    [1, 4294967295, 4294967294, 0, 0] 2 1 3 998244353 rfl rfl (by decide) (by decide)
    (by decide) (by decide) (by decide) (by decide)

end ntt

namespace ntt

theorem find_range_some (p : Nat → Bool) : ∀ (n s t : Nat), s ≤ t → t < s + n → p t = true →
    (∀ j, s ≤ j → j < t → p j = false) → (List.range' s n).find? p = some t := by
  intro n
  induction n with
  | zero => intro s t h1 h2 _ _; omega
  | succ n ih =>
    intro s t h1 h2 hp hlt
    rw [List.range'_succ]
    by_cases hst : s = t
    · subst hst
      rw [List.find?_cons_of_pos _ hp]
    · have hs : ¬ (p s = true) := by
        rw [hlt s (le_refl _) (by omega)]
        simp
      rw [List.find?_cons_of_neg _ hs]
      exact ih (s + 1) t (by omega) (by omega) hp (fun j h3 h4 => hlt j (by omega) h4)

theorem find_range_none (p : Nat → Bool) : ∀ (n s : Nat),
    (∀ j, s ≤ j → j < s + n → p j = false) → (List.range' s n).find? p = none := by
  intro n
  induction n with
  | zero => intro s _; rfl
  | succ n ih =>
    intro s h
    rw [List.range'_succ]
    have hs : ¬ (p s = true) := by
      rw [h s (le_refl _) (by omega)]
      simp
    rw [List.find?_cons_of_neg _ hs]
    exact ih (s + 1) (fun j h3 h4 => h j (by omega) (by omega))

/-- The exponent of two in a non-zero number is unique. -/
theorem two_adic_unique (x r s : Nat) (hr : 2 ^ r ∣ x) (hr' : ¬ 2 ^ (r + 1) ∣ x)
    (hs : 2 ^ s ∣ x) (hs' : ¬ 2 ^ (s + 1) ∣ x) : s = r := by
  by_contra hne
  rcases Nat.lt_or_gt_of_ne hne with h | h
  · exact hs' (dvd_trans (pow_dvd_pow 2 (by omega)) hr)
  · exact hr' (dvd_trans (pow_dvd_pow 2 (by omega)) hs)

/-- For `x ≠ 0` the loop of `ctz_constexpr` ends after `t` iterations, `t` the
exponent of two in `x`, as soon as it is given `t + 1` guard evaluations. -/
theorem ctz_constexpr_loop_spec : ∀ (x : Nat), x ≠ 0 →
    ∃ t, 2 ^ t ∣ x ∧ ¬ 2 ^ (t + 1) ∣ x ∧
      (∀ fuel r, t < fuel → ctz_constexpr_loop fuel x r = some (r + t)) ∧
      (∀ fuel r, fuel ≤ t → ctz_constexpr_loop fuel x r = none) := by
  intro x
  induction x using Nat.strong_induction_on with
  | _ x ih =>
    intro hx
    by_cases hodd : x % 2 = 1
    · refine ⟨0, by simp, by rw [Nat.zero_add, pow_one]; omega, ?_, ?_⟩
      · intro fuel r hf
        obtain ⟨f, rfl⟩ : ∃ f, fuel = f + 1 := ⟨fuel - 1, by omega⟩
        simp only [ctz_constexpr_loop, Nat.and_one_is_mod, hodd]
        simp
      · intro fuel r hf
        have : fuel = 0 := by omega
        subst this
        rfl
    · have heven : x % 2 = 0 := by omega
      obtain ⟨t, t1, t2, t3, t4⟩ := ih (x / 2) (by omega) (by omega)
      have hx2 : x = 2 * (x / 2) := by omega
      refine ⟨t + 1, ?_, ?_, ?_, ?_⟩
      · rw [hx2, pow_succ, Nat.mul_comm]
        exact Nat.mul_dvd_mul_left 2 t1
      · intro hd
        apply t2
        rw [hx2, pow_succ (2) (t + 1), Nat.mul_comm] at hd
        exact (Nat.mul_dvd_mul_iff_left (by omega)).mp hd
      · intro fuel r hf
        obtain ⟨f, rfl⟩ : ∃ f, fuel = f + 1 := ⟨fuel - 1, by omega⟩
        simp only [ctz_constexpr_loop, Nat.and_one_is_mod, heven, if_true,
          Nat.shiftRight_eq_div_pow, pow_one]
        rw [t3 f (r + 1) (by omega)]
        congr 1
        omega
      · intro fuel r hf
        cases fuel with
        | zero => rfl
        | succ f =>
          simp only [ctz_constexpr_loop, Nat.and_one_is_mod, heven, if_true,
            Nat.shiftRight_eq_div_pow, pow_one]
          exact t4 f (r + 1) (by omega)

/-- At `x = 0` the guard of the loop of `ctz_constexpr` holds in every
iteration, so no number of guard evaluations ends the loop. -/
theorem ctz_constexpr_loop_zero : ∀ (fuel r : Nat), ctz_constexpr_loop fuel 0 r = none := by
  intro fuel
  induction fuel with
  | zero => intro r; rfl
  | succ f ih =>
    intro r
    simp only [ctz_constexpr_loop, Nat.and_one_is_mod, Nat.zero_mod, if_true]
    exact ih (r + 1)

theorem ctzll_constexpr_loop_eq : ∀ (fuel x r : Nat),
    ctzll_constexpr_loop fuel x r = ctz_constexpr_loop fuel x r := by
  intro fuel
  induction fuel with
  | zero => intro x r; rfl
  | succ f ih =>
    intro x r
    simp only [ctzll_constexpr_loop, ctz_constexpr_loop, ih]

/-- The lowest set bit of `x ≠ 0` is at the exponent of two in `x`. -/
theorem lowest_bit_spec (x t : Nat) (h1 : 2 ^ t ∣ x) (h2 : ¬ 2 ^ (t + 1) ∣ x) :
    x.testBit t = true ∧ ∀ j, j < t → x.testBit j = false := by
  obtain ⟨m, rfl⟩ := h1
  have hm : m % 2 = 1 := by
    by_contra hm
    apply h2
    have : m = 2 * (m / 2) := by omega
    rw [this, pow_succ, ← Nat.mul_assoc]
    exact Dvd.intro _ rfl
  constructor
  · rw [Nat.testBit_to_div_mod, Nat.mul_div_cancel_left _ (Nat.pos_pow_of_pos _ (by omega))]
    simp [hm]
  · intro j hj
    rw [Nat.testBit_to_div_mod]
    have e : 2 ^ t = 2 ^ j * 2 ^ (t - j) := by
      rw [← pow_add]
      congr 1
      omega
    rw [e, Nat.mul_assoc, Nat.mul_div_cancel_left _ (Nat.pos_pow_of_pos _ (by omega))]
    obtain ⟨k, hk⟩ : ∃ k, t - j = k + 1 := ⟨t - j - 1, by omega⟩
    rw [hk, pow_succ, Nat.mul_assoc, Nat.mul_comm, Nat.mul_assoc]
    simp

theorem find_lowest_bit (n x t : Nat) (ht : t < n) (h1 : 2 ^ t ∣ x)
    (h2 : ¬ 2 ^ (t + 1) ∣ x) : ((List.range n).find? fun i => x.testBit i) = some t := by
  obtain ⟨b1, b2⟩ := lowest_bit_spec x t h1 h2
  rw [List.range_eq_range']
  exact find_range_some _ n 0 t (Nat.zero_le _) (by omega) b1 (fun j _ hj => b2 j hj)

theorem two_adic_lt (x t n : Nat) (hx : x ≠ 0) (hlt : x < 2 ^ n) (h1 : 2 ^ t ∣ x) : t < n := by
  by_contra hge
  have h2 : 2 ^ n ∣ x := dvd_trans (pow_dvd_pow 2 (by omega)) h1
  have := Nat.le_of_dvd (by omega) h2
  omega

end ntt

namespace ntt

theorem ctz_width_spec (n x : Nat) (hx : x ≠ 0) (hlt : x < 2 ^ n) :
    ∃ r, ctz_constexpr_loop n x 0 = some r ∧ r < n ∧ 2 ^ r ∣ x ∧ ¬ 2 ^ (r + 1) ∣ x ∧
      (∀ s, 2 ^ s ∣ x → ¬ 2 ^ (s + 1) ∣ x → s = r) ∧
      ((List.range n).find? fun i => x.testBit i) = some r := by
  obtain ⟨t, t1, t2, t3, _⟩ := ctz_constexpr_loop_spec x hx
  have htn := two_adic_lt x t n hx hlt t1
  refine ⟨t, ?_, htn, t1, t2, fun s h1 h2 => two_adic_unique x t s t1 t2 h1 h2,
    find_lowest_bit n x t htn t1 t2⟩
  rw [t3 n 0 htn, Nat.zero_add]

/-- C22: for every non-zero 32-bit `x`, `ctz_constexpr(x)` returns the unique
`r ∈ [0, 31]` with `2^r ∣ x` and `2^(r+1) ∤ x`, which is the value of the runtime
`ntt_ctz(x)`; likewise `ctzll_constexpr` and `ntt_ctzll` on every non-zero
64-bit `x`, with `r ∈ [0, 63]`. -/
theorem ctz_constexpr_eq_ntt_ctz :
    (∀ x, x ≠ 0 → x < 2 ^ 32 →
      ∃ r, ctz_constexpr x = some r ∧ r ≤ 31 ∧ 2 ^ r ∣ x ∧ ¬ 2 ^ (r + 1) ∣ x ∧
        (∀ s, 2 ^ s ∣ x → ¬ 2 ^ (s + 1) ∣ x → s = r) ∧ ntt_ctz x = some r) ∧
    (∀ x, x ≠ 0 → x < 2 ^ 64 →
      ∃ r, ctzll_constexpr x = some r ∧ r ≤ 63 ∧ 2 ^ r ∣ x ∧ ¬ 2 ^ (r + 1) ∣ x ∧
        (∀ s, 2 ^ s ∣ x → ¬ 2 ^ (s + 1) ∣ x → s = r) ∧ ntt_ctzll x = some r) := by
  constructor
  · intro x hx hlt
    obtain ⟨r, h1, h2, h3, h4, h5, h6⟩ := ctz_width_spec 32 x hx hlt
    exact ⟨r, h1, by omega, h3, h4, h5, h6⟩
  · intro x hx hlt
    obtain ⟨r, h1, h2, h3, h4, h5, h6⟩ := ctz_width_spec 64 x hx hlt
    refine ⟨r, ?_, by omega, h3, h4, h5, h6⟩
    unfold ctzll_constexpr
    rw [ctzll_constexpr_loop_eq]
    exact h1

theorem ctz_constexpr_eq_ntt_ctz_witness :
    (∃ r, ctz_constexpr 2147483648 = some r ∧ r ≤ 31 ∧ 2 ^ r ∣ 2147483648 ∧
        ¬ 2 ^ (r + 1) ∣ 2147483648 ∧
        (∀ s, 2 ^ s ∣ 2147483648 → ¬ 2 ^ (s + 1) ∣ 2147483648 → s = r) ∧
        ntt_ctz 2147483648 = some r) ∧
    (∃ r, ctzll_constexpr 9223372036854775808 = some r ∧ r ≤ 63 ∧
        2 ^ r ∣ 9223372036854775808 ∧ ¬ 2 ^ (r + 1) ∣ 9223372036854775808 ∧
        (∀ s, 2 ^ s ∣ 9223372036854775808 → ¬ 2 ^ (s + 1) ∣ 9223372036854775808 → s = r) ∧
        ntt_ctzll 9223372036854775808 = some r) :=
  ⟨ctz_constexpr_eq_ntt_ctz.1 2147483648 (by decide) (by decide),
    ctz_constexpr_eq_ntt_ctz.2 9223372036854775808 (by decide) (by decide)⟩

theorem ctz_terminates_width (n x : Nat) (hlt : x < 2 ^ n) :
    ((∃ fuel r, ctz_constexpr_loop fuel x 0 = some r) ↔ x ≠ 0) ∧
    (x ≠ 0 → ∃ r, r < n ∧ (∀ fuel, r < fuel → ctz_constexpr_loop fuel x 0 = some r) ∧
      ∀ fuel, fuel ≤ r → ctz_constexpr_loop fuel x 0 = none) := by
  have key : x ≠ 0 → ∃ r, r < n ∧ (∀ fuel, r < fuel → ctz_constexpr_loop fuel x 0 = some r) ∧
      ∀ fuel, fuel ≤ r → ctz_constexpr_loop fuel x 0 = none := by
    intro hx
    obtain ⟨t, t1, _, t3, t4⟩ := ctz_constexpr_loop_spec x hx
    refine ⟨t, two_adic_lt x t n hx hlt t1, ?_, fun fuel hf => t4 fuel 0 hf⟩
    intro fuel hf
    rw [t3 fuel 0 hf, Nat.zero_add]
  refine ⟨⟨?_, ?_⟩, key⟩
  · rintro ⟨fuel, r, h⟩ hx
    rw [hx, ctz_constexpr_loop_zero] at h
    cases h
  · intro hx
    obtain ⟨r, _, h, _⟩ := key hx
    exact ⟨r + 1, r, h (r + 1) (by omega)⟩

/-- C28: the loop of `ctz_constexpr` (and of `ctzll_constexpr`) terminates if and
only if `x ≠ 0`: for non-zero `x` it ends after `r ≤ 31` (resp. `r ≤ 63`)
iterations, and for `x = 0` the guard `(x & 1) == 0` holds and `x >>= 1` leaves
`x` at `0`, so the loop has not ended after any number of iterations. -/
theorem ctz_constexpr_terminates_iff :
    (∀ x, x < 2 ^ 32 →
      ((∃ fuel r, ctz_constexpr_loop fuel x 0 = some r) ↔ x ≠ 0) ∧
      (x ≠ 0 → ∃ r, r ≤ 31 ∧ (∀ fuel, r < fuel → ctz_constexpr_loop fuel x 0 = some r) ∧
        ∀ fuel, fuel ≤ r → ctz_constexpr_loop fuel x 0 = none)) ∧
    (∀ x, x < 2 ^ 64 →
      ((∃ fuel r, ctzll_constexpr_loop fuel x 0 = some r) ↔ x ≠ 0) ∧
      (x ≠ 0 → ∃ r, r ≤ 63 ∧ (∀ fuel, r < fuel → ctzll_constexpr_loop fuel x 0 = some r) ∧
        ∀ fuel, fuel ≤ r → ctzll_constexpr_loop fuel x 0 = none)) ∧
    ((0 &&& 1 = 0) ∧ (0 >>> 1 = 0) ∧ (∀ fuel r, ctz_constexpr_loop fuel 0 r = none) ∧
      ∀ fuel r, ctzll_constexpr_loop fuel 0 r = none) := by
  refine ⟨?_, ?_, by decide, by decide, ctz_constexpr_loop_zero, ?_⟩
  · intro x hlt
    obtain ⟨h1, h2⟩ := ctz_terminates_width 32 x hlt
    refine ⟨h1, fun hx => ?_⟩
    obtain ⟨r, a, b, c⟩ := h2 hx
    exact ⟨r, by omega, b, c⟩
  · intro x hlt
    obtain ⟨h1, h2⟩ := ctz_terminates_width 64 x hlt
    simp only [ctzll_constexpr_loop_eq]
    refine ⟨h1, fun hx => ?_⟩
    obtain ⟨r, a, b, c⟩ := h2 hx
    exact ⟨r, by omega, b, c⟩
  · intro fuel r
    rw [ctzll_constexpr_loop_eq]
    exact ctz_constexpr_loop_zero fuel r

theorem ctz_constexpr_terminates_iff_witness :
    (((∃ fuel r, ctz_constexpr_loop fuel 2147483648 0 = some r) ↔ 2147483648 ≠ 0) ∧
      (2147483648 ≠ 0 → ∃ r, r ≤ 31 ∧
        (∀ fuel, r < fuel → ctz_constexpr_loop fuel 2147483648 0 = some r) ∧
        ∀ fuel, fuel ≤ r → ctz_constexpr_loop fuel 2147483648 0 = none)) ∧
    (((∃ fuel r, ctzll_constexpr_loop fuel 0 0 = some r) ↔ 0 ≠ 0) ∧
      (0 ≠ 0 → ∃ r, r ≤ 63 ∧ (∀ fuel, r < fuel → ctzll_constexpr_loop fuel 0 0 = some r) ∧
        ∀ fuel, fuel ≤ r → ctzll_constexpr_loop fuel 0 0 = none)) :=
  ⟨ctz_constexpr_terminates_iff.1 2147483648 (by decide),
    ctz_constexpr_terminates_iff.2.1 0 (by decide)⟩

end ntt

namespace ntt

theorem log2_unique (x l : Nat) (h1 : 2 ^ l ≤ x) (h2 : x < 2 ^ (l + 1)) : Nat.log2 x = l := by
  have hx : x ≠ 0 := by
    have := Nat.pos_pow_of_pos l (show 0 < 2 by omega)
    omega
  have a : Nat.log2 x < l + 1 := (Nat.log2_lt hx).mpr h2
  have b : ¬ Nat.log2 x < l := by
    intro hlt
    have := (Nat.log2_lt hx).mp hlt
    omega
  omega

theorem log2_bounds (x : Nat) (hx : x ≠ 0) : 2 ^ Nat.log2 x ≤ x ∧ x < 2 ^ (Nat.log2 x + 1) :=
  ⟨Nat.log2_self_le hx, Nat.lt_log2_self⟩

theorem log2_lt_width (x n : Nat) (hx : x ≠ 0) (hlt : x < 2 ^ n) : Nat.log2 x < n :=
  (Nat.log2_lt hx).mpr hlt

theorem log2_half (x : Nat) (hx : 1 < x) : Nat.log2 x = Nat.log2 (x / 2) + 1 := by
  obtain ⟨b1, b2⟩ := log2_bounds (x / 2) (by omega)
  apply log2_unique
  · rw [pow_succ]
    omega
  · rw [pow_succ]
    omega

theorem log2_le_one (x : Nat) (hx : x ≤ 1) : Nat.log2 x = 0 := by
  rcases Nat.eq_zero_or_pos x with h | h
  · subst h
    rw [Nat.log2]
    simp
  · exact log2_unique x 0 (by simpa using h) (by simp; omega)

/-- The loop of `lg_constexpr` adds `floor(log2 x)` to `r` as soon as it is given
more than `floor(log2 x)` guard evaluations. -/
theorem lg_constexpr_loop_spec : ∀ (x fuel r : Nat), Nat.log2 x < fuel →
    lg_constexpr_loop fuel x r = some (r + Nat.log2 x) := by
  intro x
  induction x using Nat.strong_induction_on with
  | _ x ih =>
    intro fuel r hf
    obtain ⟨f, rfl⟩ : ∃ f, fuel = f + 1 := ⟨fuel - 1, by omega⟩
    by_cases hx : 1 < x
    · have hh := log2_half x hx
      simp only [lg_constexpr_loop, gt_iff_lt, hx, if_true, Nat.shiftRight_eq_div_pow, pow_one]
      rw [ih (x / 2) (by omega) f (r + 1) (by omega), hh]
      congr 1
      omega
    · simp only [lg_constexpr_loop, gt_iff_lt, hx, if_false]
      rw [log2_le_one x (by omega), Nat.add_zero]

theorem top_bit_spec (x : Nat) (hx : x ≠ 0) :
    x.testBit (Nat.log2 x) = true ∧ ∀ j, Nat.log2 x < j → x.testBit j = false := by
  obtain ⟨b1, b2⟩ := log2_bounds x hx
  constructor
  · rw [Nat.testBit_to_div_mod]
    have h1 : x / 2 ^ Nat.log2 x = 1 := by
      apply Nat.div_eq_of_lt_le
      · simpa using b1
      · rw [pow_succ] at b2
        omega
    rw [h1]
    rfl
  · intro j hj
    apply Nat.testBit_lt_two_pow
    have : 2 ^ (Nat.log2 x + 1) ≤ 2 ^ j := Nat.pow_le_pow_right (by omega) (by omega)
    omega

theorem and_two_pow_eq_zero (x n : Nat) : x &&& 2 ^ n = 0 ↔ x.testBit n = false := by
  constructor
  · intro h
    have := congrArg (fun y => Nat.testBit y n) h
    simpa [Nat.testBit_and, Nat.testBit_two_pow_self] using this
  · intro h
    apply Nat.eq_of_testBit_eq
    intro i
    rw [Nat.testBit_and, Nat.testBit_two_pow, Nat.zero_testBit]
    by_cases hi : n = i
    · subst hi
      simp [h]
    · simp [hi]

theorem clz_constexpr_loop_spec : ∀ (n x : Nat), n ≤ 32 → x < 2 ^ n →
    clz_constexpr_loop x n = if x = 0 then 32 else 31 - Nat.log2 x := by
  intro n
  induction n with
  | zero =>
    intro x _ hx
    have : x = 0 := by simpa using hx
    subst this
    rfl
  | succ n ih =>
    intro x hn hx
    have hpow : (1 <<< n) % 2 ^ 32 = 2 ^ n := by
      rw [Nat.one_shiftLeft]
      apply Nat.mod_eq_of_lt
      exact Nat.pow_lt_pow_right (by omega) (by omega)
    simp only [clz_constexpr_loop, hpow]
    by_cases hbit : 2 ^ n ≤ x
    · have hl : Nat.log2 x = n := log2_unique x n hbit hx
      have hx0 : x ≠ 0 := by
        have := Nat.pos_pow_of_pos n (show 0 < 2 by omega)
        omega
      have ht := (top_bit_spec x hx0).1
      rw [hl] at ht
      have hne : x &&& 2 ^ n ≠ 0 := by
        intro h0
        rw [(and_two_pow_eq_zero x n).mp h0] at ht
        cases ht
      rw [if_pos hne, if_neg hx0, hl]
    · have hlt : x < 2 ^ n := Nat.lt_of_not_le hbit
      have h0 : x &&& 2 ^ n = 0 := (and_two_pow_eq_zero x n).mpr (Nat.testBit_lt_two_pow hlt)
      rw [if_neg (by rw [h0]; simp)]
      exact ih x (by omega) hlt

theorem builtin_clz_spec (x : Nat) (hx : x ≠ 0) (hlt : x < 2 ^ 32) :
    builtin_clz x = some (31 - Nat.log2 x) := by
  have hl := log2_lt_width x 32 hx hlt
  obtain ⟨t1, t2⟩ := top_bit_spec x hx
  unfold builtin_clz
  rw [List.range_eq_range']
  apply find_range_some _ 32 0 (31 - Nat.log2 x) (Nat.zero_le _) (by omega)
  · have : 31 - (31 - Nat.log2 x) = Nat.log2 x := by omega
    simp only [this]
    exact t1
  · intro j _ hj
    exact t2 (31 - j) (by omega)

theorem builtin_clz_zero : builtin_clz 0 = none := by decide

/-- The runtime `ntt_lg` returns the index of the highest set bit of a non-zero
32-bit value and has no result at `0`. -/
theorem ntt_lg_spec (x : Nat) (hx : x ≠ 0) (hlt : x < 2 ^ 32) :
    ntt_lg x = some (Nat.log2 x) := by
  have hl := log2_lt_width x 32 hx hlt
  unfold ntt_lg
  rw [builtin_clz_spec x hx hlt]
  simp only
  congr 1
  omega

/-- C23: `clz_constexpr(0) = 32`, and for every non-zero 32-bit `x`, with
`l = floor(log2 x)` (so `2^l ≤ x < 2^(l+1)`, `l ≤ 31`): `clz_constexpr(x) = 31 - l`,
`lg_constexpr(x) = l = 31 - clz_constexpr(x)`, and the runtime `ntt_lg(x)` and
`ntt_clz(x)` return the same values. -/
theorem clz_lg_constexpr_spec :
    clz_constexpr 0 = 32 ∧
    ∀ x, x ≠ 0 → x < 2 ^ 32 →
      ∃ l, 2 ^ l ≤ x ∧ x < 2 ^ (l + 1) ∧ l = Nat.log2 x ∧ l ≤ 31 ∧
        clz_constexpr x = 31 - l ∧ lg_constexpr x = some l ∧
        lg_constexpr x = some (31 - clz_constexpr x) ∧
        ntt_lg x = lg_constexpr x ∧ ntt_clz x = some (clz_constexpr x) := by
  refine ⟨by decide, ?_⟩
  intro x hx hlt
  obtain ⟨b1, b2⟩ := log2_bounds x hx
  have hl := log2_lt_width x 32 hx hlt
  have hclz : clz_constexpr x = 31 - Nat.log2 x := by
    unfold clz_constexpr
    rw [clz_constexpr_loop_spec 32 x (le_refl _) hlt, if_neg hx]
  have hlg : lg_constexpr x = some (Nat.log2 x) := by
    unfold lg_constexpr
    rw [lg_constexpr_loop_spec x 32 0 hl, Nat.zero_add]
  refine ⟨Nat.log2 x, b1, b2, rfl, by omega, hclz, hlg, ?_, ?_, ?_⟩
  · rw [hlg, hclz]
    congr 1
    omega
  · rw [hlg]
    exact ntt_lg_spec x hx hlt
  · unfold ntt_clz
    rw [hclz]
    exact builtin_clz_spec x hx hlt

theorem clz_lg_constexpr_spec_witness :
    ∃ l, 2 ^ l ≤ 4294967295 ∧ 4294967295 < 2 ^ (l + 1) ∧ l = Nat.log2 4294967295 ∧ l ≤ 31 ∧
      clz_constexpr 4294967295 = 31 - l ∧ lg_constexpr 4294967295 = some l ∧
      lg_constexpr 4294967295 = some (31 - clz_constexpr 4294967295) ∧
      ntt_lg 4294967295 = lg_constexpr 4294967295 ∧
      ntt_clz 4294967295 = some (clz_constexpr 4294967295) :=
  clz_lg_constexpr_spec.2 4294967295 (by decide) (by decide)

/-- With `x ≤ 2^32`, `ceil_pow2` returns the least power of two that is at
least `x`. -/
theorem ceil_pow2_least (x : Nat) (hx : x ≤ 2 ^ 32) :
    ∃ p, ceil_pow2 x = some p ∧ (∃ k, p = 2 ^ k) ∧ x ≤ p ∧ ∀ k, x ≤ 2 ^ k → p ≤ 2 ^ k := by
  unfold ceil_pow2
  by_cases h2 : x < 2
  · rw [if_pos h2]
    refine ⟨1, rfl, ⟨0, rfl⟩, by omega, ?_⟩
    intro k _
    exact Nat.pos_pow_of_pos k (by omega)
  · rw [if_neg h2]
    have hu0 : x - 1 ≠ 0 := by omega
    have hult : x - 1 < 2 ^ 32 := by omega
    rw [Nat.mod_eq_of_lt hult, ntt_lg_spec (x - 1) hu0 hult]
    simp only
    obtain ⟨b1, b2⟩ := log2_bounds (x - 1) hu0
    have hl := log2_lt_width (x - 1) 32 hu0 hult
    have hp : (1 <<< (Nat.log2 (x - 1) + 1)) % 2 ^ 64 = 2 ^ (Nat.log2 (x - 1) + 1) := by
      rw [Nat.one_shiftLeft]
      apply Nat.mod_eq_of_lt
      exact Nat.pow_lt_pow_right (by omega) (by omega)
    rw [hp]
    refine ⟨_, rfl, ⟨_, rfl⟩, by omega, ?_⟩
    intro k hk
    apply Nat.pow_le_pow_right (by omega)
    by_contra hlt
    have : 2 ^ k ≤ 2 ^ Nat.log2 (x - 1) := Nat.pow_le_pow_right (by omega) (by omega)
    omega

/-- C21: for every `x ≤ 2^32`, `ceil_pow2(x)` is the smallest power of two that
is at least `x`, with `ceil_pow2(0) = ceil_pow2(1) = 1`; here `ntt_lg(u)` is the
index of the highest set bit of the non-zero 32-bit value `u`. -/
theorem ceil_pow2_spec :
    (∀ x, x ≤ 2 ^ 32 →
      ∃ p, ceil_pow2 x = some p ∧ (∃ k, p = 2 ^ k) ∧ x ≤ p ∧ ∀ k, x ≤ 2 ^ k → p ≤ 2 ^ k) ∧
    ceil_pow2 0 = some 1 ∧ ceil_pow2 1 = some 1 ∧
    (∀ u, u ≠ 0 → u < 2 ^ 32 →
      ∃ l, ntt_lg u = some l ∧ l ≤ 31 ∧ u.testBit l = true ∧
        ∀ j, l < j → u.testBit j = false) := by
  refine ⟨ceil_pow2_least, by decide, by decide, ?_⟩
  intro u hu hlt
  obtain ⟨t1, t2⟩ := top_bit_spec u hu
  have hl := log2_lt_width u 32 hu hlt
  exact ⟨_, ntt_lg_spec u hu hlt, by omega, t1, t2⟩

theorem ceil_pow2_spec_witness :
    (∃ p, ceil_pow2 4294967296 = some p ∧ (∃ k, p = 2 ^ k) ∧ 4294967296 ≤ p ∧
      ∀ k, 4294967296 ≤ 2 ^ k → p ≤ 2 ^ k) ∧
    (∃ l, ntt_lg 4294967295 = some l ∧ l ≤ 31 ∧ (4294967295 : Nat).testBit l = true ∧
      ∀ j, l < j → (4294967295 : Nat).testBit j = false) :=
  ⟨ceil_pow2_spec.1 4294967296 (by decide), ceil_pow2_spec.2.2.2 4294967295 (by decide)
    (by decide)⟩

end ntt

namespace ntt

/-- Up to the largest table entry, `ceil_smooth x` is the entry at the first
index whose entry is at least `x`, and no smaller entry is at least `x`. -/
theorem ceil_smooth_entry_spec (x : Nat) (hx : x ≤ 25165824) :
    ∃ r v, ceil_smooth x = some v ∧ SMOOTH_TABLE[r]? = some v ∧ r < 60 ∧ x ≤ v ∧
      (∀ i t, i < r → SMOOTH_TABLE[i]? = some t → t < x) ∧
      ∀ w, w ∈ SMOOTH_TABLE → x ≤ w → v ≤ w := by
  obtain ⟨r, hr, _, hlow, hhigh⟩ := ceil_smooth_lo_spec x
  have hr60 : r < 60 := by
    by_contra hge
    have := hlow 59 _ (by omega) SMOOTH_TABLE_last
    omega
  have hget : SMOOTH_TABLE[r]? = some (SMOOTH_TABLE[r]) :=
    List.getElem?_eq_getElem (by rw [SMOOTH_TABLE_length]; exact hr60)
  refine ⟨r, SMOOTH_TABLE[r], ?_, hget, hr60, hhigh r _ (le_refl _) hget, hlow, ?_⟩
  · unfold ceil_smooth ceil_smooth_lo
    rw [hr]
    exact hget
  · intro w hw hxw
    obtain ⟨j, hj, rfl⟩ := List.getElem_of_mem hw
    have hgj : SMOOTH_TABLE[j]? = some (SMOOTH_TABLE[j]) := List.getElem?_eq_getElem hj
    by_cases hjr : j < r
    · have := hlow j _ hjr hgj
      omega
    · exact SMOOTH_TABLE_mono (Nat.le_of_not_lt hjr) hget hgj

/-- Every number `2^k`, `3 * 2^k` or `5 * 2^k` between `81` and `3 * 2^23` is a
table entry. -/
theorem smooth_mem_table (s k : Nat) (hform : s = 2 ^ k ∨ s = 3 * 2 ^ k ∨ s = 5 * 2 ^ k)
    (hlo : 81 ≤ s) (hhi : s ≤ 25165824) : s ∈ SMOOTH_TABLE := by
  have hk5 : k ≤ 4 → 2 ^ k ≤ 16 := fun h =>
    Nat.pow_le_pow_right (show 0 < 2 by omega) h
  rcases hform with e | e | e
  · have h2 : 2 ≤ k := pow_two_exp_ge k 2 (by omega)
    have h24 : k ≤ 24 := pow_two_le_max k (by omega)
    rw [e]
    exact (SMOOTH_TABLE_complete_bounded k (List.mem_range.mpr (by omega))).1 h2
  · have h5 : 5 ≤ k := by
      by_contra h
      have := hk5 (by omega)
      omega
    have h23 : k ≤ 23 := by
      by_contra h
      have : 2 ^ 24 ≤ 2 ^ k := Nat.pow_le_pow_right (by omega) (by omega)
      omega
    rw [e]
    exact (SMOOTH_TABLE_complete_bounded k (List.mem_range.mpr (by omega))).2.1 h5 h23
  · have h5 : 5 ≤ k := by
      by_contra h
      have := hk5 (by omega)
      omega
    have h22 : k ≤ 22 := by
      by_contra h
      have : 2 ^ 23 ≤ 2 ^ k := Nat.pow_le_pow_right (by omega) (by omega)
      omega
    rw [e]
    exact (SMOOTH_TABLE_complete_bounded k (List.mem_range.mpr (by omega))).2.2 h5 h22

/-- C24: for `81 ≤ x ≤ 25165824`, `ceil_smooth(x)` is the least integer `≥ x` of
the form `2^k`, `3 * 2^k` or `5 * 2^k` over all `k ≥ 0`; below that range this
fails: `ceil_smooth(80) = 96` although `80 = 5 * 2^4`, and `ceil_smooth(5) = 8`
although `5 = 5 * 2^0`. -/
theorem ceil_smooth_least_smooth :
    (∀ x, 81 ≤ x → x ≤ 25165824 →
      ∃ v, ceil_smooth x = some v ∧ x ≤ v ∧
        (∃ k, v = 2 ^ k ∨ v = 3 * 2 ^ k ∨ v = 5 * 2 ^ k) ∧
        ∀ s k, (s = 2 ^ k ∨ s = 3 * 2 ^ k ∨ s = 5 * 2 ^ k) → x ≤ s → v ≤ s) ∧
    (ceil_smooth 80 = some 96 ∧ 80 = 5 * 2 ^ 4) ∧
    (ceil_smooth 5 = some 8 ∧ 5 = 5 * 2 ^ 0) := by
  refine ⟨?_, ⟨by decide, by norm_num⟩, ⟨by decide, by norm_num⟩⟩
  intro x hlo hhi
  obtain ⟨r, v, hv, _, _, hxv, _, hleast⟩ := ceil_smooth_entry_spec x hhi
  have hmem := ceil_smooth_mem x v hv
  refine ⟨v, hv, hxv, ?_, ?_⟩
  · rcases SMOOTH_TABLE_form_bounded v hmem with ⟨k, _, _, e⟩ | ⟨k, _, _, e⟩ | ⟨k, _, _, e⟩
    · exact ⟨k, Or.inl e⟩
    · exact ⟨k, Or.inr (Or.inl e)⟩
    · exact ⟨k, Or.inr (Or.inr e)⟩
  · intro s k hform hxs
    by_cases hs : s ≤ 25165824
    · exact hleast s (smooth_mem_table s k hform (by omega) hs) hxs
    · have := SMOOTH_TABLE_le_max v hmem
      omega

theorem ceil_smooth_least_smooth_witness :
    ∃ v, ceil_smooth 81 = some v ∧ 81 ≤ v ∧
      (∃ k, v = 2 ^ k ∨ v = 3 * 2 ^ k ∨ v = 5 * 2 ^ k) ∧
      ∀ s k, (s = 2 ^ k ∨ s = 3 * 2 ^ k ∨ s = 5 * 2 ^ k) → 81 ≤ s → v ≤ s :=
  ceil_smooth_least_smooth.1 81 (by decide) (by decide)

set_option maxRecDepth 100000 in
theorem SMOOTH_TABLE_ratio :
    ∀ i ∈ List.range 59,
      2 * SMOOTH_TABLE.getD (i + 1) 0 ≤ 3 * SMOOTH_TABLE.getD i 0 ∨
      (SMOOTH_TABLE.getD (i + 1) 0 ≤ 64 ∧
        SMOOTH_TABLE.getD (i + 1) 0 ≤ 2 * SMOOTH_TABLE.getD i 0) := by
  decide

theorem SMOOTH_TABLE_first : SMOOTH_TABLE[0]? = some 4 := by decide

theorem getD_of_getElem? (l : List Nat) (i v : Nat) (h : l[i]? = some v) : l.getD i 0 = v := by
  rw [List.getD_eq_getElem?_getD, h]
  rfl

/-- The entry returned by `ceil_smooth` is `4`, or it is at most `3/2` of an
entry below `x`, or it is at most `64` and at most twice an entry below `x`. -/
theorem ceil_smooth_ratio (x : Nat) (hx : x ≤ 25165824) :
    ∃ v, ceil_smooth x = some v ∧ x ≤ v ∧
      (v = 4 ∨ (∃ u, u < x ∧ 2 * v ≤ 3 * u) ∨ (∃ u, u < x ∧ v ≤ 64 ∧ v ≤ 2 * u)) := by
  obtain ⟨r, v, hv, hget, hr60, hxv, hlow, _⟩ := ceil_smooth_entry_spec x hx
  refine ⟨v, hv, hxv, ?_⟩
  cases r with
  | zero =>
    left
    rw [SMOOTH_TABLE_first] at hget
    cases hget
    rfl
  | succ i =>
    right
    have hi : i < SMOOTH_TABLE.length := by rw [SMOOTH_TABLE_length]; omega
    have hgi : SMOOTH_TABLE[i]? = some (SMOOTH_TABLE[i]) := List.getElem?_eq_getElem hi
    have hu := hlow i _ (by omega) hgi
    have hratio := SMOOTH_TABLE_ratio i (List.mem_range.mpr (by omega))
    rw [getD_of_getElem? _ _ _ hget, getD_of_getElem? _ _ _ hgi] at hratio
    rcases hratio with h | ⟨h1, h2⟩
    · exact Or.inl ⟨_, hu, h⟩
    · exact Or.inr ⟨_, hu, h1, h2⟩

/-- C25: for `65 ≤ x ≤ 25165824`, `x ≤ ceil_smooth(x)` and
`2 * ceil_smooth(x) < 3 * x`; for `3 ≤ x ≤ 64`, `x ≤ ceil_smooth(x) < 2 * x`. -/
theorem ceil_smooth_padding :
    (∀ x, 65 ≤ x → x ≤ 25165824 → ∃ v, ceil_smooth x = some v ∧ x ≤ v ∧ 2 * v < 3 * x) ∧
    (∀ x, 3 ≤ x → x ≤ 64 → ∃ v, ceil_smooth x = some v ∧ x ≤ v ∧ v < 2 * x) := by
  constructor
  · intro x hlo hhi
    obtain ⟨v, hv, hxv, h⟩ := ceil_smooth_ratio x hhi
    refine ⟨v, hv, hxv, ?_⟩
    rcases h with h | ⟨u, hu, h⟩ | ⟨u, hu, h1, h2⟩ <;> omega
  · intro x hlo hhi
    obtain ⟨v, hv, hxv, h⟩ := ceil_smooth_ratio x (by omega)
    refine ⟨v, hv, hxv, ?_⟩
    rcases h with h | ⟨u, hu, h⟩ | ⟨u, hu, h1, h2⟩ <;> omega

theorem ceil_smooth_padding_witness :
    (∃ v, ceil_smooth 65 = some v ∧ 65 ≤ v ∧ 2 * v < 3 * 65) ∧
    (∃ v, ceil_smooth 3 = some v ∧ 3 ≤ v ∧ v < 2 * 3) :=
  ⟨ceil_smooth_padding.1 65 (by decide) (by decide),
    ceil_smooth_padding.2 3 (by decide) (by decide)⟩

/-- C26: for `3 ≤ x ≤ 25165824` both `ceil_smooth(x)` and `ceil_pow2(x)` exist
and `ceil_smooth(x) ≤ ceil_pow2(x)`. -/
theorem ceil_smooth_le_ceil_pow2 (x : Nat) (hlo : 3 ≤ x) (hhi : x ≤ 25165824) :
    ∃ v p, ceil_smooth x = some v ∧ ceil_pow2 x = some p ∧ v ≤ p := by
  obtain ⟨r, v, hv, _, _, hxv, _, hleast⟩ := ceil_smooth_entry_spec x hhi
  obtain ⟨p, hp, ⟨k, hk⟩, hxp, _⟩ := ceil_pow2_least x (by omega)
  refine ⟨v, p, hv, hp, ?_⟩
  by_cases hmax : p ≤ 25165824
  · have hmem : p ∈ SMOOTH_TABLE := by
      rw [hk] at hxp hmax ⊢
      have h2 : 2 ≤ k := by
        by_contra h
        have : 2 ^ k ≤ 2 ^ 1 := Nat.pow_le_pow_right (by omega) (by omega)
        omega
      exact (SMOOTH_TABLE_complete_bounded k
        (List.mem_range.mpr (by have := pow_two_le_max k hmax; omega))).1 h2
    exact hleast p hmem hxp
  · have := SMOOTH_TABLE_le_max v (ceil_smooth_mem x v hv)
    omega

theorem ceil_smooth_le_ceil_pow2_witness :
    ∃ v p, ceil_smooth 16777217 = some v ∧ ceil_pow2 16777217 = some p ∧ v ≤ p :=
  ceil_smooth_le_ceil_pow2 16777217 (by decide) (by decide)

/-- C27 (amended): `ceil_pow2` narrows `x - 1` to 32 bits before taking its
logarithm: for every 64-bit `x ≥ 2^32 + 2` with `(x - 1) mod 2^32 ≠ 0` the
result exists and satisfies `ceil_pow2(x) ≤ 2^32 < x`, for instance
`ceil_pow2(2^32 + 2) = 2`; for every `x ≥ 2` with `(x - 1) mod 2^32 = 0`, such as
`x = 2^32 + 1`, the narrowed argument is `0`, on which `ntt_lg` has no result. -/
theorem ceil_pow2_narrowed (x : Nat) (hlo : 2 ^ 32 + 2 ≤ x) (hhi : x < 2 ^ 64) :
    ((x - 1) % 2 ^ 32 ≠ 0 → ∃ p, ceil_pow2 x = some p ∧ p ≤ 2 ^ 32 ∧ 2 ^ 32 < x ∧ p < x) ∧
    ((x - 1) % 2 ^ 32 = 0 → ceil_pow2 x = none) ∧
    ceil_pow2 (2 ^ 32 + 2) = some 2 ∧
    ((2 ^ 32 + 1 - 1) % 2 ^ 32 = 0 ∧ ntt_lg 0 = none ∧ ceil_pow2 (2 ^ 32 + 1) = none) := by
  have hx2 : ¬ x < 2 := by omega
  refine ⟨?_, ?_, by decide, by decide, by decide, by decide⟩
  · intro hne
    have hult : (x - 1) % 2 ^ 32 < 2 ^ 32 := Nat.mod_lt _ (by norm_num)
    have hl := log2_lt_width _ 32 hne hult
    unfold ceil_pow2
    rw [if_neg hx2, ntt_lg_spec _ hne hult]
    simp only
    have hp : (1 <<< (Nat.log2 ((x - 1) % 2 ^ 32) + 1)) % 2 ^ 64
        = 2 ^ (Nat.log2 ((x - 1) % 2 ^ 32) + 1) := by
      rw [Nat.one_shiftLeft]
      apply Nat.mod_eq_of_lt
      exact Nat.pow_lt_pow_right (by omega) (by omega)
    rw [hp]
    have hle : 2 ^ (Nat.log2 ((x - 1) % 2 ^ 32) + 1) ≤ 2 ^ 32 :=
      Nat.pow_le_pow_right (by omega) (by omega)
    exact ⟨_, rfl, hle, by omega, by omega⟩
  · intro h0
    unfold ceil_pow2
    rw [if_neg hx2, h0]
    rfl

theorem ceil_pow2_narrowed_witness :
    ((18446744073709551615 - 1) % 2 ^ 32 ≠ 0 →
      ∃ p, ceil_pow2 18446744073709551615 = some p ∧ p ≤ 2 ^ 32 ∧
        2 ^ 32 < 18446744073709551615 ∧ p < 18446744073709551615) ∧
    ((18446744073709551615 - 1) % 2 ^ 32 = 0 → ceil_pow2 18446744073709551615 = none) ∧
    ceil_pow2 (2 ^ 32 + 2) = some 2 ∧
    ((2 ^ 32 + 1 - 1) % 2 ^ 32 = 0 ∧ ntt_lg 0 = none ∧ ceil_pow2 (2 ^ 32 + 1) = none) :=
  ceil_pow2_narrowed 18446744073709551615 (by decide) (by decide)

/-- C27 as stated fails at `x = 2^33 + 1`, which lies in `[2^32 + 2, 2^64)`: the
narrowed argument `(x - 1) mod 2^32` is `0`, `ntt_lg` is applied to `0`, and
`ceil_pow2` has no result. -/
theorem ceil_pow2_narrowed_zero :
    2 ^ 32 + 2 ≤ 2 ^ 33 + 1 ∧ 2 ^ 33 + 1 < 2 ^ 64 ∧ (2 ^ 33 + 1 - 1) % 2 ^ 32 = 0 ∧
    ntt_lg 0 = none ∧ ceil_pow2 (2 ^ 33 + 1) = none := by
  decide

end ntt

namespace ntt

theorem expected_digits_values :
    expected_digits 100 = 1930 ∧ expected_digits 500 = 9650 ∧ expected_digits 1000 = 19300 := by
  decide

/-- Without wrap-around in the 32-bit difference and sum, the two comparisons of
the digit-count check exclude each other. -/
theorem digit_count_error_false (L E sz : Nat) (h1 : sz ≤ E) (h2 : E + sz < 2 ^ 32) :
    digit_count_error L E sz = false := by
  unfold digit_count_error
  have hsz : sz % 2 ^ 32 = sz := Nat.mod_eq_of_lt (by omega)
  have hd : (E + (2 ^ 32 - sz)) % 2 ^ 32 = E - sz := by
    have e : E + (2 ^ 32 - sz) = (E - sz) + 2 ^ 32 := by omega
    rw [e, Nat.add_mod_right]
    exact Nat.mod_eq_of_lt (by omega)
  have hs : (E + sz) % 2 ^ 32 = E + sz := Nat.mod_eq_of_lt h2
  rw [hsz, hd, hs]
  rw [decide_eq_false_iff_not]
  omega

/-- C30: the digit-count check of `test_radix_large_roundtrip` never reports an
error: for each tested size `sz ∈ {100, 500, 1000}`, with
`expected_digits = floor(sz * 19.3)` (`1930`, `9650`, `19300`), the condition
`L < expected_digits - sz && L > expected_digits + sz` is false for every
string length `L`. -/
theorem digit_count_error_unreachable (sz : Nat) (hsz : sz ∈ test_sizes) (L : Nat) :
    digit_count_error L (expected_digits sz) sz = false ∧
    (expected_digits 100 = 1930 ∧ expected_digits 500 = 9650 ∧
      expected_digits 1000 = 19300) := by
  refine ⟨?_, expected_digits_values⟩
  obtain ⟨e1, e2, e3⟩ := expected_digits_values
  simp only [test_sizes, List.mem_cons, List.mem_singleton, List.not_mem_nil, or_false] at hsz
  rcases hsz with h | h | h
  · rw [h, e1]
    exact digit_count_error_false L 1930 100 (by decide) (by decide)
  · rw [h, e2]
    exact digit_count_error_false L 9650 500 (by decide) (by decide)
  · rw [h, e3]
    exact digit_count_error_false L 19300 1000 (by decide) (by decide)

theorem digit_count_error_unreachable_witness :
    digit_count_error 0 (expected_digits 1000) 1000 = false ∧
    (expected_digits 100 = 1930 ∧ expected_digits 500 = 9650 ∧
      expected_digits 1000 = 19300) :=
  digit_count_error_unreachable 1000 (by decide) 0

end ntt

namespace ntt
open bi

theorem getD_set_ne (l : List Nat) (m k v : Nat) (h : m ≠ k) :
    (l.set m v).getD k 0 = l.getD k 0 := by
  simp only [List.getD_eq_getElem?_getD]
  rw [List.getElem?_set_ne h]

theorem set_getD_self : ∀ (l : List Nat) (k : Nat), k < l.length →
    l.set k (l.getD k 0) = l := by
  intro l
  induction l with
  | nil => intro k hk; simp at hk
  | cons x xs ih =>
    intro k hk
    cases k with
    | zero => rfl
    | succ k =>
      have h := ih k (by simpa using hk)
      simp only [List.set_cons_succ, List.getD_cons_succ]
      rw [h]

/-- Limbs at or above index `m` are zero when the value is below `B^m`. -/
theorem getD_zero_of_value_lt {B : Nat} (hB : 0 < B) (l : List Nat) (m k : Nat)
    (hlt : limbs_value B l < B ^ m) (hk : m ≤ k) : l.getD k 0 = 0 := by
  have hle := limbs_value_getD_le B l k
  have hp : B ^ m ≤ B ^ k := Nat.pow_le_pow_right hB hk
  by_contra hne
  have : B ^ k * 1 ≤ B ^ k * l.getD k 0 := Nat.mul_le_mul_left _ (by omega)
  omega

theorem schoolbook_multiply_row_getD (ai i : Nat) :
    ∀ (bs : List Nat) (j : Nat) (result : List Nat) (carry k : Nat),
    i + j + bs.length ≤ k →
    (schoolbook_multiply_row ai i bs j result carry).1.getD k 0 = result.getD k 0 := by
  intro bs
  induction bs with
  | nil => intro j result carry k _; rfl
  | cons bj bs ih =>
    intro j result carry k hk
    simp only [List.length_cons] at hk
    simp only [schoolbook_multiply_row]
    rw [ih (j + 1) _ _ k (by omega), getD_set_ne _ _ _ _ (by omega)]

theorem schoolbook_multiply_row_fits_spec (ai i : Nat) (hai : ai < BASE32) :
    ∀ (bs : List Nat) (j : Nat) (result : List Nat) (carry : Nat),
    limbs_ok BASE32 result → limbs_ok BASE32 bs → carry < BASE32 →
    schoolbook_multiply_row_fits ai i bs j result carry = true := by
  intro bs
  induction bs with
  | nil =>
    intro j result carry _ _ hc
    simp only [schoolbook_multiply_row_fits, decide_eq_true_eq]
    unfold BASE32 at hc
    omega
  | cons bj bs ih =>
    intro j result carry hok hob hc
    obtain ⟨hbj, hobs⟩ := limbs_ok_cons.mp hob
    have hr := limbs_ok_getD hok BASE32_pos (i + j)
    have hlt : ai * bj + result.getD (i + j) 0 + carry < BASE32 * BASE32 :=
      mul_add_add_lt hai hbj hr hc
    have h64 : (2 : Nat) ^ 64 = BASE32 * BASE32 := by unfold BASE32; norm_num
    have h32 : (2 : Nat) ^ 32 = BASE32 := rfl
    have hprod : (ai * bj + result.getD (i + j) 0 + carry) % 2 ^ 64
        = ai * bj + result.getD (i + j) 0 + carry := by
      rw [h64]
      exact Nat.mod_eq_of_lt hlt
    have hc' : (ai * bj + result.getD (i + j) 0 + carry) / BASE32 < BASE32 :=
      (Nat.div_lt_iff_lt_mul BASE32_pos).mpr hlt
    simp only [schoolbook_multiply_row_fits, hprod, Nat.shiftRight_eq_div_pow, h32]
    rw [ih (j + 1) _ _ (limbs_ok_set hok _ (Nat.mod_lt _ BASE32_pos)) hobs hc']
    simp only [Bool.and_true, decide_eq_true_eq]
    rw [← h32] at hc
    rw [h64] 
    omega

/-- With `result[k] = 0` the carry loop stores the carry at index `k` and ends:
it runs at most once and changes no other limb. -/
theorem schoolbook_multiply_carry_once (rem k : Nat) (result : List Nat) (carry : Nat)
    (hk : k < result.length) (hz : result.getD k 0 = 0) (hc : carry < BASE32) (hrem : 0 < rem) :
    schoolbook_multiply_carry rem k result carry = result.set k carry ∧
    schoolbook_multiply_carry_iters rem k result carry ≤ 1 := by
  obtain ⟨rem1, rfl⟩ : ∃ r, rem = r + 1 := ⟨rem - 1, by omega⟩
  by_cases hc0 : carry = 0
  · subst hc0
    simp only [schoolbook_multiply_carry, schoolbook_multiply_carry_iters, ne_eq,
      not_true_eq_false, if_false]
    refine ⟨?_, by omega⟩
    have := set_getD_self result k hk
    rw [hz] at this
    exact this.symm
  · have hs : (result.getD k 0 + carry) % 2 ^ 64 = carry := by
      rw [hz, Nat.zero_add]
      apply Nat.mod_eq_of_lt
      unfold BASE32 at hc
      omega
    have hlo : carry % 2 ^ 32 = carry := Nat.mod_eq_of_lt hc
    have hhi : carry >>> 32 = 0 := by
      rw [Nat.shiftRight_eq_div_pow]
      exact Nat.div_eq_of_lt hc
    simp only [schoolbook_multiply_carry, schoolbook_multiply_carry_iters, ne_eq, hc0,
      not_false_eq_true, if_true, hs, hlo, hhi]
    cases rem1 with
    | zero => simp [schoolbook_multiply_carry, schoolbook_multiply_carry_iters]
    | succ r => simp [schoolbook_multiply_carry, schoolbook_multiply_carry_iters]

theorem schoolbook_multiply_rows_fits_spec (b : List Nat) (n : Nat) (hob : limbs_ok BASE32 b) :
    ∀ (as : List Nat) (i : Nat) (result : List Nat),
    result.length = n → i + as.length + b.length = n → limbs_ok BASE32 result →
    limbs_ok BASE32 as → limbs_value BASE32 result < BASE32 ^ (i + b.length) →
    schoolbook_multiply_rows_fits b n as i result = true := by
  intro as
  induction as with
  | nil => intro i result _ _ _ _ _; rfl
  | cons ai as ih =>
    intro i result hl hi hok hoa hlt
    obtain ⟨hai, hoas⟩ := limbs_ok_cons.mp hoa
    simp only [List.length_cons] at hi
    have hfits := schoolbook_multiply_row_fits_spec ai i hai b 0 result 0 hok hob BASE32_pos
    obtain ⟨r1, r2, r3, r4⟩ := schoolbook_multiply_row_spec ai i n hai b 0 result 0 hl
      (by omega) hok hob BASE32_pos
    simp only [Nat.add_zero] at r4
    have hzero : (schoolbook_multiply_row ai i b 0 result 0).1.getD (i + b.length) 0 = 0 := by
      rw [schoolbook_multiply_row_getD ai i b 0 result 0 (i + b.length) (by omega)]
      exact getD_zero_of_value_lt BASE32_pos result (i + b.length) (i + b.length) hlt
        (le_refl _)
    simp only [schoolbook_multiply_rows_fits, hfits, Bool.true_and]
    generalize schoolbook_multiply_row ai i b 0 result 0 = r at r1 r2 r3 r4 hzero ⊢
    obtain ⟨c1, c2⟩ := schoolbook_multiply_carry_once (n - (i + b.length)) (i + b.length) r.1 r.2
      (by omega) hzero r3 (by omega)
    have htot := row_total_lt hlt hai (limbs_value_lt b hob)
    have hset := limbs_value_set BASE32 r.1 (i + b.length) r.2 (by omega)
    rw [hzero, Nat.mul_zero, Nat.add_zero] at hset
    have hnext := ih (i + 1) (r.1.set (i + b.length) r.2) (by simp [r1]) (by omega)
      (limbs_ok_set r2 _ r3) hoas (by rw [hset, r4]; exact htot)
    rw [c1, hnext]
    simp only [hzero, c2, decide_True, Bool.and_self]

theorem schoolbook_mul_row_getD (ai i n : Nat) :
    ∀ (bs : List Nat) (j : Nat) (out : List Nat) (carry k : Nat),
    i + j + bs.length ≤ k →
    (schoolbook_mul_row ai i n bs j out carry).1.getD k 0 = out.getD k 0 := by
  intro bs
  induction bs with
  | nil => intro j out carry k _; rfl
  | cons bj bs ih =>
    intro j out carry k hk
    simp only [List.length_cons] at hk
    simp only [schoolbook_mul_row]
    by_cases hg : i + j < n
    · rw [if_pos hg, ih (j + 1) _ _ k (by omega), getD_set_ne _ _ _ _ (by omega)]
    · rw [if_neg hg]

theorem schoolbook_mul_row_fits_spec (ai i n : Nat) (hai : ai < BASE64) :
    ∀ (bs : List Nat) (j : Nat) (out : List Nat) (carry : Nat),
    limbs_ok BASE64 out → limbs_ok BASE64 bs → carry < BASE64 →
    schoolbook_mul_row_fits ai i n bs j out carry = true := by
  intro bs
  induction bs with
  | nil =>
    intro j out carry _ _ hc
    simp only [schoolbook_mul_row_fits, decide_eq_true_eq]
    unfold BASE64 at hc
    omega
  | cons bj bs ih =>
    intro j out carry hok hob hc
    obtain ⟨hbj, hobs⟩ := limbs_ok_cons.mp hob
    have h64 : (2 : Nat) ^ 64 = BASE64 := rfl
    by_cases hg : i + j < n
    · have hr := limbs_ok_getD hok BASE64_pos (i + j)
      have hlt : ai * bj + out.getD (i + j) 0 + carry < BASE64 * BASE64 :=
        mul_add_add_lt hai hbj hr hc
      have h128 : (2 : Nat) ^ 128 = BASE64 * BASE64 := by unfold BASE64; norm_num
      have hprod : (ai * bj + out.getD (i + j) 0 + carry) % 2 ^ 128
          = ai * bj + out.getD (i + j) 0 + carry := by
        rw [h128]
        exact Nat.mod_eq_of_lt hlt
      have hc' : (ai * bj + out.getD (i + j) 0 + carry) / BASE64 < BASE64 :=
        (Nat.div_lt_iff_lt_mul BASE64_pos).mpr hlt
      simp only [schoolbook_mul_row_fits, if_pos hg, hprod, Nat.shiftRight_eq_div_pow, h64]
      rw [ih (j + 1) _ _ (limbs_ok_set hok _ (Nat.mod_lt _ BASE64_pos)) hobs hc']
      simp only [Bool.and_true, decide_eq_true_eq]
      rw [← h64] at hc
      rw [h128]
      omega
    · simp only [schoolbook_mul_row_fits, if_neg hg, decide_eq_true_eq]
      unfold BASE64 at hc
      omega

theorem schoolbook_mul_rows_fits_spec (b : List Nat) (n : Nat) (hob : limbs_ok BASE64 b) :
    ∀ (as : List Nat) (i : Nat) (out : List Nat),
    out.length = n → limbs_ok BASE64 out → limbs_ok BASE64 as →
    limbs_value BASE64 out < BASE64 ^ (i + b.length) →
    schoolbook_mul_rows_fits b b.length n as i out = true := by
  intro as
  induction as with
  | nil => intro i out _ _ _ _; rfl
  | cons ai as ih =>
    intro i out hl hok hoa hlt
    obtain ⟨hai, hoas⟩ := limbs_ok_cons.mp hoa
    have hfits := schoolbook_mul_row_fits_spec ai i n hai b 0 out 0 hok hob BASE64_pos
    obtain ⟨out1, e, s1, s2, s3, _⟩ := schoolbook_mul_step_spec b n i ai out hob hai hl hok hlt
    have hzero : (schoolbook_mul_row ai i n b 0 out 0).1.getD (i + b.length) 0 = 0 := by
      rw [schoolbook_mul_row_getD ai i n b 0 out 0 (i + b.length) (by omega)]
      exact getD_zero_of_value_lt BASE64_pos out (i + b.length) (i + b.length) hlt (le_refl _)
    simp only [schoolbook_mul_rows_fits, hfits, Bool.true_and]
    rw [e, ih (i + 1) out1 s1 s2 hoas s3]
    simp only [hzero, decide_True, ite_self, Bool.and_self]

/-- C29: in `schoolbook_multiply` (32-bit limbs) no 64-bit accumulator wraps: at
every inner-loop step `carry ≤ 2^32 - 1` and
`a[i] * b[j] + result[i+j] + carry ≤ 2^64 - 1`; when row `i`'s carry loop starts
`result[i + |b|]` is `0`, the loop runs at most once and only stores the carry at
index `i + |b|`.  In `schoolbook_mul` (64-bit limbs, any `out_len`) the same
holds with 128-bit accumulators: `carry ≤ 2^64 - 1`, the sum is at most
`2^128 - 1`, and `out[i + nb]` is `0` before the final addition. -/
theorem schoolbook_no_wrap (a b : List Nat) (out_len : Nat) :
    (limbs_ok BASE32 a → limbs_ok BASE32 b → schoolbook_multiply_fits a b = true) ∧
    (limbs_ok BASE64 a → limbs_ok BASE64 b →
      schoolbook_mul_fits out_len a a.length b b.length = true) := by
  constructor
  · intro hoa hob
    unfold schoolbook_multiply_fits
    by_cases he : a.isEmpty ∨ b.isEmpty
    · rw [if_pos he]
    · rw [if_neg he]
      exact schoolbook_multiply_rows_fits_spec b (a.length + b.length) hob a 0
        (List.replicate (a.length + b.length) 0) (by simp) (by omega)
        (limbs_ok_replicate_zero BASE32_pos _) hoa
        (by rw [limbs_value_replicate_zero]; exact Nat.pos_pow_of_pos _ BASE32_pos)
  · intro hoa hob
    unfold schoolbook_mul_fits
    rw [List.take_length, List.take_length]
    exact schoolbook_mul_rows_fits_spec b out_len hob a 0 (List.replicate out_len 0)
      (by simp) (limbs_ok_replicate_zero BASE64_pos _) hoa
      (by rw [limbs_value_replicate_zero]; exact Nat.pos_pow_of_pos _ BASE64_pos)

theorem schoolbook_no_wrap_witness :
    schoolbook_multiply_fits [4294967295, 4294967295] [4294967295, 4294967295] = true ∧
    schoolbook_mul_fits 3 [18446744073709551615, 18446744073709551615]
      [18446744073709551615, 18446744073709551615].length
      [18446744073709551615, 18446744073709551615]
      [18446744073709551615, 18446744073709551615].length = true :=
  ⟨(schoolbook_no_wrap [4294967295, 4294967295] [4294967295, 4294967295] 0).1
      (by decide) (by decide),
    (schoolbook_no_wrap [18446744073709551615, 18446744073709551615]
      [18446744073709551615, 18446744073709551615] 3).2 (by decide) (by decide)⟩

end ntt

